import Mathlib

/-!
Segmented byte buffers and the MDS monitor.

A shallow embedding of `include/buffer.h` (raw segments, views, buffer lists and the
typed codec) and of `mon/MDSMonitor.cc` (beacon handling of the MDS monitor).

Conventions of the embedding.

* A `raw` is a region of memory: its bytes as a function of the position, and its length.
  Raws live in a `Heap`; the address of a raw is its index in the heap.  Reference counts
  are not part of the heap, a raw stays in it once it is created; the counting of the
  views has a model of its own, `Store`, in which a raw carries `nref` and the number of
  times it was deleted.
* `unsigned` is 32 bits wide.  Every `unsigned` addition, subtraction and multiplication of
  the source is written with `u32` / `usub`, so a result that does not fit wraps as it does
  in the program.  Pointer arithmetic (`c_str() + o`) does not wrap.
* A failed `assert` and a step with undefined behaviour (dereferencing `end()`, a copy
  outside a raw) both make the operation return `none`.
* Loops over the views of a list are recursions over the remaining views (the iterator
  `curbuf`); the one loop that is not bounded by a list, in `append`, takes fuel.
-/

namespace buffer

/-- One `char` of memory. -/
abbrev Byte := Fin 256

/-- The value an `unsigned` holds when it is assigned the arithmetic result `n`. -/
def u32 (n : Nat) : Nat := n % 4294967296

/-- The `unsigned` difference `a - b`. -/
def usub (a b : Nat) : Nat := u32 (a + (4294967296 - u32 b))

/-- `BUFFER_PAGE_SIZE`. -/
def BUFFER_PAGE_SIZE : Nat := 4096

/-- A raw buffer: `data` gives the byte at each position, `len` is its length. -/
structure raw where
  data : Nat → Byte
  len : Nat

/-- All raws that were allocated; a `raw*` is an index into this list. -/
abbrev Heap := List raw

/-- The result of `memcpy(data + pos, src, src.length)` on a raw. -/
def raw.write (r : raw) (pos : Nat) (src : List Byte) : raw :=
  { r with data := fun i => if pos ≤ i ∧ i < pos + src.length then src.getD (i - pos) 0 else r.data i }

/-- The bytes `data[pos .. pos+n)` of a raw. -/
def raw.read (r : raw) (pos n : Nat) : List Byte :=
  (List.range n).map (fun i => r.data (pos + i))

/-- Allocation of a raw of `len` bytes (`create`): the new heap and the address of the raw.
The source leaves the bytes of a new raw unspecified; here they are zero. -/
def create (h : Heap) (len : Nat) : Heap × Nat :=
  (h ++ [{ data := fun _ => 0, len := len }], h.length)

/-- Allocation of a page aligned raw: the alignment of the address is not modelled. -/
def create_page_aligned (h : Heap) (len : Nat) : Heap × Nat := create h len

/-- A buffer pointer references a subsequence `[_off, _off + _len)` of a raw buffer. -/
structure ptr where
  _raw : Option Nat
  _off : Nat
  _len : Nat
  deriving DecidableEq, Repr

namespace ptr

/-- The default constructor `ptr()`. -/
def null : ptr := { _raw := none, _off := 0, _len := 0 }

/-- The constructor `ptr(raw *r)`: a view of all of the raw. -/
def of_raw (h : Heap) (r : Nat) : Option ptr :=
  match h[r]? with
  | none => none
  | some rw => some { _raw := some r, _off := 0, _len := rw.len }

/-- The constructor `ptr(const ptr& p, unsigned o, unsigned l)`, with its two assertions. -/
def sub (p : ptr) (o l : Nat) : Option ptr :=
  if u32 (o + l) ≤ p._len then
    match p._raw with
    | none => none
    | some r => some { _raw := some r, _off := u32 (p._off + o), _len := l }
  else none

def length (p : ptr) : Nat := p._len

def offset (p : ptr) : Nat := p._off

/-- The accessor `end()`. -/
def end_ (p : ptr) : Nat := u32 (p._off + p._len)

def unused_tail_length (h : Heap) (p : ptr) : Nat :=
  match p._raw with
  | none => 0
  | some r =>
    match h[r]? with
    | none => 0
    | some rw => usub rw.len (u32 (p._off + p._len))

def set_offset (p : ptr) (o : Nat) : ptr := { p with _off := o }

def set_length (p : ptr) (l : Nat) : ptr := { p with _len := l }

/-- The bytes a view shows: `c_str()[0 .. _len)`. -/
def bytes (h : Heap) (p : ptr) : List Byte :=
  match p._raw with
  | none => []
  | some r =>
    match h[r]? with
    | none => []
    | some rw => rw.read p._off p._len

/-- The operator `p[n]`. -/
def at_ (h : Heap) (p : ptr) (n : Nat) : Option Byte :=
  match p._raw with
  | none => none
  | some r =>
    match h[r]? with
    | none => none
    | some rw => if n < p._len then some (rw.data (u32 (p._off + n))) else none

/-- The method `copy_out(o, l, dest)`: the `l` bytes written to `dest`. -/
def copy_out (h : Heap) (p : ptr) (o l : Nat) : Option (List Byte) :=
  match p._raw with
  | none => none
  | some r =>
    match h[r]? with
    | none => none
    | some rw =>
      if o ≤ p._len ∧ u32 (o + l) ≤ p._len then
        if p._off + o + l ≤ rw.len then some (rw.read (p._off + o) l) else none
      else none

/-- The method `copy_in(o, l, src)`: `src` holds the `l` bytes that are copied. -/
def copy_in (h : Heap) (p : ptr) (o l : Nat) (src : List Byte) : Option Heap :=
  match p._raw with
  | none => none
  | some r =>
    match h[r]? with
    | none => none
    | some rw =>
      if o ≤ p._len ∧ u32 (o + l) ≤ p._len then
        if p._off + o + l ≤ rw.len ∧ src.length = l then some (h.set r (rw.write (p._off + o) src))
        else none
      else none

/-- The method `append(p, l)`: `src` holds the `l` bytes at `p`. -/
def append (h : Heap) (p : ptr) (src : List Byte) (l : Nat) : Option (Heap × ptr) :=
  match p._raw with
  | none => none
  | some r =>
    match h[r]? with
    | none => none
    | some rw =>
      if l ≤ p.unused_tail_length h then
        if p._off + p._len + l ≤ rw.len ∧ src.length = l then
          some (h.set r (rw.write (p._off + p._len) src), { p with _len := u32 (p._len + l) })
        else none
      else none

end ptr

/-- The buffer list: the views in order, the cached length, the append arena. -/
structure list where
  _buffers : List ptr
  _len : Nat
  append_buffer : ptr
  deriving DecidableEq, Repr

namespace list

/-- The constructor `list()`. -/
def empty : list := { _buffers := [], _len := 0, append_buffer := ptr.null }

def length (l : list) : Nat := l._len

def buffers (l : list) : List ptr := l._buffers

/-- The byte string a list stands for: the bytes of its views, in order. -/
def content (h : Heap) (l : list) : List Byte :=
  l._buffers.flatMap (ptr.bytes h)

/-- The sum of `length()` over the views of a list. -/
def sum_length (bs : List ptr) : Nat :=
  (bs.map ptr.length).sum

def clear (l : list) : list := { l with _buffers := [], _len := 0 }

def push_front (l : list) (bp : ptr) : list :=
  { l with _buffers := bp :: l._buffers, _len := u32 (l._len + bp.length) }

def push_back (l : list) (bp : ptr) : list :=
  { l with _buffers := l._buffers ++ [bp], _len := u32 (l._len + bp.length) }

/-- The method `claim_append(bl)` on two distinct lists: the new `this` and the new `bl`. -/
def claim_append (l bl : list) : list × list :=
  ({ l with _len := u32 (l._len + bl._len), _buffers := l._buffers ++ bl._buffers },
   { bl with _buffers := [], _len := 0 })

/-- The method `claim(bl)` on two distinct lists. -/
def claim (l bl : list) : list × list :=
  claim_append l.clear bl

/-- The method `append(ptr& bp)`. -/
def append_ptr (l : list) (bp : ptr) : list := l.push_back bp

/-- The method `append(ptr& bp, unsigned off, unsigned len)`. -/
def append_sub (l : list) (bp : ptr) (off len : Nat) : Option list :=
  if u32 (len + off) ≤ bp.length then
    match bp.sub off len with
    | none => none
    | some tempbp => some (l.push_back tempbp)
  else none

/-- The method `append(const list& bl)` for a list `bl` that is not `this`. -/
def append_list (l bl : list) : list :=
  { l with _len := u32 (l._len + bl._len), _buffers := l._buffers ++ bl._buffers }

/-- The loop `while (off > 0)` that `copy`, `copy_in` and `splice` start with: the views
that were skipped, the views from `curbuf` on, and what is left of `off`.  Reaching
`end()` with `off > 0` fails the assertion. -/
def skip : List ptr → Nat → Option (List ptr × List ptr × Nat)
  | bs, 0 => some ([], bs, 0)
  | [], _ + 1 => none
  | b :: bs, off + 1 =>
    if off + 1 ≥ b.length then
      match skip bs (usub (off + 1) b.length) with
      | none => none
      | some (pre, rest, o) => some (b :: pre, rest, o)
    else some ([], b :: bs, off + 1)

/-- The second loop of `substr_of`, from `curbuf` on: the views pushed and the new `_len`.
Dereferencing `end()` is undefined. -/
def substr_loop : List ptr → Nat → Nat → List ptr → Nat → Option (List ptr × Nat)
  | _, _, 0, acc, clen => some (acc, clen)
  | [], _, _ + 1, _, _ => none
  | b :: bs, off, len + 1, acc, clen =>
    if u32 (off + (len + 1)) < b.length then
      match b.sub off (len + 1) with
      | none => none
      | some v => some (acc ++ [v], u32 (clen + (len + 1)))
    else
      let howmuch := usub b.length off
      match b.sub off howmuch with
      | none => none
      | some v => substr_loop bs 0 (usub (len + 1) howmuch) (acc ++ [v]) (u32 (clen + howmuch))

/-- The method `substr_of(other, off, len)` for a list `other` that is not `this` (the
call on the list itself is `substr_of_self`).  Its
assertion `curbuf != _buffers.end()` compares with the end of `this`, which is never the
position of a view of `other`; running over the end of `other` is undefined all the same. -/
def substr_of (l other : list) (off len : Nat) : Option list :=
  if u32 (off + len) ≤ other.length then
    match skip other._buffers off with
    | none => none
    | some (_, rest, o) =>
      match substr_loop rest o len [] 0 with
      | none => none
      | some (bs, clen) => some { l with _buffers := bs, _len := clen }
  else none

/-- The call `claim_by->append(*curbuf, off, len)` of `splice`, when `claim_by` is given. -/
def claim_sub (claim_by : Option list) (bp : ptr) (off len : Nat) : Option (Option list) :=
  match claim_by with
  | none => some none
  | some c =>
    match c.append_sub bp off len with
    | none => none
    | some c1 => some (some c1)

/-- The second loop of `splice`, from `curbuf` on: the views that replace the views from
`curbuf` on, the new `_len`, and the new `*claim_by`. -/
def splice_loop : List ptr → Nat → Nat → Nat → Option list → Option (List ptr × Nat × Option list)
  | rest, _, 0, clen, c => some (rest, clen, c)
  | [], _, _ + 1, _, _ => none
  | b :: bs, off, len + 1, clen, c =>
    if u32 (off + (len + 1)) < b.length then
      match claim_sub c b off (len + 1) with
      | none => none
      | some c1 =>
        let b1 := b.set_offset (u32 (u32 (off + (len + 1)) + b.offset))
        let b2 := b1.set_length (usub b1.length (u32 (len + 1 + off)))
        some (b2 :: bs, usub clen (u32 (off + (len + 1))), c1)
    else
      let howmuch := usub b.length off
      match claim_sub c b off howmuch with
      | none => none
      | some c1 => splice_loop bs 0 (usub (len + 1) howmuch) (usub clen b.length) c1

/-- The method `splice(off, len, claim_by)` for a list `*claim_by` that is not `this` (the
call that claims into the list itself is `splice_self`). -/
def splice (l : list) (off len : Nat) (claim_by : Option list) : Option (list × Option list) :=
  if off < l.length ∧ len > 0 then
    match skip l._buffers off with
    | none => none
    | some (pre, rest, o) =>
      let front : Option (List ptr × Nat) :=
        if o ≠ 0 then
          match rest with
          | [] => none
          | b :: _ =>
            match b.sub 0 o with
            | none => none
            | some v => some ([v], u32 (l._len + o))
        else some ([], l._len)
      match front with
      | none => none
      | some (ins, clen) =>
        match splice_loop rest o len clen claim_by with
        | none => none
        | some (rest1, clen1, c1) =>
          some ({ l with _buffers := pre ++ ins ++ rest1, _len := clen1 }, c1)
  else none

/-- The second loop of `copy`, from `curbuf` on: the bytes written to `dest`. -/
def copy_loop (h : Heap) : List ptr → Nat → Nat → Option (List Byte)
  | _, _, 0 => some []
  | [], _, _ + 1 => none
  | b :: bs, off, len + 1 =>
    if u32 (off + (len + 1)) ≤ b.length then b.copy_out h off (len + 1)
    else
      let howmuch := usub b.length off
      match b.copy_out h off howmuch with
      | none => none
      | some d =>
        match bs with
        | [] => none
        | _ :: _ =>
          match copy_loop h bs 0 (usub (len + 1) howmuch) with
          | none => none
          | some ds => some (d ++ ds)

/-- The method `copy(off, len, dest)`: the `len` bytes written to `dest`. -/
def copy (h : Heap) (l : list) (off len : Nat) : Option (List Byte) :=
  if u32 (off + len) ≤ l.length then
    match skip l._buffers off with
    | none => none
    | some (_, rest, o) => copy_loop h rest o len
  else none

/-- The second loop of `copy_in(off, len, src)`, from `curbuf` on. -/
def copy_in_loop : Heap → List ptr → Nat → Nat → List Byte → Option Heap
  | h, _, _, 0, _ => some h
  | _, [], _, _ + 1, _ => none
  | h, b :: bs, off, len + 1, src =>
    if u32 (off + (len + 1)) ≤ b.length then b.copy_in h off (len + 1) (src.take (len + 1))
    else
      let howmuch := usub b.length off
      match b.copy_in h off howmuch (src.take howmuch) with
      | none => none
      | some h1 =>
        match bs with
        | [] => none
        | _ :: _ => copy_in_loop h1 bs 0 (usub (len + 1) howmuch) (src.drop howmuch)

/-- The method `copy_in(off, len, const char *src)`. -/
def copy_in (h : Heap) (l : list) (off len : Nat) (src : List Byte) : Option Heap :=
  if u32 (off + len) ≤ l.length then
    match skip l._buffers off with
    | none => none
    | some (_, rest, o) => copy_in_loop h rest o len src
  else none

/-- The first step of a turn of the loop of `append(const char *data, unsigned len)`: "put
what we can into the existing append_buffer".  The result is the heap, the list, and what is
left of `data` and `len`. -/
def append_fill (h : Heap) (l : list) (data : List Byte) (len : Nat) :
    Option (Heap × list × List Byte × Nat) :=
  let gap := l.append_buffer.unused_tail_length h
  if gap > 0 then
    let gap1 := if gap > len then len else gap
    match l.append_buffer.append h (data.take gap1) gap1 with
    | none => none
    | some (h1, ab) =>
      match ({ l with append_buffer := ab } : list).append_sub ab (usub ab.end_ gap1) gap1 with
      | none => none
      | some l1 => some (h1, l1, data.drop gap1, usub len gap1)
  else some (h, l, data, len)

/-- The second step of a turn of the loop of `append`: "make a new append_buffer". -/
def append_grow (h : Heap) (l : list) (len : Nat) : Option (Heap × list) :=
  let alen := u32 (BUFFER_PAGE_SIZE * u32 (usub len 1 / BUFFER_PAGE_SIZE + 1))
  let (h2, r) := create_page_aligned h alen
  match ptr.of_raw h2 r with
  | none => none
  | some ab => some (h2, { l with append_buffer := ab.set_length 0 })

/-- The method `append(const char *data, unsigned len)`: `data` holds the bytes at `data`.
Each unit of fuel is one turn of `while (len > 0)`. -/
def append : Nat → Heap → list → List Byte → Nat → Option (Heap × list)
  | 0, _, _, _, _ => none
  | fuel + 1, h, l, data, len =>
    if len = 0 then some (h, l)
    else
      match append_fill h l data len with
      | none => none
      | some (h1, l1, data1, len1) =>
        if len1 = 0 then some (h1, l1)
        else
          match append_grow h1 l1 len1 with
          | none => none
          | some (h2, l2) => append fuel h2 l2 data1 len1

end list

/-- The length invariant of a list, in the arithmetic of its `unsigned` cache. -/
def list.len_ok (l : list) : Prop := l._len = u32 (list.sum_length l._buffers)

/-- The lists of claim C1: what the operations of a buffer list build from the empty list. -/
inductive Reachable : list → Prop
  | empty : Reachable list.empty
  | append (fuel : Nat) (h : Heap) (l : list) (data : List Byte) (n : Nat) (h1 : Heap) (l1 : list) :
      Reachable l → list.append fuel h l data n = some (h1, l1) → Reachable l1
  | append_ptr (l : list) (bp : ptr) : Reachable l → Reachable (l.append_ptr bp)
  | append_sub (l : list) (bp : ptr) (off len : Nat) (l1 : list) :
      Reachable l → l.append_sub bp off len = some l1 → Reachable l1
  | append_list (l bl : list) : Reachable l → Reachable bl → Reachable (l.append_list bl)
  | push_front (l : list) (bp : ptr) : Reachable l → Reachable (l.push_front bp)
  | push_back (l : list) (bp : ptr) : Reachable l → Reachable (l.push_back bp)
  | claim_append (l bl : list) : Reachable l → Reachable bl → Reachable (l.claim_append bl).1
  | claim_append_src (l bl : list) : Reachable l → Reachable bl → Reachable (l.claim_append bl).2
  | claim (l bl : list) : Reachable l → Reachable bl → Reachable (l.claim bl).1
  | claim_src (l bl : list) : Reachable l → Reachable bl → Reachable (l.claim bl).2
  | splice (l : list) (off len : Nat) (l1 : list) (c1 : Option list) :
      Reachable l → off + len ≤ l.length → l.splice off len none = some (l1, c1) → Reachable l1
  | splice_claim (l c : list) (off len : Nat) (l1 : list) (c1 : Option list) :
      Reachable l → Reachable c → off + len ≤ l.length →
      l.splice off len (some c) = some (l1, c1) → Reachable l1
  | splice_claimed (l c : list) (off len : Nat) (l1 c1 : list) :
      Reachable l → Reachable c → off + len ≤ l.length →
      l.splice off len (some c) = some (l1, some c1) → Reachable c1
  | substr_of (l other : list) (off len : Nat) (l1 : list) :
      Reachable l → Reachable other → off + len ≤ other.length →
      l.substr_of other off len = some l1 → Reachable l1
  | clear (l : list) : Reachable l → Reachable l.clear

/-- A view of all of a raw of 2^31 bytes, as `ptr(2147483648u)` builds it. -/
def half_view : ptr := { _raw := some 0, _off := 0, _len := 2147483648 }

/-- The list after `push_back(half_view)` twice on an empty list. -/
def wrapped_list : list := (list.empty.push_back half_view).push_back half_view

/-- A small list: three bytes appended, then the middle byte spliced out. -/
def small_list : list :=
  match list.append 3 [] list.empty [1, 2, 3] 3 with
  | none => list.empty
  | some (_, l) =>
    match l.splice 1 1 none with
    | none => list.empty
    | some (l1, _) => l1

/-- A view is valid in a heap when its raw is allocated, fits an `unsigned` length, and
contains the window of the view. -/
def ptr.valid (h : Heap) (p : ptr) : Prop :=
  match p._raw with
  | none => False
  | some r =>
    match h[r]? with
    | none => False
    | some rw => p._off + p._len ≤ rw.len ∧ rw.len < 4294967296

instance (h : Heap) (p : ptr) : Decidable (p.valid h) := by
  unfold ptr.valid
  split
  · infer_instance
  · split <;> infer_instance

/-- A list is valid in a heap when its cached length is right (in 32 bits) and all its
views are valid. -/
def list.valid (h : Heap) (l : list) : Prop :=
  l.len_ok ∧ ∀ p ∈ l._buffers, p.valid h

instance (l : list) : Decidable l.len_ok := by
  unfold list.len_ok; infer_instance

instance (h : Heap) (l : list) : Decidable (l.valid h) := by
  unfold list.valid; infer_instance

/-- A heap with one raw of six bytes: 10, 11, 12, 13, 14, 15. -/
def heap6 : Heap := [{ data := fun i => Fin.ofNat (10 + i), len := 6 }]

/-- A list of two views on the raw of `heap6`: the first three bytes, the last three. -/
def list6 : list :=
  { _buffers := [{ _raw := some 0, _off := 0, _len := 3 }, { _raw := some 0, _off := 3, _len := 3 }],
    _len := 6, append_buffer := ptr.null }

/-- The append arena of a list is in order in a heap: it is either unset, or a view at
offset 0 of an allocated raw that fits an `unsigned` length; and no view of the list shows
bytes of the arena beyond its published length. -/
def list.arena_ok (h : Heap) (l : list) : Prop :=
  (match l.append_buffer._raw with
   | none => True
   | some r =>
     match h[r]? with
     | none => False
     | some rw => l.append_buffer._off = 0 ∧ l.append_buffer._len ≤ rw.len ∧ rw.len < 4294967296) ∧
  ∀ p ∈ l._buffers, p._raw = l.append_buffer._raw → p._off + p._len ≤ l.append_buffer._len

instance (h : Heap) (l : list) : Decidable (l.arena_ok h) := by
  unfold list.arena_ok
  have : Decidable (match l.append_buffer._raw with
      | none => True
      | some r =>
        match h[r]? with
        | none => False
        | some rw => l.append_buffer._off = 0 ∧ l.append_buffer._len ≤ rw.len ∧
            rw.len < 4294967296) := by
    split
    · infer_instance
    · split <;> infer_instance
  infer_instance

/-- What a heap `h1` keeps of a heap `h` when only the unpublished part of the arena `ab`
was written and raws were allocated: every raw of `h` is there with its length, and with
its bytes outside the unpublished part of the arena. -/
def frame (h h1 : Heap) (ab : ptr) : Prop :=
  h.length ≤ h1.length ∧
  ∀ r rw, h[r]? = some rw → ∃ rw1, h1[r]? = some rw1 ∧ rw1.len = rw.len ∧
    ∀ i, (ab._raw = some r → i < ab._len) → rw1.data i = rw.data i

/-- The arena `ab1` continues the arena `ab` of a heap `h`: it is the same raw with at
least as much published, or a raw that was allocated after `h`. -/
def arena_le (h : Heap) (ab ab1 : ptr) : Prop :=
  (ab1._raw = ab._raw ∧ ab._len ≤ ab1._len) ∨ (∃ r, ab1._raw = some r ∧ h.length ≤ r)

/-- A view that was pushed by an append on a list with arena `ab` in heap `h`: it lies in
that arena beyond what was published, or in a raw that was allocated after `h`. -/
def new_view (h : Heap) (ab : ptr) (v : ptr) : Prop :=
  ∃ r, v._raw = some r ∧ ((ab._raw = some r ∧ ab._len ≤ v._off) ∨ h.length ≤ r)

/-- The addresses of the bytes a view shows, in order: the raw and the position in it. -/
def ptr.addrs (p : ptr) : List (Nat × Nat) :=
  match p._raw with
  | none => []
  | some r => (List.range p._len).map (fun i => (r, p._off + i))

/-- The byte at an address of a heap. -/
def heap_at (h : Heap) (a : Nat × Nat) : Byte :=
  match h[a.1]? with
  | none => 0
  | some rw => rw.data a.2

/-- The state `(h1, l1)` is the state `(h, l)` with the bytes `data` appended to the list:
the list and its arena are in order, the raws of `h` keep what the views of `l` show, and
the list has new views at its end that show `data`, no two of them the same byte. -/
def Appended (h : Heap) (l : list) (data : List Byte) (h1 : Heap) (l1 : list) : Prop :=
  l1.valid h1 ∧ l1.arena_ok h1 ∧ frame h h1 l.append_buffer ∧
  arena_le h l.append_buffer l1.append_buffer ∧
  ∃ vs : List ptr, l1._buffers = l._buffers ++ vs ∧ vs.flatMap (ptr.bytes h1) = data ∧
    (∀ v ∈ vs, new_view h l.append_buffer v) ∧ (vs.flatMap ptr.addrs).Nodup

/-- A heap with one raw of 2^32 - 1 bytes. -/
def heap_big : Heap := [{ data := fun _ => 0, len := 4294967295 }]

/-- A list with one view, of all of the raw of `heap_big`, as `list(4294967295u)` builds it. -/
def list_big : list :=
  { _buffers := [{ _raw := some 0, _off := 0, _len := 4294967295 }], _len := 4294967295,
    append_buffer := ptr.null }

/-- The types the codec of claim C4 is instantiated at: a fixed-width primitive of `size`
bytes, or a container of such types. -/
inductive Shape where
  | prim (size : Nat)
  | list (elem : Shape)
  | deque (elem : Shape)
  | vector (elem : Shape)
  | set (elem : Shape)
  | map (key val : Shape)

/-- The values of these types: a primitive is its object representation, a sequence or a
set is its elements in iteration order, a map is its entries in iteration order. -/
inductive Value where
  | prim (bytes : List Byte)
  | seq (elems : List Value)
  | map (entries : List (Value × Value))

/-- The object representation of a `uint32_t` in host order (little endian). -/
def u32_bytes (n : Nat) : List Byte :=
  [Fin.ofNat n, Fin.ofNat (n / 256), Fin.ofNat (n / 65536), Fin.ofNat (n / 16777216)]

/-- The `uint32_t` with a given object representation. -/
def u32_of_bytes : List Byte → Nat
  | [a, b, c, d] => a.val + 256 * b.val + 65536 * c.val + 16777216 * d.val
  | _ => 0

/-- The template `_encoderaw(t, bl)`: `t` is the object representation, of `sizeof(t)` bytes. -/
def _encoderaw (fuel : Nat) (t : List Byte) (h : Heap) (bl : list) : Option (Heap × list) :=
  bl.append fuel h t t.length

/-- The template `_decoderaw(t, bl, off)` for a `t` of `size` bytes: the new `t` and `off`. -/
def _decoderaw (size : Nat) (h : Heap) (bl : list) (off : Nat) : Option (List Byte × Nat) :=
  match bl.copy h off size with
  | none => none
  | some t => some (t, u32 (off + size))

/-- A loop `for (p = begin; p != end; ++p) _encode(*p, bl)` over the elements of a container. -/
def encode_elems (enc : Value → Heap → list → Option (Heap × list)) :
    List Value → Heap → list → Option (Heap × list)
  | [], h, bl => some (h, bl)
  | x :: xs, h, bl =>
    match enc x h bl with
    | none => none
    | some (h1, bl1) => encode_elems enc xs h1 bl1

/-- The loop of `_encode(const std::list<T>&)` on a list that is not empty, which counts
the elements in `n` as it goes. -/
def encode_counting (enc : Value → Heap → list → Option (Heap × list)) :
    List Value → Nat → Heap → list → Option (Heap × list × Nat)
  | [], n, h, bl => some (h, bl, n)
  | x :: xs, n, h, bl =>
    match enc x h bl with
    | none => none
    | some (h1, bl1) => encode_counting enc xs (u32 (n + 1)) h1 bl1

/-- The loop of `_encode(const std::map<T,U>&)` over the entries. -/
def encode_entries (enck encv : Value → Heap → list → Option (Heap × list)) :
    List (Value × Value) → Heap → list → Option (Heap × list)
  | [], h, bl => some (h, bl)
  | (k, v) :: xs, h, bl =>
    match enck k h bl with
    | none => none
    | some (h1, bl1) =>
      match encv v h1 bl1 with
      | none => none
      | some (h2, bl2) => encode_entries enck encv xs h2 bl2

/-- The overloads of `_encode(v, bl)` for the types of `Shape`; `fuel` bounds the turns of
the loop of each `append`.  A value that is not of the type is no argument of the overload. -/
def _encode (fuel : Nat) : Shape → Value → Heap → list → Option (Heap × list)
  | .prim size, .prim t, h, bl => if t.length = size then _encoderaw fuel t h bl else none
  | .list s, .seq ls, h, bl =>
    if ¬ ls.isEmpty then
      let pos := bl.length
      match _encoderaw fuel (u32_bytes 0) h bl with
      | none => none
      | some (h1, bl1) =>
        match encode_counting (_encode fuel s) ls 0 h1 bl1 with
        | none => none
        | some (h2, bl2, n) =>
          match bl2.copy_in h2 pos 4 (u32_bytes n) with
          | none => none
          | some h3 => some (h3, bl2)
    else
      match _encoderaw fuel (u32_bytes (u32 ls.length)) h bl with
      | none => none
      | some (h1, bl1) => encode_elems (_encode fuel s) ls h1 bl1
  | .deque s, .seq ls, h, bl =>
    match _encoderaw fuel (u32_bytes (u32 ls.length)) h bl with
    | none => none
    | some (h1, bl1) => encode_elems (_encode fuel s) ls h1 bl1
  | .vector s, .seq v, h, bl =>
    match _encoderaw fuel (u32_bytes (u32 v.length)) h bl with
    | none => none
    | some (h1, bl1) => encode_elems (_encode fuel s) v h1 bl1
  | .set s, .seq xs, h, bl =>
    match _encoderaw fuel (u32_bytes (u32 xs.length)) h bl with
    | none => none
    | some (h1, bl1) => encode_elems (_encode fuel s) xs h1 bl1
  | .map sk sv, .map m, h, bl =>
    match _encoderaw fuel (u32_bytes (u32 m.length)) h bl with
    | none => none
    | some (h1, bl1) => encode_entries (_encode fuel sk) (_encode fuel sv) m h1 bl1
  | _, _, _, _ => none

/-- A default constructed object of a type (`T v;`): the bytes of a primitive are not
specified by the source and are zero here, a container is empty. -/
def Shape.default : Shape → Value
  | .prim size => .prim (List.replicate size 0)
  | .map _ _ => .map []
  | _ => .seq []

/-- The method `std::set::insert(v)` on the elements in order, for the order `lt`. -/
def set_insert (lt : Value → Value → Bool) (v : Value) : List Value → List Value
  | [] => [v]
  | y :: ys =>
    if lt y v then y :: set_insert lt v ys
    else if lt v y then v :: y :: ys
    else y :: ys

/-- The entry `m[k]` of a map, on the entries in order: the value at `k`, or the default. -/
def map_find (lt : Value → Value → Bool) (k : Value) (dflt : Value) : List (Value × Value) → Value
  | [] => dflt
  | (k1, v1) :: m =>
    if lt k1 k then map_find lt k dflt m
    else if lt k k1 then dflt
    else v1

/-- The entries of a map after an assignment to `m[k]`. -/
def map_set (lt : Value → Value → Bool) (k v : Value) : List (Value × Value) → List (Value × Value)
  | [] => [(k, v)]
  | (k1, v1) :: m =>
    if lt k1 k then (k1, v1) :: map_set lt k v m
    else if lt k k1 then (k, v) :: (k1, v1) :: m
    else (k1, v) :: m

/-- The loop `while (n--) { T v; _decode(v, bl, off); ls.push_back(v); }` of the decoders of
`std::list` and `std::deque`; `dec` decodes into a default constructed `v`. -/
def decode_push (dec : Nat → Option (Value × Nat)) : Nat → List Value → Nat → Option (List Value × Nat)
  | 0, ls, off => some (ls, off)
  | n + 1, ls, off =>
    match dec off with
    | none => none
    | some (v, off1) => decode_push dec n (ls ++ [v]) off1

/-- The loop `while (n--) { T v; _decode(v, bl, off); s.insert(v); }` of the decoder of
`std::set`. -/
def decode_insert (lt : Value → Value → Bool) (dec : Nat → Option (Value × Nat)) :
    Nat → List Value → Nat → Option (List Value × Nat)
  | 0, s, off => some (s, off)
  | n + 1, s, off =>
    match dec off with
    | none => none
    | some (v, off1) => decode_insert lt dec n (set_insert lt v s) off1

/-- The loop `for (i = 0; i < n; i++) _decode(v[i], bl, off)` of the decoder of
`std::vector`, over the elements of the resized vector that are still to be decoded;
`dec` decodes into an element with its contents. -/
def decode_each (dec : Value → Nat → Option (Value × Nat)) :
    List Value → List Value → Nat → Option (List Value × Nat)
  | [], done, off => some (done, off)
  | x :: todo, done, off =>
    match dec x off with
    | none => none
    | some (v, off1) => decode_each dec todo (done ++ [v]) off1

/-- The loop `while (n--) { T k; _decode(k, bl, off); _decode(m[k], bl, off); }` of the
decoder of `std::map`. -/
def decode_entries (lt : Value → Value → Bool) (deck : Nat → Option (Value × Nat))
    (decv : Value → Nat → Option (Value × Nat)) (dflt : Value) :
    Nat → List (Value × Value) → Nat → Option (List (Value × Value) × Nat)
  | 0, m, off => some (m, off)
  | n + 1, m, off =>
    match deck off with
    | none => none
    | some (k, off1) =>
      match decv (map_find lt k dflt m) off1 with
      | none => none
      | some (v, off2) => decode_entries lt deck decv dflt n (map_set lt k v m) off2

/-- The method `std::vector::resize(n)` on the elements. -/
def resize (dflt : Value) (v : List Value) (n : Nat) : List Value :=
  v.take n ++ List.replicate (n - v.length) dflt

/-- The elements of a target of a sequence type, whatever it holds. -/
def Value.elems : Value → List Value
  | .seq xs => xs
  | _ => []

/-- The overloads of `_decode(t, bl, off)` for the types of `Shape`: `t` is the target with
its contents before the call, the result is the target and `off` after the call.  The order
of the keys of sets and maps is `lt`. -/
def _decode (lt : Value → Value → Bool) (h : Heap) (bl : list) :
    Shape → Value → Nat → Option (Value × Nat)
  | .prim size, _, off =>
    match _decoderaw size h bl off with
    | none => none
    | some (t, off1) => some (.prim t, off1)
  | .list s, _, off =>
    match _decoderaw 4 h bl off with
    | none => none
    | some (n, off1) =>
      match decode_push (_decode lt h bl s s.default) (u32_of_bytes n) [] off1 with
      | none => none
      | some (ls, off2) => some (.seq ls, off2)
  | .deque s, _, off =>
    match _decoderaw 4 h bl off with
    | none => none
    | some (n, off1) =>
      match decode_push (_decode lt h bl s s.default) (u32_of_bytes n) [] off1 with
      | none => none
      | some (ls, off2) => some (.seq ls, off2)
  | .set s, _, off =>
    match _decoderaw 4 h bl off with
    | none => none
    | some (n, off1) =>
      match decode_insert lt (_decode lt h bl s s.default) (u32_of_bytes n) [] off1 with
      | none => none
      | some (xs, off2) => some (.seq xs, off2)
  | .vector s, t, off =>
    match _decoderaw 4 h bl off with
    | none => none
    | some (n, off1) =>
      match decode_each (_decode lt h bl s) (resize s.default t.elems (u32_of_bytes n)) [] off1 with
      | none => none
      | some (v, off2) => some (.seq v, off2)
  | .map sk sv, _, off =>
    match _decoderaw 4 h bl off with
    | none => none
    | some (n, off1) =>
      match decode_entries lt (_decode lt h bl sk sk.default) (_decode lt h bl sv) sv.default
          (u32_of_bytes n) [] off1 with
      | none => none
      | some (m, off2) => some (.map m, off2)

/-- The heap `h1` is the heap `h` after the bytes `src` were written to the addresses
`targets`, in order: the raws and their lengths are the same, the bytes at other addresses
are the same, and when no address is written twice the targets hold `src`. -/
def Written (h h1 : Heap) (targets : List (Nat × Nat)) (src : List Byte) : Prop :=
  h1.length = h.length ∧
  (∀ (r : Nat) (rw : raw), h[r]? = some rw → ∃ rw1 : raw, h1[r]? = some rw1 ∧ rw1.len = rw.len) ∧
  (∀ a, a ∉ targets → heap_at h1 a = heap_at h a) ∧
  (targets.Nodup → targets.map (heap_at h1) = src)

/-- The bytes `_encode` appends for a value of a type. -/
def ser : Shape → Value → List Byte
  | .prim _, .prim t => t
  | .list s, .seq xs => u32_bytes (u32 xs.length) ++ xs.flatMap (ser s)
  | .deque s, .seq xs => u32_bytes (u32 xs.length) ++ xs.flatMap (ser s)
  | .vector s, .seq xs => u32_bytes (u32 xs.length) ++ xs.flatMap (ser s)
  | .set s, .seq xs => u32_bytes (u32 xs.length) ++ xs.flatMap (ser s)
  | .map sk sv, .map m =>
    u32_bytes (u32 m.length) ++ m.flatMap (fun kv => ser sk kv.1 ++ ser sv kv.2)
  | _, _ => []

/-- A value is of a type: a primitive has `sizeof` bytes, the elements of a container are of
the element type, and the elements of a set and the keys of a map ascend in the order `lt`,
as the iteration of `std::set` and `std::map` goes. -/
def has_shape (lt : Value → Value → Bool) : Shape → Value → Prop
  | .prim size, .prim t => t.length = size
  | .list s, .seq xs => ∀ x ∈ xs, has_shape lt s x
  | .deque s, .seq xs => ∀ x ∈ xs, has_shape lt s x
  | .vector s, .seq xs => ∀ x ∈ xs, has_shape lt s x
  | .set s, .seq xs => (∀ x ∈ xs, has_shape lt s x) ∧ xs.Pairwise (fun a b => lt a b = true)
  | .map sk sv, .map m =>
    (∀ kv ∈ m, has_shape lt sk kv.1 ∧ has_shape lt sv kv.2) ∧
    (m.map Prod.fst).Pairwise (fun a b => lt a b = true)
  | _, _ => False

/-- The primitives of a type have a size an `append` can take: at least one byte, at most
2^32 - 4096. -/
def Shape.ok : Shape → Prop
  | .prim size => 0 < size ∧ size ≤ 4294963200
  | .list s => s.ok
  | .deque s => s.ok
  | .vector s => s.ok
  | .set s => s.ok
  | .map sk sv => sk.ok ∧ sv.ok

/-- The encoder `enc` works on the value `x`: on a valid list that has room for the bytes
`sz x` it returns, with these bytes appended. -/
def EncOK (enc : Value → Heap → list → Option (Heap × list)) (sz : Value → List Byte)
    (x : Value) : Prop :=
  ∀ (h : Heap) (bl : list), bl.valid h → bl.arena_ok h →
    list.sum_length bl._buffers + (sz x).length < 4294967296 →
    ∃ h1 bl1, enc x h bl = some (h1, bl1) ∧ Appended h bl (sz x) h1 bl1

/-- The decoder `dec` works on the value `x` in the byte string `C`: wherever the bytes
`sz x` stand in `C`, it returns `x` and the position after them. -/
def DecOK (C : List Byte) (dec : Nat → Option (Value × Nat)) (sz : Value → List Byte)
    (x : Value) : Prop :=
  ∀ (pre post : List Byte), C = pre ++ sz x ++ post →
    dec pre.length = some (x, pre.length + (sz x).length)

/-- An order of values for the instances: no two values compare. -/
def lt_none (_ _ : Value) : Bool := false

/-- The type `std::list<T>` for a primitive `T` of two bytes. -/
def shape_list2 : Shape := .list (.prim 2)

/-- A `std::list<T>` of two elements. -/
def value_list2 : Value := .seq [.prim [1, 2], .prim [3, 4]]

/-- The type `std::vector<T>` for a primitive `T` of four bytes. -/
def shape_vec4 : Shape := .vector (.prim 4)

/-- A `std::vector<T>` of one element. -/
def value_vec4 : Value := .seq [.prim [9, 9, 9, 9]]

/-- The method `list::c_str()`: the heap, the list, and the pointer that is returned, as
the raw and the position in it; the pointer is `none` when it is null. -/
def list.c_str (h : Heap) (l : list) : Option (Heap × list × Option (Nat × Nat)) :=
  match l._buffers with
  | [bp] =>
    match bp._raw with
    | none => none
    | some r => some (h, l, some (r, bp._off))
  | [] => some (h, l, none)
  | _ :: _ :: _ =>
    let (h1, r) := create h l.length
    match ptr.of_raw h1 r with
    | none => none
    | some newbuf =>
      match l.copy h1 0 l.length with
      | none => none
      | some bytes =>
        match h1[r]? with
        | none => none
        | some rw =>
          some (h1.set r (rw.write newbuf._off bytes), l.clear.push_back newbuf,
            some (r, newbuf._off))

/-- The bytes of the C string at position `i` of a raw, the terminating NUL not included;
`n` is the number of bytes from `i` to the end of the raw, and a string that is not
terminated inside the raw is read past its end. -/
def cstr_at (rw : raw) : Nat → Nat → Option (List Byte)
  | 0, _ => none
  | n + 1, i =>
    if rw.data i = 0 then some []
    else
      match cstr_at rw n (i + 1) with
      | none => none
      | some s => some (rw.data i :: s)

/-- The overload `_encode(const std::string& s, bufferlist& bl)`; `s.c_str()` is the bytes
of `s` and a NUL. -/
def _encode_string (fuel : Nat) (s : List Byte) (h : Heap) (bl : list) : Option (Heap × list) :=
  let len := u32 s.length
  match _encoderaw fuel (u32_bytes len) h bl with
  | none => none
  | some (h1, bl1) => bl1.append fuel h1 ((s ++ [0]).take (u32 (len + 1))) (u32 (len + 1))

/-- The overload `_decode(std::string& s, bufferlist& bl, int& off)`: the new `s` and `off`,
and the heap and the list after `bl.c_str()`.  The cursor is an `int`: `bl.c_str() + off`
is a position of the buffer when `off` is not negative. -/
def _decode_string (h : Heap) (bl : list) (off : Nat) : Option (List Byte × Nat × Heap × list) :=
  match _decoderaw 4 h bl off with
  | none => none
  | some (lenb, off1) =>
    let len := u32_of_bytes lenb
    match bl.c_str h with
    | none => none
    | some (h1, bl1, p) =>
      match p with
      | none => none
      | some (r, o) =>
        match h1[r]? with
        | none => none
        | some rw =>
          if off1 < 2147483648 then
            match cstr_at rw (rw.len - (o + off1)) (o + off1) with
            | none => none
            | some s => some (s, u32 (off1 + u32 (len + 1)), h1, bl1)
          else none

/-- The string `a\0b`. -/
def string_nul : List Byte := [97, 0, 98]

end buffer

/-! ## The MDS monitor

`mon/MDSMonitor.cc`: the beacon paths, the timer, the admin commands and the operator's
stop.  The monitor holds the committed map `mdsmap`, the
map under construction `pending_mdsmap` and the beacon times; a handler is a function from
the monitor and the message to the new monitor.  `MDSMap.h` and the message headers are not
among the sources: the map, its predicates and the message are modelled from the
specification's description of them, each marked as such.

* A `std::map<int, T>` is the list of its entries, `operator[]` inserts the default value
  of `T` when the key is absent.
* An `int` is an `Int`; the two `++` on `int`s make the handler return `none` when they
  would overflow, as a failed `assert` does.
* `dout` evaluates its operands only at the debug level it names: the model runs with
  debug output off.
* A time (`utime_t`, the beacon grace) is a natural number.
-/

/-- A `std::map<int, T>`: its entries. -/
abbrev IMap (α : Type) := List (Int × α)

namespace IMap

/-- The value at key `k`, if any (`find`). -/
def find {α : Type} (k : Int) : IMap α → Option α
  | [] => none
  | (k1, v1) :: m => if k = k1 then some v1 else find k m

/-- The method `count(k)`: 1 if the key is present, else 0. -/
def count {α : Type} (k : Int) (m : IMap α) : Nat :=
  if (find k m).isSome then 1 else 0

/-- The assignment `m[k] = v`: the entry is replaced, or inserted in key order. -/
def set {α : Type} (k : Int) (v : α) : IMap α → IMap α
  | [] => [(k, v)]
  | (k1, v1) :: m =>
    if k = k1 then (k, v) :: m
    else if k < k1 then (k, v) :: (k1, v1) :: m
    else (k1, v1) :: set k v m

/-- The method `erase(k)`. -/
def erase {α : Type} (k : Int) (m : IMap α) : IMap α :=
  m.filter (fun e => decide (e.1 ≠ k))

/-- The read `m[k]`: the value, and the map, which gains the entry `(k, d)` for the default
value `d` of the type when the key was absent. -/
def index {α : Type} (m : IMap α) (k : Int) (d : α) : α × IMap α :=
  match find k m with
  | some v => (v, m)
  | none => (d, set k d m)

end IMap

/-- A `std::set<int>`: its elements in increasing order. -/
abbrev ISet := List Int

namespace ISet

/-- The method `insert(x)`. -/
def insert (x : Int) : ISet → ISet
  | [] => [x]
  | y :: s => if x = y then y :: s else if x < y then x :: y :: s else y :: insert x s

end ISet

/-- Modelled from the spec: an entity name, its type and its number (`entity_name_t`); the
message headers are not among the sources. -/
structure entity_name_t where
  _type : Nat
  _num : Int
  deriving DecidableEq, Repr

namespace entity_name_t

/-- Modelled from the spec: the type tag of a metadata server. -/
def TYPE_MDS : Nat := 2

/-- Modelled from the spec: the name `entity_name_t::MDS(n)`. -/
def MDS (n : Int) : entity_name_t := ⟨TYPE_MDS, n⟩

/-- Modelled from the spec: the number of the name (`num()`). -/
def num (n : entity_name_t) : Int := n._num

end entity_name_t

/-- Modelled from the spec: `mds_inst[id] = (name, network_address)`; an address is a
number here. -/
structure entity_inst_t where
  name : entity_name_t
  addr : Nat
  deriving DecidableEq, Repr

/-- Modelled from the spec: the state set `S` of the MDS map. -/
inductive MDSState where
  | STATE_DNE | STATE_BOOT | STATE_CREATING | STATE_STARTING | STATE_REPLAY | STATE_RESOLVE
  | STATE_RECONNECT | STATE_REJOIN | STATE_ACTIVE | STATE_STOPPING | STATE_STOPPED
  | STATE_FAILED | STATE_STANDBY
  deriving DecidableEq, Repr

open MDSState

/-- Modelled from the spec: the MDS map, the attributes the specification lists for it. -/
structure MDSMap where
  epoch : Nat
  created : Nat
  target_num : Int
  mds_state : IMap MDSState
  mds_inc : IMap Int
  mds_inst : IMap entity_inst_t
  mds_state_seq : IMap Nat
  mds_created : ISet
  same_in_set_since : Nat
  deriving DecidableEq, Repr

namespace MDSMap

/-- Modelled from the spec: the epoch of the map. -/
def get_epoch (m : MDSMap) : Nat := m.epoch

/-- Modelled from the spec: the state of `id`; an id with no entry does not exist (the
boot of the first server on the empty map creates id 0). -/
def get_state (m : MDSMap) (id : Int) : MDSState :=
  match IMap.find id m.mds_state with
  | some s => s
  | none => STATE_DNE

/-- Modelled from the spec: `is_dne(id)`. -/
def is_dne (m : MDSMap) (id : Int) : Bool := decide (m.get_state id = STATE_DNE)

/-- Modelled from the spec: `is_stopped_state(id)`, called `is_stopped(id)` by the
monitor. -/
def is_stopped (m : MDSMap) (id : Int) : Bool := decide (m.get_state id = STATE_STOPPED)

/-- Modelled from the spec: `is_creating(id)`. -/
def is_creating (m : MDSMap) (id : Int) : Bool := decide (m.get_state id = STATE_CREATING)

/-- Modelled from the spec: `is_starting(id)`. -/
def is_starting (m : MDSMap) (id : Int) : Bool := decide (m.get_state id = STATE_STARTING)

/-- Modelled from the spec: `is_failed(id)`. -/
def is_failed (m : MDSMap) (id : Int) : Bool := decide (m.get_state id = STATE_FAILED)

/-- Modelled from the spec: `is_up(id)`, the state of `id` is none of DNE, STOPPED and
FAILED. -/
def is_up (m : MDSMap) (id : Int) : Bool :=
  !(m.is_dne id || m.is_stopped id || m.is_failed id)

/-- Modelled from the spec: the number of ids in state `s`. -/
def get_num_mds (m : MDSMap) (s : MDSState) : Nat :=
  (m.mds_state.filter (fun e => decide (e.2 = s))).length

/-- Modelled from the spec: `is_degraded()`, true iff some id is in REPLAY, RESOLVE,
RECONNECT, REJOIN or FAILED. -/
def is_degraded (m : MDSMap) : Bool :=
  m.mds_state.any (fun e => decide (e.2 = STATE_REPLAY ∨ e.2 = STATE_RESOLVE ∨
    e.2 = STATE_RECONNECT ∨ e.2 = STATE_REJOIN ∨ e.2 = STATE_FAILED))

/-- Modelled from the spec: `is_full()`, the count of ACTIVE ids is at least
`target_num`. -/
def is_full (m : MDSMap) : Bool := decide (m.target_num ≤ (m.get_num_mds STATE_ACTIVE : Int))

/-- Modelled from the spec: `have_inst(id)`, the map holds an instance for `id`. -/
def have_inst (m : MDSMap) (id : Int) : Bool := decide (IMap.count id m.mds_inst ≠ 0)

/-- Modelled from the spec: `get_inst(id)`, the instance of `id`. -/
def get_inst (m : MDSMap) (id : Int) : Option entity_inst_t := IMap.find id m.mds_inst

/-- Modelled from the spec: `get_addr_rank(addr)` returns the id whose `inst.addr == addr`
(the first in key order) or -1 if none. -/
def get_addr_rank (m : MDSMap) (addr : Nat) : Int :=
  match m.mds_inst.find? (fun e => decide (e.2.addr = addr)) with
  | some e => e.1
  | none => -1

/-- Modelled from the spec: `get_failed_mds_set(s)` inserts into `s` every id whose state
is FAILED. -/
def get_failed_mds_set (m : MDSMap) (s : ISet) : ISet :=
  m.mds_state.foldl (fun acc e => if e.2 = STATE_FAILED then ISet.insert e.1 acc else acc) s

end MDSMap

/-- Modelled from the spec: the beacon `(mds_inst, epoch, state, seq, last_epoch_seen)`. -/
structure MMDSBeacon where
  mds_inst : entity_inst_t
  last_epoch_seen : Nat
  state : MDSState
  seq : Nat
  deriving DecidableEq, Repr

namespace MMDSBeacon

/-- Modelled from the spec: the sender of the beacon. -/
def get_mds_inst (m : MMDSBeacon) : entity_inst_t := m.mds_inst

/-- Modelled from the spec: the state the beacon announces. -/
def get_state (m : MMDSBeacon) : MDSState := m.state

/-- Modelled from the spec: the sequence number of the beacon. -/
def get_seq (m : MMDSBeacon) : Nat := m.seq

/-- Modelled from the spec: the last epoch the sender has seen. -/
def get_last_epoch_seen (m : MMDSBeacon) : Nat := m.last_epoch_seen

end MMDSBeacon

/-- What the monitor hands to the messenger: a beacon forwarded to the leader, or the reply
`MMDSBeacon(inst, epoch, state, seq)` sent to `inst`. -/
inductive Sent where
  | forward (m : MMDSBeacon)
  | reply (dest : entity_inst_t) (epoch : Nat) (state : MDSState) (seq : Nat)
  deriving DecidableEq, Repr

/-- The members of `MDSMonitor` the beacon paths read and write. -/
structure MDSMonitor where
  mdsmap : MDSMap
  pending_mdsmap : MDSMap
  last_beacon : IMap Nat
  deriving DecidableEq, Repr

/-- The configuration `g_conf`, the option the beacon paths read. -/
structure md_config_t where
  mon_allow_mds_bully : Bool
  deriving DecidableEq, Repr

namespace MDSMonitor

/-- The handler `MDSMonitor::preprocess_beacon`, with `is_leader` the answer of `mon->is_leader()` and
`now` that of `g_clock.now()`: the return value (`true`: the message is done with, `false`:
the map needs an update), the monitor, and the messages sent. -/
def preprocess_beacon (is_leader : Bool) (now : Nat) (mon : MDSMonitor) (m : MMDSBeacon) :
    Bool × MDSMonitor × List Sent :=
  if !is_leader then (true, mon, [Sent.forward m])
  else
    let from0 := m.get_mds_inst.name.num
    let state := m.get_state
    let seq := m.get_seq
    let already := mon.mdsmap.get_addr_rank m.get_mds_inst.addr
    if state = STATE_BOOT ∧ already < 0 then (false, mon, [])
    else
      let from_ := if state = STATE_BOOT then already else from0
      let r := IMap.index mon.mdsmap.mds_state_seq from_ 0
      let mon1 := { mon with mdsmap := { mon.mdsmap with mds_state_seq := r.2 } }
      if r.1 > seq then (true, mon1, [])
      else
        let mon2 := if state ≠ STATE_STOPPED then
            { mon1 with last_beacon := IMap.set from_ now mon1.last_beacon }
          else mon1
        let out := if state ≠ STATE_STOPPED then
            [Sent.reply m.get_mds_inst mon1.mdsmap.get_epoch state seq]
          else []
        if IMap.count from_ mon2.mdsmap.mds_state = 0 then
          if state = STATE_BOOT then (false, mon2, out) else (true, mon2, out)
        else if (IMap.index mon2.mdsmap.mds_state from_ STATE_DNE).1 ≠ state then
          if mon2.mdsmap.get_epoch = m.get_last_epoch_seen then (false, mon2, out)
          else (true, mon2, out)
        else (true, mon2, out)

/-- The `switch` of `handle_beacon` on the committed state of a named id. -/
def boot_state : MDSState → MDSState
  | STATE_STOPPED => STATE_STARTING
  | STATE_STARTING => STATE_STARTING
  | STATE_STANDBY => STATE_STARTING
  | STATE_DNE => STATE_CREATING
  | STATE_CREATING => STATE_CREATING
  | _ => STATE_REPLAY

/-- The loop `for (from=0; ; ++from)` of `handle_beacon`, from the value `from_` of the
counter: the id it stops at and the state it sets. -/
def pick_unused (pending : MDSMap) : Nat → Int → Option (Int × MDSState)
  | 0, _ => none
  | fuel + 1, from_ =>
    if pending.is_dne from_ then some (from_, STATE_CREATING)
    else if pending.is_stopped from_ then some (from_, STATE_STARTING)
    else if from_ = 2147483647 then none
    else pick_unused pending fuel (from_ + 1)

/-- What the boot branch of `handle_beacon` ends in: `return false` for an address that is
pending already (with the pending map after the read `mds_state[from]`), or the id and the
state it assigns. -/
inductive Boot where
  | already_pending (from_ : Int) (state : MDSState) (pending : MDSMap)
  | assigned (from_ : Int) (state : MDSState)
  deriving DecidableEq, Repr

/-- The `assert` that ends the id assignment of `handle_beacon`. -/
def boot_assert (from_ : Int) (state : MDSState) : Option Boot :=
  if state = STATE_CREATING ∨ state = STATE_STARTING ∨ state = STATE_REPLAY then
    some (Boot.assigned from_ state)
  else none

/-- The boot branch of `handle_beacon` down to its `assert`: the named id, the pending
reassignment, the failed ids, the unused ids.  The default `int` that `mds_state[from]`
inserts is taken to be `STATE_DNE`. -/
def boot_assign (fuel : Nat) (g_conf : md_config_t) (mon : MDSMonitor) (m : MMDSBeacon) :
    Option Boot :=
  let from0 := m.get_mds_inst.name.num
  let state0 := m.get_state
  -- wants to be (or already is) a specific MDS
  let named : Int × MDSState :=
    if 0 ≤ from0 then
      if !g_conf.mon_allow_mds_bully &&
          (!mon.mdsmap.have_inst from0 ||
            decide (mon.mdsmap.get_inst from0 ≠ some m.get_mds_inst)) then
        (-1, state0)
      else (from0, boot_state (mon.mdsmap.get_state from0))
    else (from0, state0)
  if 0 ≤ named.1 then boot_assert named.1 named.2
  else
    let from1 := mon.pending_mdsmap.get_addr_rank m.get_mds_inst.addr
    if 0 ≤ from1 then
      let r := IMap.index mon.pending_mdsmap.mds_state from1 STATE_DNE
      some (Boot.already_pending from1 r.1 { mon.pending_mdsmap with mds_state := r.2 })
    else
      -- pick a failed mds?
      let failed := mon.pending_mdsmap.get_failed_mds_set []
      let picked : Int × MDSState :=
        match failed with
        | f :: _ => (f, STATE_REPLAY)
        | [] => (from1, named.2)
      if 0 ≤ picked.1 then boot_assert picked.1 picked.2
      else
        -- ok, just pick any unused mds id
        match pick_unused mon.pending_mdsmap fuel 0 with
        | none => none
        | some (i, s) => boot_assert i s

/-- The rest of `handle_beacon` once the id `from_` and the state `state1` are settled:
`mds_created`, the demotion to standby, `same_in_set_since`, the state and its sequence
number; the handler returns `true` and hands `from_` to the commit callback. -/
def record (seq : Nat) (from_ : Int) (state1 : MDSState) (mon1 : MDSMonitor) :
    Bool × Int × MDSMonitor :=
  -- created?
  let p2 : MDSMap :=
    if state1 = STATE_ACTIVE ∧ mon1.mdsmap.is_creating from_ = true then
      { mon1.pending_mdsmap with
        mds_created := ISet.insert from_ mon1.pending_mdsmap.mds_created }
    else mon1.pending_mdsmap
  -- if starting|creating and degraded|full, go to standby
  let state2 : MDSState :=
    if (state1 = STATE_STARTING ∨ state1 = STATE_CREATING ∨
        mon1.mdsmap.is_starting from_ = true ∨ mon1.mdsmap.is_creating from_ = true) ∧
        (p2.is_degraded = true ∨ p2.is_full = true) then
      STATE_STANDBY
    else state1
  -- has someone joined or left the cluster?
  let p3 : MDSMap :=
    if state2 = STATE_REPLAY ∨ state2 = STATE_ACTIVE ∨ state2 = STATE_STOPPED then
      { p2 with same_in_set_since := p2.epoch }
    else p2
  -- change the state
  let p4 : MDSMap := { p3 with mds_state := IMap.set from_ state2 p3.mds_state }
  let p5 : MDSMap :=
    if p4.is_up from_ then { p4 with mds_state_seq := IMap.set from_ seq p4.mds_state_seq }
    else { p4 with mds_state_seq := IMap.erase from_ p4.mds_state_seq }
  (true, from_, { mon1 with pending_mdsmap := p5 })

/-- The handler `MDSMonitor::handle_beacon`, with `now` the answer of `g_clock.now()`: the return
value, the id handed to the commit callback `C_Updated` when the value is `true`, and the
monitor. -/
def handle_beacon (fuel : Nat) (g_conf : md_config_t) (now : Nat) (mon : MDSMonitor)
    (m : MMDSBeacon) : Option (Bool × Int × MDSMonitor) :=
  let from0 := m.get_mds_inst.name.num
  let state0 := m.get_state
  let seq := m.get_seq
  if state0 = mon.mdsmap.get_state from0 then none
  else if state0 = STATE_BOOT then
    match boot_assign fuel g_conf mon m with
    | none => none
    | some (Boot.already_pending f _ p) => some (false, f, { mon with pending_mdsmap := p })
    | some (Boot.assigned f s) =>
      -- put it in the map
      let i0 := IMap.index mon.pending_mdsmap.mds_inst f ⟨⟨0, 0⟩, 0⟩
      let inst1 := IMap.set f { i0.1 with addr := m.get_mds_inst.addr } i0.2
      let inst2 := IMap.set f ⟨entity_name_t.MDS f, m.get_mds_inst.addr⟩ inst1
      let c0 := IMap.index mon.pending_mdsmap.mds_inc f 0
      if c0.1 = 2147483647 then none
      else
        some (record seq f s
          { mon with
            pending_mdsmap := { mon.pending_mdsmap with
              mds_inst := inst2, mds_inc := IMap.set f (c0.1 + 1) c0.2 }
            -- reset the beacon timer
            last_beacon := IMap.set f now mon.last_beacon })
  else some (record seq from0 state0 mon)

end MDSMonitor

namespace MDSMap

/-- The pending map is within the range of the `int`s that count over it: fewer than
2^31 - 1 states, every incarnation below 2^31 - 1. -/
def in_range (p : MDSMap) : Prop :=
  p.mds_state.length < 2147483647 ∧ ∀ e ∈ p.mds_inc, e.2 < 2147483647

instance (p : MDSMap) : Decidable (in_range p) := by
  unfold in_range; infer_instance

end MDSMap

/-- The beacon `m` from a sender that names no id: its name has the number -1. -/
def MMDSBeacon.anonymous (m : MMDSBeacon) : MMDSBeacon :=
  { m with mds_inst := ⟨⟨m.mds_inst.name._type, -1⟩, m.mds_inst.addr⟩ }

/-- A map of epoch 1 with one server: id 0 at address 1 is creating, its beacon 5 is the
last one recorded. -/
def map7 : MDSMap :=
  { epoch := 1, created := 0, target_num := 2, mds_state := [(0, STATE_CREATING)],
    mds_inc := [(0, 1)], mds_inst := [(0, ⟨entity_name_t.MDS 0, 1⟩)],
    mds_state_seq := [(0, 5)], mds_created := [], same_in_set_since := 0 }

/-- A monitor whose committed map is `map7`, the pending map its copy for epoch 2. -/
def mon7 : MDSMonitor :=
  { mdsmap := map7, pending_mdsmap := { map7 with epoch := 2 }, last_beacon := [(0, 0)] }

/-- Server 0 announces that it is active, in a beacon with the sequence number 5. -/
def beacon7 : MMDSBeacon :=
  { mds_inst := ⟨entity_name_t.MDS 0, 1⟩, last_epoch_seen := 1, state := STATE_ACTIVE,
    seq := 5 }

/-- The same announcement in an older beacon, number 3. -/
def beacon7_old : MMDSBeacon :=
  { mds_inst := ⟨entity_name_t.MDS 0, 1⟩, last_epoch_seen := 1, state := STATE_ACTIVE,
    seq := 3 }

/-- A server at the new address 2 boots as id 0, in a beacon with the sequence number 1. -/
def beacon7_boot : MMDSBeacon :=
  { mds_inst := ⟨entity_name_t.MDS 0, 2⟩, last_epoch_seen := 1, state := STATE_BOOT,
    seq := 1 }

/-- Server 0 at its address 1 boots again under its own id. -/
def beacon7_reboot : MMDSBeacon :=
  { mds_inst := ⟨entity_name_t.MDS 0, 1⟩, last_epoch_seen := 1, state := STATE_BOOT,
    seq := 6 }

/-- A map with the stopped id 0 and the id 1 that does not exist, no instances. -/
def map8 : MDSMap :=
  { epoch := 3, created := 0, target_num := 2,
    mds_state := [(0, STATE_STOPPED), (1, STATE_DNE)],
    mds_inc := [(0, 1)], mds_inst := [], mds_state_seq := [], mds_created := [0],
    same_in_set_since := 2 }

/-- A monitor whose committed map is `map8`, the pending map its copy for epoch 4. -/
def mon8 : MDSMonitor :=
  { mdsmap := map8, pending_mdsmap := { map8 with epoch := 4 }, last_beacon := [] }

/-- A server at address 4 boots and names no id. -/
def beacon8 : MMDSBeacon :=
  { mds_inst := ⟨entity_name_t.MDS (-1), 4⟩, last_epoch_seen := 3, state := STATE_BOOT,
    seq := 1 }

/-- The empty map, one active server wanted. -/
def map9 : MDSMap :=
  { epoch := 0, created := 0, target_num := 1, mds_state := [], mds_inc := [],
    mds_inst := [], mds_state_seq := [], mds_created := [], same_in_set_since := 0 }

/-- A monitor whose committed map is empty, the pending map its copy for epoch 1. -/
def mon9 : MDSMonitor :=
  { mdsmap := map9, pending_mdsmap := { map9 with epoch := 1 }, last_beacon := [] }

/-- A server at address 7 boots as id 3. -/
def beacon9 : MMDSBeacon :=
  { mds_inst := ⟨entity_name_t.MDS 3, 7⟩, last_epoch_seen := 0, state := STATE_BOOT,
    seq := 1 }

/-- A map with the failed id 0 and the standby id 1 at address 5. -/
def map10 : MDSMap :=
  { epoch := 6, created := 0, target_num := 2,
    mds_state := [(0, STATE_FAILED), (1, STATE_STANDBY)],
    mds_inc := [(0, 1), (1, 1)], mds_inst := [(1, ⟨entity_name_t.MDS 1, 5⟩)],
    mds_state_seq := [(1, 8)], mds_created := [0], same_in_set_since := 5 }

/-- A monitor whose committed map is `map10`, the pending map its copy for epoch 7. -/
def mon10 : MDSMonitor :=
  { mdsmap := map10, pending_mdsmap := { map10 with epoch := 7 }, last_beacon := [(1, 0)] }

/-- Server 1 announces that it is starting. -/
def beacon10 : MMDSBeacon :=
  { mds_inst := ⟨entity_name_t.MDS 1, 5⟩, last_epoch_seen := 6, state := STATE_STARTING,
    seq := 9 }

namespace MDSMap

/-- Modelled from the spec: `is_active(id)`. -/
def is_active (m : MDSMap) (id : Int) : Bool := decide (m.get_state id = STATE_ACTIVE)

/-- Modelled from the spec: `has_created(id)`, `id` is in `mds_created`. -/
def has_created (m : MDSMap) (id : Int) : Bool := decide (id ∈ m.mds_created)

/-- Modelled from the spec: `get_up_mds_set(s)` inserts into `s` every id of `mds_state`
that is up. -/
def get_up_mds_set (m : MDSMap) (s : ISet) : ISet :=
  m.mds_state.foldl (fun acc e => if m.is_up e.1 then ISet.insert e.1 acc else acc) s

end MDSMap

/-- The error number `EEXIST` of `<errno.h>`. -/
def EEXIST : Int := 17

/-- The error number `EINVAL` of `<errno.h>`. -/
def EINVAL : Int := 22

namespace MDSMonitor

/-- The method `MDSMonitor::create_pending`; the epoch is a natural number, the
declaration of its type is not among the sources. -/
def create_pending (mon : MDSMonitor) : MDSMonitor :=
  { mon with pending_mdsmap := { mon.mdsmap with epoch := mon.mdsmap.epoch + 1 } }

/-- The `switch` of `tick` on the committed state of the id `p`: the new state, or `none`
where the `default` branch asserts. -/
def tick_state (mdsmap : MDSMap) (p : Int) : Option MDSState :=
  match mdsmap.get_state p with
  | STATE_STANDBY => some (if mdsmap.has_created p then STATE_STOPPED else STATE_DNE)
  | STATE_CREATING => some STATE_DNE
  | STATE_STARTING => some STATE_STOPPED
  | STATE_REPLAY => some STATE_FAILED
  | STATE_RESOLVE => some STATE_FAILED
  | STATE_REJOIN => some STATE_FAILED
  | STATE_ACTIVE => some STATE_FAILED
  | STATE_STOPPING => some STATE_FAILED
  | _ => none

/-- The loop of `tick` over the set `up`, from the iterator `p` on: the pending map, the
beacon times and the flag `changed`. -/
def tick_loop (now cutoff : Nat) (mdsmap : MDSMap) :
    List Int → MDSMap → IMap Nat → Bool → Option (MDSMap × IMap Nat × Bool)
  | [], pending, last_beacon, changed => some (pending, last_beacon, changed)
  | p :: up, pending, last_beacon, changed =>
    if IMap.count p last_beacon ≠ 0 then
      if (IMap.index last_beacon p 0).1 < cutoff then
        -- failure!
        match tick_state mdsmap p with
        | none => none
        | some newstate =>
          -- update map
          tick_loop now cutoff mdsmap up
            { pending with
              mds_state := IMap.set p newstate pending.mds_state
              mds_state_seq := IMap.erase p pending.mds_state_seq }
            last_beacon true
      else tick_loop now cutoff mdsmap up pending last_beacon changed
    else tick_loop now cutoff mdsmap up pending (IMap.set p now last_beacon) changed

/-- The method `MDSMonitor::tick`, with `is_leader` and `paxos_active` the answers of
`mon->is_leader()` and `paxos->is_active()`, `now` that of `g_clock.now()` and
`mds_beacon_grace` the configured grace, times being natural numbers: the monitor, and
whether `propose_pending()` is called. -/
def tick (is_leader paxos_active : Bool) (now mds_beacon_grace : Nat) (mon : MDSMonitor) :
    Option (MDSMonitor × Bool) :=
  if !is_leader then some (mon, false)
  else if !paxos_active then some (mon, false)
  else if now > mds_beacon_grace then
    let cutoff := now - mds_beacon_grace
    let up := mon.mdsmap.get_up_mds_set []
    match tick_loop now cutoff mon.mdsmap up mon.pending_mdsmap mon.last_beacon false with
    | none => none
    | some (pending, last_beacon, changed) =>
      some ({ mon with pending_mdsmap := pending, last_beacon := last_beacon }, changed)
  else some (mon, false)

/-- The method `MDSMonitor::handle_command` on the words `cmd` of the command, with `atoi`
the C library function: the return value, the result `r` sent in the reply, and the
monitor. -/
def handle_command (atoi : String → Int) (mon : MDSMonitor) (cmd : List String) :
    Bool × Int × MDSMonitor :=
  let res : Int × MDSMonitor :=
    if cmd.length > 1 then
      if cmd[1]? = some "stop" ∧ cmd.length > 2 then
        let who := atoi (cmd[2]?.getD "")
        if mon.mdsmap.is_active who then
          (0, { mon with pending_mdsmap := { mon.pending_mdsmap with
            mds_state := IMap.set who STATE_STOPPING mon.pending_mdsmap.mds_state } })
        else (-EEXIST, mon)
      else if cmd[1]? = some "set_target_num" ∧ cmd.length > 2 then
        (0, { mon with pending_mdsmap := { mon.pending_mdsmap with
          target_num := atoi (cmd[2]?.getD "") } })
      else (-EINVAL, mon)
    else (-EINVAL, mon)
  (decide (res.1 ≥ 0), res.1, res.2)

/-- The `switch` of `do_stop` on a committed state: the state written, if any. -/
def stop_state : MDSState → Option MDSState
  | STATE_ACTIVE => some STATE_STOPPING
  | STATE_STOPPING => some STATE_STOPPING
  | STATE_CREATING => some STATE_DNE
  | STATE_STANDBY => some STATE_DNE
  | STATE_STARTING => some STATE_STOPPED
  | STATE_REPLAY => some STATE_FAILED
  | STATE_RESOLVE => some STATE_FAILED
  | STATE_RECONNECT => some STATE_FAILED
  | STATE_REJOIN => some STATE_FAILED
  | _ => none

/-- The loop of `do_stop` over the entries of the committed `mds_state`, from the
iterator `p` on: the pending `mds_state`. -/
def stop_loop : IMap MDSState → IMap MDSState → IMap MDSState
  | [], pending => pending
  | p :: rest, pending =>
    match stop_state p.2 with
    | some s => stop_loop rest (IMap.set p.1 s pending)
    | none => stop_loop rest pending

/-- The method `MDSMonitor::do_stop`: the monitor, and whether `propose_pending()` is
called. -/
def do_stop (is_leader paxos_active : Bool) (mon : MDSMonitor) : MDSMonitor × Bool :=
  if !is_leader || !paxos_active then (mon, false)
  else
    ({ mon with pending_mdsmap := { mon.pending_mdsmap with
        mds_state := stop_loop mon.mdsmap.mds_state mon.pending_mdsmap.mds_state } }, true)

/-- What reaches the monitor between `create_pending` and the next commit: a beacon that
needs an update, an admin command, a tick of the timer, the operator's stop. -/
inductive Event where
  | beacon (now : Nat) (m : MMDSBeacon)
  | command (cmd : List String)
  | tick (is_leader paxos_active : Bool) (now : Nat)
  | stop (is_leader paxos_active : Bool)

/-- One event handled by its method: `handle_beacon`, `handle_command`, `tick` or
`do_stop`. -/
def step (fuel : Nat) (g_conf : md_config_t) (atoi : String → Int) (mds_beacon_grace : Nat)
    (mon : MDSMonitor) : Event → Option MDSMonitor
  | .beacon now m => (handle_beacon fuel g_conf now mon m).map (fun r => r.2.2)
  | .command cmd => some (handle_command atoi mon cmd).2.2
  | .tick is_leader paxos_active now =>
    (tick is_leader paxos_active now mds_beacon_grace mon).map (fun r => r.1)
  | .stop is_leader paxos_active => some (do_stop is_leader paxos_active mon).1

/-- A sequence of events handled one after the other. -/
def run (fuel : Nat) (g_conf : md_config_t) (atoi : String → Int) (mds_beacon_grace : Nat) :
    MDSMonitor → List Event → Option MDSMonitor
  | mon, [] => some mon
  | mon, e :: es =>
    match step fuel g_conf atoi mds_beacon_grace mon e with
    | none => none
    | some mon1 => run fuel g_conf atoi mds_beacon_grace mon1 es

/-- The state is one of REPLAY, ACTIVE and STOPPED. -/
def in_set (s : MDSState) : Bool :=
  decide (s = STATE_REPLAY ∨ s = STATE_ACTIVE ∨ s = STATE_STOPPED)

/-- The ids of a map whose state is REPLAY, ACTIVE or STOPPED. -/
def in_set_ids (m : MDSMap) : List Int :=
  (m.mds_state.filter (fun e => in_set e.2)).map Prod.fst

/-- The event is a beacon that `handle_beacon` accepts and records with a state that is
REPLAY, ACTIVE or STOPPED. -/
def joins (fuel : Nat) (g_conf : md_config_t) (mon : MDSMonitor) : Event → Bool
  | .beacon now m =>
    match handle_beacon fuel g_conf now mon m with
    | some (true, f, mon1) => in_set (mon1.pending_mdsmap.get_state f)
    | _ => false
  | _ => false

/-- Some event of the sequence is a beacon that joins, each beacon taken in the state the
events before it leave. -/
def run_joins (fuel : Nat) (g_conf : md_config_t) (atoi : String → Int)
    (mds_beacon_grace : Nat) : MDSMonitor → List Event → Bool
  | _, [] => false
  | mon, e :: es =>
    joins fuel g_conf mon e ||
      match step fuel g_conf atoi mds_beacon_grace mon e with
      | none => false
      | some mon1 => run_joins fuel g_conf atoi mds_beacon_grace mon1 es

end MDSMonitor

/-- The C library function `atoi` on a word of decimal digits, as the examples use it: the
number the leading digits spell, 0 when there is none. -/
def atoi_digits (s : String) : Int :=
  (((s.data.takeWhile (fun c => decide (48 ≤ c.toNat ∧ c.toNat ≤ 57))).foldl
    (fun n c => 10 * n + (c.toNat - 48)) 0 : Nat) : Int)

/-- A map of epoch 3 with the active ids 0 and 2, the reconnecting id 1 and the starting
id 3; id 0 was created. -/
def map11 : MDSMap :=
  { epoch := 3, created := 0, target_num := 3,
    mds_state := [(0, STATE_ACTIVE), (1, STATE_RECONNECT), (2, STATE_ACTIVE),
      (3, STATE_STARTING)],
    mds_inc := [(0, 1), (1, 1), (2, 1), (3, 1)],
    mds_inst := [(0, ⟨entity_name_t.MDS 0, 1⟩), (1, ⟨entity_name_t.MDS 1, 2⟩),
      (2, ⟨entity_name_t.MDS 2, 3⟩), (3, ⟨entity_name_t.MDS 3, 4⟩)],
    mds_state_seq := [(0, 5), (1, 5), (2, 5), (3, 5)], mds_created := [0],
    same_in_set_since := 1 }

/-- A monitor whose committed map is `map11`, the pending map its copy for epoch 4; the
last beacons of ids 0 and 1 came at time 0, that of id 2 at time 95, id 3 has none. -/
def mon11 : MDSMonitor :=
  { mdsmap := map11, pending_mdsmap := { map11 with epoch := 4 },
    last_beacon := [(0, 0), (1, 0), (2, 95)] }

/-- The map `map11` without the reconnecting id 1. -/
def map12 : MDSMap :=
  { epoch := 3, created := 0, target_num := 3,
    mds_state := [(0, STATE_ACTIVE), (2, STATE_ACTIVE), (3, STATE_STARTING)],
    mds_inc := [(0, 1), (2, 1), (3, 1)],
    mds_inst := [(0, ⟨entity_name_t.MDS 0, 1⟩), (2, ⟨entity_name_t.MDS 2, 3⟩),
      (3, ⟨entity_name_t.MDS 3, 4⟩)],
    mds_state_seq := [(0, 5), (2, 5), (3, 5)], mds_created := [0],
    same_in_set_since := 1 }

/-- A monitor whose committed map is `map12`, the pending map not yet created. -/
def mon12 : MDSMonitor :=
  { mdsmap := map12, pending_mdsmap := map12, last_beacon := [(0, 0), (2, 95)] }

/-- Server 2 announces that it is stopping. -/
def beacon12 : MMDSBeacon :=
  { mds_inst := ⟨entity_name_t.MDS 2, 3⟩, last_epoch_seen := 3, state := STATE_STOPPING,
    seq := 6 }

/-- Server 3 announces that it is active. -/
def beacon13 : MMDSBeacon :=
  { mds_inst := ⟨entity_name_t.MDS 3, 4⟩, last_epoch_seen := 3, state := STATE_ACTIVE,
    seq := 6 }

/-- Four events on `mon12`: the beacon of server 2 that is stopping, the command
`mds stop 0`, a tick at time 100 and the operator's stop. -/
def events12 : List MDSMonitor.Event :=
  [.beacon 96 beacon12, .command ["mds", "stop", "0"], .tick true true 100, .stop true true]

/-- One event on `mon12`: the beacon of server 3 that is active. -/
def events13 : List MDSMonitor.Event := [.beacon 96 beacon13]

/-- One event on `mon12`: the command `mds stop 0`. -/
def events13_stop : List MDSMonitor.Event := [.command ["mds", "stop", "0"]]

namespace buffer

namespace list

/-- The loop of `operator[]`, from the iterator `p` on; falling out of the loop is the
`assert(0)`. -/
def at_loop (h : Heap) : List ptr → Nat → Option Byte
  | [], _ => none
  | p :: ps, n =>
    if n ≥ p.length then at_loop h ps (usub n p.length)
    else p.at_ h n

/-- The operator `list[n]`. -/
def at_ (h : Heap) (l : list) (n : Nat) : Option Byte :=
  if n < l._len then at_loop h l._buffers n else none

end list

/-- The overload `_encode(const __gnu_cxx::hash_map<T,U>& m, bufferlist& bl)` for keys of
the type `sk` and values of the type `sv`; `m` holds the entries in iteration order. -/
def _encode_hash_map (fuel : Nat) (sk sv : Shape) (m : List (Value × Value)) (h : Heap)
    (bl : list) : Option (Heap × list) :=
  match _encoderaw fuel (u32_bytes (u32 m.length)) h bl with
  | none => none
  | some (h1, bl1) => encode_entries (_encode fuel sk) (_encode fuel sv) m h1 bl1

/-- The number of elements of a container value (`size()`). -/
def Value.count : Value → Nat
  | .prim _ => 0
  | .seq ls => ls.length
  | .map m => m.length

/-- The type is one of the containers. -/
def Shape.container : Shape → Prop
  | .prim _ => False
  | _ => True

/-- A heap with one raw of 2^31 bytes, all zero. -/
def heap_half : Heap := [{ data := fun _ => 0, len := 2147483648 }]

/-- The list after `push_back(half_view)` on an empty list. -/
def half_list : list := list.empty.push_back half_view

/-- A `std::list` of one-byte elements, and the list of the one element 5. -/
def shape_list1 : Shape := .list (.prim 1)

/-- The `std::list` with the one element 5. -/
def value_list1 : Value := .seq [.prim [5]]

/-- A heap with one raw of 4096 bytes, all zero. -/
def heap_page : Heap := [{ data := fun _ => 0, len := 4096 }]

/-- A list whose append arena is the raw of `heap_page`, with 4095 bytes published in one
view and one byte left. -/
def list_page : list :=
  { _buffers := [{ _raw := some 0, _off := 0, _len := 4095 }], _len := 4095,
    append_buffer := { _raw := some 0, _off := 0, _len := 4095 } }

end buffer

/-- A map of epoch 2 that wants one active server: id 0 is creating, id 1 is active. -/
def map23 : MDSMap :=
  { epoch := 2, created := 0, target_num := 1,
    mds_state := [(0, STATE_CREATING), (1, STATE_ACTIVE)],
    mds_inc := [(0, 1), (1, 1)],
    mds_inst := [(0, ⟨entity_name_t.MDS 0, 1⟩), (1, ⟨entity_name_t.MDS 1, 2⟩)],
    mds_state_seq := [(0, 5), (1, 5)], mds_created := [1], same_in_set_since := 1 }

/-- A monitor whose committed map is `map23`, the pending map its copy for epoch 3. -/
def mon23 : MDSMonitor :=
  { mdsmap := map23, pending_mdsmap := { map23 with epoch := 3 },
    last_beacon := [(0, 0), (1, 0)] }

/-- Server 0 announces that it is active, in a beacon with the sequence number 6. -/
def beacon23 : MMDSBeacon :=
  { mds_inst := ⟨entity_name_t.MDS 0, 1⟩, last_epoch_seen := 2, state := STATE_ACTIVE,
    seq := 6 }

/-- Server 0 announces that it has stopped. -/
def beacon24 : MMDSBeacon :=
  { mds_inst := ⟨entity_name_t.MDS 0, 1⟩, last_epoch_seen := 2, state := STATE_STOPPED,
    seq := 7 }

/-- Server 5, which the committed map does not hold, announces that it is active. -/
def beacon25 : MMDSBeacon :=
  { mds_inst := ⟨entity_name_t.MDS 5, 9⟩, last_epoch_seen := 2, state := STATE_ACTIVE,
    seq := 1 }

/-- A server at the address 9, which the committed map does not hold, boots. -/
def beacon25_boot : MMDSBeacon :=
  { mds_inst := ⟨entity_name_t.MDS (-1), 9⟩, last_epoch_seen := 2, state := STATE_BOOT,
    seq := 1 }

/-- A map of epoch 5 with one server: id 0 resolves. -/
def map28_resolve : MDSMap :=
  { epoch := 5, created := 0, target_num := 1, mds_state := [(0, STATE_RESOLVE)],
    mds_inc := [(0, 2)], mds_inst := [(0, ⟨entity_name_t.MDS 0, 1⟩)],
    mds_state_seq := [(0, 3)], mds_created := [0], same_in_set_since := 4 }

/-- A monitor whose committed map is `map28_resolve`, the pending map its copy for
epoch 6. -/
def mon28_resolve : MDSMonitor :=
  { mdsmap := map28_resolve, pending_mdsmap := { map28_resolve with epoch := 6 },
    last_beacon := [(0, 0)] }

/-- Server 0 announces that it reconnects. -/
def beacon28 : MMDSBeacon :=
  { mds_inst := ⟨entity_name_t.MDS 0, 1⟩, last_epoch_seen := 5, state := STATE_RECONNECT,
    seq := 4 }

/-- The map of epoch 6 once that beacon is committed: id 0 reconnects. -/
def map28 : MDSMap :=
  { epoch := 6, created := 0, target_num := 1, mds_state := [(0, STATE_RECONNECT)],
    mds_inc := [(0, 2)], mds_inst := [(0, ⟨entity_name_t.MDS 0, 1⟩)],
    mds_state_seq := [(0, 4)], mds_created := [0], same_in_set_since := 4 }

/-- A monitor whose committed map is `map28`, the pending map its copy for epoch 7; the
last beacon of id 0 came at time 0. -/
def mon28 : MDSMonitor :=
  { mdsmap := map28, pending_mdsmap := { map28 with epoch := 7 }, last_beacon := [(0, 0)] }

namespace buffer

/-- The list `list6` with a view of no bytes between its two views. -/
def list6_gap : list :=
  { _buffers := [{ _raw := some 0, _off := 0, _len := 3 }, { _raw := some 0, _off := 3, _len := 0 },
      { _raw := some 0, _off := 3, _len := 3 }],
    _len := 6, append_buffer := ptr.null }

end buffer

namespace buffer

namespace list

/-- The operator `=`: the views and the length are copied, the append arena stays. -/
def assign (l other : list) : list :=
  { l with _buffers := other._buffers, _len := other._len }

end list

end buffer

namespace buffer

/-- The value of a plain `char` in a comparison: the byte, or the byte less 256 where
`char` is signed and the byte is 128 or more; which of the two is left to the platform. -/
def char_val (char_is_signed : Bool) (b : Byte) : Int :=
  if 128 ≤ b.val ∧ char_is_signed = true then (b.val : Int) - 256 else (b.val : Int)

/-- The loop of `operator>(bufferlist& l, bufferlist& r)` from the value `p` of its counter:
the body ends in `p++` and the `for` has its own `p++`.  Each unit of fuel is one turn; an
assertion of `operator[]` that fails gives `none`. -/
def gt_loop (char_is_signed : Bool) (h : Heap) (l r : list) : Nat → Nat → Option Bool
  | 0, _ => none
  | fuel + 1, p =>
    if l.length > p ∧ r.length = p then some true
    else if l.length = p then some false
    else
      match l.at_ h p, r.at_ h p with
      | some a, some b =>
        if char_val char_is_signed a > char_val char_is_signed b then some true
        else if char_val char_is_signed a < char_val char_is_signed b then some false
        else gt_loop char_is_signed h l r fuel (u32 (u32 (p + 1) + 1))
      | _, _ => none

/-- The function `operator>(bufferlist& l, bufferlist& r)`. -/
def operator_gt (char_is_signed : Bool) (fuel : Nat) (h : Heap) (l r : list) : Option Bool :=
  gt_loop char_is_signed h l r fuel 0

/-- The loop of `operator>=(bufferlist& l, bufferlist& r)` from the value `p` of its
counter, with the same two increments. -/
def ge_loop (char_is_signed : Bool) (h : Heap) (l r : list) : Nat → Nat → Option Bool
  | 0, _ => none
  | fuel + 1, p =>
    if l.length > p ∧ r.length = p then some true
    else if r.length = p ∧ l.length = p then some true
    else
      match l.at_ h p, r.at_ h p with
      | some a, some b =>
        if char_val char_is_signed a > char_val char_is_signed b then some true
        else if char_val char_is_signed a < char_val char_is_signed b then some false
        else ge_loop char_is_signed h l r fuel (u32 (u32 (p + 1) + 1))
      | _, _ => none

/-- The function `operator>=(bufferlist& l, bufferlist& r)`. -/
def operator_ge (char_is_signed : Bool) (fuel : Nat) (h : Heap) (l r : list) : Option Bool :=
  ge_loop char_is_signed h l r fuel 0

/-- The function `operator<(bufferlist& l, bufferlist& r)`: `return r > l`. -/
def operator_lt (char_is_signed : Bool) (fuel : Nat) (h : Heap) (l r : list) : Option Bool :=
  operator_gt char_is_signed fuel h r l

/-- The function `operator<=(bufferlist& l, bufferlist& r)`: `return r >= l`. -/
def operator_le (char_is_signed : Bool) (fuel : Nat) (h : Heap) (l r : list) : Option Bool :=
  operator_ge char_is_signed fuel h r l

/-- A heap with one raw of four bytes: 1, 2, 1, 1. -/
def heap29 : Heap := [{ data := fun i => if i = 1 then 2 else 1, len := 4 }]

/-- The list of the two bytes 1, 2 of `heap29`. -/
def list_12 : list :=
  { _buffers := [{ _raw := some 0, _off := 0, _len := 2 }], _len := 2,
    append_buffer := ptr.null }

/-- The list of the two bytes 1, 1 of `heap29`. -/
def list_11 : list :=
  { _buffers := [{ _raw := some 0, _off := 2, _len := 2 }], _len := 2,
    append_buffer := ptr.null }

/-- The list of the one byte 1 of `heap29`. -/
def list_1 : list :=
  { _buffers := [{ _raw := some 0, _off := 0, _len := 1 }], _len := 1,
    append_buffer := ptr.null }

end buffer

namespace buffer

/-- A raw buffer with its reference count, for the accounting of the views: `nref` is the
member of the source, an `int`; `deleted` is the number of times `delete` was applied to
the raw, which the program does not record. -/
structure counted where
  len : Nat
  nref : Int
  deleted : Nat
  deriving DecidableEq, Repr

/-- The raws allocated so far with their counts, and the `ptr` objects constructed so far:
an object is a position in `views`, and it is `none` once its destructor has run. -/
structure Store where
  raws : List counted
  views : List (Option ptr)
  deriving DecidableEq, Repr

/-- The number of live objects among `vs` whose `_raw` is the raw `r`. -/
def refs (vs : List (Option ptr)) (r : Nat) : Nat :=
  vs.countP (fun v => decide (∃ p, v = some p ∧ p._raw = some r))

namespace Store

/-- The statement `++_raw->nref` on the raw `r`: a raw that was deleted must not be
touched, and the `int` must not overflow. -/
def inc (s : Store) (r : Nat) : Option Store :=
  match s.raws[r]? with
  | none => none
  | some rw =>
    if rw.deleted ≠ 0 ∨ rw.nref = 2147483647 then none
    else some { s with raws := s.raws.set r { rw with nref := rw.nref + 1 } }

/-- The method `release()` of the object `a`: the count of its raw is decremented, the raw
is deleted when the count is 0 then, and `_raw` is set to 0. -/
def release (s : Store) (a : Nat) : Option Store :=
  match s.views[a]? with
  | some (some p) =>
    match p._raw with
    | none => some s
    | some r =>
      match s.raws[r]? with
      | none => none
      | some rw =>
        if rw.deleted ≠ 0 ∨ rw.nref = -2147483648 then none
        else
          some { raws := s.raws.set r
                  (if rw.nref - 1 = 0 then
                    { rw with nref := rw.nref - 1, deleted := rw.deleted + 1 }
                  else { rw with nref := rw.nref - 1 }),
                 views := s.views.set a (some { p with _raw := none }) }
  | _ => none

/-- The constructor `ptr(unsigned l)`: a raw is created, with the count 0, and counted
once for the new object. -/
def create (s : Store) (l : Nat) : Store :=
  { raws := s.raws ++ [{ len := l, nref := 0 + 1, deleted := 0 }],
    views := s.views ++ [some { _raw := some s.raws.length, _off := 0, _len := l }] }

/-- The constructor `ptr(const ptr& p)`, with `p` the object `b`. -/
def copy (s : Store) (b : Nat) : Option Store :=
  match s.views[b]? with
  | some (some p) =>
    match p._raw with
    | none => some { s with views := s.views ++ [some p] }
    | some r =>
      match s.inc r with
      | none => none
      | some s1 => some { s1 with views := s1.views ++ [some p] }
  | _ => none

/-- The constructor `ptr(const ptr& p, unsigned o, unsigned l)`, with `p` the object
`b`. -/
def sub (s : Store) (b o l : Nat) : Option Store :=
  match s.views[b]? with
  | some (some p) =>
    if u32 (o + l) ≤ p._len then
      match p._raw with
      | none => none
      | some r =>
        match s.inc r with
        | none => none
        | some s1 =>
          some { s1 with
            views := s1.views ++ [some { _raw := some r, _off := u32 (p._off + o), _len := l }] }
    else none
  | _ => none

/-- The operator `a = b`, with `p` a reference to the object `b`: the count of the raw of
`p` is incremented, `release()` runs on `a`, and then `_raw`, `_off` and `_len` are read
from `p`, which is `a` itself in a self-assignment. -/
def assign (s : Store) (a b : Nat) : Option Store :=
  match s.views[a]?, s.views[b]? with
  | some (some _), some (some p) =>
    match (match p._raw with
        | none => some s
        | some r => s.inc r) with
    | none => none
    | some s1 =>
      match s1.release a with
      | none => none
      | some s2 =>
        match s2.views[b]? with
        | some (some p2) => some { s2 with views := s2.views.set a (some p2) }
        | _ => none
  | _, _ => none

/-- The destructor `~ptr()` of the object `a`. -/
def destroy (s : Store) (a : Nat) : Option Store :=
  match s.release a with
  | none => none
  | some s1 => some { s1 with views := s1.views.set a none }

end Store

/-- One statement of a program over views: a construction from a fresh raw, a copy, a
sub-window, an assignment `a = b`, the end of the life of an object. -/
inductive Op where
  | create (l : Nat)
  | copy (b : Nat)
  | sub (b o l : Nat)
  | assign (a b : Nat)
  | destroy (a : Nat)
  deriving DecidableEq, Repr

namespace Store

/-- One statement, by the constructor, operator or destructor it calls. -/
def step (s : Store) : Op → Option Store
  | .create l => some (s.create l)
  | .copy b => s.copy b
  | .sub b o l => s.sub b o l
  | .assign a b => s.assign a b
  | .destroy a => s.destroy a

/-- A sequence of statements. -/
def run : Store → List Op → Option Store
  | s, [] => some s
  | s, op :: ops =>
    match s.step op with
    | none => none
    | some s1 => s1.run ops

/-- The reference counts are right: the count of every raw is the number of live objects
on it, the raw was deleted once if that number is 0 and never otherwise, and no object
is on a raw that was not allocated. -/
def counted_ok (s : Store) : Prop :=
  (∀ r rw, s.raws[r]? = some rw →
    rw.nref = (refs s.views r : Int) ∧ rw.deleted = (if refs s.views r = 0 then 1 else 0)) ∧
  ∀ r, s.raws.length ≤ r → refs s.views r = 0

end Store

end buffer

/-- A map in which each of the ids `0, ..., n - 1` has an entry, in the state ACTIVE. -/
def full_map (n : Nat) : MDSMap :=
  { epoch := 1, created := 0, target_num := 1,
    mds_state := (List.range n).map (fun k : Nat => ((k : Int), STATE_ACTIVE)),
    mds_inc := [], mds_inst := [], mds_state_seq := [], mds_created := [],
    same_in_set_since := 0 }

namespace buffer

/-- The overload `_encode(bufferptr& bp, bufferlist& bl)`: the length, then the view
itself. -/
def _encode_bufferptr (fuel : Nat) (bp : ptr) (h : Heap) (bl : list) : Option (Heap × list) :=
  match _encoderaw fuel (u32_bytes bp.length) h bl with
  | none => none
  | some (h1, bl1) => some (h1, bl1.append_ptr bp)

/-- The overload `_decode(bufferlist& s, bufferlist& bl, int& off)`: the new `s` and `off`;
the cursor after `off += len` is given as the 32 bits it holds. -/
def _decode_bufferlist (h : Heap) (s bl : list) (off : Nat) : Option (list × Nat) :=
  match _decoderaw 4 h bl off with
  | none => none
  | some (lenb, off1) =>
    match s.substr_of bl off1 (u32_of_bytes lenb) with
    | none => none
    | some s1 => some (s1, u32 (off1 + u32_of_bytes lenb))

namespace list

/-- The method `substr_of(other, off, len)` when `other` is the list itself: the assertion
reads the length, and `clear()` then empties the list the loops walk over. -/
def substr_of_self (l : list) (off len : Nat) : Option list :=
  if u32 (off + len) ≤ l.length then
    match skip l.clear._buffers off with
    | none => none
    | some (_, rest, o) =>
      match substr_loop rest o len [] 0 with
      | none => none
      | some (bs, clen) => some { l.clear with _buffers := bs, _len := clen }
  else none

/-- The second loop of `splice(off, len, claim_by)` when `claim_by` is the list itself,
from `curbuf` on: `claim_by->append` pushes the view behind the views that follow
`curbuf` and adds to `_len`.  Each unit of fuel is one turn of `while (len > 0)`. -/
def splice_self_loop : Nat → List ptr → Nat → Nat → Nat → Option (List ptr × Nat)
  | 0, _, _, _, _ => none
  | fuel + 1, rest, off, len, clen =>
    if len = 0 then some (rest, clen)
    else
      match rest with
      | [] => none
      | b :: bs =>
        if u32 (off + len) < b.length then
          match ({ _buffers := bs, _len := clen, append_buffer := ptr.null } : list).append_sub
              b off len with
          | none => none
          | some l1 =>
            let b1 := b.set_offset (u32 (u32 (off + len) + b.offset))
            let b2 := b1.set_length (usub b1.length (u32 (len + off)))
            some (b2 :: l1._buffers, usub l1._len (u32 (off + len)))
        else
          let howmuch := usub b.length off
          match ({ _buffers := bs, _len := clen, append_buffer := ptr.null } : list).append_sub
              b off howmuch with
          | none => none
          | some l1 =>
            splice_self_loop fuel l1._buffers 0 (usub len howmuch) (usub l1._len b.length)

/-- The method `splice(off, len, claim_by)` when `claim_by` is the list itself. -/
def splice_self (fuel : Nat) (l : list) (off len : Nat) : Option list :=
  if off < l.length ∧ len > 0 then
    match skip l._buffers off with
    | none => none
    | some (pre, rest, o) =>
      let front : Option (List ptr × Nat) :=
        if o ≠ 0 then
          match rest with
          | [] => none
          | b :: _ =>
            match b.sub 0 o with
            | none => none
            | some v => some ([v], u32 (l._len + o))
        else some ([], l._len)
      match front with
      | none => none
      | some (ins, clen) =>
        match splice_self_loop fuel rest o len clen with
        | none => none
        | some (rest1, clen1) => some { l with _buffers := pre ++ ins ++ rest1, _len := clen1 }
  else none

end list

/-- The heap and the list after `_encode(bp, bl)` of a default-constructed `bufferptr` and
`_encoderaw` of the four bytes 1, 2, 3, 4 on an empty list: the second view of the list is
the view without a raw. -/
def encoded_null : Heap × list :=
  match _encode_bufferptr 2 ptr.null [] list.empty with
  | none => ([], list.empty)
  | some (h1, bl1) => (_encoderaw 2 [1, 2, 3, 4] h1 bl1).getD ([], list.empty)

/-- A heap with one raw of eight bytes as they came from the wire: the length
4294967293 in four bytes, then four bytes 7. -/
def heap_wire : Heap :=
  [{ data := fun i => if i = 0 then 253 else if i < 4 then 255 else 7, len := 8 }]

/-- The list of the eight bytes of `heap_wire`, in one view. -/
def list_wire : list :=
  { _buffers := [{ _raw := some 0, _off := 0, _len := 8 }], _len := 8,
    append_buffer := ptr.null }

end buffer

/-! ## Theorems -/

namespace buffer

namespace list

@[simp] theorem sum_length_nil : sum_length [] = 0 := rfl

@[simp] theorem sum_length_cons (b : ptr) (bs : List ptr) :
    sum_length (b :: bs) = b._len + sum_length bs := by
  simp [sum_length, ptr.length]

@[simp] theorem sum_length_append (as bs : List ptr) :
    sum_length (as ++ bs) = sum_length as + sum_length bs := by
  simp [sum_length]

theorem len_ok_push_back (l : list) (bp : ptr) (hl : l.len_ok) : (l.push_back bp).len_ok := by
  unfold len_ok at *
  simp only [push_back, sum_length_append, sum_length_cons, sum_length_nil, ptr.length]
  rw [hl]; unfold u32; omega

theorem len_ok_push_front (l : list) (bp : ptr) (hl : l.len_ok) : (l.push_front bp).len_ok := by
  unfold len_ok at *
  simp only [push_front, sum_length_cons, ptr.length]
  rw [hl]; unfold u32; omega

theorem len_ok_append_list (l bl : list) (hl : l.len_ok) (hb : bl.len_ok) :
    (l.append_list bl).len_ok := by
  unfold len_ok at *
  simp only [append_list, sum_length_append]
  rw [hl, hb]; unfold u32; omega

theorem len_ok_clear (l : list) : l.clear.len_ok := by
  simp [len_ok, clear, u32]

theorem len_ok_append_sub {l : list} {bp : ptr} {off len : Nat} {l1 : list}
    (hl : l.len_ok) (h : l.append_sub bp off len = some l1) : l1.len_ok := by
  unfold append_sub at h
  split at h
  · split at h
    · simp at h
    · simp only [Option.some.injEq] at h
      subst h
      exact len_ok_push_back _ _ hl
  · simp at h

theorem skip_eq : ∀ (bs : List ptr) (off : Nat) (pre rest : List ptr) (o : Nat),
    skip bs off = some (pre, rest, o) → bs = pre ++ rest
  | bs, 0, pre, rest, o, h => by
    simp only [skip, Option.some.injEq, Prod.mk.injEq] at h
    obtain ⟨h1, h2, _⟩ := h
    subst h1 h2; rfl
  | [], _ + 1, pre, rest, o, h => by simp [skip] at h
  | b :: bs, off + 1, pre, rest, o, h => by
    simp only [skip] at h
    split at h
    · split at h
      · simp at h
      · rename_i pre1 rest1 o1 heq
        simp only [Option.some.injEq, Prod.mk.injEq] at h
        obtain ⟨h1, h2, _⟩ := h
        subst h1 h2
        have := skip_eq bs _ _ _ _ heq
        simp [this]
    · simp only [Option.some.injEq, Prod.mk.injEq] at h
      obtain ⟨h1, h2, _⟩ := h
      subst h1 h2; rfl

end list

namespace list

theorem substr_loop_len : ∀ (rest : List ptr) (off len : Nat) (acc : List ptr) (clen : Nat)
    (bs : List ptr) (clen1 : Nat),
    substr_loop rest off len acc clen = some (bs, clen1) →
    clen = u32 (sum_length acc) → clen1 = u32 (sum_length bs)
  | _, _, 0, acc, clen, bs, clen1, h, hc => by
    simp only [substr_loop, Option.some.injEq, Prod.mk.injEq] at h
    obtain ⟨h1, h2⟩ := h
    subst h1 h2; exact hc
  | [], _, _ + 1, _, _, _, _, h, _ => by simp [substr_loop] at h
  | b :: rest, off, len + 1, acc, clen, bs, clen1, h, hc => by
    simp only [substr_loop] at h
    split at h
    · split at h
      · simp at h
      · rename_i v hv
        simp only [Option.some.injEq, Prod.mk.injEq] at h
        obtain ⟨h1, h2⟩ := h
        subst h1 h2
        have hvl : v._len = len + 1 := by
          unfold ptr.sub at hv
          split at hv
          · split at hv
            · simp at hv
            · simp only [Option.some.injEq] at hv
              subst hv; rfl
          · simp at hv
        simp only [sum_length_append, sum_length_cons, sum_length_nil, hvl]
        rw [hc]; unfold u32; omega
    · split at h
      · simp at h
      · rename_i v hv
        have hvl : v._len = usub b.length off := by
          unfold ptr.sub at hv
          split at hv
          · split at hv
            · simp at hv
            · simp only [Option.some.injEq] at hv
              subst hv; rfl
          · simp at hv
        refine substr_loop_len rest _ _ _ _ _ _ h ?_
        simp only [sum_length_append, sum_length_cons, sum_length_nil, hvl]
        rw [hc]; unfold u32; omega

theorem len_ok_substr_of {l other : list} {off len : Nat} {l1 : list}
    (h : l.substr_of other off len = some l1) : l1.len_ok := by
  unfold substr_of at h
  split at h
  · split at h
    · simp at h
    · split at h
      · simp at h
      · rename_i bs clen hs
        simp only [Option.some.injEq] at h
        subst h
        exact substr_loop_len _ _ _ _ _ _ _ hs (by simp [u32])
  · simp at h

theorem len_ok_claim_sub {c : Option list} {bp : ptr} {off len : Nat} {c1 : Option list}
    (hc : ∀ x, c = some x → x.len_ok) (h : claim_sub c bp off len = some c1) :
    ∀ x, c1 = some x → x.len_ok := by
  unfold claim_sub at h
  split at h
  · simp only [Option.some.injEq] at h
    subst h; intro x hx; simp at hx
  · rename_i c0
    split at h
    · simp at h
    · rename_i c2 hc2
      simp only [Option.some.injEq] at h
      subst h
      intro x hx
      simp only [Option.some.injEq] at hx
      subst hx
      exact len_ok_append_sub (hc c0 rfl) hc2

theorem splice_loop_len : ∀ (rest : List ptr) (off len clen : Nat) (c : Option list)
    (rest1 : List ptr) (clen1 : Nat) (c1 : Option list) (S : Nat),
    splice_loop rest off len clen c = some (rest1, clen1, c1) →
    clen = u32 (S + sum_length rest) → (∀ x, c = some x → x.len_ok) →
    clen1 = u32 (S + sum_length rest1) ∧ (∀ x, c1 = some x → x.len_ok)
  | rest, _, 0, clen, c, rest1, clen1, c1, S, h, hc, hx => by
    simp only [splice_loop, Option.some.injEq, Prod.mk.injEq] at h
    obtain ⟨h1, h2, h3⟩ := h
    subst h1 h2 h3
    exact ⟨hc, hx⟩
  | [], _, _ + 1, _, _, _, _, _, _, h, _, _ => by simp [splice_loop] at h
  | b :: rest, off, len + 1, clen, c, rest1, clen1, c1, S, h, hc, hx => by
    simp only [splice_loop] at h
    split at h
    · rename_i hlt
      split at h
      · simp at h
      · rename_i c2 hc2
        simp only [Option.some.injEq, Prod.mk.injEq] at h
        obtain ⟨h1, h2, h3⟩ := h
        subst h1 h2 h3
        refine ⟨?_, len_ok_claim_sub hx hc2⟩
        simp only [sum_length_cons, ptr.set_length, ptr.set_offset, ptr.length] at *
        rw [hc]
        unfold usub u32 at *
        omega
    · split at h
      · simp at h
      · rename_i c2 hc2
        refine splice_loop_len rest _ _ _ _ _ _ _ S h ?_ (len_ok_claim_sub hx hc2)
        simp only [sum_length_cons, ptr.length] at *
        rw [hc]
        unfold usub u32 at *
        omega

end list

namespace list

theorem ptr_sub_len {p : ptr} {o l : Nat} {v : ptr} (h : p.sub o l = some v) : v._len = l := by
  unfold ptr.sub at h
  split at h
  · split at h
    · simp at h
    · simp only [Option.some.injEq] at h
      subst h; rfl
  · simp at h

theorem len_ok_splice {l : list} {off len : Nat} {c : Option list} {l1 : list} {c1 : Option list}
    (hl : l.len_ok) (hx : ∀ x, c = some x → x.len_ok) (h : l.splice off len c = some (l1, c1)) :
    l1.len_ok ∧ (∀ x, c1 = some x → x.len_ok) := by
  unfold splice at h
  split at h
  · split at h
    · simp at h
    · rename_i pre rest o hs
      have hb := skip_eq _ _ _ _ _ hs
      simp only at h
      split at h
      · simp at h
      · rename_i ins clen hf
        split at h
        · simp at h
        · rename_i rest1 clen1 c2 hsp
          simp only [Option.some.injEq, Prod.mk.injEq] at h
          obtain ⟨h1, h2⟩ := h
          subst h1 h2
          unfold len_ok at hl
          have key : clen = u32 (sum_length pre + sum_length ins + sum_length rest) := by
            split at hf
            · split at hf
              · simp at hf
              · split at hf
                · simp at hf
                · rename_i v hv
                  simp only [Option.some.injEq, Prod.mk.injEq] at hf
                  obtain ⟨h1, h2⟩ := hf
                  subst h1 h2
                  have := ptr_sub_len hv
                  simp only [sum_length_cons, sum_length_nil, this]
                  rw [hl, hb]
                  simp only [sum_length_append, sum_length_cons]
                  unfold u32; omega
            · simp only [Option.some.injEq, Prod.mk.injEq] at hf
              obtain ⟨h1, h2⟩ := hf
              subst h1 h2
              rw [hl, hb]
              simp
          have := splice_loop_len _ _ _ _ _ _ _ _ _ hsp key hx
          refine ⟨?_, this.2⟩
          unfold len_ok
          simp only [sum_length_append]
          exact this.1
  · simp at h

theorem len_ok_append_fill {h : Heap} {l : list} {data : List Byte} {n : Nat} {h1 : Heap}
    {l1 : list} {data1 : List Byte} {n1 : Nat} (hl : l.len_ok)
    (he : append_fill h l data n = some (h1, l1, data1, n1)) : l1.len_ok := by
  unfold append_fill at he
  simp only at he
  split at he
  · split at he
    · simp at he
    · split at he
      · simp at he
      · rename_i l3 hl3
        simp only [Option.some.injEq, Prod.mk.injEq] at he
        obtain ⟨_, h3, _, _⟩ := he
        subst h3
        exact len_ok_append_sub (by unfold len_ok at *; exact hl) hl3
  · simp only [Option.some.injEq, Prod.mk.injEq] at he
    obtain ⟨_, h3, _, _⟩ := he
    subst h3; exact hl

theorem len_ok_append_grow {h : Heap} {l : list} {n : Nat} {h1 : Heap} {l1 : list}
    (hl : l.len_ok) (he : append_grow h l n = some (h1, l1)) : l1.len_ok := by
  unfold append_grow at he
  simp only at he
  split at he
  · simp at he
  · simp only [Option.some.injEq, Prod.mk.injEq] at he
    obtain ⟨_, h3⟩ := he
    subst h3
    unfold len_ok at *; exact hl

theorem len_ok_append : ∀ (fuel : Nat) (h : Heap) (l : list) (data : List Byte) (n : Nat)
    (h1 : Heap) (l1 : list), l.len_ok → append fuel h l data n = some (h1, l1) → l1.len_ok
  | 0, _, _, _, _, _, _, _, he => by simp [append] at he
  | fuel + 1, h, l, data, n, h1, l1, hl, he => by
    simp only [append] at he
    split at he
    · simp only [Option.some.injEq, Prod.mk.injEq] at he
      obtain ⟨_, h2⟩ := he
      subst h2; exact hl
    · split at he
      · simp at he
      · rename_i h2 l2 data2 len2 hf
        have hl2 : l2.len_ok := len_ok_append_fill hl hf
        split at he
        · simp only [Option.some.injEq, Prod.mk.injEq] at he
          obtain ⟨_, h3⟩ := he
          subst h3; exact hl2
        · split at he
          · simp at he
          · rename_i h3 l3 hg
            exact len_ok_append fuel _ _ _ _ _ _ (len_ok_append_grow hl2 hg) he

theorem reachable_len_ok {l : list} (h : Reachable l) : l.len_ok := by
  induction h with
  | empty => simp [len_ok, empty, u32]
  | append fuel h l data n h1 l1 _ he ih => exact len_ok_append _ _ _ _ _ _ _ ih he
  | append_ptr l bp _ ih => exact len_ok_push_back _ _ ih
  | append_sub l bp off len l1 _ he ih => exact len_ok_append_sub ih he
  | append_list l bl _ _ ih1 ih2 => exact len_ok_append_list _ _ ih1 ih2
  | push_front l bp _ ih => exact len_ok_push_front _ _ ih
  | push_back l bp _ ih => exact len_ok_push_back _ _ ih
  | claim_append l bl _ _ ih1 ih2 => exact len_ok_append_list _ _ ih1 ih2
  | claim_append_src l bl _ _ _ _ => simp [len_ok, claim_append, u32]
  | claim l bl _ _ _ ih2 => exact len_ok_append_list _ _ (len_ok_clear _) ih2
  | claim_src l bl _ _ _ _ => simp [len_ok, claim, claim_append, u32]
  | splice l off len l1 c1 _ _ he ih => exact (len_ok_splice ih (by simp) he).1
  | splice_claim l c off len l1 c1 _ _ _ he ih1 ih2 =>
    exact (len_ok_splice ih1 (by intro x hx; simp at hx; subst hx; exact ih2) he).1
  | splice_claimed l c off len l1 c1 _ _ _ he ih1 ih2 =>
    exact (len_ok_splice ih1 (by intro x hx; simp at hx; subst hx; exact ih2) he).2 _ rfl
  | substr_of l other off len l1 _ _ _ he _ _ => exact len_ok_substr_of he
  | clear l _ _ => exact len_ok_clear _

end list

/-- C1 (as amended): for every list reached from the empty list by the operations of a
buffer list, the cached `length()` equals the sum of the lengths of the member views
modulo 2^32, and so equals that sum whenever the sum is below 2^32. -/
theorem length_invariant (l : list) (h : Reachable l) :
    l.length = u32 (list.sum_length l._buffers) ∧
    (list.sum_length l._buffers < 4294967296 → l.length = list.sum_length l._buffers) := by
  have := list.reachable_len_ok h
  unfold list.len_ok at this
  refine ⟨this, fun hlt => ?_⟩
  unfold list.length
  rw [this]
  unfold u32
  omega

theorem small_list_reachable : Reachable small_list := by
  have h0 : list.append 3 [] list.empty [1, 2, 3] 3 =
      some ([{ data := _, len := 4096 }], ⟨[⟨some 0, 0, 3⟩], 3, ⟨some 0, 0, 3⟩⟩) := rfl
  have h1 : Reachable (⟨[⟨some 0, 0, 3⟩], 3, ⟨some 0, 0, 3⟩⟩ : list) :=
    Reachable.append 3 [] list.empty [1, 2, 3] 3 _ _ Reachable.empty h0
  exact Reachable.splice _ 1 1 small_list none h1 (by decide) (by decide)

/-- C1, an instance: `length_invariant` on a list built by `append` and `splice`. -/
theorem length_invariant_witness :
    Reachable small_list ∧ small_list.length = u32 (list.sum_length small_list._buffers) ∧
    (list.sum_length small_list._buffers < 4294967296 →
      small_list.length = list.sum_length small_list._buffers) :=
  ⟨small_list_reachable, length_invariant small_list small_list_reachable⟩

/-- C1 as stated fails: two views of 2^31 bytes pushed onto an empty list leave the cached
length at 0, and the lengths of the views sum to 2^32. -/
theorem length_invariant_wraps :
    Reachable wrapped_list ∧ wrapped_list.length = 0 ∧
    list.sum_length wrapped_list._buffers = 4294967296 ∧
    wrapped_list.length ≠ list.sum_length wrapped_list._buffers :=
  ⟨Reachable.push_back _ _ (Reachable.push_back _ _ Reachable.empty), by decide, by decide,
    by decide⟩

theorem raw.read_length (r : raw) (pos n : Nat) : (r.read pos n).length = n := by
  simp [raw.read]

theorem raw.read_drop (r : raw) (pos n o : Nat) :
    (r.read pos n).drop o = r.read (pos + o) (n - o) := by
  apply List.ext_getElem
  · simp [raw.read]
  · intro i h1 h2
    simp [raw.read, Nat.add_assoc]

theorem raw.read_take (r : raw) (pos n l : Nat) (h : l ≤ n) :
    (r.read pos n).take l = r.read pos l := by
  apply List.ext_getElem
  · simp [raw.read]; omega
  · intro i h1 h2
    simp [raw.read]

theorem raw.read_append (r : raw) (pos a b : Nat) :
    r.read pos (a + b) = r.read pos a ++ r.read (pos + a) b := by
  apply List.ext_getElem
  · simp [raw.read]
  · intro i h1 h2
    simp only [raw.read, List.getElem_map, List.getElem_range, List.getElem_append]
    split
    · simp
    · simp [raw.read_length] ; congr 1; simp [raw.read] at *; omega

theorem u32_of_lt {n : Nat} (h : n < 4294967296) : u32 n = n := by
  unfold u32; omega

theorem usub_of_le {a b : Nat} (h : b ≤ a) (ha : a < 4294967296) : usub a b = a - b := by
  unfold usub u32; omega

theorem ptr.valid_len_lt {h : Heap} {p : ptr} (hv : p.valid h) :
    p._off + p._len < 4294967296 := by
  unfold ptr.valid at hv
  split at hv
  · exact hv.elim
  · split at hv
    · exact hv.elim
    · omega

theorem ptr.bytes_length {h : Heap} {p : ptr} (hv : p.valid h) : (p.bytes h).length = p._len := by
  unfold ptr.valid at hv
  unfold ptr.bytes
  split at hv
  · exact hv.elim
  · split at hv
    · exact hv.elim
    · simp [*, raw.read_length]

/-- A window of a valid view is a valid view, and shows the window of the bytes. -/
theorem ptr.sub_spec {h : Heap} {p : ptr} (hv : p.valid h) (o l : Nat) (hol : o + l ≤ p._len) :
    ∃ v, p.sub o l = some v ∧ v.valid h ∧ v._len = l ∧ v._raw = p._raw ∧ v._off = p._off + o ∧
      v.bytes h = ((p.bytes h).drop o).take l := by
  have hlt := ptr.valid_len_lt hv
  unfold ptr.valid at hv
  split at hv
  · exact hv.elim
  · rename_i r hr
    split at hv
    · exact hv.elim
    · rename_i rw hrw
      refine ⟨{ _raw := some r, _off := p._off + o, _len := l }, ?_, ?_, rfl, hr.symm, rfl, ?_⟩
      · unfold ptr.sub
        rw [u32_of_lt (by omega), u32_of_lt (by omega), hr]
        simp [hol]
      · unfold ptr.valid
        simp only [hrw]
        omega
      · unfold ptr.bytes
        simp only [hr, hrw, raw.read_drop]
        rw [raw.read_take _ _ _ _ (by omega)]

namespace list

/-- The bytes of a sequence of views. -/
theorem views_bytes_length {h : Heap} : ∀ {bs : List ptr}, (∀ p ∈ bs, p.valid h) →
    (bs.flatMap (ptr.bytes h)).length = sum_length bs
  | [], _ => by simp
  | b :: bs, hv => by
    have h1 := ptr.bytes_length (hv b (by simp))
    have h2 := @views_bytes_length h bs (fun p hp => hv p (by simp [hp]))
    simp [h1, h2]

theorem skip_spec {h : Heap} : ∀ (bs : List ptr) (off : Nat), (∀ p ∈ bs, p.valid h) →
    off ≤ sum_length bs → off < 4294967296 →
    ∃ pre rest o, skip bs off = some (pre, rest, o) ∧ bs = pre ++ rest ∧
      sum_length pre + o = off ∧ (o ≠ 0 → ∃ b rest1, rest = b :: rest1 ∧ o < b._len)
  | bs, 0, _, _, _ => ⟨[], bs, 0, by simp [skip], by simp, by simp, by simp⟩
  | [], off + 1, _, hle, _ => by simp at hle
  | b :: bs, off + 1, hv, hle, hlt => by
    have hb := ptr.valid_len_lt (hv b (by simp))
    simp only [skip, ptr.length]
    by_cases hge : off + 1 ≥ b._len
    · simp only [hge, if_true]
      rw [usub_of_le hge hlt]
      simp only [sum_length_cons] at hle
      obtain ⟨pre, rest, o, h1, h2, h3, h4⟩ :=
        skip_spec bs (off + 1 - b._len) (fun p hp => hv p (by simp [hp])) (by omega) (by omega)
      refine ⟨b :: pre, rest, o, by simp [h1], by simp [h2], ?_, h4⟩
      simp only [sum_length_cons]
      clear h4
      omega
    · simp only [hge, if_false]
      exact ⟨[], b :: bs, off + 1, rfl, by simp, by simp, fun _ => ⟨b, bs, rfl, by omega⟩⟩

end list

namespace list

theorem claim_sub_spec {h : Heap} (c : Option list) {b : ptr} (hv : b.valid h) (o l : Nat)
    (hol : o + l ≤ b._len) :
    ∃ v, b.sub o l = some v ∧ v.valid h ∧ v.bytes h = ((b.bytes h).drop o).take l ∧
      claim_sub c b o l = some (c.map (fun x => x.push_back v)) := by
  obtain ⟨v, h1, h2, _, _, _, h3⟩ := ptr.sub_spec hv o l hol
  have hlt := ptr.valid_len_lt hv
  refine ⟨v, h1, h2, h3, ?_⟩
  cases c with
  | none => simp [claim_sub]
  | some x =>
    have : u32 (l + o) ≤ b.length := by
      rw [u32_of_lt (by omega)]; unfold ptr.length; omega
    simp [claim_sub, append_sub, h1, this]

/-- Dropping the first `k` bytes of a valid view by `set_offset` and `set_length`. -/
theorem shrink_spec {h : Heap} {b : ptr} (hv : b.valid h) (k : Nat) (hk : k ≤ b._len) :
    ptr.valid h { _raw := b._raw, _off := b._off + k, _len := b._len - k } ∧
    ptr.bytes h { _raw := b._raw, _off := b._off + k, _len := b._len - k } =
      (b.bytes h).drop k := by
  unfold ptr.valid at hv ⊢
  unfold ptr.bytes
  split at hv
  · exact hv.elim
  · rename_i r hr
    split at hv
    · exact hv.elim
    · rename_i rw hrw
      constructor
      · simp only [hr, hrw]; omega
      · simp only [hr, hrw, raw.read_drop]

theorem splice_loop_spec {h : Heap} : ∀ (rest : List ptr) (off len clen : Nat) (c : Option list),
    (∀ p ∈ rest, p.valid h) → off + len ≤ sum_length rest → off + len < 4294967296 →
    (len = 0 → off = 0) → (∀ b bs, rest = b :: bs → off ≤ b._len) →
    ∃ (rest1 : List ptr) (clen1 : Nat) (cb : List ptr),
      splice_loop rest off len clen c =
        some (rest1, clen1, c.map (fun x => cb.foldl push_back x)) ∧
      (∀ p ∈ rest1, p.valid h) ∧ (∀ p ∈ cb, p.valid h) ∧
      rest1.flatMap (ptr.bytes h) = (rest.flatMap (ptr.bytes h)).drop (off + len) ∧
      cb.flatMap (ptr.bytes h) = ((rest.flatMap (ptr.bytes h)).drop off).take len
  | rest, off, 0, clen, c, hv, _, _, h0, _ => by
    have : off = 0 := h0 rfl
    subst this
    exact ⟨rest, clen, [], by simp [splice_loop], hv, by simp, by simp, by simp⟩
  | [], off, len + 1, _, _, _, hle, _, _, _ => by simp at hle
  | b :: bs, off, len + 1, clen, c, hv, hle, hlt, _, hoff => by
    have hvb := hv b (by simp)
    have hvbs : ∀ p ∈ bs, p.valid h := fun p hp => hv p (by simp [hp])
    have hb := ptr.valid_len_lt hvb
    have hbl := ptr.bytes_length hvb
    have hbsl := views_bytes_length hvbs
    have hob : off ≤ b._len := hoff b bs rfl
    simp only [sum_length_cons] at hle
    simp only [splice_loop, ptr.length]
    rw [u32_of_lt hlt]
    by_cases hp : off + (len + 1) < b._len
    · simp only [hp, if_true]
      obtain ⟨v, _, hvv, hvb2, hcl⟩ := claim_sub_spec c hvb off (len + 1) (by omega)
      rw [hcl]
      have hsh := shrink_spec hvb (off + (len + 1)) (by omega)
      have hb2 : (b.set_offset (u32 (off + (len + 1) + b.offset))).set_length
          (usub (b.set_offset (u32 (off + (len + 1) + b.offset)))._len (u32 (len + 1 + off))) =
          { _raw := b._raw, _off := b._off + (off + (len + 1)), _len := b._len - (off + (len + 1)) } := by
        simp only [ptr.set_length, ptr.set_offset, ptr.offset]
        rw [u32_of_lt (by omega), u32_of_lt (by omega), usub_of_le (by omega) (by omega)]
        congr 1
        · omega
        · omega
      refine ⟨_, _, [v], rfl, ?_, by simpa using hvv, ?_, ?_⟩
      · intro p hp1
        simp only [List.mem_cons] at hp1
        rcases hp1 with hp1 | hp1
        · subst hp1
          rw [hb2]; exact hsh.1
        · exact hvbs p hp1
      · simp only [List.flatMap_cons]
        rw [hb2, hsh.2, List.drop_append_of_le_length (by omega)]
      · simp only [List.flatMap_cons, List.flatMap_nil, List.append_nil, hvb2]
        rw [List.drop_append_of_le_length (by omega),
          List.take_append_of_le_length (by simp; omega)]
    · simp only [hp, if_false]
      rw [usub_of_le hob (by omega)]
      obtain ⟨v, _, hvv, hvb2, hcl⟩ := claim_sub_spec c hvb off (b._len - off) (by omega)
      rw [hcl]
      simp only
      rw [usub_of_le (by omega) (by omega)]
      obtain ⟨rest1, clen1, cb, h1, h2, h3, h4, h5⟩ :=
        splice_loop_spec bs 0 (len + 1 - (b._len - off)) (usub clen b._len)
          (c.map (fun x => x.push_back v)) hvbs (by omega) (by omega) (by simp)
          (by intros; omega)
      refine ⟨rest1, clen1, v :: cb, ?_, h2, ?_, ?_, ?_⟩
      · rw [h1]; simp [Option.map_map, Function.comp_def]
      · intro p hp1
        simp only [List.mem_cons] at hp1
        rcases hp1 with hp1 | hp1
        · subst hp1; exact hvv
        · exact h3 p hp1
      · rw [h4]
        simp only [List.flatMap_cons, Nat.zero_add]
        have e0 : (ptr.bytes h b).length ≤ off + (len + 1) := by omega
        rw [List.drop_append_eq_append_drop, List.drop_eq_nil_of_le e0]
        simp only [List.nil_append, hbl]
        congr 1
        omega
      · simp only [List.flatMap_cons, h5, hvb2, List.drop_zero]
        have e1 : List.take (b._len - off) (List.drop off (ptr.bytes h b)) =
            List.drop off (ptr.bytes h b) := List.take_of_length_le (by simp [hbl])
        have e2 : off ≤ (ptr.bytes h b).length := by omega
        have e3 : (List.drop off (ptr.bytes h b)).length ≤ len + 1 := by
          simp only [List.length_drop, hbl]; omega
        rw [e1, List.drop_append_of_le_length e2, List.take_append_eq_append_take,
          List.take_of_length_le e3]
        simp only [List.length_drop, hbl]

end list

namespace list

theorem foldl_push_back_buffers : ∀ (cb : List ptr) (x : list),
    (cb.foldl push_back x)._buffers = x._buffers ++ cb
  | [], x => by simp
  | v :: cb, x => by
    simp only [List.foldl_cons]
    rw [foldl_push_back_buffers cb]
    simp [push_back]

theorem u32_sum_le (n : Nat) : u32 n ≤ n ∧ u32 n < 4294967296 := by
  unfold u32; omega

theorem splice_spec (h : Heap) (l c : list) (off len : Nat) (hl : l.valid h)
    (hc : c._buffers = [] ∧ c._len = 0) (hlen : 0 < len) (hol : off + len ≤ l.length) :
    ∃ l1 c1, l.splice off len (some c) = some (l1, some c1) ∧
      c1.length + l1.length = l.length ∧
      c1.content h = ((l.content h).drop off).take len ∧
      l1.content h = (l.content h).take off ++ (l.content h).drop (off + len) := by
  obtain ⟨hlo, hv⟩ := hl
  have hlo' := hlo
  unfold len_ok at hlo'
  unfold length at hol ⊢
  have hS := u32_sum_le (sum_length l._buffers)
  obtain ⟨pre, rest, o, hsk, hbs, hsum, hhead⟩ :=
    skip_spec (h := h) l._buffers off hv (by omega) (by omega)
  have hvpre : ∀ p ∈ pre, p.valid h := fun p hp => hv p (by rw [hbs]; simp [hp])
  have hvrest : ∀ p ∈ rest, p.valid h := fun p hp => hv p (by rw [hbs]; simp [hp])
  have hSplit : sum_length l._buffers = sum_length pre + sum_length rest := by
    rw [hbs]; simp
  have hpl := views_bytes_length hvpre
  have hrl := views_bytes_length hvrest
  -- the head that is kept
  have hfront : ∃ (ins : List ptr) (clen : Nat),
      (if o ≠ 0 then
        match rest with
        | [] => none
        | b :: _ =>
          match b.sub 0 o with
          | none => none
          | some v => some ([v], u32 (l._len + o))
      else some ([], l._len)) = some (ins, clen) ∧ (∀ p ∈ ins, p.valid h) ∧
      ins.flatMap (ptr.bytes h) = (rest.flatMap (ptr.bytes h)).take o := by
    by_cases ho : o = 0
    · subst ho
      exact ⟨[], l._len, by simp, by simp, by simp⟩
    · obtain ⟨b, rest1, hr, hob⟩ := hhead ho
      subst hr
      have hvb := hvrest b (by simp)
      obtain ⟨v, h1, h2, _, _, _, h3⟩ := ptr.sub_spec hvb 0 o (by omega)
      refine ⟨[v], u32 (l._len + o), by simp [ho, h1], by simpa using h2, ?_⟩
      have hbl := ptr.bytes_length hvb
      have e : o ≤ (ptr.bytes h b).length := by omega
      simp only [List.flatMap_cons, List.flatMap_nil, List.append_nil, h3, List.drop_zero]
      rw [List.take_append_of_le_length e]
  obtain ⟨ins, clen, hfr, hvins, hib⟩ := hfront
  obtain ⟨rest1, clen1, cb, hsp, hvr1, hvcb, hr1b, hcbb⟩ :=
    splice_loop_spec (h := h) rest o len clen (some c) hvrest (by omega) (by omega)
      (by omega) (by
        intro b bs hr
        by_cases ho : o = 0
        · omega
        · obtain ⟨b1, rest2, hr2, hob⟩ := hhead ho
          rw [hr] at hr2
          simp only [List.cons.injEq] at hr2
          rw [hr2.1]; omega)
  have hres : l.splice off len (some c) =
      some ({ l with _buffers := pre ++ ins ++ rest1, _len := clen1 },
        some (cb.foldl push_back c)) := by
    unfold splice
    have : off < l.length ∧ len > 0 := by unfold length; omega
    simp only [this, and_self, if_true, hsk, hfr, hsp, Option.map_some']
  have hok := len_ok_splice hlo (c := some c)
    (by intro x hx; simp at hx; subst hx; simp [len_ok, hc.1, hc.2, u32]) hres
  have hl1 := hok.1
  have hc1 := hok.2 _ rfl
  unfold len_ok at hl1 hc1
  simp only [foldl_push_back_buffers, hc.1, List.nil_append] at hc1
  have hcbl := views_bytes_length hvcb
  have hr1l := views_bytes_length hvr1
  have hil := views_bytes_length hvins
  rw [hcbb] at hcbl
  rw [hr1b] at hr1l
  rw [hib] at hil
  simp only [List.length_take, List.length_drop, hrl] at hcbl hr1l hil
  simp only [sum_length_append] at hl1
  have e1 : (pre.flatMap (ptr.bytes h)).length ≤ off := by omega
  refine ⟨_, _, hres, ?_, ?_, ?_⟩
  · simp only [hc1, hl1, hlo']
    rw [hSplit] at hS ⊢
    unfold u32 at *
    omega
  · simp only [content, foldl_push_back_buffers, hc.1, List.nil_append, hcbb]
    rw [hbs, List.flatMap_append, List.drop_append_eq_append_drop,
      List.drop_eq_nil_of_le e1]
    simp only [List.nil_append, hpl]
    congr 2
    omega
  · have e2 : (pre.flatMap (ptr.bytes h)).length ≤ off + len := by omega
    simp only [content, List.flatMap_append, hib, hr1b]
    rw [hbs, List.flatMap_append, List.take_append_eq_append_take,
      List.take_of_length_le e1, List.drop_append_eq_append_drop,
      List.drop_eq_nil_of_le e2]
    simp only [List.nil_append, hpl, List.append_assoc]
    congr 2
    · congr 1; omega
    · congr 1; omega

end list

namespace list

theorem substr_loop_spec {h : Heap} : ∀ (rest : List ptr) (off len : Nat) (acc : List ptr)
    (clen : Nat), (∀ p ∈ rest, p.valid h) → off + len ≤ sum_length rest →
    off + len < 4294967296 → (∀ b bs, rest = b :: bs → off ≤ b._len) →
    ∃ (vs : List ptr) (clen1 : Nat),
      substr_loop rest off len acc clen = some (acc ++ vs, clen1) ∧
      (∀ p ∈ vs, p.valid h) ∧
      vs.flatMap (ptr.bytes h) = ((rest.flatMap (ptr.bytes h)).drop off).take len ∧
      (∀ v ∈ vs, ∃ p ∈ rest, v._raw = p._raw ∧ p._off ≤ v._off ∧
        v._off + v._len ≤ p._off + p._len) ∧
      (len = 0 → vs = [])
  | rest, off, 0, acc, clen, _, _, _, _ =>
    ⟨[], clen, by simp [substr_loop], by simp, by simp, by simp, by simp⟩
  | [], off, len + 1, _, _, _, hle, _, _ => by simp at hle
  | b :: bs, off, len + 1, acc, clen, hv, hle, hlt, hoff => by
    have hvb := hv b (by simp)
    have hvbs : ∀ p ∈ bs, p.valid h := fun p hp => hv p (by simp [hp])
    have hb := ptr.valid_len_lt hvb
    have hbl := ptr.bytes_length hvb
    have hbsl := views_bytes_length hvbs
    have hob : off ≤ b._len := hoff b bs rfl
    simp only [sum_length_cons] at hle
    simp only [substr_loop, ptr.length]
    rw [u32_of_lt hlt]
    by_cases hp : off + (len + 1) < b._len
    · simp only [hp, if_true]
      obtain ⟨v, h1, h2, h3, h4, h5, h6⟩ := ptr.sub_spec hvb off (len + 1) (by omega)
      rw [h1]
      have e1 : off ≤ (ptr.bytes h b).length := by omega
      have e2 : len + 1 ≤ (List.drop off (ptr.bytes h b)).length := by
        simp only [List.length_drop, hbl]; omega
      refine ⟨[v], _, rfl, by simpa using h2, ?_, ?_, by simp⟩
      · simp only [List.flatMap_cons, List.flatMap_nil, List.append_nil, h6]
        rw [List.drop_append_of_le_length e1, List.take_append_of_le_length e2]
      · intro w hw
        simp only [List.mem_singleton] at hw
        subst hw
        exact ⟨b, by simp, h4, by omega, by omega⟩
    · simp only [hp, if_false]
      rw [usub_of_le hob (by omega)]
      obtain ⟨v, h1, h2, h3, h4, h5, h6⟩ := ptr.sub_spec hvb off (b._len - off) (by omega)
      rw [h1]
      simp only
      rw [usub_of_le (by omega) (by omega)]
      obtain ⟨vs, clen1, g1, g2, g3, g4, _⟩ :=
        substr_loop_spec bs 0 (len + 1 - (b._len - off)) (acc ++ [v])
          (u32 (clen + (b._len - off))) hvbs (by omega) (by omega) (by intros; omega)
      refine ⟨v :: vs, clen1, by rw [g1]; simp, ?_, ?_, ?_, by simp⟩
      · intro p hp1
        simp only [List.mem_cons] at hp1
        rcases hp1 with hp1 | hp1
        · subst hp1; exact h2
        · exact g2 p hp1
      · simp only [List.flatMap_cons, g3, h6, List.drop_zero]
        have e1 : List.take (b._len - off) (List.drop off (ptr.bytes h b)) =
            List.drop off (ptr.bytes h b) := List.take_of_length_le (by simp [hbl])
        have e2 : off ≤ (ptr.bytes h b).length := by omega
        have e3 : (List.drop off (ptr.bytes h b)).length ≤ len + 1 := by
          simp only [List.length_drop, hbl]; omega
        rw [e1, List.drop_append_of_le_length e2, List.take_append_eq_append_take,
          List.take_of_length_le e3]
        simp only [List.length_drop, hbl]
      · intro w hw
        simp only [List.mem_cons] at hw
        rcases hw with hw | hw
        · subst hw
          exact ⟨b, by simp, h4, by omega, by omega⟩
        · obtain ⟨p, hp1, hp2⟩ := g4 w hw
          exact ⟨p, by simp [hp1], hp2⟩

theorem substr_of_spec (h : Heap) (l other : list) (off len : Nat) (ho : other.valid h)
    (hol : off + len ≤ other.length) :
    ∃ l1, l.substr_of other off len = some l1 ∧
      l1.content h = ((other.content h).drop off).take len ∧
      l1.length = len ∧
      (∀ v ∈ l1._buffers, v.valid h ∧ ∃ p ∈ other._buffers, v._raw = p._raw ∧
        p._off ≤ v._off ∧ v._off + v._len ≤ p._off + p._len) ∧
      (len = 0 → l1._buffers = []) ∧ l1.append_buffer = l.append_buffer := by
  obtain ⟨hlo, hv⟩ := ho
  unfold len_ok at hlo
  unfold length at hol
  have hS := u32_sum_le (sum_length other._buffers)
  obtain ⟨pre, rest, o, hsk, hbs, hsum, hhead⟩ :=
    skip_spec (h := h) other._buffers off hv (by omega) (by omega)
  have hvpre : ∀ p ∈ pre, p.valid h := fun p hp => hv p (by rw [hbs]; simp [hp])
  have hvrest : ∀ p ∈ rest, p.valid h := fun p hp => hv p (by rw [hbs]; simp [hp])
  have hSplit : sum_length other._buffers = sum_length pre + sum_length rest := by
    rw [hbs]; simp
  have hpl := views_bytes_length hvpre
  have hrl := views_bytes_length hvrest
  obtain ⟨vs, clen1, g1, g2, g3, g4, g5⟩ :=
    substr_loop_spec (h := h) rest o len [] 0 hvrest (by omega) (by omega) (by
      intro b bs hr
      by_cases ho : o = 0
      · omega
      · obtain ⟨b1, rest2, hr2, hob⟩ := hhead ho
        rw [hr] at hr2
        simp only [List.cons.injEq] at hr2
        rw [hr2.1]; omega)
  have hres : l.substr_of other off len =
      some { l with _buffers := vs, _len := clen1 } := by
    unfold substr_of
    have : u32 (off + len) ≤ other.length := by
      rw [u32_of_lt (by omega)]; unfold length; omega
    simp only [this, if_true, hsk, g1, List.nil_append]
  have hok := len_ok_substr_of hres
  unfold len_ok at hok
  simp only at hok
  have hvl := views_bytes_length g2
  rw [g3] at hvl
  simp only [List.length_take, List.length_drop, hrl] at hvl
  have e1 : (pre.flatMap (ptr.bytes h)).length ≤ off := by omega
  refine ⟨_, hres, ?_, ?_, ?_, g5, rfl⟩
  · simp only [content, g3]
    rw [hbs, List.flatMap_append, List.drop_append_eq_append_drop, List.drop_eq_nil_of_le e1]
    simp only [List.nil_append, hpl]
    congr 2
    omega
  · unfold length
    simp only [hok]
    unfold u32
    omega
  · intro v hv1
    refine ⟨g2 v hv1, ?_⟩
    obtain ⟨p, hp1, hp2⟩ := g4 v hv1
    exact ⟨p, by rw [hbs]; simp [hp1], hp2⟩

end list

/-- C2 (as amended): for every valid list, every `off` and every `len > 0` with
`off + len <= length()`, and a list `c` that is empty, `splice(off, len, &c)` returns, and
afterwards `c.length + list.length` is the original length, the bytes of `c` are
`original[off .. off+len)` and the bytes of the list are
`original[0 .. off) ++ original[off+len ..)`. -/
theorem splice_substring_complement (h : Heap) (l c : list) (off len : Nat)
    (hl : l.valid h) (hc : c._buffers = [] ∧ c._len = 0) (hlen : 0 < len)
    (hol : off + len ≤ l.length) :
    ∃ l1 c1, l.splice off len (some c) = some (l1, some c1) ∧
      c1.length + l1.length = l.length ∧
      c1.content h = ((l.content h).drop off).take len ∧
      l1.content h = (l.content h).take off ++ (l.content h).drop (off + len) :=
  list.splice_spec h l c off len hl hc hlen hol

/-- C2, an instance: two bytes spliced out of `list6` across its two views. -/
theorem splice_substring_complement_witness :
    list.valid heap6 list6 ∧ 0 < 2 ∧ 2 + 2 ≤ list6.length ∧
    ∃ l1 c1, list6.splice 2 2 (some list.empty) = some (l1, some c1) ∧
      c1.length + l1.length = list6.length ∧
      c1.content heap6 = ((list6.content heap6).drop 2).take 2 ∧
      l1.content heap6 = (list6.content heap6).take 2 ++ (list6.content heap6).drop (2 + 2) :=
  ⟨by decide, by decide, by decide,
    splice_substring_complement heap6 list6 list.empty 2 2 (by decide) ⟨rfl, rfl⟩ (by decide)
      (by decide)⟩

/-- C2 as stated fails: with `len == 0` (and `off + len <= length()`), `splice` stops at its
assertion `len > 0`; so it does on an empty list, at `off < length()`. -/
theorem splice_zero_length_aborts :
    list.valid heap6 list6 ∧ 1 + 0 ≤ list6.length ∧
    list6.splice 1 0 (some list.empty) = none ∧
    list.valid heap6 list.empty ∧ 0 + 0 ≤ list.empty.length ∧
    list.empty.splice 0 0 (some list.empty) = none :=
  ⟨by decide, by decide, by decide, by decide, by decide, by decide⟩

/-- C3 (as amended): for every list `other` that is valid (each of its views references a
raw and lies inside it, the cached length is right) and is not the list itself, and every
`off`, `len` with `off + len <= other.length()`, `substr_of(other, off, len)` returns; the
bytes of the new list are `other[off .. off+len)`, its length is `len`, each of its views
is a window of a view of `other` on the same raw, and with `len == 0` it has no views.
The operation takes no heap and returns only the new `this`: no byte is copied and `other`
is not changed. -/
theorem substr_of_round_trip (h : Heap) (l other : list) (off len : Nat)
    (ho : other.valid h) (hol : off + len ≤ other.length) :
    ∃ l1, l.substr_of other off len = some l1 ∧
      l1.content h = ((other.content h).drop off).take len ∧
      l1.length = len ∧
      (∀ v ∈ l1._buffers, v.valid h ∧ ∃ p ∈ other._buffers, v._raw = p._raw ∧
        p._off ≤ v._off ∧ v._off + v._len ≤ p._off + p._len) ∧
      (len = 0 → l1._buffers = []) ∧ l1.append_buffer = l.append_buffer :=
  list.substr_of_spec h l other off len ho hol

/-- C3, an instance: the substring `[2, 5)` of `list6`, across its two views. -/
theorem substr_of_round_trip_witness :
    list.valid heap6 list6 ∧ 2 + 3 ≤ list6.length ∧
    ∃ l1, list.empty.substr_of list6 2 3 = some l1 ∧
      l1.content heap6 = ((list6.content heap6).drop 2).take 3 ∧
      l1.length = 3 ∧
      (∀ v ∈ l1._buffers, v.valid heap6 ∧ ∃ p ∈ list6._buffers, v._raw = p._raw ∧
        p._off ≤ v._off ∧ v._off + v._len ≤ p._off + p._len) ∧
      (3 = 0 → l1._buffers = []) ∧ l1.append_buffer = list.empty.append_buffer :=
  ⟨by decide, by decide,
    substr_of_round_trip heap6 list.empty list6 2 3 (by decide) (by decide)⟩

theorem raw.read_write_same (r : raw) (pos : Nat) (src : List Byte) :
    (r.write pos src).read pos src.length = src := by
  apply List.ext_getElem
  · simp [raw.read]
  · intro i h1 h2
    simp only [raw.read, raw.write, List.getElem_map, List.getElem_range]
    have : pos ≤ pos + i ∧ pos + i < pos + src.length := by omega
    simp only [this, and_self, if_true, Nat.add_sub_cancel_left]
    exact List.getD_eq_getElem _ _ h2

theorem raw.read_write_other (r : raw) (pos : Nat) (src : List Byte) (p n : Nat)
    (hd : p + n ≤ pos ∨ pos + src.length ≤ p) :
    (r.write pos src).read p n = r.read p n := by
  apply List.ext_getElem
  · simp [raw.read]
  · intro i h1 h2
    simp only [raw.read, raw.write, List.getElem_map, List.getElem_range]
    simp only [raw.read, List.length_map, List.length_range] at h1
    have : ¬ (pos ≤ p + i ∧ p + i < pos + src.length) := by omega
    simp only [this, if_false]

theorem raw.read_congr (r r1 : raw) (p n : Nat) (hd : ∀ i, i < p + n → r1.data i = r.data i) :
    r1.read p n = r.read p n := by
  apply List.ext_getElem
  · simp [raw.read]
  · intro i h1 h2
    simp only [raw.read, List.getElem_map, List.getElem_range]
    simp only [raw.read, List.length_map, List.length_range] at h1
    exact hd _ (by omega)

theorem frame_refl (h : Heap) (ab : ptr) : frame h h ab :=
  ⟨Nat.le_refl _, fun _ rw hr => ⟨rw, hr, rfl, fun _ _ => rfl⟩⟩

/-- A valid view that does not look into the unpublished part of the arena shows the same
bytes after the arena was written. -/
theorem frame_view {h h1 : Heap} {ab p : ptr} (hf : frame h h1 ab) (hv : p.valid h)
    (hp : p._raw = ab._raw → p._off + p._len ≤ ab._len) :
    p.valid h1 ∧ p.bytes h1 = p.bytes h := by
  unfold ptr.valid at hv ⊢
  unfold ptr.bytes
  split at hv
  · exact hv.elim
  · rename_i r hr
    split at hv
    · exact hv.elim
    · rename_i rw hrw
      obtain ⟨rw1, h1', h2, h3⟩ := hf.2 r rw hrw
      simp only [h1', hrw, h2]
      refine ⟨hv, raw.read_congr _ _ _ _ (fun i hi => h3 i (fun hab => ?_))⟩
      have := hp (by rw [hr, hab])
      omega

theorem frame_views {h h1 : Heap} {ab : ptr} {bs : List ptr} (hf : frame h h1 ab)
    (hv : ∀ p ∈ bs, p.valid h)
    (hp : ∀ p ∈ bs, p._raw = ab._raw → p._off + p._len ≤ ab._len) :
    (∀ p ∈ bs, p.valid h1) ∧ bs.flatMap (ptr.bytes h1) = bs.flatMap (ptr.bytes h) := by
  induction bs with
  | nil => simp
  | cons b bs ih =>
    have hb := frame_view hf (hv b (by simp)) (hp b (by simp))
    have ih' := ih (fun p hp1 => hv p (by simp [hp1])) (fun p hp1 => hp p (by simp [hp1]))
    refine ⟨?_, by simp [hb.2, ih'.2]⟩
    intro p hp1
    simp only [List.mem_cons] at hp1
    rcases hp1 with hp1 | hp1
    · subst hp1; exact hb.1
    · exact ih'.1 p hp1

theorem frame_trans {h h1 h2 : Heap} {ab ab1 : ptr} (h01 : frame h h1 ab)
    (h12 : frame h1 h2 ab1) (hle : arena_le h ab ab1) : frame h h2 ab := by
  refine ⟨Nat.le_trans h01.1 h12.1, fun r rw hr => ?_⟩
  obtain ⟨rw1, g1, g2, g3⟩ := h01.2 r rw hr
  obtain ⟨rw2, k1, k2, k3⟩ := h12.2 r rw1 g1
  refine ⟨rw2, k1, by rw [k2, g2], fun i hi => ?_⟩
  rw [k3 i ?_, g3 i hi]
  intro hab1
  rcases hle with ⟨e1, e2⟩ | ⟨r1, e1, e2⟩
  · have := hi (by rw [← e1, hab1])
    omega
  · rw [e1] at hab1
    simp only [Option.some.injEq] at hab1
    subst hab1
    have : r1 < h.length := by
      have := List.getElem?_eq_some_iff.mp hr
      exact this.1
    omega

namespace list

theorem append_fill_spec {h : Heap} {l : list} {r : Nat} {rw : raw} {k : Nat}
    (data : List Byte) (len : Nat) (hab : l.append_buffer = ⟨some r, 0, k⟩)
    (hr : h[r]? = some rw) (hk : k < rw.len) (hrw : rw.len < 4294967296)
    (hd : data.length = len) (_hlen : 0 < len) (hlt : len < 4294967296) :
    append_fill h l data len =
      some (h.set r (rw.write k (data.take (min (rw.len - k) len))),
        { _buffers := l._buffers ++ [⟨some r, k, min (rw.len - k) len⟩],
          _len := u32 (l._len + min (rw.len - k) len),
          append_buffer := ⟨some r, 0, k + min (rw.len - k) len⟩ },
        data.drop (min (rw.len - k) len), len - min (rw.len - k) len) := by
  have hgap : l.append_buffer.unused_tail_length h = rw.len - k := by
    unfold ptr.unused_tail_length
    simp only [hab, hr, Nat.zero_add]
    rw [u32_of_lt (by omega), usub_of_le (by omega) hrw]
  have hg1 : (if rw.len - k > len then len else rw.len - k) = min (rw.len - k) len := by
    split <;> omega
  unfold append_fill
  simp only [hgap]
  have hpos : rw.len - k > 0 := by omega
  simp only [hpos, if_true, hg1]
  generalize hg : min (rw.len - k) len = g
  have hgl : g ≤ len := by omega
  have hgr : g ≤ rw.len - k := by omega
  have happ : l.append_buffer.append h (data.take g) g =
      some (h.set r (rw.write k (data.take g)), ⟨some r, 0, k + g⟩) := by
    unfold ptr.append
    simp only [hgap]
    simp only [hab, hr, Nat.zero_add]
    have : k + g ≤ rw.len ∧ (List.take g data).length = g := by
      simp only [List.length_take]; omega
    simp only [hgr, if_true, this, and_self]
    rw [u32_of_lt (by omega)]
  rw [happ]
  simp only
  have hend : usub (ptr.end_ ⟨some r, 0, k + g⟩) g = k := by
    unfold ptr.end_
    simp only [Nat.zero_add]
    rw [u32_of_lt (by omega), usub_of_le (by omega) (by omega)]
    omega
  rw [hend]
  have hsub : append_sub { _buffers := l._buffers, _len := l._len, append_buffer := ⟨some r, 0, k + g⟩ }
      ⟨some r, 0, k + g⟩ k g =
      some { _buffers := l._buffers ++ [⟨some r, k, g⟩], _len := u32 (l._len + g),
             append_buffer := ⟨some r, 0, k + g⟩ } := by
    unfold append_sub ptr.sub
    simp only [ptr.length, Nat.zero_add]
    rw [u32_of_lt (by omega), u32_of_lt (by omega), u32_of_lt (by omega)]
    have e1 : g + k ≤ k + g := by omega
    simp only [e1, if_true, Nat.le_refl, push_back, ptr.length]
  rw [hsub]
  simp only
  rw [usub_of_le hgl hlt]

theorem append_fill_none {h : Heap} {l : list} (data : List Byte) (len : Nat)
    (hgap : l.append_buffer.unused_tail_length h = 0) :
    append_fill h l data len = some (h, l, data, len) := by
  unfold append_fill
  simp [hgap]

theorem append_grow_spec (h : Heap) (l : list) (len : Nat) (hlen : 0 < len)
    (hle : len ≤ 4294963200) :
    ∃ alen, len ≤ alen ∧ alen < 4294967296 ∧ alen = 4096 * ((len - 1) / 4096 + 1) ∧
      append_grow h l len =
        some (h ++ [{ data := fun _ => 0, len := alen }],
          { l with append_buffer := ⟨some h.length, 0, 0⟩ }) := by
  refine ⟨4096 * ((len - 1) / 4096 + 1), by omega, by omega, rfl, ?_⟩
  unfold append_grow create_page_aligned create ptr.of_raw
  simp only [BUFFER_PAGE_SIZE]
  rw [usub_of_le (by omega) (by omega),
    u32_of_lt (show (len - 1) / 4096 + 1 < 4294967296 by omega),
    u32_of_lt (show 4096 * ((len - 1) / 4096 + 1) < 4294967296 by omega)]
  simp [ptr.set_length]

end list

namespace list

theorem ptr.mem_addrs {p : ptr} {a : Nat × Nat} :
    a ∈ p.addrs ↔ ∃ r, p._raw = some r ∧ a.1 = r ∧ p._off ≤ a.2 ∧ a.2 < p._off + p._len := by
  unfold ptr.addrs
  split
  · rename_i hr
    simp [hr]
  · rename_i r hr
    simp only [List.mem_map, List.mem_range, hr, Option.some.injEq, exists_eq_left']
    constructor
    · rintro ⟨i, hi, rfl⟩
      exact ⟨rfl, by simp, by simp; omega⟩
    · rintro ⟨e1, e2, e3⟩
      refine ⟨a.2 - p._off, by omega, ?_⟩
      rw [Prod.ext_iff]
      simp only
      exact ⟨e1.symm, by omega⟩

theorem ptr.addrs_nodup (p : ptr) : p.addrs.Nodup := by
  unfold ptr.addrs
  split
  · simp
  · refine List.Nodup.map ?_ (List.nodup_range _)
    intro i j hij
    simp only [Prod.mk.injEq, true_and] at hij
    omega

theorem valid_raw_lt {h : Heap} {p : ptr} (hv : p.valid h) :
    ∃ r, p._raw = some r ∧ r < h.length := by
  unfold ptr.valid at hv
  split at hv
  · exact hv.elim
  · rename_i r hr
    split at hv
    · exact hv.elim
    · rename_i rw hrw
      exact ⟨r, hr, (List.getElem?_eq_some_iff.mp hrw).1⟩

theorem appended_refl {h : Heap} {l : list} (hl : l.valid h) (ha : l.arena_ok h) :
    Appended h l [] h l :=
  ⟨hl, ha, frame_refl _ _, Or.inl ⟨rfl, Nat.le_refl _⟩, [], by simp, by simp, by simp, by simp⟩

theorem appended_trans {h h1 h2 : Heap} {l l1 l2 : list} {d1 d2 : List Byte}
    (a1 : Appended h l d1 h1 l1) (a2 : Appended h1 l1 d2 h2 l2) :
    Appended h l (d1 ++ d2) h2 l2 := by
  obtain ⟨v1, o1, f1, le1, vs1, b1, c1, n1, u1⟩ := a1
  obtain ⟨v2, o2, f2, le2, vs2, b2, c2, n2, u2⟩ := a2
  have hle : arena_le h l.append_buffer l2.append_buffer := by
    rcases le2 with ⟨e1, e2⟩ | ⟨r, e1, e2⟩
    · rcases le1 with ⟨e3, e4⟩ | ⟨r, e3, e4⟩
      · exact Or.inl ⟨by rw [e1, e3], by omega⟩
      · exact Or.inr ⟨r, by rw [e1, e3], e4⟩
    · exact Or.inr ⟨r, e1, Nat.le_trans f1.1 e2⟩
  refine ⟨v2, o2, frame_trans f1 f2 le1, hle, vs1 ++ vs2, by rw [b2, b1]; simp, ?_, ?_, ?_⟩
  · have hv1 : ∀ p ∈ vs1, p.valid h1 := fun p hp => v1.2 p (by rw [b1]; simp [hp])
    have hp1 : ∀ p ∈ vs1, p._raw = l1.append_buffer._raw →
        p._off + p._len ≤ l1.append_buffer._len :=
      fun p hp => o1.2 p (by rw [b1]; simp [hp])
    have := frame_views f2 hv1 hp1
    rw [List.flatMap_append, this.2, c1, c2]
  · intro v hv
    simp only [List.mem_append] at hv
    rcases hv with hv | hv
    · exact n1 v hv
    · obtain ⟨r, hr, hcase⟩ := n2 v hv
      refine ⟨r, hr, ?_⟩
      rcases hcase with ⟨e1, e2⟩ | e1
      · rcases le1 with ⟨e3, e4⟩ | ⟨r1, e3, e4⟩
        · exact Or.inl ⟨by rw [← e3, e1], by omega⟩
        · rw [e3] at e1
          simp only [Option.some.injEq] at e1
          subst e1
          exact Or.inr e4
      · exact Or.inr (Nat.le_trans f1.1 e1)
  · rw [List.flatMap_append, List.nodup_append]
    refine ⟨u1, u2, ?_⟩
    intro a ha1 ha2
    simp only [List.mem_flatMap] at ha1 ha2
    obtain ⟨p, hp, hap⟩ := ha1
    obtain ⟨q, hq, haq⟩ := ha2
    have hpm : p ∈ l1._buffers := by rw [b1]; simp [hp]
    obtain ⟨r, hr, hlt⟩ := valid_raw_lt (v1.2 p hpm)
    have hpub := o1.2 p hpm
    obtain ⟨r2, hr2, hcase⟩ := n2 q hq
    rw [ptr.mem_addrs] at hap haq
    obtain ⟨r3, e3, e4, e5, e6⟩ := hap
    obtain ⟨r4, e7, e8, e9, e10⟩ := haq
    rw [hr] at e3
    rw [hr2] at e7
    simp only [Option.some.injEq] at e3 e7
    subst e3 e7
    rcases hcase with ⟨c1', c2'⟩ | c1'
    · have := hpub (by rw [hr, c1', ← e4, e8])
      omega
    · omega

/-- After an append the cached length has grown by the number of bytes, in 32 bits. -/
theorem appended_len {h h1 : Heap} {l l1 : list} {d : List Byte} (hl : l.len_ok)
    (a : Appended h l d h1 l1) : l1._len = u32 (l._len + d.length) := by
  obtain ⟨v1, _, _, _, vs, b1, c1, _, _⟩ := a
  have hv : ∀ p ∈ vs, p.valid h1 := fun p hp => v1.2 p (by rw [b1]; simp [hp])
  have := views_bytes_length hv
  rw [c1] at this
  have h1' := v1.1
  unfold len_ok at h1' hl
  rw [h1', b1, sum_length_append, ← this, hl]
  unfold u32
  omega

/-- After an append the list shows its old bytes followed by the new ones. -/
theorem appended_content {h h1 : Heap} {l l1 : list} {d : List Byte} (hl : l.valid h)
    (ha : l.arena_ok h) (a : Appended h l d h1 l1) :
    l1.content h1 = l.content h ++ d := by
  obtain ⟨_, _, f1, _, vs, b1, c1, _, _⟩ := a
  have := frame_views f1 hl.2 ha.2
  unfold content
  rw [b1, List.flatMap_append, this.2, c1]

end list

namespace list

/-- What the arena of a list is, when the arena is in order. -/
theorem arena_cases {h : Heap} {l : list} (ha : l.arena_ok h) :
    l.append_buffer._raw = none ∨
    ∃ r rw k, l.append_buffer = ⟨some r, 0, k⟩ ∧ h[r]? = some rw ∧ k ≤ rw.len ∧
      rw.len < 4294967296 := by
  have h1 := ha.1
  split at h1
  · exact Or.inl (by assumption)
  · rename_i r hr
    split at h1
    · exact h1.elim
    · rename_i rw hrw
      refine Or.inr ⟨r, rw, l.append_buffer._len, ?_, hrw, h1.2.1, h1.2.2⟩
      cases hab : l.append_buffer with
      | mk a b c =>
        rw [hab] at hr h1
        simp only at hr h1
        simp [hr, h1.1]

theorem appended_fill {h : Heap} {l : list} {r : Nat} {rw : raw} {k g : Nat} {src : List Byte}
    (hl : l.valid h) (ha : l.arena_ok h) (hab : l.append_buffer = ⟨some r, 0, k⟩)
    (hr : h[r]? = some rw) (hk : k + g ≤ rw.len) (hrw : rw.len < 4294967296)
    (hs : src.length = g) :
    Appended h l src (h.set r (rw.write k src))
      { _buffers := l._buffers ++ [⟨some r, k, g⟩], _len := u32 (l._len + g),
        append_buffer := ⟨some r, 0, k + g⟩ } := by
  have hrl : r < h.length := (List.getElem?_eq_some_iff.mp hr).1
  have hfr : frame h (h.set r (rw.write k src)) l.append_buffer := by
    refine ⟨by simp, fun r1 rw1 hr1 => ?_⟩
    by_cases e : r = r1
    · subst e
      rw [hr] at hr1
      simp only [Option.some.injEq] at hr1
      subst hr1
      refine ⟨rw.write k src, by simp [List.getElem?_set, hrl], rfl, fun i hi => ?_⟩
      have := hi (by rw [hab])
      rw [hab] at this
      simp only at this
      simp only [raw.write]
      have : ¬ (k ≤ i ∧ i < k + src.length) := by omega
      simp only [this, if_false]
    · exact ⟨rw1, by simp [List.getElem?_set, e, hr1], rfl, fun _ _ => rfl⟩
  have hold := frame_views hfr hl.2 ha.2
  have hnew : ptr.valid (h.set r (rw.write k src)) ⟨some r, k, g⟩ := by
    unfold ptr.valid
    simp only [List.getElem?_set, hrl, if_true, raw.write]
    exact ⟨hk, hrw⟩
  have hbytes : ptr.bytes (h.set r (rw.write k src)) ⟨some r, k, g⟩ = src := by
    unfold ptr.bytes
    simp only [List.getElem?_set, hrl, if_true]
    rw [← hs]
    exact raw.read_write_same _ _ _
  refine ⟨⟨?_, ?_⟩, ⟨?_, ?_⟩, hfr, Or.inl ⟨by rw [hab], by rw [hab]; simp⟩,
    [⟨some r, k, g⟩], rfl, by simp [hbytes], ?_, ?_⟩
  · have := len_ok_push_back l ⟨some r, k, g⟩ hl.1
    unfold len_ok at this ⊢
    simpa [push_back, ptr.length] using this
  · intro p hp
    simp only [List.mem_append, List.mem_singleton] at hp
    rcases hp with hp | hp
    · exact hold.1 p hp
    · subst hp; exact hnew
  · simp only [List.getElem?_set, hrl, if_true, raw.write]
    exact ⟨trivial, hk, hrw⟩
  · intro p hp hraw
    simp only [List.mem_append, List.mem_singleton] at hp
    simp only at hraw ⊢
    rcases hp with hp | hp
    · have := ha.2 p hp (by rw [hab]; exact hraw)
      rw [hab] at this
      simp only at this
      omega
    · subst hp; simp
  · intro v hv
    simp only [List.mem_singleton] at hv
    subst hv
    exact ⟨r, rfl, Or.inl ⟨by rw [hab], by rw [hab]⟩⟩
  · simp only [List.flatMap_cons, List.flatMap_nil, List.append_nil]
    exact ptr.addrs_nodup _

theorem appended_grow {h : Heap} {l : list} (alen : Nat) (hl : l.valid h) (ha : l.arena_ok h)
    (halen : alen < 4294967296) :
    Appended h l [] (h ++ [{ data := fun _ => 0, len := alen }])
      { l with append_buffer := ⟨some h.length, 0, 0⟩ } := by
  have hfr : frame h (h ++ [{ data := fun _ => 0, len := alen }]) l.append_buffer := by
    refine ⟨by simp, fun r1 rw1 hr1 => ?_⟩
    have hrl : r1 < h.length := (List.getElem?_eq_some_iff.mp hr1).1
    exact ⟨rw1, by rw [List.getElem?_append_left hrl]; exact hr1, rfl, fun _ _ => rfl⟩
  have hold := frame_views hfr hl.2 ha.2
  refine ⟨⟨?_, hold.1⟩, ⟨?_, ?_⟩, hfr, Or.inr ⟨h.length, rfl, Nat.le_refl _⟩,
    [], by simp, by simp, by simp, by simp⟩
  · have := hl.1
    unfold len_ok at this ⊢
    exact this
  · simp [halen]
  · intro p hp hraw
    obtain ⟨r, hr, hlt⟩ := valid_raw_lt (hl.2 p hp)
    simp only at hraw
    rw [hr] at hraw
    simp only [Option.some.injEq] at hraw
    omega

/-- One turn of the loop of `append` when the arena has room for all of `data`. -/
theorem append_fit {h : Heap} {l : list} {r : Nat} {rw : raw} {k : Nat} (data : List Byte)
    (n fuel : Nat) (hl : l.valid h) (ha : l.arena_ok h)
    (hab : l.append_buffer = ⟨some r, 0, k⟩) (hr : h[r]? = some rw) (hk : k + n ≤ rw.len)
    (hrw : rw.len < 4294967296) (hd : data.length = n) (hn : 0 < n) :
    ∃ h1 l1, append (fuel + 1) h l data n = some (h1, l1) ∧ Appended h l data h1 l1 := by
  have hmin : min (rw.len - k) n = n := by omega
  have hfill := append_fill_spec (h := h) (l := l) data n hab hr (by omega) hrw hd hn (by omega)
  rw [hmin] at hfill
  have htake : data.take n = data := List.take_of_length_le (by omega)
  rw [htake] at hfill
  refine ⟨_, _, ?_, appended_fill hl ha hab hr hk hrw hd⟩
  simp only [append, hfill]
  have : ¬ n = 0 := by omega
  simp [this]

end list

namespace list

/-- A new arena, and then one turn of the loop of `append` that fills it. -/
theorem append_grow_fit {h : Heap} {l : list} (data : List Byte) (n fuel : Nat)
    (hl : l.valid h) (ha : l.arena_ok h) (hd : data.length = n) (hn : 0 < n)
    (hle : n ≤ 4294963200) :
    ∃ h1 l1, (match append_grow h l n with
        | none => none
        | some (h2, l2) => append (fuel + 1) h2 l2 data n) = some (h1, l1) ∧
      Appended h l data h1 l1 := by
  obtain ⟨alen, g1, g2, _, g4⟩ := append_grow_spec h l n hn hle
  have a1 := appended_grow alen hl ha g2
  obtain ⟨h1, l1, e1, a2⟩ := @append_fit (h ++ [{ data := fun _ => 0, len := alen }])
    { l with append_buffer := ⟨some h.length, 0, 0⟩ } h.length
    { data := fun _ => 0, len := alen } 0 data n fuel a1.1 a1.2.1 rfl
    (by simp) (by simp only; omega) g2 hd hn
  refine ⟨h1, l1, by rw [g4]; exact e1, ?_⟩
  have := appended_trans a1 a2
  simpa using this

theorem append_spec (h : Heap) (l : list) (data : List Byte) (n fuel : Nat)
    (hl : l.valid h) (ha : l.arena_ok h) (hd : data.length = n) (hn : n ≤ 4294963200)
    (hf : 2 ≤ fuel) :
    ∃ h1 l1, append fuel h l data n = some (h1, l1) ∧ Appended h l data h1 l1 ∧
      (n = 0 → h1 = h ∧ l1 = l) := by
  obtain ⟨f, rfl⟩ : ∃ f, fuel = f + 2 := ⟨fuel - 2, by omega⟩
  by_cases hn0 : n = 0
  · subst hn0
    have : data = [] := List.length_eq_zero.mp hd
    subst this
    exact ⟨h, l, by simp [append], appended_refl hl ha, fun _ => ⟨rfl, rfl⟩⟩
  have hnpos : 0 < n := by omega
  have hgrow : l.append_buffer.unused_tail_length h = 0 →
      ∃ h1 l1, append (f + 2) h l data n = some (h1, l1) ∧ Appended h l data h1 l1 := by
    intro hgap
    obtain ⟨h1, l1, e1, a1⟩ := append_grow_fit data n f hl ha hd hnpos hn
    refine ⟨h1, l1, ?_, a1⟩
    rw [append]
    simp only [hn0, if_false, append_fill_none data n hgap]
    exact e1
  rcases arena_cases ha with hnone | ⟨r, rw, k, hab, hr, hk, hrw⟩
  · obtain ⟨h1, l1, e1, a1⟩ := hgrow (by unfold ptr.unused_tail_length; simp [hnone])
    exact ⟨h1, l1, e1, a1, fun h0 => absurd h0 hn0⟩
  · by_cases hfit : k + n ≤ rw.len
    · obtain ⟨h1, l1, e1, a1⟩ := append_fit data n (f + 1) hl ha hab hr hfit hrw hd hnpos
      exact ⟨h1, l1, e1, a1, fun h0 => absurd h0 hn0⟩
    · by_cases hfull : k = rw.len
      · obtain ⟨h1, l1, e1, a1⟩ := hgrow (by
          unfold ptr.unused_tail_length
          simp only [hab, hr, Nat.zero_add]
          rw [u32_of_lt (by omega), usub_of_le (by omega) hrw]
          omega)
        exact ⟨h1, l1, e1, a1, fun h0 => absurd h0 hn0⟩
      · -- the arena takes the first bytes, a new arena the rest
        have hmin : min (rw.len - k) n = rw.len - k := by omega
        have hfill := append_fill_spec (h := h) (l := l) data n hab hr (by omega) hrw hd hnpos
          (by omega)
        rw [hmin] at hfill
        have a1 := @appended_fill h l r rw k (rw.len - k) (data.take (rw.len - k)) hl ha hab hr
          (by omega) hrw (by simp only [List.length_take]; omega)
        obtain ⟨h1, l1, e1, a2⟩ := append_grow_fit (data.drop (rw.len - k)) (n - (rw.len - k)) f
          a1.1 a1.2.1 (by simp only [List.length_drop]; omega) (by omega) (by omega)
        refine ⟨h1, l1, ?_, ?_, fun h0 => absurd h0 hn0⟩
        · rw [append]
          simp only [hn0, if_false, hfill]
          have : ¬ n - (rw.len - k) = 0 := by omega
          simp only [this, if_false]
          exact e1
        · have := appended_trans a1 a2
          rwa [List.take_append_drop] at this

end list

theorem list.append_huge_none : ∀ (fuel : Nat) (h : Heap) (l : list) (data : List Byte),
    l.append_buffer.unused_tail_length h = 0 →
    list.append fuel h l data 4294967295 = none
  | 0, _, _, _, _ => rfl
  | fuel + 1, h, l, data, hgap => by
    have hal : u32 (BUFFER_PAGE_SIZE * u32 (usub 4294967295 1 / BUFFER_PAGE_SIZE + 1)) = 0 := by
      decide
    have hg : list.append_grow h l 4294967295 =
        some (h ++ [{ data := fun _ => 0, len := 0 }],
          { l with append_buffer := ⟨some h.length, 0, 0⟩ }) := by
      unfold list.append_grow create_page_aligned create ptr.of_raw
      simp [hal, ptr.set_length]
    rw [list.append]
    simp only [list.append_fill_none data _ hgap, hg]
    simp only [show ¬ (4294967295 = 0) by decide, if_false]
    apply list.append_huge_none fuel
    unfold ptr.unused_tail_length
    simp [usub, u32]

/-- C6 (as amended): for every valid list with its arena in order and every byte array
`data` of length `n`, with `n <= 2^32 - 4096` and `length() + n < 2^32`, `append(data, n)`
returns after at most two turns of its loop; afterwards the bytes of the list are the old
bytes followed by `data`, `length()` has grown by exactly `n`, the views that were pushed
show `data`, each lies in the old arena beyond what was published or in a raw allocated by
the call, within what the arena of the list has published now, and with `n == 0` nothing
has changed. -/
theorem append_is_concatenation (h : Heap) (l : list) (data : List Byte) (n fuel : Nat)
    (hl : l.valid h) (ha : l.arena_ok h) (hd : data.length = n) (hn : n ≤ 4294963200)
    (hln : l.length + n < 4294967296) (hf : 2 ≤ fuel) :
    ∃ h1 l1 vs, list.append fuel h l data n = some (h1, l1) ∧
      l1.content h1 = l.content h ++ data ∧
      l1.length = l.length + n ∧
      l1._buffers = l._buffers ++ vs ∧ vs.flatMap (ptr.bytes h1) = data ∧
      (∀ v ∈ vs, v.valid h1 ∧ new_view h l.append_buffer v ∧
        (v._raw = l1.append_buffer._raw → v._off + v._len ≤ l1.append_buffer._len)) ∧
      (n = 0 → h1 = h ∧ l1 = l) := by
  obtain ⟨h1, l1, e1, a1, z⟩ := list.append_spec h l data n fuel hl ha hd hn hf
  have hlen := list.appended_len hl.1 a1
  have hcon := list.appended_content hl ha a1
  obtain ⟨v1, o1, _, _, vs, b1, c1, n1, _⟩ := a1
  refine ⟨h1, l1, vs, e1, hcon, ?_, b1, c1, ?_, z⟩
  · unfold list.length at hln ⊢
    rw [hlen, hd, u32_of_lt hln]
  · intro v hv
    have hm : v ∈ l1._buffers := by rw [b1]; simp [hv]
    exact ⟨v1.2 v hm, n1 v hv, o1.2 v hm⟩

/-- C6, an instance: three bytes appended to `list6`, which has no arena yet. -/
theorem append_is_concatenation_witness :
    list.valid heap6 list6 ∧ list.arena_ok heap6 list6 ∧
    ∃ h1 l1 vs, list.append 2 heap6 list6 [1, 2, 3] 3 = some (h1, l1) ∧
      l1.content h1 = list6.content heap6 ++ [1, 2, 3] ∧
      l1.length = list6.length + 3 ∧
      l1._buffers = list6._buffers ++ vs ∧ vs.flatMap (ptr.bytes h1) = [1, 2, 3] ∧
      (∀ v ∈ vs, v.valid h1 ∧ new_view heap6 list6.append_buffer v ∧
        (v._raw = l1.append_buffer._raw → v._off + v._len ≤ l1.append_buffer._len)) ∧
      (3 = 0 → h1 = heap6 ∧ l1 = list6) :=
  ⟨by decide, by decide,
    append_is_concatenation heap6 list6 [1, 2, 3] 3 2 (by decide) (by decide) rfl (by decide)
      (by decide) (by decide)⟩

/-- C6 as stated fails.  Two bytes appended to a valid list of 2^32 - 1 bytes leave
`length()` at 1, not grown by 2.  And `append` of 2^32 - 1 bytes to the empty list never
returns: the size of the new arena, `4096 * ((len - 1) / 4096 + 1)`, wraps to 0, and every
turn of the loop allocates another arena of no bytes. -/
theorem append_wraps :
    list.valid heap_big list_big ∧ list.arena_ok heap_big list_big ∧
    (list.append 2 heap_big list_big [1, 2] 2).map (fun r => r.2.length) = some 1 ∧
    list_big.length + 2 ≠ 1 ∧
    ∀ fuel, list.append fuel [] list.empty (List.replicate 4294967295 0) 4294967295 = none :=
  ⟨by decide, by decide, by decide, by decide,
    fun fuel => list.append_huge_none fuel [] list.empty _ rfl⟩

theorem u32_bytes_length (n : Nat) : (u32_bytes n).length = 4 := rfl

theorem u32_of_bytes_u32_bytes (n : Nat) : u32_of_bytes (u32_bytes n) = u32 n := by
  simp only [u32_bytes, u32_of_bytes, Fin.ofNat, u32]
  omega

namespace list

theorem copy_out_spec {h : Heap} {b : ptr} (hv : b.valid h) (o l : Nat) (hol : o + l ≤ b._len) :
    b.copy_out h o l = some (((b.bytes h).drop o).take l) := by
  have hlt := ptr.valid_len_lt hv
  unfold ptr.valid at hv
  unfold ptr.copy_out ptr.bytes
  split at hv
  · exact hv.elim
  · rename_i r hr
    split at hv
    · exact hv.elim
    · rename_i rw hrw
      have h1 : o ≤ b._len ∧ o + l ≤ b._len := by omega
      have h2 : b._off + o + l ≤ rw.len := by omega
      have h3 : l ≤ b._len - o := by omega
      rw [u32_of_lt (by omega)]
      simp only [h1, and_self, if_true, h2, raw.read_drop, raw.read_take _ _ _ _ h3]

theorem copy_loop_spec {h : Heap} : ∀ (rest : List ptr) (off len : Nat),
    (∀ p ∈ rest, p.valid h) → off + len ≤ sum_length rest → off + len < 4294967296 →
    (∀ b bs, rest = b :: bs → off ≤ b._len) →
    copy_loop h rest off len = some (((rest.flatMap (ptr.bytes h)).drop off).take len)
  | rest, off, 0, _, _, _, _ => by simp [copy_loop]
  | [], off, len + 1, _, hle, _, _ => by simp at hle
  | b :: bs, off, len + 1, hv, hle, hlt, hoff => by
    have hvb := hv b (by simp)
    have hvbs : ∀ p ∈ bs, p.valid h := fun p hp => hv p (by simp [hp])
    have hb := ptr.valid_len_lt hvb
    have hbl := ptr.bytes_length hvb
    have hbsl := views_bytes_length hvbs
    have hob : off ≤ b._len := hoff b bs rfl
    simp only [sum_length_cons] at hle
    simp only [copy_loop, ptr.length]
    rw [u32_of_lt hlt]
    have e2 : off ≤ (ptr.bytes h b).length := by omega
    by_cases hp : off + (len + 1) ≤ b._len
    · simp only [hp, if_true]
      rw [copy_out_spec hvb off (len + 1) hp]
      have e3 : len + 1 ≤ (List.drop off (ptr.bytes h b)).length := by
        simp only [List.length_drop, hbl]; omega
      simp only [List.flatMap_cons]
      rw [List.drop_append_of_le_length e2, List.take_append_of_le_length e3]
    · simp only [hp, if_false]
      rw [usub_of_le hob (by omega), copy_out_spec hvb off (b._len - off) (by omega)]
      simp only
      rw [usub_of_le (by omega) (by omega)]
      cases bs with
      | nil => simp at hle; omega
      | cons c cs =>
        simp only
        rw [copy_loop_spec (c :: cs) 0 (len + 1 - (b._len - off)) hvbs (by omega) (by omega)
          (by intros; omega)]
        simp only [Option.some.injEq, List.drop_zero]
        have e1 : List.take (b._len - off) (List.drop off (ptr.bytes h b)) =
            List.drop off (ptr.bytes h b) := List.take_of_length_le (by simp [hbl])
        have e3 : (List.drop off (ptr.bytes h b)).length ≤ len + 1 := by
          simp only [List.length_drop, hbl]; omega
        have e4 : (b :: c :: cs).flatMap (ptr.bytes h) =
            ptr.bytes h b ++ (c :: cs).flatMap (ptr.bytes h) := by simp
        rw [e1, e4, List.drop_append_of_le_length e2,
          List.take_append_eq_append_take, List.take_of_length_le e3]
        simp only [List.length_drop, hbl]

/-- The gather copy reads the bytes of the list: `copy(off, len, dst)` writes
`content[off .. off+len)`. -/
theorem copy_spec (h : Heap) (l : list) (off len : Nat) (hl : l.valid h)
    (hol : off + len ≤ l.length) :
    l.copy h off len = some (((l.content h).drop off).take len) := by
  obtain ⟨hlo, hv⟩ := hl
  unfold len_ok at hlo
  unfold length at hol
  have hS := u32_sum_le (sum_length l._buffers)
  obtain ⟨pre, rest, o, hsk, hbs, hsum, hhead⟩ :=
    skip_spec (h := h) l._buffers off hv (by omega) (by omega)
  have hvpre : ∀ p ∈ pre, p.valid h := fun p hp => hv p (by rw [hbs]; simp [hp])
  have hvrest : ∀ p ∈ rest, p.valid h := fun p hp => hv p (by rw [hbs]; simp [hp])
  have hSplit : sum_length l._buffers = sum_length pre + sum_length rest := by
    rw [hbs]; simp
  have hpl := views_bytes_length hvpre
  have hloop := copy_loop_spec (h := h) rest o len hvrest (by omega) (by omega) (by
      intro b bs hr
      by_cases ho : o = 0
      · omega
      · obtain ⟨b1, rest2, hr2, hob⟩ := hhead ho
        rw [hr] at hr2
        simp only [List.cons.injEq] at hr2
        rw [hr2.1]; omega)
  unfold copy
  have : u32 (off + len) ≤ l.length := by
    rw [u32_of_lt (by omega)]; unfold length; omega
  simp only [this, if_true, hsk, hloop, content]
  have e1 : (pre.flatMap (ptr.bytes h)).length ≤ off := by omega
  rw [hbs, List.flatMap_append, List.drop_append_eq_append_drop, List.drop_eq_nil_of_le e1]
  simp only [List.nil_append, hpl]
  congr 3
  omega

end list

theorem ptr.bytes_eq_addrs {h : Heap} {p : ptr} (hv : p.valid h) :
    p.bytes h = p.addrs.map (heap_at h) := by
  unfold ptr.valid at hv
  unfold ptr.bytes ptr.addrs
  split at hv
  · exact hv.elim
  · rename_i r hr
    split at hv
    · exact hv.elim
    · rename_i rw hrw
      simp only [hr, hrw, raw.read, List.map_map]
      apply List.map_congr_left
      intro i _
      simp [heap_at, hrw]

theorem ptr.addrs_length (p : ptr) (hr : p._raw ≠ none) : p.addrs.length = p._len := by
  unfold ptr.addrs
  split
  · contradiction
  · simp

theorem views_bytes_eq_addrs {h : Heap} : ∀ {bs : List ptr}, (∀ p ∈ bs, p.valid h) →
    bs.flatMap (ptr.bytes h) = (bs.flatMap ptr.addrs).map (heap_at h)
  | [], _ => by simp
  | b :: bs, hv => by
    have h1 := ptr.bytes_eq_addrs (hv b (by simp))
    have h2 := @views_bytes_eq_addrs h bs (fun p hp => hv p (by simp [hp]))
    simp [h1, h2]

theorem written_refl (h : Heap) : Written h h [] [] :=
  ⟨rfl, fun _ rw hr => ⟨rw, hr, rfl⟩, fun _ _ => rfl, fun _ => rfl⟩

theorem written_trans {h h1 h2 : Heap} {t1 t2 : List (Nat × Nat)} {s1 s2 : List Byte}
    (w1 : Written h h1 t1 s1) (w2 : Written h1 h2 t2 s2) :
    Written h h2 (t1 ++ t2) (s1 ++ s2) := by
  obtain ⟨a1, b1, c1, d1⟩ := w1
  obtain ⟨a2, b2, c2, d2⟩ := w2
  refine ⟨by rw [a2, a1], ?_, ?_, ?_⟩
  · intro r rw hr
    obtain ⟨rw1, e1, e2⟩ := b1 r rw hr
    obtain ⟨rw2, e3, e4⟩ := b2 r rw1 e1
    exact ⟨rw2, e3, by rw [e4, e2]⟩
  · intro a ha
    simp only [List.mem_append, not_or] at ha
    rw [c2 a ha.2, c1 a ha.1]
  · intro hn
    rw [List.nodup_append] at hn
    obtain ⟨n1, n2, n3⟩ := hn
    rw [List.map_append, d2 n2, ← d1 n1]
    congr 1
    apply List.map_congr_left
    intro a ha
    exact c2 a (fun ha2 => n3 ha ha2)

theorem written_valid {h h1 : Heap} {t : List (Nat × Nat)} {s : List Byte}
    (w : Written h h1 t s) {p : ptr} (hv : p.valid h) : p.valid h1 := by
  unfold ptr.valid at hv ⊢
  split at hv
  · exact hv.elim
  · rename_i r hr
    split at hv
    · exact hv.elim
    · rename_i rw hrw
      obtain ⟨rw1, e1, e2⟩ := w.2.1 r rw hrw
      simp only [e1, e2]
      exact hv

/-- What `copy_in` on a view writes. -/
theorem copy_in_view_spec {h : Heap} {b : ptr} (hv : b.valid h) (o l : Nat) (src : List Byte)
    (hol : o + l ≤ b._len) (hs : src.length = l) :
    ∃ h1, b.copy_in h o l src = some h1 ∧ Written h h1 ((b.addrs.drop o).take l) src := by
  have hlt := ptr.valid_len_lt hv
  unfold ptr.valid at hv
  split at hv
  · exact hv.elim
  · rename_i r hr
    split at hv
    · exact hv.elim
    · rename_i rw hrw
      have hrl : r < h.length := (List.getElem?_eq_some_iff.mp hrw).1
      have h1 : o ≤ b._len ∧ o + l ≤ b._len := by omega
      have h2 : b._off + o + l ≤ rw.len ∧ src.length = l := ⟨by omega, hs⟩
      refine ⟨h.set r (rw.write (b._off + o) src), ?_, by simp, ?_, ?_, ?_⟩
      · unfold ptr.copy_in
        simp only [hr, hrw]
        rw [u32_of_lt (by omega)]
        simp only [h1, and_self, if_true, h2]
      · intro r1 rw1 hr1
        by_cases e : r = r1
        · subst e
          rw [hrw] at hr1
          simp only [Option.some.injEq] at hr1
          subst hr1
          exact ⟨rw.write (b._off + o) src, by simp [List.getElem?_set, hrl], rfl⟩
        · exact ⟨rw1, by simp [List.getElem?_set, e, hr1], rfl⟩
      · intro a ha
        have hmem : ¬ (a.1 = r ∧ b._off + o ≤ a.2 ∧ a.2 < b._off + o + l) := by
          intro hc
          apply ha
          have : a = ((b.addrs.drop o).take l).getD (a.2 - (b._off + o)) a := by
            unfold ptr.addrs
            simp only [hr]
            rw [List.getD_eq_getElem _ _ (by simp; omega)]
            simp only [List.getElem_take, List.getElem_drop, List.getElem_map,
              List.getElem_range]
            rw [Prod.ext_iff]
            simp only
            exact ⟨hc.1, by omega⟩
          rw [this]
          rw [List.getD_eq_getElem _ _ (by
            unfold ptr.addrs
            simp only [hr]
            simp; omega)]
          exact List.getElem_mem _
        unfold heap_at
        by_cases e : a.1 = r
        · simp only [e, List.getElem?_set, hrl, if_true, hrw, raw.write]
          have : ¬ (b._off + o ≤ a.2 ∧ a.2 < b._off + o + src.length) := by
            rw [hs]; intro hc; exact hmem ⟨e, hc⟩
          simp only [this, if_false]
        · have e' : ¬ r = a.1 := fun x => e x.symm
          simp only [List.getElem?_set, e', if_false]
      · intro _
        apply List.ext_getElem
        · unfold ptr.addrs
          simp only [hr]
          simp; omega
        · intro i hi1 hi2
          unfold ptr.addrs
          simp only [hr, List.getElem_map, List.getElem_take, List.getElem_drop,
            List.getElem_range, heap_at, List.getElem?_set, hrl, if_true, raw.write]
          have : b._off + o ≤ b._off + (o + i) ∧ b._off + (o + i) < b._off + o + src.length := by
            omega
          simp only [this, and_self, if_true]
          rw [List.getD_eq_getElem _ _ (by omega)]
          congr 1
          omega

namespace list

theorem views_addrs_length {h : Heap} : ∀ {bs : List ptr}, (∀ p ∈ bs, p.valid h) →
    (bs.flatMap ptr.addrs).length = sum_length bs
  | [], _ => by simp
  | b :: bs, hv => by
    obtain ⟨r, hr, _⟩ := valid_raw_lt (hv b (by simp))
    have h1 := ptr.addrs_length b (by rw [hr]; simp)
    have h2 := @views_addrs_length h bs (fun p hp => hv p (by simp [hp]))
    simp [h1, h2]

theorem copy_in_loop_spec : ∀ (h : Heap) (rest : List ptr) (off len : Nat) (src : List Byte),
    (∀ p ∈ rest, p.valid h) → off + len ≤ sum_length rest → off + len < 4294967296 →
    (∀ b bs, rest = b :: bs → off ≤ b._len) → src.length = len →
    ∃ h1, copy_in_loop h rest off len src = some h1 ∧
      Written h h1 (((rest.flatMap ptr.addrs).drop off).take len) src
  | h, rest, off, 0, src, _, _, _, _, hs => by
    have : src = [] := List.length_eq_zero.mp hs
    subst this
    exact ⟨h, by simp [copy_in_loop], by simpa using written_refl h⟩
  | h, [], off, len + 1, _, _, hle, _, _, _ => by simp at hle
  | h, b :: bs, off, len + 1, src, hv, hle, hlt, hoff, hs => by
    have hvb := hv b (by simp)
    have hvbs : ∀ p ∈ bs, p.valid h := fun p hp => hv p (by simp [hp])
    have hb := ptr.valid_len_lt hvb
    obtain ⟨r, hr, _⟩ := valid_raw_lt hvb
    have hbl := ptr.addrs_length b (by rw [hr]; simp)
    have hob : off ≤ b._len := hoff b bs rfl
    simp only [sum_length_cons] at hle
    simp only [copy_in_loop, ptr.length]
    rw [u32_of_lt hlt]
    have e2 : off ≤ b.addrs.length := by omega
    by_cases hp : off + (len + 1) ≤ b._len
    · simp only [hp, if_true]
      obtain ⟨h1, g1, g2⟩ := copy_in_view_spec hvb off (len + 1) (src.take (len + 1)) hp
        (by simp only [List.length_take]; omega)
      refine ⟨h1, g1, ?_⟩
      have e3 : len + 1 ≤ (List.drop off b.addrs).length := by
        simp only [List.length_drop, hbl]; omega
      simp only [List.flatMap_cons]
      rw [List.drop_append_of_le_length e2, List.take_append_of_le_length e3]
      have e5 : List.take (len + 1) src = src := List.take_of_length_le (by omega)
      rw [e5] at g2
      exact g2
    · simp only [hp, if_false]
      rw [usub_of_le hob (by omega)]
      obtain ⟨h1, g1, g2⟩ := copy_in_view_spec hvb off (b._len - off) (src.take (b._len - off))
        (by omega) (by simp only [List.length_take]; omega)
      rw [g1]
      simp only
      rw [usub_of_le (by omega) (by omega)]
      cases bs with
      | nil => simp at hle; omega
      | cons c cs =>
        simp only
        obtain ⟨h2, k1, k2⟩ := copy_in_loop_spec h1 (c :: cs) 0 (len + 1 - (b._len - off))
          (src.drop (b._len - off)) (fun p hp => written_valid g2 (hvbs p hp)) (by omega)
          (by omega) (by intros; omega) (by simp only [List.length_drop]; omega)
        refine ⟨h2, k1, ?_⟩
        have := written_trans g2 k2
        rw [List.take_append_drop] at this
        have e1 : List.take (b._len - off) (List.drop off b.addrs) = List.drop off b.addrs :=
          List.take_of_length_le (by simp [hbl])
        have e3 : (List.drop off b.addrs).length ≤ len + 1 := by
          simp only [List.length_drop, hbl]; omega
        have e4 : (b :: c :: cs).flatMap ptr.addrs =
            b.addrs ++ (c :: cs).flatMap ptr.addrs := by simp
        rw [e4, List.drop_append_of_le_length e2, List.take_append_eq_append_take,
          List.take_of_length_le e3]
        simp only [List.length_drop, hbl]
        rw [e1, List.drop_zero] at this
        exact this

/-- The scatter copy writes `src` over the bytes `[off, off+len)` of the list. -/
theorem copy_in_spec (h : Heap) (l : list) (off len : Nat) (src : List Byte) (hl : l.valid h)
    (hol : off + len ≤ l.length) (hs : src.length = len) :
    ∃ h1, l.copy_in h off len src = some h1 ∧
      Written h h1 (((l._buffers.flatMap ptr.addrs).drop off).take len) src := by
  obtain ⟨hlo, hv⟩ := hl
  unfold len_ok at hlo
  unfold length at hol
  have hS := u32_sum_le (sum_length l._buffers)
  obtain ⟨pre, rest, o, hsk, hbs, hsum, hhead⟩ :=
    skip_spec (h := h) l._buffers off hv (by omega) (by omega)
  have hvpre : ∀ p ∈ pre, p.valid h := fun p hp => hv p (by rw [hbs]; simp [hp])
  have hvrest : ∀ p ∈ rest, p.valid h := fun p hp => hv p (by rw [hbs]; simp [hp])
  have hSplit : sum_length l._buffers = sum_length pre + sum_length rest := by
    rw [hbs]; simp
  have hpl := views_addrs_length hvpre
  obtain ⟨h1, g1, g2⟩ := copy_in_loop_spec h rest o len src hvrest (by omega) (by omega) (by
      intro b bs hr
      by_cases ho : o = 0
      · omega
      · obtain ⟨b1, rest2, hr2, hob⟩ := hhead ho
        rw [hr] at hr2
        simp only [List.cons.injEq] at hr2
        rw [hr2.1]; omega) hs
  refine ⟨h1, ?_, ?_⟩
  · unfold copy_in
    have : u32 (off + len) ≤ l.length := by
      rw [u32_of_lt (by omega)]; unfold length; omega
    simp only [this, if_true, hsk, g1]
  · have e1 : (pre.flatMap ptr.addrs).length ≤ off := by omega
    rw [hbs, List.flatMap_append, List.drop_append_eq_append_drop, List.drop_eq_nil_of_le e1]
    simp only [List.nil_append, hpl]
    have : off - sum_length pre = o := by omega
    rw [this]
    exact g2

end list

theorem u32_bytes_u32 (n : Nat) : u32_bytes (u32 n) = u32_bytes n := by
  simp only [u32_bytes, u32, Fin.ofNat, List.cons.injEq, Fin.mk.injEq, and_true]
  omega

theorem appended_sum {h h1 : Heap} {l l1 : list} {d : List Byte} (a : Appended h l d h1 l1) :
    list.sum_length l1._buffers = list.sum_length l._buffers + d.length := by
  obtain ⟨v1, _, _, _, vs, b1, c1, _, _⟩ := a
  have hv : ∀ p ∈ vs, p.valid h1 := fun p hp => v1.2 p (by rw [b1]; simp [hp])
  have := list.views_bytes_length hv
  rw [c1] at this
  rw [b1, list.sum_length_append, this]

theorem encoderaw_spec (fuel : Nat) (t : List Byte) (h : Heap) (bl : list) (hl : bl.valid h)
    (ha : bl.arena_ok h) (ht : t.length ≤ 4294963200) (hf : 2 ≤ fuel) :
    ∃ h1 bl1, _encoderaw fuel t h bl = some (h1, bl1) ∧ Appended h bl t h1 bl1 := by
  obtain ⟨h1, l1, e1, a1, _⟩ := list.append_spec h bl t t.length fuel hl ha rfl ht hf
  exact ⟨h1, l1, e1, a1⟩

theorem encode_elems_spec {enc : Value → Heap → list → Option (Heap × list)}
    {sz : Value → List Byte} : ∀ (xs : List Value) (h : Heap) (bl : list),
    (∀ x ∈ xs, EncOK enc sz x) → bl.valid h → bl.arena_ok h →
    list.sum_length bl._buffers + (xs.flatMap sz).length < 4294967296 →
    ∃ h1 bl1, encode_elems enc xs h bl = some (h1, bl1) ∧
      Appended h bl (xs.flatMap sz) h1 bl1
  | [], h, bl, _, hl, ha, _ => ⟨h, bl, rfl, by simpa using list.appended_refl hl ha⟩
  | x :: xs, h, bl, hx, hl, ha, hb => by
    simp only [List.flatMap_cons, List.length_append] at hb
    obtain ⟨h1, bl1, e1, a1⟩ := hx x (by simp) h bl hl ha (by omega)
    have hs := appended_sum a1
    obtain ⟨h2, bl2, e2, a2⟩ := encode_elems_spec xs h1 bl1
      (fun y hy => hx y (by simp [hy])) a1.1 a1.2.1 (by omega)
    refine ⟨h2, bl2, by simp only [encode_elems, e1, e2], ?_⟩
    simpa using list.appended_trans a1 a2

theorem encode_counting_spec {enc : Value → Heap → list → Option (Heap × list)}
    {sz : Value → List Byte} : ∀ (xs : List Value) (n : Nat) (h : Heap) (bl : list),
    (∀ x ∈ xs, EncOK enc sz x) → bl.valid h → bl.arena_ok h →
    list.sum_length bl._buffers + (xs.flatMap sz).length < 4294967296 →
    ∃ h1 bl1 n1, encode_counting enc xs n h bl = some (h1, bl1, n1) ∧
      Appended h bl (xs.flatMap sz) h1 bl1 ∧ u32 n1 = u32 (n + xs.length)
  | [], n, h, bl, _, hl, ha, _ =>
    ⟨h, bl, n, rfl, by simpa using list.appended_refl hl ha, by simp⟩
  | x :: xs, n, h, bl, hx, hl, ha, hb => by
    simp only [List.flatMap_cons, List.length_append] at hb
    obtain ⟨h1, bl1, e1, a1⟩ := hx x (by simp) h bl hl ha (by omega)
    have hs := appended_sum a1
    obtain ⟨h2, bl2, n2, e2, a2, k2⟩ := encode_counting_spec xs (u32 (n + 1)) h1 bl1
      (fun y hy => hx y (by simp [hy])) a1.1 a1.2.1 (by omega)
    refine ⟨h2, bl2, n2, by simp only [encode_counting, e1, e2], ?_, ?_⟩
    · simpa using list.appended_trans a1 a2
    · rw [k2]
      simp only [List.length_cons]
      unfold u32
      omega

theorem encode_entries_spec {enck encv : Value → Heap → list → Option (Heap × list)}
    {szk szv : Value → List Byte} : ∀ (m : List (Value × Value)) (h : Heap) (bl : list),
    (∀ kv ∈ m, EncOK enck szk kv.1 ∧ EncOK encv szv kv.2) → bl.valid h → bl.arena_ok h →
    list.sum_length bl._buffers + (m.flatMap (fun kv => szk kv.1 ++ szv kv.2)).length
      < 4294967296 →
    ∃ h1 bl1, encode_entries enck encv m h bl = some (h1, bl1) ∧
      Appended h bl (m.flatMap (fun kv => szk kv.1 ++ szv kv.2)) h1 bl1
  | [], h, bl, _, hl, ha, _ => ⟨h, bl, rfl, by simpa using list.appended_refl hl ha⟩
  | (k, v) :: m, h, bl, hx, hl, ha, hb => by
    simp only [List.flatMap_cons, List.length_append] at hb
    obtain ⟨h1, bl1, e1, a1⟩ := (hx (k, v) (by simp)).1 h bl hl ha (by simp only; omega)
    have hs1 := appended_sum a1
    obtain ⟨h2, bl2, e2, a2⟩ := (hx (k, v) (by simp)).2 h1 bl1 a1.1 a1.2.1 (by simp only at *; omega)
    have hs2 := appended_sum a2
    obtain ⟨h3, bl3, e3, a3⟩ := encode_entries_spec m h2 bl2
      (fun y hy => hx y (by simp [hy])) a2.1 a2.2.1 (by simp only at *; omega)
    refine ⟨h3, bl3, by simp only [encode_entries, e1, e2, e3], ?_⟩
    simpa using list.appended_trans (list.appended_trans a1 a2) a3

theorem heap_at_eq {h : Heap} {r : Nat} {rw : raw} (hr : h[r]? = some rw) (i : Nat) :
    heap_at h (r, i) = rw.data i := by
  simp [heap_at, hr]

theorem written_arena_ok {h h1 : Heap} {t : List (Nat × Nat)} {s : List Byte}
    (w : Written h h1 t s) {l : list} (ha : l.arena_ok h) : l.arena_ok h1 := by
  refine ⟨?_, ha.2⟩
  have h0 := ha.1
  split at h0
  · rename_i hr
    simp [hr]
  · rename_i r hr
    split at h0
    · exact h0.elim
    · rename_i rw hrw
      obtain ⟨rw1, e1, e2⟩ := w.2.1 r rw hrw
      simp only [hr, e1, e2]
      exact h0

/-- The count of a `std::list` is patched: bytes that were appended first are overwritten
in place, and the list is then the old list with the new bytes appended. -/
theorem appended_patch {h h1 h2 h3 : Heap} {bl bl1 bl2 : list} {d1 d2 src : List Byte}
    (hl : bl.valid h) (hex : list.sum_length bl._buffers < 4294967296)
    (a1 : Appended h bl d1 h1 bl1) (a2 : Appended h1 bl1 d2 h2 bl2)
    (w : Written h2 h3 (((bl2._buffers.flatMap ptr.addrs).drop bl.length).take d1.length) src) :
    Appended h bl (src ++ d2) h3 bl2 := by
  have a12 := list.appended_trans a1 a2
  obtain ⟨v1, o1, f1, le1, vs1, b1, c1, n1, u1⟩ := a1
  obtain ⟨v2, o2, f2, le2, vs2, b2, c2, n2, u2⟩ := a2
  obtain ⟨_, _, f12, le12, vs, b12, c12, n12, u12⟩ := a12
  have hvs : vs = vs1 ++ vs2 := by
    have : bl._buffers ++ vs = bl._buffers ++ (vs1 ++ vs2) := by
      rw [← b12, b2, b1, List.append_assoc]
    exact List.append_cancel_left this
  subst hvs
  have hvv1 : ∀ p ∈ vs1, p.valid h1 := fun p hp => v1.2 p (by rw [b1]; simp [hp])
  have hvv1' : ∀ p ∈ vs1, p.valid h2 := fun p hp => v2.2 p (by rw [b2, b1]; simp [hp])
  have hvv2 : ∀ p ∈ vs2, p.valid h2 := fun p hp => v2.2 p (by rw [b2]; simp [hp])
  have hlen1 : (vs1.flatMap ptr.addrs).length = d1.length := by
    rw [list.views_addrs_length hvv1, ← list.views_bytes_length hvv1, c1]
  have hlenA : (bl._buffers.flatMap ptr.addrs).length = bl.length := by
    rw [list.views_addrs_length hl.2]
    have := hl.1
    unfold list.len_ok at this
    unfold list.length
    rw [this, u32_of_lt hex]
  have htar : ((bl2._buffers.flatMap ptr.addrs).drop bl.length).take d1.length =
      vs1.flatMap ptr.addrs := by
    rw [b12, List.flatMap_append, List.flatMap_append, ← hlenA, List.drop_left, ← hlen1,
      List.take_left]
  rw [htar] at w
  rw [List.flatMap_append, List.nodup_append] at u12
  obtain ⟨_, _, hdis⟩ := u12
  have hvalid3 : ∀ p ∈ bl2._buffers, p.valid h3 := fun p hp => written_valid w (v2.2 p hp)
  refine ⟨⟨v2.1, hvalid3⟩, written_arena_ok w o2, ⟨?_, ?_⟩, le12, vs1 ++ vs2, b12, ?_, n12, ?_⟩
  · rw [w.1]; exact f12.1
  · intro r rw hr
    obtain ⟨rw2, e1, e2, e3⟩ := f12.2 r rw hr
    obtain ⟨rw3, e4, e5⟩ := w.2.1 r rw2 e1
    refine ⟨rw3, e4, by rw [e5, e2], fun i hi => ?_⟩
    rw [← e3 i hi, ← heap_at_eq e4, ← heap_at_eq e1]
    apply w.2.2.1
    intro hmem
    simp only [List.mem_flatMap] at hmem
    obtain ⟨q, hq, haq⟩ := hmem
    rw [list.ptr.mem_addrs] at haq
    obtain ⟨r4, e7, e8, e9, e10⟩ := haq
    simp only at e8 e9 e10
    obtain ⟨r2, hr2, hcase⟩ := n1 q hq
    rw [hr2] at e7
    simp only [Option.some.injEq] at e7
    have hrr : r2 = r := by omega
    have hrl : r < h.length := (List.getElem?_eq_some_iff.mp hr).1
    rcases hcase with ⟨c1', c2'⟩ | c1'
    · have := hi (by rw [c1', hrr])
      omega
    · omega
  · have hv3a : ∀ p ∈ vs1 ++ vs2, p.valid h3 := fun p hp => hvalid3 p (by rw [b12]; simp at hp ⊢; tauto)
    rw [views_bytes_eq_addrs hv3a, List.flatMap_append, List.map_append, w.2.2.2 u1]
    congr 1
    rw [← c2, views_bytes_eq_addrs hvv2]
    apply List.map_congr_left
    intro a ha2
    exact w.2.2.1 a (fun ha1 => hdis ha1 ha2)
  · rw [List.flatMap_append, List.nodup_append]
    exact ⟨u1, u2, hdis⟩

theorem valid_length_eq {h : Heap} {l : list} (hl : l.valid h)
    (hex : list.sum_length l._buffers < 4294967296) :
    l.length = list.sum_length l._buffers := by
  have := hl.1
  unfold list.len_ok at this
  unfold list.length
  rw [this, u32_of_lt hex]

theorem encode_seq_spec (fuel : Nat) (hf : 2 ≤ fuel) (s : Shape) (ls : List Value)
    (ih : ∀ x ∈ ls, EncOK (_encode fuel s) (ser s) x) (h : Heap) (bl : list)
    (hl : bl.valid h) (ha : bl.arena_ok h)
    (hb : list.sum_length bl._buffers +
      (u32_bytes (u32 ls.length) ++ ls.flatMap (ser s)).length < 4294967296) :
    ∃ h1 bl1,
      (match _encoderaw fuel (u32_bytes (u32 ls.length)) h bl with
        | none => none
        | some (h1, bl1) => encode_elems (_encode fuel s) ls h1 bl1) = some (h1, bl1) ∧
      Appended h bl (u32_bytes (u32 ls.length) ++ ls.flatMap (ser s)) h1 bl1 := by
  simp only [List.length_append, u32_bytes_length] at hb
  obtain ⟨h1, bl1, e1, a1⟩ := encoderaw_spec fuel (u32_bytes (u32 ls.length)) h bl hl ha
    (by simp [u32_bytes_length]) hf
  have hs := appended_sum a1
  simp only [u32_bytes_length] at hs
  obtain ⟨h2, bl2, e2, a2⟩ := encode_elems_spec ls h1 bl1 ih a1.1 a1.2.1 (by omega)
  exact ⟨h2, bl2, by simp only [e1, e2], list.appended_trans a1 a2⟩

theorem encode_spec (lt : Value → Value → Bool) (fuel : Nat) (hf : 2 ≤ fuel) :
    ∀ (s : Shape), s.ok → ∀ v, has_shape lt s v → EncOK (_encode fuel s) (ser s) v := by
  intro s
  induction s with
  | prim size =>
    intro hok v hv h bl hl ha hb
    cases v with
    | prim t =>
      simp only [has_shape] at hv
      simp only [Shape.ok] at hok
      simp only [_encode, hv, if_true, ser]
      exact encoderaw_spec fuel t h bl hl ha (by omega) hf
    | seq xs => simp [has_shape] at hv
    | map m => simp [has_shape] at hv
  | list s ih =>
    intro hok v hv h bl hl ha hb
    cases v with
    | prim t => simp [has_shape] at hv
    | map m => simp [has_shape] at hv
    | seq ls =>
      simp only [has_shape] at hv
      simp only [Shape.ok] at hok
      have ihx : ∀ x ∈ ls, EncOK (_encode fuel s) (ser s) x := fun x hx => ih hok x (hv x hx)
      simp only [ser] at hb ⊢
      by_cases hemp : ls.isEmpty
      · simp only [_encode, hemp, not_true_eq_false, if_false]
        exact encode_seq_spec fuel hf s ls ihx h bl hl ha hb
      · simp only [_encode, hemp, not_false_eq_true, if_true]
        simp only [List.length_append, u32_bytes_length] at hb
        obtain ⟨h1, bl1, e1, a1⟩ := encoderaw_spec fuel (u32_bytes 0) h bl hl ha
          (by simp [u32_bytes_length]) hf
        have hs := appended_sum a1
        simp only [u32_bytes_length] at hs
        obtain ⟨h2, bl2, n, e2, a2, hn⟩ := encode_counting_spec ls 0 h1 bl1 ihx a1.1 a1.2.1
          (by omega)
        have hs2 := appended_sum a2
        have hlen := valid_length_eq hl (by omega)
        have hlen2 := valid_length_eq a2.1 (by omega)
        obtain ⟨h3, e3, w⟩ := list.copy_in_spec h2 bl2 bl.length 4 (u32_bytes n) a2.1
          (by omega) (u32_bytes_length n)
        refine ⟨h3, bl2, by simp only [e1, e2, e3]; simp, ?_⟩
        have := @appended_patch _ _ _ _ _ _ _ (u32_bytes 0) _ _ hl (by omega) a1 a2
          (by rw [u32_bytes_length]; exact w)
        rw [← u32_bytes_u32 n, hn, Nat.zero_add] at this
        exact this
  | deque s ih =>
    intro hok v hv h bl hl ha hb
    cases v with
    | prim t => simp [has_shape] at hv
    | map m => simp [has_shape] at hv
    | seq ls =>
      simp only [has_shape] at hv
      simp only [Shape.ok] at hok
      simp only [ser] at hb ⊢
      simp only [_encode]
      exact encode_seq_spec fuel hf s ls (fun x hx => ih hok x (hv x hx)) h bl hl ha hb
  | vector s ih =>
    intro hok v hv h bl hl ha hb
    cases v with
    | prim t => simp [has_shape] at hv
    | map m => simp [has_shape] at hv
    | seq ls =>
      simp only [has_shape] at hv
      simp only [Shape.ok] at hok
      simp only [ser] at hb ⊢
      simp only [_encode]
      exact encode_seq_spec fuel hf s ls (fun x hx => ih hok x (hv x hx)) h bl hl ha hb
  | set s ih =>
    intro hok v hv h bl hl ha hb
    cases v with
    | prim t => simp [has_shape] at hv
    | map m => simp [has_shape] at hv
    | seq ls =>
      simp only [has_shape] at hv
      simp only [Shape.ok] at hok
      simp only [ser] at hb ⊢
      simp only [_encode]
      exact encode_seq_spec fuel hf s ls (fun x hx => ih hok x (hv.1 x hx)) h bl hl ha hb
  | map sk sv ihk ihv =>
    intro hok v hv h bl hl ha hb
    cases v with
    | prim t => simp [has_shape] at hv
    | seq xs => simp [has_shape] at hv
    | map m =>
      simp only [has_shape] at hv
      simp only [Shape.ok] at hok
      simp only [ser] at hb ⊢
      simp only [_encode]
      simp only [List.length_append, u32_bytes_length] at hb
      obtain ⟨h1, bl1, e1, a1⟩ := encoderaw_spec fuel (u32_bytes (u32 m.length)) h bl hl ha
        (by simp [u32_bytes_length]) hf
      have hs := appended_sum a1
      simp only [u32_bytes_length] at hs
      obtain ⟨h2, bl2, e2, a2⟩ := @encode_entries_spec (_encode fuel sk)
        (_encode fuel sv) (ser sk) (ser sv) m h1 bl1
        (fun kv hkv => ⟨ihk hok.1 kv.1 (hv.1 kv hkv).1, ihv hok.2 kv.2 (hv.1 kv hkv).2⟩)
        a1.1 a1.2.1 (by omega)
      exact ⟨h2, bl2, by simp only [e1, e2], list.appended_trans a1 a2⟩

theorem decoderaw_spec {h : Heap} {bl : list} (hl : bl.valid h)
    (hex : list.sum_length bl._buffers < 4294967296) (pre t post : List Byte)
    (hc : bl.content h = pre ++ t ++ post) :
    _decoderaw t.length h bl pre.length = some (t, pre.length + t.length) := by
  have hlen := valid_length_eq hl hex
  have hcl : (bl.content h).length = list.sum_length bl._buffers := by
    unfold list.content
    exact list.views_bytes_length hl.2
  have hle : pre.length + t.length ≤ bl.length := by
    rw [hlen, ← hcl, hc]
    simp only [List.length_append]
    omega
  unfold _decoderaw
  rw [list.copy_spec h bl pre.length t.length hl hle, hc, u32_of_lt (by omega)]
  simp

theorem set_insert_last (lt : Value → Value → Bool) (v : Value) :
    ∀ (s : List Value), (∀ y ∈ s, lt y v = true) → set_insert lt v s = s ++ [v]
  | [], _ => rfl
  | y :: ys, hy => by
    simp only [set_insert, hy y (by simp), if_true, List.cons_append]
    rw [set_insert_last lt v ys (fun z hz => hy z (by simp [hz]))]

theorem map_find_last (lt : Value → Value → Bool) (k dflt : Value) :
    ∀ (m : List (Value × Value)), (∀ kv ∈ m, lt kv.1 k = true) → map_find lt k dflt m = dflt
  | [], _ => rfl
  | (k1, v1) :: m, hy => by
    have := hy (k1, v1) (by simp)
    simp only at this
    simp only [map_find, this, if_true]
    exact map_find_last lt k dflt m (fun z hz => hy z (by simp [hz]))

theorem map_set_last (lt : Value → Value → Bool) (k v : Value) :
    ∀ (m : List (Value × Value)), (∀ kv ∈ m, lt kv.1 k = true) →
    map_set lt k v m = m ++ [(k, v)]
  | [], _ => rfl
  | (k1, v1) :: m, hy => by
    have := hy (k1, v1) (by simp)
    simp only at this
    simp only [map_set, this, if_true, List.cons_append]
    rw [map_set_last lt k v m (fun z hz => hy z (by simp [hz]))]

theorem decode_push_spec {C : List Byte} {dec : Nat → Option (Value × Nat)}
    {sz : Value → List Byte} : ∀ (xs acc : List Value) (pre post : List Byte),
    (∀ x ∈ xs, DecOK C dec sz x) → C = pre ++ xs.flatMap sz ++ post →
    decode_push dec xs.length acc pre.length =
      some (acc ++ xs, pre.length + (xs.flatMap sz).length)
  | [], acc, pre, post, _, _ => by simp [decode_push]
  | x :: xs, acc, pre, post, hx, hc => by
    simp only [List.flatMap_cons, List.append_assoc] at hc
    have h1 := hx x (by simp) pre (xs.flatMap sz ++ post) (by rw [hc]; simp)
    have h2 := decode_push_spec xs (acc ++ [x]) (pre ++ sz x) post
      (fun y hy => hx y (by simp [hy])) (by rw [hc]; simp)
    simp only [List.length_append] at h2
    simp only [List.length_cons, decode_push, h1, h2, List.flatMap_cons, List.length_append,
      List.append_assoc, List.singleton_append, Nat.add_assoc]

theorem decode_insert_spec {C : List Byte} {lt : Value → Value → Bool}
    {dec : Nat → Option (Value × Nat)} {sz : Value → List Byte} :
    ∀ (xs acc : List Value) (pre post : List Byte),
    (∀ x ∈ xs, DecOK C dec sz x) → (acc ++ xs).Pairwise (fun a b => lt a b = true) →
    C = pre ++ xs.flatMap sz ++ post →
    decode_insert lt dec xs.length acc pre.length =
      some (acc ++ xs, pre.length + (xs.flatMap sz).length)
  | [], acc, pre, post, _, _, _ => by simp [decode_insert]
  | x :: xs, acc, pre, post, hx, hp, hc => by
    simp only [List.flatMap_cons, List.append_assoc] at hc
    have h1 := hx x (by simp) pre (xs.flatMap sz ++ post) (by rw [hc]; simp)
    have hlast : set_insert lt x acc = acc ++ [x] := by
      apply set_insert_last
      intro y hy
      rw [List.pairwise_append] at hp
      exact hp.2.2 y hy x (by simp)
    have h2 := @decode_insert_spec _ lt _ _ xs (acc ++ [x]) (pre ++ sz x) post
      (fun y hy => hx y (by simp [hy])) (by simpa using hp) (by rw [hc]; simp)
    simp only [List.length_append] at h2
    simp only [List.length_cons, decode_insert, h1, hlast, h2, List.flatMap_cons,
      List.length_append, List.append_assoc, List.singleton_append, Nat.add_assoc]

theorem decode_each_spec {C : List Byte} {dec : Value → Nat → Option (Value × Nat)}
    {sz : Value → List Byte} : ∀ (xs todo acc : List Value) (pre post : List Byte),
    (∀ x ∈ xs, ∀ t, DecOK C (dec t) sz x) → todo.length = xs.length →
    C = pre ++ xs.flatMap sz ++ post →
    decode_each dec todo acc pre.length =
      some (acc ++ xs, pre.length + (xs.flatMap sz).length)
  | [], todo, acc, pre, post, _, ht, _ => by
    have : todo = [] := List.length_eq_zero.mp ht
    subst this
    simp [decode_each]
  | x :: xs, [], acc, pre, post, _, ht, _ => by simp at ht
  | x :: xs, t :: todo, acc, pre, post, hx, ht, hc => by
    simp only [List.flatMap_cons, List.append_assoc] at hc
    have h1 := hx x (by simp) t pre (xs.flatMap sz ++ post) (by rw [hc]; simp)
    have h2 := decode_each_spec xs todo (acc ++ [x]) (pre ++ sz x) post
      (fun y hy => hx y (by simp [hy])) (by simpa using ht) (by rw [hc]; simp)
    simp only [List.length_append] at h2
    simp only [decode_each, h1, h2, List.flatMap_cons, List.length_append,
      List.append_assoc, List.singleton_append, Nat.add_assoc]

theorem decode_entries_spec {C : List Byte} {lt : Value → Value → Bool}
    {deck : Nat → Option (Value × Nat)} {decv : Value → Nat → Option (Value × Nat)}
    {szk szv : Value → List Byte} {dflt : Value} :
    ∀ (m acc : List (Value × Value)) (pre post : List Byte),
    (∀ kv ∈ m, DecOK C deck szk kv.1 ∧ ∀ t, DecOK C (decv t) szv kv.2) →
    ((acc ++ m).map Prod.fst).Pairwise (fun a b => lt a b = true) →
    C = pre ++ m.flatMap (fun kv => szk kv.1 ++ szv kv.2) ++ post →
    decode_entries lt deck decv dflt m.length acc pre.length =
      some (acc ++ m, pre.length + (m.flatMap (fun kv => szk kv.1 ++ szv kv.2)).length)
  | [], acc, pre, post, _, _, _ => by simp [decode_entries]
  | (k, v) :: m, acc, pre, post, hx, hp, hc => by
    simp only [List.flatMap_cons, List.append_assoc] at hc
    have hkv := hx (k, v) (by simp)
    simp only at hkv
    have hkeys : ∀ kv ∈ acc, lt kv.1 k = true := by
      intro kv hkv1
      rw [List.map_append, List.pairwise_append] at hp
      exact hp.2.2 kv.1 (List.mem_map_of_mem _ hkv1) k (by simp)
    have h1 := hkv.1 pre (szv v ++ (m.flatMap (fun kv => szk kv.1 ++ szv kv.2) ++ post))
      (by rw [hc]; simp)
    have h2 := hkv.2 (map_find lt k dflt acc) (pre ++ szk k)
      (m.flatMap (fun kv => szk kv.1 ++ szv kv.2) ++ post) (by rw [hc]; simp)
    simp only [List.length_append] at h2
    have h3 := @decode_entries_spec _ lt deck decv szk
      szv dflt m (acc ++ [(k, v)]) (pre ++ szk k ++ szv v) post
      (fun y hy => hx y (by simp [hy])) (by simpa using hp) (by rw [hc]; simp)
    simp only [List.length_append] at h3
    simp only [List.length_cons, decode_entries, h1, h2, map_set_last lt k v acc hkeys, h3]
    simp [Nat.add_assoc]

theorem flatMap_length_ge {α : Type} (sz : α → List Byte) : ∀ (xs : List α),
    (∀ x ∈ xs, 0 < (sz x).length) → xs.length ≤ (xs.flatMap sz).length
  | [], _ => by simp
  | x :: xs, hx => by
    have h1 := hx x (by simp)
    have h2 := flatMap_length_ge sz xs (fun y hy => hx y (by simp [hy]))
    simp only [List.length_cons, List.flatMap_cons, List.length_append]
    omega

theorem ser_pos (lt : Value → Value → Bool) : ∀ (s : Shape), s.ok → ∀ v, has_shape lt s v →
    0 < (ser s v).length := by
  intro s hok v hv
  cases s <;> cases v <;> simp only [has_shape] at hv <;>
    simp only [ser, List.length_append, u32_bytes_length] <;> try omega
  simp only [Shape.ok] at hok
  omega

theorem resize_length (d : Value) (v : List Value) (n : Nat) : (resize d v n).length = n := by
  simp only [resize, List.length_append, List.length_take, List.length_replicate]
  omega

theorem decode_count {h : Heap} {bl : list} (hl : bl.valid h)
    (hex : list.sum_length bl._buffers < 4294967296) (n : Nat) (pre rest post : List Byte)
    (hn : n ≤ rest.length) (hc : bl.content h = pre ++ (u32_bytes (u32 n) ++ rest) ++ post) :
    _decoderaw 4 h bl pre.length = some (u32_bytes (u32 n), pre.length + 4) ∧
    u32_of_bytes (u32_bytes (u32 n)) = n ∧
    bl.content h = (pre ++ u32_bytes (u32 n)) ++ rest ++ post ∧
    (pre ++ u32_bytes (u32 n)).length = pre.length + 4 := by
  have hcl : (bl.content h).length = list.sum_length bl._buffers := by
    unfold list.content
    exact list.views_bytes_length hl.2
  have hlt : n < 4294967296 := by
    rw [hc] at hcl
    simp only [List.length_append, u32_bytes_length] at hcl
    omega
  refine ⟨?_, ?_, by rw [hc]; simp, by simp [u32_bytes_length]⟩
  · have := decoderaw_spec hl hex pre (u32_bytes (u32 n)) (rest ++ post) (by rw [hc]; simp)
    rwa [u32_bytes_length] at this
  · rw [u32_of_bytes_u32_bytes, u32_of_lt (list.u32_sum_le n).2, u32_of_lt hlt]

theorem decode_spec (lt : Value → Value → Bool) {h : Heap} {bl : list} (hl : bl.valid h)
    (hex : list.sum_length bl._buffers < 4294967296) :
    ∀ (s : Shape), s.ok → ∀ v, has_shape lt s v → ∀ t,
      DecOK (bl.content h) (_decode lt h bl s t) (ser s) v := by
  intro s
  induction s with
  | prim size =>
    intro hok v hv t pre post hc
    cases v with
    | prim b =>
      simp only [has_shape] at hv
      simp only [ser] at hc ⊢
      have := decoderaw_spec hl hex pre b post hc
      rw [hv] at this
      simp only [_decode, this, hv]
    | seq xs => simp [has_shape] at hv
    | map m => simp [has_shape] at hv
  | list s ih =>
    intro hok v hv t pre post hc
    cases v with
    | prim b => simp [has_shape] at hv
    | map m => simp [has_shape] at hv
    | seq ls =>
      simp only [has_shape] at hv
      simp only [Shape.ok] at hok
      simp only [ser] at hc ⊢
      obtain ⟨g1, g2, g3, g4⟩ := decode_count hl hex ls.length pre (ls.flatMap (ser s)) post
        (flatMap_length_ge _ ls (fun x hx => ser_pos lt s hok x (hv x hx))) hc
      have := @decode_push_spec _ (_decode lt h bl s s.default) _ ls [] _ post
        (fun x hx => ih hok x (hv x hx) s.default) g3
      rw [g4] at this
      simp only [_decode, g1, g2, this, List.nil_append, List.length_append, u32_bytes_length,
        Nat.add_assoc]
  | deque s ih =>
    intro hok v hv t pre post hc
    cases v with
    | prim b => simp [has_shape] at hv
    | map m => simp [has_shape] at hv
    | seq ls =>
      simp only [has_shape] at hv
      simp only [Shape.ok] at hok
      simp only [ser] at hc ⊢
      obtain ⟨g1, g2, g3, g4⟩ := decode_count hl hex ls.length pre (ls.flatMap (ser s)) post
        (flatMap_length_ge _ ls (fun x hx => ser_pos lt s hok x (hv x hx))) hc
      have := @decode_push_spec _ (_decode lt h bl s s.default) _ ls [] _ post
        (fun x hx => ih hok x (hv x hx) s.default) g3
      rw [g4] at this
      simp only [_decode, g1, g2, this, List.nil_append, List.length_append, u32_bytes_length,
        Nat.add_assoc]
  | vector s ih =>
    intro hok v hv t pre post hc
    cases v with
    | prim b => simp [has_shape] at hv
    | map m => simp [has_shape] at hv
    | seq ls =>
      simp only [has_shape] at hv
      simp only [Shape.ok] at hok
      simp only [ser] at hc ⊢
      obtain ⟨g1, g2, g3, g4⟩ := decode_count hl hex ls.length pre (ls.flatMap (ser s)) post
        (flatMap_length_ge _ ls (fun x hx => ser_pos lt s hok x (hv x hx))) hc
      have := @decode_each_spec _ (_decode lt h bl s) _ ls
        (resize s.default t.elems ls.length) [] _ post
        (fun x hx p => ih hok x (hv x hx) p) (resize_length _ _ _) g3
      rw [g4] at this
      simp only [_decode, g1, g2, this, List.nil_append, List.length_append, u32_bytes_length,
        Nat.add_assoc]
  | set s ih =>
    intro hok v hv t pre post hc
    cases v with
    | prim b => simp [has_shape] at hv
    | map m => simp [has_shape] at hv
    | seq ls =>
      simp only [has_shape] at hv
      simp only [Shape.ok] at hok
      simp only [ser] at hc ⊢
      obtain ⟨g1, g2, g3, g4⟩ := decode_count hl hex ls.length pre (ls.flatMap (ser s)) post
        (flatMap_length_ge _ ls (fun x hx => ser_pos lt s hok x (hv.1 x hx))) hc
      have := @decode_insert_spec _ lt (_decode lt h bl s s.default) _ ls [] _ post
        (fun x hx => ih hok x (hv.1 x hx) s.default) (by simpa using hv.2) g3
      rw [g4] at this
      simp only [_decode, g1, g2, this, List.nil_append, List.length_append, u32_bytes_length,
        Nat.add_assoc]
  | map sk sv ihk ihv =>
    intro hok v hv t pre post hc
    cases v with
    | prim b => simp [has_shape] at hv
    | seq xs => simp [has_shape] at hv
    | map m =>
      simp only [has_shape] at hv
      simp only [Shape.ok] at hok
      simp only [ser] at hc ⊢
      obtain ⟨g1, g2, g3, g4⟩ := decode_count hl hex m.length pre
        (m.flatMap (fun kv => ser sk kv.1 ++ ser sv kv.2)) post
        (flatMap_length_ge _ m (fun kv hkv => by
          have := ser_pos lt sk hok.1 kv.1 (hv.1 kv hkv).1
          simp only [List.length_append]
          omega)) hc
      have := @decode_entries_spec _ lt (_decode lt h bl sk sk.default)
        (_decode lt h bl sv) (ser sk) (ser sv) sv.default
        m [] _ post
        (fun kv hkv => ⟨ihk hok.1 kv.1 (hv.1 kv hkv).1 sk.default,
          fun p => ihv hok.2 kv.2 (hv.1 kv hkv).2 p⟩) (by simpa using hv.2) g3
      rw [g4] at this
      simp only [_decode, g1, g2, this, List.nil_append, List.length_append, u32_bytes_length,
        Nat.add_assoc]

/-- C4 (as amended): for every value `v` of a type built from fixed-width primitives and
`std::list`, `deque`, `vector`, `set` and `map`, for every valid buffer list `bl` whose
bytes together with the encoding of `v` are fewer than 2^32, and every target `t`:
`_encode(v, bl)` returns, and `_decode(t, bl, off)` at the cursor `off == ` the old
`bl.length()` returns with `t == v` and `off` equal to the new `bl.length()`. -/
theorem codec_round_trip (lt : Value → Value → Bool) (fuel : Nat) (hf : 2 ≤ fuel) (s : Shape)
    (hok : s.ok) (v : Value) (hv : has_shape lt s v) (h : Heap) (bl : list) (hl : bl.valid h)
    (ha : bl.arena_ok h)
    (hb : list.sum_length bl._buffers + (ser s v).length < 4294967296) (t : Value) :
    ∃ h1 bl1, _encode fuel s v h bl = some (h1, bl1) ∧
      _decode lt h1 bl1 s t bl.length = some (v, bl1.length) := by
  obtain ⟨h1, bl1, e1, a1⟩ := encode_spec lt fuel hf s hok v hv h bl hl ha hb
  have hcon := list.appended_content hl ha a1
  have hsum := appended_sum a1
  have hlen := valid_length_eq hl (by omega)
  have hlen1 := valid_length_eq a1.1 (by omega)
  have hpre : (bl.content h).length = bl.length := by
    rw [hlen]
    unfold list.content
    exact list.views_bytes_length hl.2
  have := decode_spec lt a1.1 (by omega) s hok v hv t (bl.content h) []
    (by rw [hcon]; simp)
  rw [hpre] at this
  refine ⟨h1, bl1, e1, ?_⟩
  rw [this, hlen1, hsum, hlen]

/-- C4, an instance: a `std::list` of two elements, which is encoded with its count
patched in place, after the six bytes of `list6`. -/
theorem codec_round_trip_witness :
    shape_list2.ok ∧ has_shape lt_none shape_list2 value_list2 ∧ list.valid heap6 list6 ∧
    list.arena_ok heap6 list6 ∧
    list.sum_length list6._buffers + (ser shape_list2 value_list2).length < 4294967296 ∧
    ∃ h1 bl1, _encode 2 shape_list2 value_list2 heap6 list6 = some (h1, bl1) ∧
      _decode lt_none h1 bl1 shape_list2 (.seq [.prim [7, 7]]) list6.length =
        some (value_list2, bl1.length) :=
  have hok : shape_list2.ok := by simp [shape_list2, Shape.ok]
  have hsh : has_shape lt_none shape_list2 value_list2 := by
    simp [shape_list2, value_list2, has_shape]
  have hb : list.sum_length list6._buffers + (ser shape_list2 value_list2).length
      < 4294967296 := by
    simp [shape_list2, value_list2, ser, u32_bytes, list6, list.sum_length, ptr.length]
  ⟨hok, hsh, by decide, by decide, hb,
    codec_round_trip lt_none 2 (by decide) shape_list2 hok value_list2 hsh heap6 list6
      (by decide) (by decide) hb _⟩

/-- C4 as stated fails: after a valid list of 2^32 - 1 bytes, a `std::vector` of one
element `9 9 9 9` is encoded, the cached length wraps to 7, and the decoder at the old
length reads the count from the new bytes and the element from position 3 of the old
ones: the target is a vector of the element `0 0 0 0`. -/
theorem codec_round_trip_wraps :
    shape_vec4.ok ∧ has_shape lt_none shape_vec4 value_vec4 ∧
    list.valid heap_big list_big ∧ list.arena_ok heap_big list_big ∧
    (match _encode 2 shape_vec4 value_vec4 heap_big list_big with
      | none => none
      | some (h1, bl1) => _decode lt_none h1 bl1 shape_vec4 (.seq []) list_big.length) =
      some (.seq [.prim [0, 0, 0, 0]], 7) ∧
    Value.seq [.prim [0, 0, 0, 0]] ≠ value_vec4 :=
  ⟨by simp [shape_vec4, Shape.ok], by simp [shape_vec4, value_vec4, has_shape], by decide,
    by decide, by rfl, by simp [value_vec4]⟩

theorem cstr_at_spec (rw : raw) : ∀ (s : List Byte) (start n : Nat), (∀ b ∈ s, b ≠ 0) →
    rw.read start (s.length + 1) = s ++ [0] → s.length < n → cstr_at rw n start = some s
  | [], start, n + 1, _, hr, _ => by
    have : rw.data start = 0 := by
      simpa [raw.read, List.range_succ] using hr
    simp [cstr_at, this]
  | [], _, 0, _, _, hn => by simp at hn
  | b :: s, _, 0, _, _, hn => by simp at hn
  | b :: s, start, n + 1, hs, hr, hn => by
    have hsplit : rw.read start (1 + (s.length + 1)) =
        rw.read start 1 ++ rw.read (start + 1) (s.length + 1) := raw.read_append rw start 1 _
    have hr' : rw.read start (1 + (s.length + 1)) = b :: (s ++ [0]) := by
      have e : 1 + (s.length + 1) = (b :: s).length + 1 := by
        simp only [List.length_cons]; omega
      rw [e, hr]
      rfl
    rw [hsplit] at hr'
    have h1 : rw.read start 1 = [rw.data start] := by simp [raw.read, List.range_succ]
    rw [h1] at hr'
    simp only [List.singleton_append, List.cons.injEq] at hr'
    have hb : b ≠ 0 := hs b (by simp)
    have ih := cstr_at_spec rw s (start + 1) n (fun c hc => hs c (by simp [hc])) hr'.2
      (by simp only [List.length_cons] at hn; omega)
    simp only [cstr_at, hr'.1, hb, if_false, ih]

theorem valid_append_heap {h : Heap} {p : ptr} (x : Heap) (hv : p.valid h) :
    p.valid (h ++ x) ∧ p.bytes (h ++ x) = p.bytes h := by
  unfold ptr.valid at hv ⊢
  unfold ptr.bytes
  split at hv
  · exact hv.elim
  · rename_i r hr
    split at hv
    · exact hv.elim
    · rename_i rw hrw
      have hrl : r < h.length := (List.getElem?_eq_some_iff.mp hrw).1
      simp only [List.getElem?_append_left hrl, hrw]
      exact ⟨hv, trivial⟩

theorem views_append_heap {h : Heap} (x : Heap) : ∀ {bs : List ptr}, (∀ p ∈ bs, p.valid h) →
    (∀ p ∈ bs, p.valid (h ++ x)) ∧
    bs.flatMap (ptr.bytes (h ++ x)) = bs.flatMap (ptr.bytes h)
  | [], _ => by simp
  | b :: bs, hv => by
    have h1 := valid_append_heap x (hv b (by simp))
    have h2 := @views_append_heap h x bs (fun p hp => hv p (by simp [hp]))
    refine ⟨?_, by simp [h1.2, h2.2]⟩
    intro p hp
    simp only [List.mem_cons] at hp
    rcases hp with hp | hp
    · subst hp; exact h1.1
    · exact h2.1 p hp

/-- What `c_str()` returns on a list that has a view: a pointer to the bytes of the list,
contiguous in one raw; the list shows the same bytes afterwards. -/
theorem c_str_spec (h : Heap) (l : list) (hl : l.valid h)
    (hex : list.sum_length l._buffers < 4294967296) (hne : l._buffers ≠ []) :
    ∃ h1 l1 r o rw, l.c_str h = some (h1, l1, some (r, o)) ∧ h1[r]? = some rw ∧
      o + (l.content h).length ≤ rw.len ∧ rw.read o (l.content h).length = l.content h ∧
      l1.valid h1 ∧ l1.content h1 = l.content h ∧ l1.length = l.length ∧
      l1._buffers.length = 1 := by
  have hlen := valid_length_eq hl hex
  have hcl : (l.content h).length = list.sum_length l._buffers := by
    unfold list.content
    exact list.views_bytes_length hl.2
  rcases hbs : l._buffers with _ | ⟨bp, _ | ⟨bq, rest⟩⟩
  · exact absurd hbs hne
  · -- one view
    have hv := hl.2 bp (by rw [hbs]; simp)
    have hbl := ptr.bytes_length hv
    have hv' := hv
    unfold ptr.valid at hv'
    split at hv'
    · exact hv'.elim
    · rename_i r hr
      split at hv'
      · exact hv'.elim
      · rename_i rw hrw
        refine ⟨h, l, r, bp._off, rw, ?_, hrw, ?_, ?_, hl, rfl, rfl, by rw [hbs]; rfl⟩
        · unfold list.c_str
          simp only [hbs, hr]
        · unfold list.content
          simp only [hbs, List.flatMap_cons, List.flatMap_nil, List.append_nil, hbl]
          omega
        · unfold list.content
          simp only [hbs, List.flatMap_cons, List.flatMap_nil, List.append_nil, hbl]
          unfold ptr.bytes
          simp only [hr, hrw]
  · -- several views: a new raw
    let x : Heap := [{ data := fun _ => 0, len := l.length }]
    have hva := views_append_heap x hl.2
    have hl1 : l.valid (h ++ x) := ⟨hl.1, hva.1⟩
    have hcopy := list.copy_spec (h ++ x) l 0 l.length hl1 (by omega)
    have hcon1 : l.content (h ++ x) = l.content h := hva.2
    rw [hcon1, List.drop_zero, List.take_of_length_le (by omega)] at hcopy
    have hget : (h ++ x)[h.length]? = some { data := fun _ => 0, len := l.length } := by
      simp [x]
    have hres : l.c_str h = some ((h ++ x).set h.length
        (raw.write { data := fun _ => 0, len := l.length } 0 (l.content h)),
        l.clear.push_back ⟨some h.length, 0, l.length⟩, some (h.length, 0)) := by
      unfold list.c_str
      rw [hbs]
      simp only [x] at hget hcopy
      simp only [create, ptr.of_raw, hget, hcopy]
    have hget1 : ((h ++ x).set h.length
        (raw.write { data := fun _ => 0, len := l.length } 0 (l.content h)))[h.length]? =
        some (raw.write { data := fun _ => 0, len := l.length } 0 (l.content h)) := by
      simp [x]
    have hread : (raw.write { data := fun _ => 0, len := l.length } 0 (l.content h)).read 0
        (l.content h).length = l.content h := raw.read_write_same _ _ _
    have hL : (l.content h).length = l.length := by rw [hcl, hlen]
    have hLlt : l.length < 4294967296 := by rw [hlen]; exact hex
    refine ⟨_, _, h.length, 0, _, hres, hget1, ?_, hread, ⟨?_, ?_⟩, ?_, ?_, ?_⟩
    · show 0 + (l.content h).length ≤ l.length
      omega
    · show u32 (0 + l.length) = u32 (list.sum_length [⟨some h.length, 0, l.length⟩])
      simp [list.sum_length, ptr.length]
    · intro p hp
      simp only [list.clear, list.push_back, List.nil_append, List.mem_singleton] at hp
      subst hp
      unfold ptr.valid
      simp only [hget1]
      show 0 + l.length ≤ l.length ∧ l.length < 4294967296
      exact ⟨by omega, hLlt⟩
    · show ptr.bytes _ ⟨some h.length, 0, l.length⟩ ++ [] = l.content h
      unfold ptr.bytes
      simp only [hget1, List.append_nil]
      rw [← hL]
      exact hread
    · show u32 (0 + l.length) = l.length
      rw [Nat.zero_add, u32_of_lt hLlt]
    · rfl

theorem encode_string_spec (fuel : Nat) (hf : 2 ≤ fuel) (s : List Byte) (h : Heap) (bl : list)
    (hl : bl.valid h) (ha : bl.arena_ok h)
    (hb : list.sum_length bl._buffers + s.length + 5 < 2147483648) :
    ∃ h1 bl1, _encode_string fuel s h bl = some (h1, bl1) ∧
      Appended h bl (u32_bytes (u32 s.length) ++ (s ++ [0])) h1 bl1 := by
  have hlen : u32 s.length = s.length := u32_of_lt (by omega)
  have hlen1 : u32 (s.length + 1) = s.length + 1 := u32_of_lt (by omega)
  obtain ⟨h1, bl1, e1, a1⟩ := encoderaw_spec fuel (u32_bytes (u32 s.length)) h bl hl ha
    (by simp [u32_bytes_length]) hf
  obtain ⟨h2, bl2, e2, a2, _⟩ := list.append_spec h1 bl1 (s ++ [0]) (s.length + 1) fuel a1.1
    a1.2.1 (by simp) (by omega) hf
  refine ⟨h2, bl2, ?_, list.appended_trans a1 a2⟩
  unfold _encode_string
  simp only [hlen, hlen1]
  rw [hlen] at e1
  simp only [e1]
  rw [List.take_of_length_le (by simp)]
  exact e2

/-- C5 (as amended): for every `std::string` `s` with no NUL byte and every valid buffer
list `bl`, fewer than 2^31 bytes in all: `_encode(s, bl)` returns, and `_decode(t, bl, off)`
at the cursor `off == ` the old `bl.length()` returns with `t == s` and `off` equal to the
new `bl.length()`; the list shows the same bytes after the decoder has made it contiguous. -/
theorem string_round_trip (fuel : Nat) (hf : 2 ≤ fuel) (s : List Byte) (hs : ∀ b ∈ s, b ≠ 0)
    (h : Heap) (bl : list) (hl : bl.valid h) (ha : bl.arena_ok h)
    (hb : list.sum_length bl._buffers + s.length + 5 < 2147483648) :
    ∃ h1 bl1 h2 bl2, _encode_string fuel s h bl = some (h1, bl1) ∧
      _decode_string h1 bl1 bl.length = some (s, bl1.length, h2, bl2) ∧
      bl2.valid h2 ∧ bl2.content h2 = bl1.content h1 := by
  obtain ⟨h1, bl1, e1, a1⟩ := encode_string_spec fuel hf s h bl hl ha hb
  have hlenS : u32 s.length = s.length := u32_of_lt (by omega)
  rw [hlenS] at a1
  have hcon := list.appended_content hl ha a1
  have hsum := appended_sum a1
  simp only [List.length_append, u32_bytes_length, List.length_singleton] at hsum
  have hlen := valid_length_eq hl (by omega)
  have hlen1 := valid_length_eq a1.1 (by omega)
  have hpre : (bl.content h).length = bl.length := by
    rw [hlen]
    unfold list.content
    exact list.views_bytes_length hl.2
  have hcl1 : (bl1.content h1).length = bl.length + (4 + (s.length + 1)) := by
    rw [hcon]
    simp only [List.length_append, u32_bytes_length, List.length_singleton, hpre]
  have hdec := decoderaw_spec a1.1 (by omega) (bl.content h) (u32_bytes s.length) (s ++ [0])
    (by rw [hcon]; simp)
  rw [u32_bytes_length, hpre] at hdec
  obtain ⟨h2, bl2, r, o, rw, c1, c2, c3, c4, c5, c6, c7, _⟩ := c_str_spec h1 bl1 a1.1
    (by omega) (by
      intro hnil
      rw [hnil] at hsum
      simp only [list.sum_length_nil] at hsum
      omega)
  have hread : rw.read (o + (bl.length + 4)) (s.length + 1) = s ++ [0] := by
    have := congrArg (fun x => (x.drop (bl.length + 4)).take (s.length + 1)) c4
    simp only [raw.read_drop] at this
    have hc' : bl1.content h1 = (bl.content h ++ u32_bytes s.length) ++ (s ++ [0]) := by
      rw [hcon]; simp
    rw [raw.read_take _ _ _ _ (by omega), hc'] at this
    rw [this]
    have e : bl.length + 4 = (bl.content h ++ u32_bytes s.length).length := by
      simp [hpre, u32_bytes_length]
    rw [e, List.drop_left, List.take_of_length_le (by simp)]
  have hscan := cstr_at_spec rw s (o + (bl.length + 4)) (rw.len - (o + (bl.length + 4))) hs
    hread (by omega)
  refine ⟨h1, bl1, h2, bl2, e1, ?_, c5, c6⟩
  have hlt : bl.length + 4 < 2147483648 := by omega
  have hu1 : u32 (s.length + 1) = s.length + 1 := u32_of_lt (by omega)
  have hu2 : u32 (bl.length + 4 + (s.length + 1)) = bl.length + 4 + (s.length + 1) :=
    u32_of_lt (by omega)
  have hfin : bl.length + 4 + (s.length + 1) = bl1.length := by
    rw [hlen1, hsum, hlen]; omega
  unfold _decode_string
  simp only [hdec, c1, c2]
  rw [if_pos hlt, hscan]
  simp only [u32_of_bytes_u32_bytes, hlenS, hu1, hu2]
  rw [hfin]

/-- C5, an instance: the string `ab` after the six bytes of `list6`. -/
theorem string_round_trip_witness :
    (∀ b ∈ ([97, 98] : List Byte), b ≠ 0) ∧ list.valid heap6 list6 ∧
    list.arena_ok heap6 list6 ∧
    ∃ h1 bl1 h2 bl2, _encode_string 2 [97, 98] heap6 list6 = some (h1, bl1) ∧
      _decode_string h1 bl1 list6.length = some ([97, 98], bl1.length, h2, bl2) ∧
      bl2.valid h2 ∧ bl2.content h2 = bl1.content h1 :=
  have hs : ∀ b ∈ ([97, 98] : List Byte), b ≠ 0 := by simp
  ⟨hs, by decide, by decide,
    string_round_trip 2 (by decide) [97, 98] hs heap6 list6 (by decide) (by decide)
      (by decide)⟩

/-- C5 as stated fails: the string `a\\0b` is encoded in eight bytes, and the decoder, which
assigns the C string at the cursor, returns `a`. -/
theorem string_round_trip_nul :
    list.valid [] list.empty ∧ list.arena_ok [] list.empty ∧
    (match _encode_string 2 string_nul [] list.empty with
      | none => none
      | some (h1, bl1) =>
        (_decode_string h1 bl1 list.empty.length).map (fun r => (r.1, r.2.1))) =
      some ([97], 8) ∧
    ([97] : List Byte) ≠ string_nul :=
  ⟨by decide, by decide, by decide, by decide⟩

end buffer

/-! ## The MDS monitor: theorems -/

namespace IMap

theorem find_set_same {α : Type} (k : Int) (v : α) :
    ∀ m : IMap α, find k (set k v m) = some v
  | [] => by simp [set, find]
  | (k1, v1) :: m => by
    unfold set
    by_cases h1 : k = k1
    · simp [h1, find]
    · by_cases h2 : k < k1
      · simp [h1, h2, find]
      · simp [h1, h2, find, find_set_same k v m]

theorem find_none_of_not_mem {α : Type} (k : Int) :
    ∀ m : IMap α, k ∉ m.map Prod.fst → find k m = none
  | [], _ => rfl
  | (k1, v1) :: m, h => by
    simp only [List.map_cons, List.mem_cons, not_or] at h
    simp only [find, h.1, if_false]
    exact find_none_of_not_mem k m h.2

theorem find_mem {α : Type} (k : Int) (v : α) :
    ∀ m : IMap α, find k m = some v → (k, v) ∈ m
  | [], h => by simp [find] at h
  | (k1, v1) :: m, h => by
    unfold find at h
    by_cases h1 : k = k1
    · simp only [h1, if_true, Option.some.injEq] at h
      simp [h1, h]
    · simp only [h1, if_false] at h
      exact List.mem_cons_of_mem _ (find_mem k v m h)

theorem index_of_find {α : Type} (m : IMap α) (k : Int) (d v : α) (h : find k m = some v) :
    index m k d = (v, m) := by
  simp [index, h]

end IMap

namespace ISet

theorem insert_head (x : Int) (s : ISet) :
    ∃ h t, insert x s = h :: t ∧ (h = x ∨ s.head? = some h) ∧ h ≤ x ∧
      ∀ y, s.head? = some y → h ≤ y := by
  cases s with
  | nil => exact ⟨x, [], rfl, Or.inl rfl, le_refl _, by simp⟩
  | cons y t =>
    unfold insert
    by_cases h1 : x = y
    · refine ⟨y, t, by simp [h1], Or.inr rfl, by omega, ?_⟩
      intro z hz
      simp only [List.head?_cons, Option.some.injEq] at hz
      omega
    · by_cases h2 : x < y
      · refine ⟨x, y :: t, by simp [h1, h2], Or.inl rfl, le_refl _, ?_⟩
        intro z hz
        simp only [List.head?_cons, Option.some.injEq] at hz
        omega
      · refine ⟨y, insert x t, by simp [h1, h2], Or.inr rfl, by omega, ?_⟩
        intro z hz
        simp only [List.head?_cons, Option.some.injEq] at hz
        omega

end ISet

open MDSState

namespace MDSMap

theorem failed_fold (l : IMap MDSState) : ∀ (acc : ISet),
    ((l.foldl (fun acc e => if e.2 = STATE_FAILED then ISet.insert e.1 acc else acc) acc = [])
      ↔ (acc = [] ∧ ∀ e ∈ l, e.2 ≠ STATE_FAILED)) ∧
    ∀ h, (l.foldl (fun acc e => if e.2 = STATE_FAILED then ISet.insert e.1 acc else acc)
        acc).head? = some h →
      (acc.head? = some h ∨ (h, STATE_FAILED) ∈ l) ∧ (∀ a, acc.head? = some a → h ≤ a) ∧
      ∀ e ∈ l, e.2 = STATE_FAILED → h ≤ e.1 := by
  induction l with
  | nil =>
    intro acc
    refine ⟨by simp, ?_⟩
    intro h hh
    simp only [List.foldl_nil] at hh
    refine ⟨Or.inl hh, ?_, by simp⟩
    intro a ha
    rw [hh] at ha
    simp only [Option.some.injEq] at ha
    omega
  | cons e l ih =>
    intro acc
    simp only [List.foldl_cons]
    by_cases hf : e.2 = STATE_FAILED
    · simp only [hf, if_true]
      obtain ⟨x, t, h1, h2, h3, h4⟩ := ISet.insert_head e.1 acc
      obtain ⟨i1, i2⟩ := ih (ISet.insert e.1 acc)
      constructor
      · rw [i1]
        constructor
        · intro h
          rw [h1] at h
          simp at h
        · intro h
          exact absurd hf (h.2 e (by simp))
      · intro h hh
        obtain ⟨j1, j2, j3⟩ := i2 h hh
        have hx : h ≤ x := j2 x (by rw [h1]; rfl)
        refine ⟨?_, ?_, ?_⟩
        · rcases j1 with j1 | j1
          · rw [h1] at j1
            simp only [List.head?_cons, Option.some.injEq] at j1
            subst j1
            rcases h2 with h2 | h2
            · right
              rw [h2]
              have : e = (e.1, STATE_FAILED) := by rw [← hf]
              rw [← this]
              simp
            · left; exact h2
          · right; exact List.mem_cons_of_mem _ j1
        · intro a ha
          have := h4 a ha
          omega
        · intro e1 he1 hf1
          simp only [List.mem_cons] at he1
          rcases he1 with he1 | he1
          · subst he1; omega
          · exact j3 e1 he1 hf1
    · simp only [hf, if_false]
      obtain ⟨i1, i2⟩ := ih acc
      constructor
      · rw [i1]
        constructor
        · intro h
          refine ⟨h.1, ?_⟩
          intro e1 he1
          simp only [List.mem_cons] at he1
          rcases he1 with he1 | he1
          · subst he1; exact hf
          · exact h.2 e1 he1
        · intro h
          exact ⟨h.1, fun e1 he1 => h.2 e1 (List.mem_cons_of_mem _ he1)⟩
      · intro h hh
        obtain ⟨j1, j2, j3⟩ := i2 h hh
        refine ⟨?_, j2, ?_⟩
        · rcases j1 with j1 | j1
          · left; exact j1
          · right; exact List.mem_cons_of_mem _ j1
        · intro e1 he1 hf1
          simp only [List.mem_cons] at he1
          rcases he1 with he1 | he1
          · subst he1; exact absurd hf1 hf
          · exact j3 e1 he1 hf1

theorem failed_set_nil (p : MDSMap) (h : ∀ e ∈ p.mds_state, e.2 ≠ STATE_FAILED) :
    p.get_failed_mds_set [] = [] :=
  ((failed_fold p.mds_state []).1).2 ⟨rfl, h⟩

theorem failed_set_cons (p : MDSMap) (h : ∃ e ∈ p.mds_state, e.2 = STATE_FAILED) :
    ∃ f t, p.get_failed_mds_set [] = f :: t ∧ (f, STATE_FAILED) ∈ p.mds_state ∧
      ∀ e ∈ p.mds_state, e.2 = STATE_FAILED → f ≤ e.1 := by
  obtain ⟨i1, i2⟩ := failed_fold p.mds_state []
  cases hs : p.get_failed_mds_set [] with
  | nil =>
    obtain ⟨e, he, hf⟩ := h
    exact absurd hf ((i1.1 hs).2 e he)
  | cons f t =>
    obtain ⟨j1, _, j3⟩ := i2 f (by
      unfold get_failed_mds_set at hs
      rw [hs]; rfl)
    refine ⟨f, t, rfl, ?_, j3⟩
    rcases j1 with j1 | j1
    · simp at j1
    · exact j1

end MDSMap

namespace MDSMonitor

theorem pick_unused_least (p : MDSMap) : ∀ (fuel : Nat) (a i : Int), a ≤ i →
    (p.is_dne i = true ∨ p.is_stopped i = true) →
    (∀ j, a ≤ j → j < i → p.is_dne j = false ∧ p.is_stopped j = false) →
    i - a < (fuel : Int) → i ≤ 2147483647 →
    pick_unused p fuel a =
      some (i, if p.is_dne i = true then STATE_CREATING else STATE_STARTING)
  | 0, a, i, h1, _, _, h4, _ => by
    simp only [Nat.cast_zero] at h4
    omega
  | fuel + 1, a, i, h1, h2, h3, h4, h5 => by
    unfold pick_unused
    by_cases ha : a = i
    · subst ha
      by_cases hd : p.is_dne a = true
      · simp [hd]
      · have hs : p.is_stopped a = true := by
          rcases h2 with h2 | h2
          · exact absurd h2 hd
          · exact h2
        simp [hd, hs]
    · have hn := h3 a (le_refl _) (by omega)
      have hne : a ≠ 2147483647 := by omega
      simp only [hn.1, hn.2, hne, if_false, Bool.false_eq_true]
      exact pick_unused_least p fuel (a + 1) i (by omega) h2
        (fun j hj1 hj2 => h3 j (by omega) hj2)
        (by push_cast at h4; omega) h5

theorem exists_unused (p : MDSMap) :
    ∃ n : Nat, n ≤ p.mds_state.length ∧ p.is_dne (n : Int) = true := by
  have hc : (p.mds_state.map Prod.fst).toFinset.card <
      ((Finset.range (p.mds_state.length + 1)).image (fun n : Nat => (n : Int))).card := by
    rw [Finset.card_image_of_injective _ Nat.cast_injective, Finset.card_range]
    have := List.toFinset_card_le (p.mds_state.map Prod.fst)
    simp only [List.length_map] at this
    omega
  have hex : ∃ e ∈ (Finset.range (p.mds_state.length + 1)).image (fun n : Nat => (n : Int)),
      e ∉ (p.mds_state.map Prod.fst).toFinset := by
    by_contra hcon
    push_neg at hcon
    have := Finset.card_le_card (fun e he => hcon e he)
    omega
  obtain ⟨e, he, hne⟩ := hex
  simp only [Finset.mem_image, Finset.mem_range] at he
  obtain ⟨n, hn, rfl⟩ := he
  refine ⟨n, by omega, ?_⟩
  simp only [List.mem_toFinset] at hne
  simp [MDSMap.is_dne, MDSMap.get_state, IMap.find_none_of_not_mem _ _ hne]

theorem pick_unused_spec (p : MDSMap) (fuel : Nat) (hlen : p.mds_state.length < 2147483647)
    (hf : p.mds_state.length < fuel) :
    ∃ i s, pick_unused p fuel 0 = some (i, s) ∧ 0 ≤ i ∧ i ≤ (p.mds_state.length : Int) ∧
      (∀ j, 0 ≤ j → j < i → p.get_state j ≠ STATE_DNE ∧ p.get_state j ≠ STATE_STOPPED) ∧
      ((p.get_state i = STATE_DNE ∧ s = STATE_CREATING) ∨
        (p.get_state i = STATE_STOPPED ∧ s = STATE_STARTING)) := by
  have hex : ∃ n : Nat, p.is_dne (n : Int) = true ∨ p.is_stopped (n : Int) = true := by
    obtain ⟨n, _, hn⟩ := exists_unused p
    exact ⟨n, Or.inl hn⟩
  have hfree := Nat.find_spec hex
  have hle : Nat.find hex ≤ p.mds_state.length := by
    obtain ⟨n, hn1, hn2⟩ := exists_unused p
    exact le_trans (Nat.find_min' hex (Or.inl hn2)) hn1
  have hmin : ∀ j : Int, 0 ≤ j → j < (Nat.find hex : Int) →
      p.is_dne j = false ∧ p.is_stopped j = false := by
    intro j hj1 hj2
    have hj : j = ((j.toNat : Nat) : Int) := by omega
    have := Nat.find_min hex (show j.toNat < Nat.find hex by omega)
    rw [← hj] at this
    simp only [not_or, Bool.not_eq_true] at this
    exact this
  have hp := pick_unused_least p fuel 0 (Nat.find hex : Int) (by omega) hfree hmin (by omega)
    (by omega)
  refine ⟨_, _, hp, by omega, by omega, ?_, ?_⟩
  · intro j hj1 hj2
    have := hmin j hj1 hj2
    simpa [MDSMap.is_dne, MDSMap.is_stopped] using this
  · by_cases hd : p.is_dne (Nat.find hex : Int) = true
    · left
      simp only [hd, if_true, and_true]
      simpa [MDSMap.is_dne] using hd
    · right
      have hs : p.is_stopped (Nat.find hex : Int) = true := by
        rcases hfree with h | h
        · exact absurd h hd
        · exact h
      simp only [hd, if_false, and_true]
      simpa [MDSMap.is_stopped] using hs

end MDSMonitor

namespace MDSMonitor

theorem record_spec (seq : Nat) (f : Int) (s : MDSState) (mon1 : MDSMonitor) :
    (record seq f s mon1).1 = true ∧ (record seq f s mon1).2.1 = f ∧
    (record seq f s mon1).2.2.pending_mdsmap.mds_inst = mon1.pending_mdsmap.mds_inst ∧
    IMap.find f (record seq f s mon1).2.2.pending_mdsmap.mds_state =
      some (if (s = STATE_STARTING ∨ s = STATE_CREATING ∨
          mon1.mdsmap.get_state f = STATE_STARTING ∨
          mon1.mdsmap.get_state f = STATE_CREATING) ∧
          (mon1.pending_mdsmap.is_degraded = true ∨ mon1.pending_mdsmap.is_full = true)
        then STATE_STANDBY else s) := by
  refine ⟨rfl, rfl, ?_, ?_⟩
  · unfold record
    dsimp only
    split_ifs <;> rfl
  · have hd : ∀ c : ISet, ({ mon1.pending_mdsmap with mds_created := c } : MDSMap).is_degraded
        = mon1.pending_mdsmap.is_degraded := fun _ => rfl
    have hfu : ∀ c : ISet, ({ mon1.pending_mdsmap with mds_created := c } : MDSMap).is_full
        = mon1.pending_mdsmap.is_full := fun _ => rfl
    unfold record
    dsimp only
    split_ifs <;>
      simp_all [IMap.find_set_same, MDSMap.is_starting, MDSMap.is_creating]

end MDSMonitor

namespace MDSMonitor

theorem inc_in_range (p : MDSMap) (hr : p.in_range) (f : Int) :
    (IMap.index p.mds_inc f 0).1 ≠ 2147483647 := by
  unfold IMap.index
  cases h : IMap.find f p.mds_inc with
  | none => simp
  | some v =>
    have := hr.2 (f, v) (IMap.find_mem f v _ h)
    simp only at this ⊢
    omega

theorem handle_beacon_assigned (fuel : Nat) (g_conf : md_config_t) (now : Nat)
    (mon : MDSMonitor) (m : MMDSBeacon) (f : Int) (s : MDSState)
    (hboot : m.state = STATE_BOOT)
    (hassert : mon.mdsmap.get_state m.mds_inst.name.num ≠ STATE_BOOT)
    (hb : boot_assign fuel g_conf mon m = some (Boot.assigned f s))
    (hr : mon.pending_mdsmap.in_range) :
    ∃ mon1, handle_beacon fuel g_conf now mon m = some (true, f, mon1) ∧
      mon1.pending_mdsmap.get_inst f = some ⟨entity_name_t.MDS f, m.mds_inst.addr⟩ ∧
      IMap.find f mon1.pending_mdsmap.mds_state =
        some (if (s = STATE_STARTING ∨ s = STATE_CREATING ∨
            mon.mdsmap.get_state f = STATE_STARTING ∨
            mon.mdsmap.get_state f = STATE_CREATING) ∧
            (mon.pending_mdsmap.is_degraded = true ∨ mon.pending_mdsmap.is_full = true)
          then STATE_STANDBY else s) := by
  have hinc := inc_in_range mon.pending_mdsmap hr f
  have ha : ¬ (STATE_BOOT = mon.mdsmap.get_state m.mds_inst.name.num) := fun h => hassert h.symm
  unfold handle_beacon
  simp only [MMDSBeacon.get_state, MMDSBeacon.get_mds_inst, MMDSBeacon.get_seq, hboot, ha,
    if_false, if_true, hb, hinc]
  have key : ∀ M : MDSMonitor, ∃ mon1, some (record m.seq f s M) = some (true, f, mon1) ∧
      mon1.pending_mdsmap.mds_inst = M.pending_mdsmap.mds_inst ∧
      IMap.find f mon1.pending_mdsmap.mds_state =
        some (if (s = STATE_STARTING ∨ s = STATE_CREATING ∨
            M.mdsmap.get_state f = STATE_STARTING ∨
            M.mdsmap.get_state f = STATE_CREATING) ∧
            (M.pending_mdsmap.is_degraded = true ∨ M.pending_mdsmap.is_full = true)
          then STATE_STANDBY else s) := by
    intro M
    obtain ⟨_, _, r3, r4⟩ := record_spec m.seq f s M
    exact ⟨(record m.seq f s M).2.2, rfl, r3, r4⟩
  obtain ⟨mon1, k1, k2, k3⟩ := key
    { mon with
      pending_mdsmap := { mon.pending_mdsmap with
        mds_inst := IMap.set f ⟨entity_name_t.MDS f, m.mds_inst.addr⟩
          (IMap.set f { (IMap.index mon.pending_mdsmap.mds_inst f ⟨⟨0, 0⟩, 0⟩).1 with
              addr := m.mds_inst.addr }
            (IMap.index mon.pending_mdsmap.mds_inst f ⟨⟨0, 0⟩, 0⟩).2),
        mds_inc := IMap.set f ((IMap.index mon.pending_mdsmap.mds_inc f 0).1 + 1)
          (IMap.index mon.pending_mdsmap.mds_inc f 0).2 }
      last_beacon := IMap.set f now mon.last_beacon }
  refine ⟨mon1, k1, ?_, k3⟩
  unfold MDSMap.get_inst
  rw [k2]
  exact IMap.find_set_same _ _ _

end MDSMonitor

namespace MDSMonitor

/-- C7 (as amended): on the leader, for every committed map and every beacon that is not a
BOOT beacon from an address the committed map does not know, with `from` the id of the
sender (for a BOOT beacon the id that holds its address): if the beacon's `seq` is
strictly below the recorded `mdsmap.mds_state_seq[from]`, `preprocess_beacon` returns
`true`, the message is done with, nothing is sent and the monitor, its pending map
included, is as before. -/
theorem stale_beacon_dropped (now : Nat) (mon : MDSMonitor) (m : MMDSBeacon) (cur : Nat)
    (hknown : m.state = STATE_BOOT → 0 ≤ mon.mdsmap.get_addr_rank m.mds_inst.addr)
    (hcur : IMap.find (if m.state = STATE_BOOT then mon.mdsmap.get_addr_rank m.mds_inst.addr
      else m.mds_inst.name.num) mon.mdsmap.mds_state_seq = some cur)
    (hlt : m.seq < cur) :
    preprocess_beacon true now mon m = (true, mon, []) := by
  unfold preprocess_beacon
  simp only [MMDSBeacon.get_state, MMDSBeacon.get_mds_inst, MMDSBeacon.get_seq]
  have h1 : ¬ (m.state = STATE_BOOT ∧ mon.mdsmap.get_addr_rank m.mds_inst.addr < 0) := by
    intro h
    have := hknown h.1
    omega
  rw [IMap.index_of_find _ _ _ _ hcur]
  simp [h1, hlt]

/-- C7, an instance: the beacon number 3 of server 0, whose beacon number 5 is recorded. -/
theorem stale_beacon_dropped_witness :
    (beacon7_old.state = STATE_BOOT →
      0 ≤ mon7.mdsmap.get_addr_rank beacon7_old.mds_inst.addr) ∧
    beacon7_old.seq < 5 ∧ preprocess_beacon true 9 mon7 beacon7_old = (true, mon7, []) :=
  ⟨by decide, by decide,
    stale_beacon_dropped 9 mon7 beacon7_old 5 (by decide) (by decide) (by decide)⟩

/-- C7 as stated fails.  The beacon number 5 of server 0, with the recorded number 5, is
not dropped: `preprocess_beacon` returns `false` and `handle_beacon` writes the state
ACTIVE into the pending map.  And the BOOT beacon number 1 that names id 0 from an
address the committed map does not hold is not compared at all: `preprocess_beacon`
returns `false` and `handle_beacon` adds id 1 to the pending map. -/
theorem stale_beacon_reaches_update :
    IMap.find 0 mon7.mdsmap.mds_state_seq = some 5 ∧
    beacon7.mds_inst.name.num = 0 ∧ beacon7.seq ≤ 5 ∧
    (preprocess_beacon true 9 mon7 beacon7).1 = false ∧
    mon7.pending_mdsmap.mds_state = [(0, STATE_CREATING)] ∧
    (handle_beacon 1 ⟨false⟩ 9 mon7 beacon7).map
      (fun r => (r.1, r.2.2.pending_mdsmap.mds_state)) = some (true, [(0, STATE_ACTIVE)]) ∧
    beacon7_boot.mds_inst.name.num = 0 ∧ beacon7_boot.seq ≤ 5 ∧
    (preprocess_beacon true 9 mon7 beacon7_boot).1 = false ∧
    (handle_beacon 2 ⟨false⟩ 9 mon7 beacon7_boot).map
      (fun r => (r.1, r.2.2.pending_mdsmap.mds_state)) =
      some (true, [(0, STATE_CREATING), (1, STATE_CREATING)]) := by
  decide

end MDSMonitor

namespace MDSMonitor

theorem boot_assert_ok (f : Int) (s : MDSState)
    (h : s = STATE_CREATING ∨ s = STATE_STARTING ∨ s = STATE_REPLAY) :
    boot_assert f s = some (Boot.assigned f s) := by
  unfold boot_assert
  rw [if_pos h]

theorem boot_assign_unnamed (fuel : Nat) (g_conf : md_config_t) (mon : MDSMonitor)
    (m : MMDSBeacon)
    (hanon : m.mds_inst.name.num < 0 ∨ (g_conf.mon_allow_mds_bully = false ∧
      (mon.mdsmap.have_inst m.mds_inst.name.num = false ∨
        mon.mdsmap.get_inst m.mds_inst.name.num ≠ some m.mds_inst)))
    (haddr : mon.pending_mdsmap.get_addr_rank m.mds_inst.addr < 0) :
    boot_assign fuel g_conf mon m =
      match mon.pending_mdsmap.get_failed_mds_set [] with
      | f :: _ =>
        if 0 ≤ f then boot_assert f STATE_REPLAY
        else
          match pick_unused mon.pending_mdsmap fuel 0 with
          | none => none
          | some (i, s) => boot_assert i s
      | [] =>
        match pick_unused mon.pending_mdsmap fuel 0 with
        | none => none
        | some (i, s) => boot_assert i s := by
  have haddr1 : ¬ 0 ≤ mon.pending_mdsmap.get_addr_rank m.mds_inst.addr := by omega
  unfold boot_assign
  simp only [MMDSBeacon.get_mds_inst, MMDSBeacon.get_state]
  have hn : ¬ 0 ≤ (if 0 ≤ m.mds_inst.name.num then
        if (!g_conf.mon_allow_mds_bully &&
            (!mon.mdsmap.have_inst m.mds_inst.name.num ||
              decide (mon.mdsmap.get_inst m.mds_inst.name.num ≠ some m.mds_inst))) = true then
          ((-1 : Int), m.state)
        else (m.mds_inst.name.num, boot_state (mon.mdsmap.get_state m.mds_inst.name.num))
      else (m.mds_inst.name.num, m.state)).1 := by
    by_cases h0 : 0 ≤ m.mds_inst.name.num
    · rcases hanon with h | ⟨hb, h⟩
      · omega
      · have hc : (!g_conf.mon_allow_mds_bully &&
            (!mon.mdsmap.have_inst m.mds_inst.name.num ||
              decide (mon.mdsmap.get_inst m.mds_inst.name.num ≠ some m.mds_inst))) = true := by
          rcases h with h | h
          · simp [hb, h]
          · simp [hb, h]
        rw [if_pos h0, if_pos hc]
        show ¬ (0 : Int) ≤ -1
        omega
    · rw [if_neg h0]
      exact h0
  rw [if_neg hn, if_neg haddr1]
  cases mon.pending_mdsmap.get_failed_mds_set [] with
  | nil => simp only [haddr1, if_false]
  | cons f t => rfl

end MDSMonitor

namespace MDSMonitor

/-- C8 (as amended): for a BOOT beacon with no usable named id (no id named, or bully mode
off and the named id without the sender's instance in the committed map) whose address is
not in `pending_mdsmap`, on a pending map of non-negative ids within the `int` range:
`handle_beacon` returns `true` and gives the sender's address to the id it picks; the id
is the least FAILED id of the pending map, next state REPLAY, if a FAILED id exists; and
otherwise the least id from 0 that is DNE or STOPPED, next state CREATING if it is DNE and
STARTING if it is STOPPED. -/
theorem boot_picks_failed_then_least_unused (fuel : Nat) (g_conf : md_config_t) (now : Nat)
    (mon : MDSMonitor) (m : MMDSBeacon)
    (hboot : m.state = STATE_BOOT)
    (hassert : mon.mdsmap.get_state m.mds_inst.name.num ≠ STATE_BOOT)
    (hanon : m.mds_inst.name.num < 0 ∨ (g_conf.mon_allow_mds_bully = false ∧
      (mon.mdsmap.have_inst m.mds_inst.name.num = false ∨
        mon.mdsmap.get_inst m.mds_inst.name.num ≠ some m.mds_inst)))
    (haddr : mon.pending_mdsmap.get_addr_rank m.mds_inst.addr < 0)
    (hids : ∀ e ∈ mon.pending_mdsmap.mds_state, 0 ≤ e.1)
    (hr : mon.pending_mdsmap.in_range) (hf : mon.pending_mdsmap.mds_state.length < fuel) :
    ∃ from_ state mon1,
      boot_assign fuel g_conf mon m = some (Boot.assigned from_ state) ∧
      handle_beacon fuel g_conf now mon m = some (true, from_, mon1) ∧
      mon1.pending_mdsmap.get_inst from_ =
        some ⟨entity_name_t.MDS from_, m.mds_inst.addr⟩ ∧
      ((∃ e ∈ mon.pending_mdsmap.mds_state, e.2 = STATE_FAILED) →
        state = STATE_REPLAY ∧ (from_, STATE_FAILED) ∈ mon.pending_mdsmap.mds_state ∧
        ∀ e ∈ mon.pending_mdsmap.mds_state, e.2 = STATE_FAILED → from_ ≤ e.1) ∧
      ((∀ e ∈ mon.pending_mdsmap.mds_state, e.2 ≠ STATE_FAILED) →
        0 ≤ from_ ∧
        (∀ j, 0 ≤ j → j < from_ → mon.pending_mdsmap.get_state j ≠ STATE_DNE ∧
          mon.pending_mdsmap.get_state j ≠ STATE_STOPPED) ∧
        ((mon.pending_mdsmap.get_state from_ = STATE_DNE ∧ state = STATE_CREATING) ∨
          (mon.pending_mdsmap.get_state from_ = STATE_STOPPED ∧
            state = STATE_STARTING))) := by
  have hb := boot_assign_unnamed fuel g_conf mon m hanon haddr
  by_cases hfail : ∃ e ∈ mon.pending_mdsmap.mds_state, e.2 = STATE_FAILED
  · obtain ⟨f, t, e1, e2, e3⟩ := MDSMap.failed_set_cons _ hfail
    have h0 : 0 ≤ f := hids (f, STATE_FAILED) e2
    rw [e1] at hb
    simp only [h0, if_true] at hb
    rw [boot_assert_ok f STATE_REPLAY (by simp)] at hb
    obtain ⟨mon1, k1, k2, _⟩ := handle_beacon_assigned fuel g_conf now mon m f STATE_REPLAY
      hboot hassert hb hr
    refine ⟨f, STATE_REPLAY, mon1, hb, k1, k2, fun _ => ⟨rfl, e2, e3⟩, ?_⟩
    intro hno
    obtain ⟨e, he, hf1⟩ := hfail
    exact absurd hf1 (hno e he)
  · have hno : ∀ e ∈ mon.pending_mdsmap.mds_state, e.2 ≠ STATE_FAILED := by
      intro e he hf1
      exact hfail ⟨e, he, hf1⟩
    rw [MDSMap.failed_set_nil _ hno] at hb
    obtain ⟨i, s, p1, p2, _, p4, p5⟩ := pick_unused_spec mon.pending_mdsmap fuel hr.1 hf
    simp only [p1] at hb
    rw [boot_assert_ok i s (by
      rcases p5 with p5 | p5
      · exact Or.inl p5.2
      · exact Or.inr (Or.inl p5.2))] at hb
    obtain ⟨mon1, k1, k2, _⟩ := handle_beacon_assigned fuel g_conf now mon m i s
      hboot hassert hb hr
    exact ⟨i, s, mon1, hb, k1, k2, fun h => absurd h hfail, fun _ => ⟨p2, p4, p5⟩⟩

/-- C8, an instance: the boot of a server that names no id on the map with the stopped
id 0 and the non-existent id 1. -/
theorem boot_picks_failed_then_least_unused_witness :
    beacon8.state = STATE_BOOT ∧ mon8.pending_mdsmap.get_addr_rank beacon8.mds_inst.addr < 0 ∧
    ∃ from_ state mon1,
      boot_assign 3 ⟨false⟩ mon8 beacon8 = some (Boot.assigned from_ state) ∧
      handle_beacon 3 ⟨false⟩ 9 mon8 beacon8 = some (true, from_, mon1) ∧
      mon1.pending_mdsmap.get_inst from_ =
        some ⟨entity_name_t.MDS from_, beacon8.mds_inst.addr⟩ ∧
      ((∃ e ∈ mon8.pending_mdsmap.mds_state, e.2 = STATE_FAILED) →
        state = STATE_REPLAY ∧ (from_, STATE_FAILED) ∈ mon8.pending_mdsmap.mds_state ∧
        ∀ e ∈ mon8.pending_mdsmap.mds_state, e.2 = STATE_FAILED → from_ ≤ e.1) ∧
      ((∀ e ∈ mon8.pending_mdsmap.mds_state, e.2 ≠ STATE_FAILED) →
        0 ≤ from_ ∧
        (∀ j, 0 ≤ j → j < from_ → mon8.pending_mdsmap.get_state j ≠ STATE_DNE ∧
          mon8.pending_mdsmap.get_state j ≠ STATE_STOPPED) ∧
        ((mon8.pending_mdsmap.get_state from_ = STATE_DNE ∧ state = STATE_CREATING) ∨
          (mon8.pending_mdsmap.get_state from_ = STATE_STOPPED ∧
            state = STATE_STARTING))) :=
  ⟨by decide, by decide,
    boot_picks_failed_then_least_unused 3 ⟨false⟩ 9 mon8 beacon8 (by decide) (by decide)
      (by decide) (by decide) (by decide) (by decide) (by decide)⟩

/-- C8 as stated fails: the pending map has no FAILED id, the DNE id 1 and the STOPPED
id 0; the boot of a server that names no id picks the stopped id 0, next state STARTING,
and leaves the DNE id 1 as it is. -/
theorem boot_picks_stopped_before_dne :
    beacon8.state = STATE_BOOT ∧ beacon8.mds_inst.name.num < 0 ∧
    mon8.pending_mdsmap.get_addr_rank beacon8.mds_inst.addr < 0 ∧
    mon8.pending_mdsmap.mds_state = [(0, STATE_STOPPED), (1, STATE_DNE)] ∧
    boot_assign 3 ⟨false⟩ mon8 beacon8 = some (Boot.assigned 0 STATE_STARTING) ∧
    (handle_beacon 3 ⟨false⟩ 9 mon8 beacon8).map
      (fun r => (r.1, r.2.1, r.2.2.pending_mdsmap.mds_state, r.2.2.pending_mdsmap.mds_inst)) =
      some (true, 0, [(0, STATE_STARTING), (1, STATE_DNE)],
        [(0, ⟨entity_name_t.MDS 0, 4⟩)]) :=
  ⟨by decide, by decide, by decide, by decide, by decide, rfl⟩

end MDSMonitor

namespace MDSMonitor

/-- C9 (as amended): for a BOOT beacon naming id `from >= 0`.  When bully mode is disabled
and the committed map has no instance for `from`, or one that differs from the sender's,
the named id is dropped: the assignment goes on as for the same beacon with no id named
(and so does all of `handle_beacon`, when the committed state of id -1 is not BOOT).  In
every other case the id is kept, with the derived state STARTING if the committed state is
STOPPED, STARTING or STANDBY, CREATING if it is DNE or CREATING, and REPLAY otherwise, and
`handle_beacon` returns `true` with the sender's address recorded for `from`. -/
theorem named_boot_rule (fuel : Nat) (g_conf : md_config_t) (now : Nat) (mon : MDSMonitor)
    (m : MMDSBeacon) (hboot : m.state = STATE_BOOT) (hfrom : 0 ≤ m.mds_inst.name.num)
    (hassert : mon.mdsmap.get_state m.mds_inst.name.num ≠ STATE_BOOT)
    (hr : mon.pending_mdsmap.in_range) :
    if g_conf.mon_allow_mds_bully = false ∧
        (mon.mdsmap.have_inst m.mds_inst.name.num = false ∨
          mon.mdsmap.get_inst m.mds_inst.name.num ≠ some m.mds_inst) then
      boot_assign fuel g_conf mon m = boot_assign fuel g_conf mon m.anonymous ∧
      (mon.mdsmap.get_state (-1) ≠ STATE_BOOT →
        handle_beacon fuel g_conf now mon m = handle_beacon fuel g_conf now mon m.anonymous)
    else
      boot_assign fuel g_conf mon m = some (Boot.assigned m.mds_inst.name.num
        (boot_state (mon.mdsmap.get_state m.mds_inst.name.num))) ∧
      (boot_state (mon.mdsmap.get_state m.mds_inst.name.num) =
        if mon.mdsmap.get_state m.mds_inst.name.num = STATE_STOPPED ∨
            mon.mdsmap.get_state m.mds_inst.name.num = STATE_STARTING ∨
            mon.mdsmap.get_state m.mds_inst.name.num = STATE_STANDBY then STATE_STARTING
        else if mon.mdsmap.get_state m.mds_inst.name.num = STATE_DNE ∨
            mon.mdsmap.get_state m.mds_inst.name.num = STATE_CREATING then STATE_CREATING
        else STATE_REPLAY) ∧
      ∃ mon1, handle_beacon fuel g_conf now mon m = some (true, m.mds_inst.name.num, mon1) ∧
        mon1.pending_mdsmap.get_inst m.mds_inst.name.num =
          some ⟨entity_name_t.MDS m.mds_inst.name.num, m.mds_inst.addr⟩ := by
  by_cases hc : g_conf.mon_allow_mds_bully = false ∧
      (mon.mdsmap.have_inst m.mds_inst.name.num = false ∨
        mon.mdsmap.get_inst m.mds_inst.name.num ≠ some m.mds_inst)
  · rw [if_pos hc]
    have hb : boot_assign fuel g_conf mon m = boot_assign fuel g_conf mon m.anonymous := by
      have hcb : (!g_conf.mon_allow_mds_bully &&
          (!mon.mdsmap.have_inst m.mds_inst.name.num ||
            decide (mon.mdsmap.get_inst m.mds_inst.name.num ≠ some m.mds_inst))) = true := by
        obtain ⟨hb, h⟩ := hc
        rcases h with h | h
        · simp [hb, h]
        · simp [hb, h]
      have hneg : ¬ (0 : Int) ≤ -1 := by omega
      unfold boot_assign
      simp only [MMDSBeacon.get_mds_inst, MMDSBeacon.get_state, MMDSBeacon.anonymous,
        entity_name_t.num, hneg, if_false]
      simp only [entity_name_t.num] at hfrom hcb
      rw [if_pos hfrom, if_pos hcb]
      simp only [hneg, if_false]
    refine ⟨hb, ?_⟩
    intro h1
    have ha : ¬ (STATE_BOOT = mon.mdsmap.get_state m.mds_inst.name.num) :=
      fun h => hassert h.symm
    have ha1 : ¬ (STATE_BOOT = mon.mdsmap.get_state (-1)) := fun h => h1 h.symm
    unfold handle_beacon
    rw [← hb]
    simp only [MMDSBeacon.get_mds_inst, MMDSBeacon.get_state, MMDSBeacon.get_seq,
      MMDSBeacon.anonymous, entity_name_t.num, hboot, ha1, if_false, if_true]
    simp only [entity_name_t.num] at ha
    simp only [ha, if_false]
  · rw [if_neg hc]
    have hb : boot_assign fuel g_conf mon m = some (Boot.assigned m.mds_inst.name.num
        (boot_state (mon.mdsmap.get_state m.mds_inst.name.num))) := by
      have hcb : ¬ ((!g_conf.mon_allow_mds_bully &&
          (!mon.mdsmap.have_inst m.mds_inst.name.num ||
            decide (mon.mdsmap.get_inst m.mds_inst.name.num ≠ some m.mds_inst))) = true) := by
        intro h
        apply hc
        simp only [Bool.and_eq_true, Bool.not_eq_true', Bool.or_eq_true,
          decide_eq_true_eq] at h
        exact h
      unfold boot_assign
      simp only [MMDSBeacon.get_mds_inst, MMDSBeacon.get_state]
      rw [if_pos hfrom, if_neg hcb]
      simp only [hfrom, if_true]
      apply boot_assert_ok
      cases mon.mdsmap.get_state m.mds_inst.name.num <;> simp [boot_state]
    refine ⟨hb, ?_, ?_⟩
    · generalize mon.mdsmap.get_state m.mds_inst.name.num = st
      cases st <;> simp [boot_state]
    · obtain ⟨mon1, k1, k2, _⟩ := handle_beacon_assigned fuel g_conf now mon m _ _
        hboot hassert hb hr
      exact ⟨mon1, k1, k2⟩

end MDSMonitor

namespace MDSMonitor

/-- C9, an instance: server 0 boots again from the address the committed map holds for it,
bully mode off; its id is kept and its committed state CREATING gives CREATING. -/
theorem named_boot_rule_witness :
    beacon7_reboot.state = STATE_BOOT ∧ 0 ≤ beacon7_reboot.mds_inst.name.num ∧
    mon7.mdsmap.get_inst 0 = some beacon7_reboot.mds_inst ∧
    boot_assign 1 ⟨false⟩ mon7 beacon7_reboot = some (Boot.assigned 0 STATE_CREATING) := by
  have h := named_boot_rule 1 ⟨false⟩ 9 mon7 beacon7_reboot (by decide) (by decide)
    (by decide) (by decide)
  rw [if_neg (by decide)] at h
  exact ⟨by decide, by decide, by decide, h.1⟩

/-- C9 as stated fails: the committed map has no instance for id 3, bully mode is off,
and the BOOT beacon that names id 3 does not keep it: the named id is dropped and the
sender becomes id 0. -/
theorem named_id_without_instance_dropped :
    beacon9.state = STATE_BOOT ∧ beacon9.mds_inst.name.num = 3 ∧
    mon9.mdsmap.have_inst 3 = false ∧ mon9.mdsmap.get_state 3 = STATE_DNE ∧
    boot_assign 1 ⟨false⟩ mon9 beacon9 = some (Boot.assigned 0 STATE_CREATING) ∧
    (handle_beacon 1 ⟨false⟩ 9 mon9 beacon9).map
      (fun r => (r.1, r.2.1, r.2.2.pending_mdsmap.mds_state, r.2.2.pending_mdsmap.mds_inst)) =
      some (true, 0, [(0, STATE_CREATING)], [(0, ⟨entity_name_t.MDS 0, 7⟩)]) :=
  ⟨by decide, by decide, by decide, by decide, by decide, rfl⟩

/-- C10: in `handle_beacon`, with `from` and `state` the sender's id and the incoming
state, or for a BOOT beacon the id and the state the boot assignment derives, the handler
returns `true` and the state written to `pending_mdsmap.mds_state[from]` is STANDBY
whenever (`state` is STARTING or CREATING, or the committed map has `from` in STARTING or
CREATING) and the pending map is degraded or full; in every other case it is `state`. -/
theorem degradation_gate (fuel : Nat) (g_conf : md_config_t) (now : Nat) (mon : MDSMonitor)
    (m : MMDSBeacon) (from_ : Int) (state : MDSState)
    (hassert : m.state ≠ mon.mdsmap.get_state m.mds_inst.name.num)
    (hst : if m.state = STATE_BOOT then
        boot_assign fuel g_conf mon m = some (Boot.assigned from_ state) ∧
          mon.pending_mdsmap.in_range
      else from_ = m.mds_inst.name.num ∧ state = m.state) :
    ∃ mon1, handle_beacon fuel g_conf now mon m = some (true, from_, mon1) ∧
      IMap.find from_ mon1.pending_mdsmap.mds_state =
        some (if (state = STATE_STARTING ∨ state = STATE_CREATING ∨
            mon.mdsmap.get_state from_ = STATE_STARTING ∨
            mon.mdsmap.get_state from_ = STATE_CREATING) ∧
            (mon.pending_mdsmap.is_degraded = true ∨ mon.pending_mdsmap.is_full = true)
          then STATE_STANDBY else state) := by
  by_cases hboot : m.state = STATE_BOOT
  · rw [if_pos hboot] at hst
    rw [hboot] at hassert
    obtain ⟨mon1, k1, _, k3⟩ := handle_beacon_assigned fuel g_conf now mon m from_ state
      hboot (fun h => hassert h.symm) hst.1 hst.2
    exact ⟨mon1, k1, k3⟩
  · rw [if_neg hboot] at hst
    obtain ⟨h1, h2⟩ := hst
    subst h1 h2
    obtain ⟨_, _, _, r4⟩ := record_spec m.seq m.mds_inst.name.num m.state mon
    refine ⟨(record m.seq m.mds_inst.name.num m.state mon).2.2, ?_, r4⟩
    unfold handle_beacon
    simp only [MMDSBeacon.get_mds_inst, MMDSBeacon.get_state, MMDSBeacon.get_seq, hassert,
      hboot, if_false]
    rfl

/-- C10, an instance: the pending map has the failed id 0, so it is degraded, and the
standby server 1 announces STARTING: the state written is STANDBY. -/
theorem degradation_gate_witness :
    beacon10.state ≠ mon10.mdsmap.get_state beacon10.mds_inst.name.num ∧
    mon10.pending_mdsmap.is_degraded = true ∧
    ∃ mon1, handle_beacon 1 ⟨false⟩ 9 mon10 beacon10 = some (true, 1, mon1) ∧
      IMap.find 1 mon1.pending_mdsmap.mds_state = some STATE_STANDBY :=
  ⟨by decide, by decide,
    degradation_gate 1 ⟨false⟩ 9 mon10 beacon10 1 STATE_STARTING (by decide) (by decide)⟩

end MDSMonitor

namespace IMap

theorem find_set_other {α : Type} (j k : Int) (v : α) (hjk : j ≠ k) :
    ∀ m : IMap α, find j (set k v m) = find j m
  | [] => by simp [set, find, hjk]
  | (k1, v1) :: m => by
    unfold set
    by_cases h1 : k = k1
    · subst h1
      simp [find, hjk]
    · by_cases h2 : k < k1
      · simp [h1, h2, find, hjk]
      · simp only [h1, h2, if_false, find]
        rw [find_set_other j k v hjk m]

theorem find_of_mem_nodup {α : Type} (k : Int) (v : α) :
    ∀ m : IMap α, (m.map Prod.fst).Nodup → (k, v) ∈ m → find k m = some v
  | [], _, h => by simp at h
  | (k1, v1) :: m, hn, h => by
    simp only [List.map_cons, List.nodup_cons] at hn
    simp only [List.mem_cons, Prod.mk.injEq] at h
    unfold find
    rcases h with h | h
    · simp [h.1, h.2]
    · have hne : k ≠ k1 := by
        intro e
        apply hn.1
        rw [← e]
        exact List.mem_map_of_mem Prod.fst h
      simp only [hne, if_false]
      exact find_of_mem_nodup k v m hn.2 h

end IMap

namespace MDSMonitor

/-- C18: with the words of the command in `cmd` and `atoi` the C library function.  When
the second word is `stop` and a third word follows, read as the id by `atoi`:
`handle_command` replies 0 and sets `pending_mdsmap.mds_state[id] = STOPPING` if the id is
ACTIVE in the committed map, and replies `-EEXIST` and leaves the monitor as it is if it
is not.  When the second word is `set_target_num` and a third word follows, read as `n`:
it replies 0 and sets `pending_mdsmap.target_num = n`.  For every other command it
replies `-EINVAL` and leaves the monitor as it is.  It returns `true` exactly when the
reply is not negative. -/
theorem handle_command_results (atoi : String → Int) (mon : MDSMonitor) (cmd : List String) :
    ((cmd[1]? = some "stop" ∧ 2 < cmd.length) →
      (mon.mdsmap.get_state (atoi (cmd[2]?.getD "")) = STATE_ACTIVE →
        handle_command atoi mon cmd = (true, 0,
          { mon with pending_mdsmap := { mon.pending_mdsmap with
            mds_state := IMap.set (atoi (cmd[2]?.getD "")) STATE_STOPPING
              mon.pending_mdsmap.mds_state } }) ∧
        IMap.find (atoi (cmd[2]?.getD ""))
          (handle_command atoi mon cmd).2.2.pending_mdsmap.mds_state = some STATE_STOPPING) ∧
      (mon.mdsmap.get_state (atoi (cmd[2]?.getD "")) ≠ STATE_ACTIVE →
        handle_command atoi mon cmd = (false, -EEXIST, mon))) ∧
    ((cmd[1]? = some "set_target_num" ∧ 2 < cmd.length) →
      handle_command atoi mon cmd = (true, 0,
        { mon with pending_mdsmap := { mon.pending_mdsmap with
          target_num := atoi (cmd[2]?.getD "") } })) ∧
    (¬ (cmd[1]? = some "stop" ∧ 2 < cmd.length) →
      ¬ (cmd[1]? = some "set_target_num" ∧ 2 < cmd.length) →
      handle_command atoi mon cmd = (false, -EINVAL, mon)) := by
  refine ⟨?_, ?_, ?_⟩
  · intro hs
    have h1 : 1 < cmd.length := by omega
    constructor
    · intro ha
      have hact : mon.mdsmap.is_active (atoi (cmd[2]?.getD "")) = true := by
        simp [MDSMap.is_active, ha]
      have e : handle_command atoi mon cmd = (true, 0,
          { mon with pending_mdsmap := { mon.pending_mdsmap with
            mds_state := IMap.set (atoi (cmd[2]?.getD "")) STATE_STOPPING
              mon.pending_mdsmap.mds_state } }) := by
        unfold handle_command
        simp only [gt_iff_lt, h1, hs, and_self, if_true, hact]
        simp
      refine ⟨e, ?_⟩
      rw [e]
      exact IMap.find_set_same _ _ _
    · intro ha
      have hact : mon.mdsmap.is_active (atoi (cmd[2]?.getD "")) = false := by
        simp [MDSMap.is_active, ha]
      unfold handle_command
      simp only [gt_iff_lt, h1, hs, and_self, if_true, hact]
      simp [EEXIST]
  · intro hs
    have h1 : 1 < cmd.length := by omega
    have hne : ¬ (cmd[1]? = some "stop" ∧ 2 < cmd.length) := by
      intro h
      rw [hs.1] at h
      simp at h
    unfold handle_command
    simp only [gt_iff_lt, h1, hne, hs, and_self, if_true, if_false]
    simp
  · intro h1 h2
    unfold handle_command
    simp only [gt_iff_lt, h1, h2, if_false]
    simp [EINVAL]

/-- C18, an instance: `mds stop 0` on the map whose id 0 is active. -/
theorem handle_command_results_witness :
    (["mds", "stop", "0"][1]? = some "stop" ∧ 2 < ["mds", "stop", "0"].length) ∧
    mon11.mdsmap.get_state (atoi_digits "0") = STATE_ACTIVE ∧
    IMap.find (atoi_digits "0") (handle_command atoi_digits mon11
      ["mds", "stop", "0"]).2.2.pending_mdsmap.mds_state = some STATE_STOPPING :=
  ⟨by decide, by decide,
    (((handle_command_results atoi_digits mon11 ["mds", "stop", "0"]).1 (by decide)).1
      (by decide)).2⟩

end MDSMonitor

namespace MDSMonitor

theorem stop_loop_not_mem (k : Int) : ∀ (c p : IMap MDSState), k ∉ c.map Prod.fst →
    IMap.find k (stop_loop c p) = IMap.find k p
  | [], p, _ => rfl
  | e :: c, p, h => by
    simp only [List.map_cons, List.mem_cons, not_or] at h
    unfold stop_loop
    cases hs : stop_state e.2 with
    | none => exact stop_loop_not_mem k c p h.2
    | some s =>
      simp only
      rw [stop_loop_not_mem k c _ h.2]
      exact IMap.find_set_other k e.1 s h.1 p

theorem stop_loop_mem (k : Int) (s : MDSState) : ∀ (c p : IMap MDSState),
    (c.map Prod.fst).Nodup → (k, s) ∈ c →
    IMap.find k (stop_loop c p) =
      match stop_state s with
      | some t => some t
      | none => IMap.find k p
  | [], _, _, h => by simp at h
  | e :: c, p, hn, h => by
    simp only [List.map_cons, List.nodup_cons] at hn
    simp only [List.mem_cons] at h
    unfold stop_loop
    rcases h with h | h
    · subst h
      cases hs : stop_state s with
      | none =>
        simp only
        exact stop_loop_not_mem k c p hn.1
      | some t =>
        simp only
        rw [stop_loop_not_mem k c _ hn.1]
        exact IMap.find_set_same k t p
    · have hne : k ≠ e.1 := by
        intro e1
        apply hn.1
        rw [← e1]
        exact List.mem_map_of_mem Prod.fst h
      cases hs : stop_state e.2 with
      | none =>
        simp only
        exact stop_loop_mem k s c p hn.2 h
      | some t =>
        simp only
        rw [stop_loop_mem k s c _ hn.2 h]
        cases stop_state s with
        | none => exact IMap.find_set_other k e.1 t hne p
        | some _ => rfl

/-- C19: on a leader with active Paxos, for every id of the committed `mds_state` (a map:
no id twice), the pending state after `do_stop` is STOPPING if the committed state is
ACTIVE or STOPPING, DNE if it is CREATING or STANDBY, STOPPED if it is STARTING, FAILED
if it is REPLAY, RESOLVE, RECONNECT or REJOIN, and the pending state before the call for
any other committed state; an id that is not in the committed map keeps its pending
state, nothing but `pending_mdsmap.mds_state` changes, and a proposal is requested.  When
the monitor is not leader or Paxos is not active the monitor is unchanged and nothing is
proposed. -/
theorem do_stop_writes (mon : MDSMonitor)
    (hk : (mon.mdsmap.mds_state.map Prod.fst).Nodup) :
    (∀ id s, (id, s) ∈ mon.mdsmap.mds_state →
      IMap.find id (do_stop true true mon).1.pending_mdsmap.mds_state =
        if s = STATE_ACTIVE ∨ s = STATE_STOPPING then some STATE_STOPPING
        else if s = STATE_CREATING ∨ s = STATE_STANDBY then some STATE_DNE
        else if s = STATE_STARTING then some STATE_STOPPED
        else if s = STATE_REPLAY ∨ s = STATE_RESOLVE ∨ s = STATE_RECONNECT ∨
            s = STATE_REJOIN then some STATE_FAILED
        else IMap.find id mon.pending_mdsmap.mds_state) ∧
    (∀ id, id ∉ mon.mdsmap.mds_state.map Prod.fst →
      IMap.find id (do_stop true true mon).1.pending_mdsmap.mds_state =
        IMap.find id mon.pending_mdsmap.mds_state) ∧
    (do_stop true true mon).1 = { mon with pending_mdsmap := { mon.pending_mdsmap with
      mds_state := (do_stop true true mon).1.pending_mdsmap.mds_state } } ∧
    (do_stop true true mon).2 = true ∧
    (∀ is_leader paxos_active, is_leader = false ∨ paxos_active = false →
      do_stop is_leader paxos_active mon = (mon, false)) := by
  refine ⟨?_, ?_, rfl, rfl, ?_⟩
  · intro id s hm
    have := stop_loop_mem id s mon.mdsmap.mds_state mon.pending_mdsmap.mds_state hk hm
    show IMap.find id (stop_loop mon.mdsmap.mds_state mon.pending_mdsmap.mds_state) = _
    rw [this]
    cases s <;> simp [stop_state]
  · intro id hm
    exact stop_loop_not_mem id mon.mdsmap.mds_state mon.pending_mdsmap.mds_state hm
  · intro l p h
    unfold do_stop
    rcases h with h | h <;> simp [h]

/-- C19, an instance: the stop on the map with the active ids 0 and 2, the reconnecting
id 1 and the starting id 3. -/
theorem do_stop_writes_witness :
    (mon11.mdsmap.mds_state.map Prod.fst).Nodup ∧
    (do_stop true true mon11).1.pending_mdsmap.mds_state =
      [(0, STATE_STOPPING), (1, STATE_FAILED), (2, STATE_STOPPING), (3, STATE_STOPPED)] ∧
    IMap.find 1 (do_stop true true mon11).1.pending_mdsmap.mds_state = some STATE_FAILED :=
  ⟨by decide, by decide,
    (do_stop_writes mon11 (by decide)).1 1 STATE_RECONNECT (by decide)⟩

end MDSMonitor

namespace MDSMonitor

theorem record_frame (seq : Nat) (f : Int) (s : MDSState) (mon1 : MDSMonitor) :
    (record seq f s mon1).1 = true ∧ (record seq f s mon1).2.1 = f ∧
    (record seq f s mon1).2.2.mdsmap = mon1.mdsmap ∧
    (record seq f s mon1).2.2.pending_mdsmap.epoch = mon1.pending_mdsmap.epoch ∧
    (record seq f s mon1).2.2.pending_mdsmap.same_in_set_since =
      if in_set ((record seq f s mon1).2.2.pending_mdsmap.get_state f) = true then
        mon1.pending_mdsmap.epoch
      else mon1.pending_mdsmap.same_in_set_since := by
  refine ⟨rfl, rfl, rfl, ?_, ?_⟩
  · unfold record
    dsimp only
    split_ifs <;> rfl
  · obtain ⟨_, _, _, r4⟩ := record_spec seq f s mon1
    have hfind : ∀ (p : MDSMap) (x : MDSState), IMap.find f p.mds_state = some x →
        p.get_state f = x := by
      intro p x hx
      unfold MDSMap.get_state
      rw [hx]
    have hg := hfind _ _ r4
    rw [hg]
    have hd : ∀ c : ISet, ({ mon1.pending_mdsmap with mds_created := c } : MDSMap).is_degraded
        = mon1.pending_mdsmap.is_degraded := fun _ => rfl
    have hfu : ∀ c : ISet, ({ mon1.pending_mdsmap with mds_created := c } : MDSMap).is_full
        = mon1.pending_mdsmap.is_full := fun _ => rfl
    unfold record
    dsimp only
    split_ifs <;>
      simp_all [in_set, MDSMap.is_starting, MDSMap.is_creating]

theorem boot_assign_pending (fuel : Nat) (g_conf : md_config_t) (mon : MDSMonitor)
    (m : MMDSBeacon) (f : Int) (s : MDSState) (p : MDSMap)
    (h : boot_assign fuel g_conf mon m = some (Boot.already_pending f s p)) :
    p.epoch = mon.pending_mdsmap.epoch ∧
    p.same_in_set_since = mon.pending_mdsmap.same_in_set_since := by
  have ha : ∀ i t, boot_assert i t ≠ some (Boot.already_pending f s p) := by
    intro i t
    unfold boot_assert
    split_ifs <;> simp
  unfold boot_assign at h
  dsimp only at h
  split_ifs at h <;>
    first
    | exact absurd h (ha _ _)
    | (simp only [Option.some.injEq, Boot.already_pending.injEq] at h
       obtain ⟨_, _, rfl⟩ := h
       exact ⟨rfl, rfl⟩)
    | (cases hp : pick_unused mon.pending_mdsmap fuel 0 with
       | none =>
         rw [hp] at h
         simp at h
       | some r =>
         obtain ⟨i, t⟩ := r
         rw [hp] at h
         exact absurd h (ha _ _))

end MDSMonitor

namespace MDSMonitor

theorem handle_beacon_frame (fuel : Nat) (g_conf : md_config_t) (now : Nat)
    (mon : MDSMonitor) (m : MMDSBeacon) (r : Bool × Int × MDSMonitor)
    (h : handle_beacon fuel g_conf now mon m = some r) :
    r.2.2.mdsmap = mon.mdsmap ∧
    r.2.2.pending_mdsmap.epoch = mon.pending_mdsmap.epoch ∧
    r.2.2.pending_mdsmap.same_in_set_since =
      if joins fuel g_conf mon (Event.beacon now m) = true then mon.pending_mdsmap.epoch
      else mon.pending_mdsmap.same_in_set_since := by
  have hj : joins fuel g_conf mon (Event.beacon now m) =
      (r.1 && in_set (r.2.2.pending_mdsmap.get_state r.2.1)) := by
    obtain ⟨b, f, mon1⟩ := r
    simp only [joins, h]
    cases b <;> simp
  rw [hj]
  have key : ∀ (f : Int) (s : MDSState) (M : MDSMonitor), r = record m.seq f s M →
      M.mdsmap = mon.mdsmap →
      M.pending_mdsmap.epoch = mon.pending_mdsmap.epoch →
      M.pending_mdsmap.same_in_set_since = mon.pending_mdsmap.same_in_set_since →
      r.2.2.mdsmap = mon.mdsmap ∧
      r.2.2.pending_mdsmap.epoch = mon.pending_mdsmap.epoch ∧
      r.2.2.pending_mdsmap.same_in_set_since =
        if (r.1 && in_set (r.2.2.pending_mdsmap.get_state r.2.1)) = true then
          mon.pending_mdsmap.epoch
        else mon.pending_mdsmap.same_in_set_since := by
    intro f s M hr h1 h2 h3
    obtain ⟨r1, r2, r3, r4, r5⟩ := record_frame m.seq f s M
    rw [hr, r1, r2, r3, r4, r5, h1, h2, h3]
    simp
  unfold handle_beacon at h
  simp only [MMDSBeacon.get_mds_inst, MMDSBeacon.get_state, MMDSBeacon.get_seq] at h
  by_cases ha : m.state = mon.mdsmap.get_state m.mds_inst.name.num
  · rw [if_pos ha] at h
    simp at h
  · rw [if_neg ha] at h
    by_cases hb : m.state = STATE_BOOT
    · rw [if_pos hb] at h
      cases hba : boot_assign fuel g_conf mon m with
      | none =>
        rw [hba] at h
        simp at h
      | some b =>
        rw [hba] at h
        cases b with
        | already_pending f s p =>
          simp only [Option.some.injEq] at h
          obtain ⟨e1, e2⟩ := boot_assign_pending fuel g_conf mon m f s p hba
          rw [← h]
          simp [e1, e2]
        | assigned f s =>
          simp only at h
          split_ifs at h with hi
          simp only [Option.some.injEq] at h
          exact key f s _ h.symm rfl rfl rfl
    · rw [if_neg hb] at h
      simp only [Option.some.injEq] at h
      exact key _ _ mon h.symm rfl rfl rfl

theorem tick_loop_frame (now cutoff : Nat) (mdsmap : MDSMap) :
    ∀ (up : List Int) (p : MDSMap) (lb : IMap Nat) (c : Bool) (r : MDSMap × IMap Nat × Bool),
    tick_loop now cutoff mdsmap up p lb c = some r →
    r.1.epoch = p.epoch ∧ r.1.same_in_set_since = p.same_in_set_since
  | [], p, lb, c, r, h => by
    simp only [tick_loop, Option.some.injEq] at h
    rw [← h]
    exact ⟨rfl, rfl⟩
  | i :: up, p, lb, c, r, h => by
    unfold tick_loop at h
    split_ifs at h with h1 h2
    · cases hs : tick_state mdsmap i with
      | none =>
        rw [hs] at h
        simp at h
      | some s =>
        rw [hs] at h
        simp only at h
        have := tick_loop_frame now cutoff mdsmap up _ _ _ r h
        exact this
    · exact tick_loop_frame now cutoff mdsmap up _ _ _ r h
    · exact tick_loop_frame now cutoff mdsmap up _ _ _ r h

theorem tick_frame (is_leader paxos_active : Bool) (now grace : Nat) (mon : MDSMonitor)
    (r : MDSMonitor × Bool) (h : tick is_leader paxos_active now grace mon = some r) :
    r.1.mdsmap = mon.mdsmap ∧ r.1.pending_mdsmap.epoch = mon.pending_mdsmap.epoch ∧
    r.1.pending_mdsmap.same_in_set_since = mon.pending_mdsmap.same_in_set_since := by
  unfold tick at h
  split_ifs at h with h1 h2 h3
  · simp only [Option.some.injEq] at h
    rw [← h]
    exact ⟨rfl, rfl, rfl⟩
  · simp only [Option.some.injEq] at h
    rw [← h]
    exact ⟨rfl, rfl, rfl⟩
  · simp only at h
    cases hl : tick_loop now (now - grace) mon.mdsmap (mon.mdsmap.get_up_mds_set [])
        mon.pending_mdsmap mon.last_beacon false with
    | none =>
      rw [hl] at h
      simp at h
    | some t =>
      rw [hl] at h
      simp only [Option.some.injEq] at h
      obtain ⟨e1, e2⟩ := tick_loop_frame _ _ _ _ _ _ _ t hl
      rw [← h]
      exact ⟨rfl, e1, e2⟩
  · simp only [Option.some.injEq] at h
    rw [← h]
    exact ⟨rfl, rfl, rfl⟩

theorem step_frame (fuel : Nat) (g_conf : md_config_t) (atoi : String → Int) (grace : Nat)
    (mon : MDSMonitor) (e : Event) (mon1 : MDSMonitor)
    (h : step fuel g_conf atoi grace mon e = some mon1) :
    mon1.mdsmap = mon.mdsmap ∧ mon1.pending_mdsmap.epoch = mon.pending_mdsmap.epoch ∧
    mon1.pending_mdsmap.same_in_set_since =
      if joins fuel g_conf mon e = true then mon.pending_mdsmap.epoch
      else mon.pending_mdsmap.same_in_set_since := by
  cases e with
  | beacon now m =>
    simp only [step, Option.map_eq_some'] at h
    obtain ⟨r, hr, rfl⟩ := h
    exact handle_beacon_frame fuel g_conf now mon m r hr
  | command cmd =>
    simp only [step, Option.some.injEq] at h
    rw [← h]
    simp only [joins, Bool.false_eq_true, if_false]
    unfold handle_command
    dsimp only
    split_ifs <;> exact ⟨rfl, rfl, rfl⟩
  | tick l p now =>
    simp only [step, Option.map_eq_some'] at h
    obtain ⟨r, hr, rfl⟩ := h
    obtain ⟨e1, e2, e3⟩ := tick_frame l p now grace mon r hr
    exact ⟨e1, e2, by simp [joins, e3]⟩
  | stop l p =>
    simp only [step, Option.some.injEq] at h
    rw [← h]
    simp only [joins, Bool.false_eq_true, if_false]
    unfold do_stop
    split_ifs <;> exact ⟨rfl, rfl, rfl⟩

theorem run_frame (fuel : Nat) (g_conf : md_config_t) (atoi : String → Int) (grace : Nat) :
    ∀ (evs : List Event) (mon mon1 : MDSMonitor),
    run fuel g_conf atoi grace mon evs = some mon1 →
    mon1.mdsmap = mon.mdsmap ∧ mon1.pending_mdsmap.epoch = mon.pending_mdsmap.epoch ∧
    mon1.pending_mdsmap.same_in_set_since =
      if run_joins fuel g_conf atoi grace mon evs = true then mon.pending_mdsmap.epoch
      else mon.pending_mdsmap.same_in_set_since
  | [], mon, mon1, h => by
    simp only [run, Option.some.injEq] at h
    rw [← h]
    exact ⟨rfl, rfl, by simp [run_joins]⟩
  | e :: es, mon, mon1, h => by
    unfold run at h
    cases hs : step fuel g_conf atoi grace mon e with
    | none =>
      rw [hs] at h
      simp at h
    | some mon2 =>
      rw [hs] at h
      obtain ⟨a1, a2, a3⟩ := step_frame fuel g_conf atoi grace mon e mon2 hs
      obtain ⟨b1, b2, b3⟩ := run_frame fuel g_conf atoi grace es mon2 mon1 h
      refine ⟨by rw [b1, a1], by rw [b2, a2], ?_⟩
      have hrj : run_joins fuel g_conf atoi grace mon (e :: es) =
          (joins fuel g_conf mon e || run_joins fuel g_conf atoi grace mon2 es) := by
        simp only [run_joins, hs]
      rw [hrj, b3, a3, a2]
      by_cases hj : joins fuel g_conf mon e = true
      · simp [hj]
      · simp [hj]

end MDSMonitor

namespace MDSMonitor

/-- C12: `create_pending` leaves the committed map alone and makes `pending_mdsmap` the
committed map with the epoch `mdsmap.epoch + 1`; each of `handle_beacon`,
`handle_command`, `tick` and `do_stop` leaves both epochs as they are; so after
`create_pending` and any sequence of them the committed epoch is the same and
`pending_mdsmap.epoch == mdsmap.epoch + 1`. -/
theorem pending_epoch_invariant (fuel : Nat) (g_conf : md_config_t) (atoi : String → Int)
    (grace : Nat) (mon : MDSMonitor) :
    (create_pending mon).mdsmap = mon.mdsmap ∧
    (create_pending mon).pending_mdsmap =
      { mon.mdsmap with epoch := mon.mdsmap.epoch + 1 } ∧
    (∀ (mon0 : MDSMonitor) (e : Event) (mon1 : MDSMonitor),
      step fuel g_conf atoi grace mon0 e = some mon1 →
      mon1.mdsmap.epoch = mon0.mdsmap.epoch ∧
      mon1.pending_mdsmap.epoch = mon0.pending_mdsmap.epoch) ∧
    ∀ (evs : List Event) (mon1 : MDSMonitor),
      run fuel g_conf atoi grace (create_pending mon) evs = some mon1 →
      mon1.mdsmap.epoch = mon.mdsmap.epoch ∧
      mon1.pending_mdsmap.epoch = mon1.mdsmap.epoch + 1 := by
  refine ⟨rfl, rfl, ?_, ?_⟩
  · intro mon0 e mon1 h
    obtain ⟨a1, a2, _⟩ := step_frame fuel g_conf atoi grace mon0 e mon1 h
    exact ⟨by rw [a1], a2⟩
  · intro evs mon1 h
    obtain ⟨a1, a2, _⟩ := run_frame fuel g_conf atoi grace evs _ mon1 h
    rw [a1, a2]
    exact ⟨rfl, rfl⟩

/-- C12, an instance: a beacon, a command, a tick and a stop after `create_pending` on the
map of epoch 3. -/
theorem pending_epoch_invariant_witness :
    (run 1 ⟨false⟩ atoi_digits 10 (create_pending mon12) events12).isSome = true ∧
    match run 1 ⟨false⟩ atoi_digits 10 (create_pending mon12) events12 with
    | some mon1 => mon1.mdsmap.epoch = 3 ∧ mon1.pending_mdsmap.epoch = mon1.mdsmap.epoch + 1
    | none => False := by
  have hs : (run 1 ⟨false⟩ atoi_digits 10 (create_pending mon12) events12).isSome = true := by
    decide
  refine ⟨hs, ?_⟩
  cases h : run 1 ⟨false⟩ atoi_digits 10 (create_pending mon12) events12 with
  | none =>
    rw [h] at hs
    simp at hs
  | some mon1 =>
    exact (pending_epoch_invariant 1 ⟨false⟩ atoi_digits 10 mon12).2.2.2 events12 mon1 h

/-- C13 (as amended): after `create_pending` and any sequence of `handle_beacon`,
`handle_command`, `tick` and `do_stop`, `pending_mdsmap.same_in_set_since` is
`pending_mdsmap.epoch` if one of the beacons was accepted and recorded with a state that is
REPLAY, ACTIVE or STOPPED, and is the value of the committed map otherwise. -/
theorem same_in_set_since_tracks_joins (fuel : Nat) (g_conf : md_config_t)
    (atoi : String → Int) (grace : Nat) (mon : MDSMonitor) (evs : List Event)
    (mon1 : MDSMonitor)
    (hrun : run fuel g_conf atoi grace (create_pending mon) evs = some mon1) :
    mon1.pending_mdsmap.same_in_set_since =
      if run_joins fuel g_conf atoi grace (create_pending mon) evs = true then
        mon1.pending_mdsmap.epoch
      else mon.mdsmap.same_in_set_since := by
  obtain ⟨_, a2, a3⟩ := run_frame fuel g_conf atoi grace evs _ mon1 hrun
  rw [a3, a2]
  rfl

/-- C13, an instance: the beacon of the starting server 3 that is active is recorded, and
`same_in_set_since` becomes the pending epoch 4. -/
theorem same_in_set_since_tracks_joins_witness :
    run_joins 1 ⟨false⟩ atoi_digits 10 (create_pending mon12) events13 = true ∧
    match run 1 ⟨false⟩ atoi_digits 10 (create_pending mon12) events13 with
    | some mon1 => mon1.pending_mdsmap.same_in_set_since = 4 ∧ mon1.pending_mdsmap.epoch = 4
    | none => False := by
  have hj : run_joins 1 ⟨false⟩ atoi_digits 10 (create_pending mon12) events13 = true := by
    decide
  have hs : (run 1 ⟨false⟩ atoi_digits 10 (create_pending mon12) events13).isSome = true := by
    decide
  refine ⟨hj, ?_⟩
  cases h : run 1 ⟨false⟩ atoi_digits 10 (create_pending mon12) events13 with
  | none =>
    rw [h] at hs
    simp at hs
  | some mon1 =>
    have h1 := same_in_set_since_tracks_joins 1 ⟨false⟩ atoi_digits 10 mon12 events13 mon1 h
    have h2 := run_frame 1 ⟨false⟩ atoi_digits 10 events13 _ mon1 h
    rw [hj] at h1
    simp only [if_true] at h1
    exact ⟨by rw [h1, h2.2.1]; rfl, by rw [h2.2.1]; rfl⟩

/-- C13 as stated fails: after `create_pending` on the map whose ids 0 and 2 are active,
the command `mds stop 0` makes id 0 STOPPING in the pending map, so the ids in REPLAY,
ACTIVE or STOPPED are 2 in the pending map and 0 and 2 in the committed one, and
`same_in_set_since` is still 1 while the pending epoch is 4. -/
theorem same_in_set_since_misses_exit :
    (run 1 ⟨false⟩ atoi_digits 10 (create_pending mon12) events13_stop).map
      (fun m => (in_set_ids m.mdsmap, in_set_ids m.pending_mdsmap,
        m.pending_mdsmap.same_in_set_since, m.pending_mdsmap.epoch)) =
      some ([0, 2], [2], 1, 4) := by
  decide

end MDSMonitor

namespace IMap

theorem find_erase_same {α : Type} (k : Int) : ∀ m : IMap α, find k (erase k m) = none
  | [] => rfl
  | (k1, v1) :: m => by
    have ih := find_erase_same k m
    unfold erase at ih ⊢
    rw [List.filter_cons]
    split_ifs with h
    · have h2 : ¬ k = k1 := by
        intro e
        simp [e] at h
      simp only [find, h2, if_false]
      exact ih
    · exact ih

theorem find_erase_other {α : Type} (j k : Int) (hjk : j ≠ k) :
    ∀ m : IMap α, find j (erase k m) = find j m
  | [] => rfl
  | (k1, v1) :: m => by
    have ih := find_erase_other j k hjk m
    unfold erase at ih ⊢
    rw [List.filter_cons]
    split_ifs with h
    · simp only [find]
      rw [ih]
    · have h2 : k1 = k := by
        simpa using h
      have h3 : ¬ j = k1 := by rw [h2]; exact hjk
      simp only [find, h3, if_false]
      exact ih

theorem count_eq_zero_iff {α : Type} (k : Int) (m : IMap α) :
    count k m = 0 ↔ find k m = none := by
  unfold count
  cases find k m <;> simp

end IMap

namespace ISet

theorem mem_insert (x y : Int) : ∀ s : ISet, y ∈ insert x s ↔ y = x ∨ y ∈ s
  | [] => by simp [insert]
  | z :: s => by
    unfold insert
    by_cases h1 : x = z
    · simp only [h1, if_true, List.mem_cons]
      constructor
      · intro h; exact Or.inr h
      · intro h
        rcases h with h | h
        · exact Or.inl h
        · exact h
    · by_cases h2 : x < z
      · simp [h1, h2]
      · simp only [h1, h2, if_false, List.mem_cons, mem_insert x y s]
        constructor
        · rintro (h | h | h)
          · exact Or.inr (Or.inl h)
          · exact Or.inl h
          · exact Or.inr (Or.inr h)
        · rintro (h | h | h)
          · exact Or.inr (Or.inl h)
          · exact Or.inl h
          · exact Or.inr (Or.inr h)

theorem sorted_insert (x : Int) : ∀ s : ISet, s.Pairwise (fun a b => a < b) →
    (insert x s).Pairwise (fun a b => a < b)
  | [], _ => by simp [insert]
  | z :: s, hs => by
    unfold insert
    by_cases h1 : x = z
    · simpa [h1] using hs
    · by_cases h2 : x < z
      · simp only [h1, h2, if_false, if_true, List.pairwise_cons]
        rw [List.pairwise_cons] at hs
        refine ⟨?_, hs⟩
        intro a ha
        simp only [List.mem_cons] at ha
        rcases ha with ha | ha
        · omega
        · have := hs.1 a ha
          omega
      · simp only [h1, h2, if_false, List.pairwise_cons]
        rw [List.pairwise_cons] at hs
        refine ⟨?_, sorted_insert x s hs.2⟩
        intro a ha
        rw [mem_insert] at ha
        rcases ha with ha | ha
        · omega
        · exact hs.1 a ha

end ISet

namespace MDSMap

theorem up_fold (m : MDSMap) : ∀ (l : IMap MDSState) (acc : ISet),
    acc.Pairwise (fun a b => a < b) →
    (l.foldl (fun acc e => if m.is_up e.1 = true then ISet.insert e.1 acc else acc)
      acc).Pairwise (fun a b => a < b) ∧
    ∀ p, p ∈ l.foldl (fun acc e => if m.is_up e.1 = true then ISet.insert e.1 acc else acc)
      acc ↔ p ∈ acc ∨ (p ∈ l.map Prod.fst ∧ m.is_up p = true)
  | [], acc, hs => by simp [hs]
  | e :: l, acc, hs => by
    simp only [List.foldl_cons]
    by_cases hu : m.is_up e.1 = true
    · rw [if_pos hu]
      obtain ⟨i1, i2⟩ := up_fold m l (ISet.insert e.1 acc) (ISet.sorted_insert e.1 acc hs)
      refine ⟨i1, ?_⟩
      intro p
      rw [i2 p, ISet.mem_insert]
      simp only [List.map_cons, List.mem_cons]
      constructor
      · rintro ((h | h) | h)
        · exact Or.inr ⟨Or.inl h, by rw [h]; exact hu⟩
        · exact Or.inl h
        · exact Or.inr ⟨Or.inr h.1, h.2⟩
      · rintro (h | ⟨h | h, h2⟩)
        · exact Or.inl (Or.inr h)
        · exact Or.inl (Or.inl h)
        · exact Or.inr ⟨h, h2⟩
    · rw [if_neg hu]
      obtain ⟨i1, i2⟩ := up_fold m l acc hs
      refine ⟨i1, ?_⟩
      intro p
      rw [i2 p]
      simp only [List.map_cons, List.mem_cons]
      constructor
      · rintro (h | h)
        · exact Or.inl h
        · exact Or.inr ⟨Or.inr h.1, h.2⟩
      · rintro (h | ⟨h | h, h2⟩)
        · exact Or.inl h
        · rw [h] at h2
          exact absurd h2 hu
        · exact Or.inr ⟨h, h2⟩

theorem up_set_spec (m : MDSMap) :
    (m.get_up_mds_set []).Nodup ∧
    ∀ p, p ∈ m.get_up_mds_set [] ↔ (p ∈ m.mds_state.map Prod.fst ∧ m.is_up p = true) := by
  obtain ⟨i1, i2⟩ := up_fold m m.mds_state [] List.Pairwise.nil
  refine ⟨?_, ?_⟩
  · exact i1.imp (fun h => by omega)
  · intro p
    unfold get_up_mds_set
    rw [i2 p]
    simp

end MDSMap

namespace MDSMonitor

theorem tick_loop_spec (now cutoff : Nat) (mdsmap : MDSMap) :
    ∀ (up : List Int) (pending : MDSMap) (lb : IMap Nat) (changed : Bool), up.Nodup →
    (∀ p ∈ up, ∀ t, IMap.find p lb = some t → t < cutoff →
      ∃ s, tick_state mdsmap p = some s) →
    ∃ pending1 lb1 changed1,
      tick_loop now cutoff mdsmap up pending lb changed = some (pending1, lb1, changed1) ∧
      (∀ p ∈ up, ∀ t, IMap.find p lb = some t → t < cutoff →
        IMap.find p pending1.mds_state = tick_state mdsmap p ∧
        IMap.find p pending1.mds_state_seq = none) ∧
      (∀ p, (p ∉ up ∨ ∀ t, IMap.find p lb = some t → ¬ t < cutoff) →
        IMap.find p pending1.mds_state = IMap.find p pending.mds_state ∧
        IMap.find p pending1.mds_state_seq = IMap.find p pending.mds_state_seq) ∧
      (∀ p ∈ up, IMap.find p lb = none → IMap.find p lb1 = some now) ∧
      (∀ p, (p ∉ up ∨ IMap.find p lb ≠ none) → IMap.find p lb1 = IMap.find p lb) ∧
      (changed1 = true ↔
        (changed = true ∨ ∃ p ∈ up, ∃ t, IMap.find p lb = some t ∧ t < cutoff)) ∧
      pending1 = { pending with mds_state := pending1.mds_state,
                                mds_state_seq := pending1.mds_state_seq }
  | [], pending, lb, changed, _, _ =>
    ⟨pending, lb, changed, rfl, by simp, by simp, by simp, by simp, by simp, rfl⟩
  | p :: up, pending, lb, changed, hn, ht => by
    rw [List.nodup_cons] at hn
    obtain ⟨hp, hn⟩ := hn
    unfold tick_loop
    cases hf : IMap.find p lb with
    | none =>
      have hc : ¬ (IMap.count p lb ≠ 0) := by
        rw [not_not, IMap.count_eq_zero_iff]
        exact hf
      rw [if_neg hc]
      have hlb : ∀ q, q ≠ p → IMap.find q (IMap.set p now lb) = IMap.find q lb :=
        fun q hq => IMap.find_set_other q p now hq lb
      have hne : ∀ q ∈ up, q ≠ p := fun q hq e => hp (e ▸ hq)
      obtain ⟨p1, lb1, c1, e, k1, k2, k3, k4, k5, k6⟩ :=
        tick_loop_spec now cutoff mdsmap up pending (IMap.set p now lb) changed hn
          (fun q hq t h1 h2 => ht q (List.mem_cons_of_mem _ hq) t
            (by rw [← hlb q (hne q hq)]; exact h1) h2)
      refine ⟨p1, lb1, c1, e, ?_, ?_, ?_, ?_, ?_, k6⟩
      · intro q hq t h1 h2
        simp only [List.mem_cons] at hq
        rcases hq with hq | hq
        · rw [hq, hf] at h1
          simp at h1
        · exact k1 q hq t (by rw [hlb q (hne q hq)]; exact h1) h2
      · intro q hq
        by_cases hqp : q = p
        · exact k2 q (Or.inl (by rw [hqp]; exact hp))
        · apply k2 q
          rcases hq with hq | hq
          · left
            intro h
            exact hq (List.mem_cons_of_mem _ h)
          · right
            intro t h1
            exact hq t (by rw [← hlb q hqp]; exact h1)
      · intro q hq h1
        simp only [List.mem_cons] at hq
        rcases hq with hq | hq
        · rw [hq, k4 p (Or.inl hp)]
          exact IMap.find_set_same p now lb
        · exact k3 q hq (by rw [hlb q (hne q hq)]; exact h1)
      · intro q hq
        have hqp : q ≠ p := by
          intro e1
          rcases hq with hq | hq
          · exact hq (by rw [e1]; simp)
          · rw [e1] at hq
            exact hq hf
        rw [← hlb q hqp]
        apply k4 q
        rcases hq with hq | hq
        · left
          intro h
          exact hq (List.mem_cons_of_mem _ h)
        · right
          rw [hlb q hqp]
          exact hq
      · rw [k5]
        constructor
        · rintro (h | ⟨q, hq, t, h1, h2⟩)
          · exact Or.inl h
          · exact Or.inr ⟨q, List.mem_cons_of_mem _ hq, t,
              by rw [← hlb q (hne q hq)]; exact h1, h2⟩
        · rintro (h | ⟨q, hq, t, h1, h2⟩)
          · exact Or.inl h
          · simp only [List.mem_cons] at hq
            rcases hq with hq | hq
            · rw [hq, hf] at h1
              simp at h1
            · exact Or.inr ⟨q, hq, t, by rw [hlb q (hne q hq)]; exact h1, h2⟩
    | some t0 =>
      have hc : IMap.count p lb ≠ 0 := by
        rw [Ne, IMap.count_eq_zero_iff, hf]
        simp
      have hi : (IMap.index lb p 0).1 = t0 := by
        rw [IMap.index_of_find lb p 0 t0 hf]
      rw [if_pos hc, hi]
      by_cases hx : t0 < cutoff
      · rw [if_pos hx]
        obtain ⟨s, hs⟩ := ht p (by simp) t0 hf hx
        rw [hs]
        simp only
        obtain ⟨p1, lb1, c1, e, k1, k2, k3, k4, k5, k6⟩ :=
          tick_loop_spec now cutoff mdsmap up
            { pending with
              mds_state := IMap.set p s pending.mds_state
              mds_state_seq := IMap.erase p pending.mds_state_seq } lb true hn
            (fun q hq t h1 h2 => ht q (List.mem_cons_of_mem _ hq) t h1 h2)
        refine ⟨p1, lb1, c1, e, ?_, ?_, ?_, ?_, ?_, ?_⟩
        · intro q hq t h1 h2
          simp only [List.mem_cons] at hq
          rcases hq with hq | hq
          · obtain ⟨a1, a2⟩ := k2 p (Or.inl hp)
            rw [hq, a1, a2, hs]
            exact ⟨IMap.find_set_same p s _, IMap.find_erase_same p _⟩
          · exact k1 q hq t h1 h2
        · intro q hq
          have hqp : q ≠ p := by
            intro e1
            rcases hq with hq | hq
            · exact hq (by rw [e1]; simp)
            · exact hq t0 (by rw [e1]; exact hf) hx
          obtain ⟨a1, a2⟩ := k2 q (by
            rcases hq with hq | hq
            · left
              intro h
              exact hq (List.mem_cons_of_mem _ h)
            · right
              exact hq)
          rw [a1, a2]
          exact ⟨IMap.find_set_other q p s hqp _, IMap.find_erase_other q p hqp _⟩
        · intro q hq h1
          simp only [List.mem_cons] at hq
          rcases hq with hq | hq
          · rw [hq, hf] at h1
            simp at h1
          · exact k3 q hq h1
        · intro q hq
          apply k4 q
          rcases hq with hq | hq
          · left
            intro h
            exact hq (List.mem_cons_of_mem _ h)
          · right
            exact hq
        · rw [k5]
          constructor
          · intro _
            exact Or.inr ⟨p, by simp, t0, hf, hx⟩
          · intro _
            exact Or.inl rfl
        · rw [k6]
      · rw [if_neg hx]
        obtain ⟨p1, lb1, c1, e, k1, k2, k3, k4, k5, k6⟩ :=
          tick_loop_spec now cutoff mdsmap up pending lb changed hn
            (fun q hq t h1 h2 => ht q (List.mem_cons_of_mem _ hq) t h1 h2)
        refine ⟨p1, lb1, c1, e, ?_, ?_, ?_, ?_, ?_, k6⟩
        · intro q hq t h1 h2
          simp only [List.mem_cons] at hq
          rcases hq with hq | hq
          · rw [hq, hf] at h1
            simp only [Option.some.injEq] at h1
            rw [h1] at hx
            exact absurd h2 hx
          · exact k1 q hq t h1 h2
        · intro q hq
          by_cases hqp : q = p
          · exact k2 q (Or.inl (by rw [hqp]; exact hp))
          · apply k2 q
            rcases hq with hq | hq
            · left
              intro h
              exact hq (List.mem_cons_of_mem _ h)
            · right
              exact hq
        · intro q hq h1
          simp only [List.mem_cons] at hq
          rcases hq with hq | hq
          · rw [hq, hf] at h1
            simp at h1
          · exact k3 q hq h1
        · intro q hq
          by_cases hqp : q = p
          · exact k4 q (Or.inl (by rw [hqp]; exact hp))
          · apply k4 q
            rcases hq with hq | hq
            · left
              intro h
              exact hq (List.mem_cons_of_mem _ h)
            · right
              exact hq
        · rw [k5]
          constructor
          · rintro (h | ⟨q, hq, t, h1, h2⟩)
            · exact Or.inl h
            · exact Or.inr ⟨q, List.mem_cons_of_mem _ hq, t, h1, h2⟩
          · rintro (h | ⟨q, hq, t, h1, h2⟩)
            · exact Or.inl h
            · simp only [List.mem_cons] at hq
              rcases hq with hq | hq
              · rw [hq, hf] at h1
                simp only [Option.some.injEq] at h1
                rw [h1] at hx
                exact absurd h2 hx
              · exact Or.inr ⟨q, hq, t, h1, h2⟩

end MDSMonitor

namespace MDSMonitor

theorem tick_state_table (mdsmap : MDSMap) (p : Int)
    (h : mdsmap.get_state p ∈ [STATE_STANDBY, STATE_CREATING, STATE_STARTING, STATE_REPLAY,
      STATE_RESOLVE, STATE_REJOIN, STATE_ACTIVE, STATE_STOPPING]) :
    tick_state mdsmap p = some
      (if mdsmap.get_state p = STATE_STANDBY then
        (if mdsmap.has_created p = true then STATE_STOPPED else STATE_DNE)
      else if mdsmap.get_state p = STATE_CREATING then STATE_DNE
      else if mdsmap.get_state p = STATE_STARTING then STATE_STOPPED
      else STATE_FAILED) := by
  unfold tick_state
  revert h
  generalize mdsmap.get_state p = s
  intro h
  cases s <;> simp at h <;> simp

/-- The failure detector of C11 on the states the `switch` of `tick` lists: on a leader
with active Paxos and `now > beacon_grace`, when every up id of the committed map whose
`last_beacon` entry is older than `now - beacon_grace` is in one of the states of the
table (STANDBY, CREATING, STARTING, REPLAY, RESOLVE, REJOIN, ACTIVE, STOPPING): `tick`
returns; for every such id it writes into
`pending_mdsmap.mds_state[id]` the table's next state (STANDBY -> STOPPED if
`has_created(id)` else DNE; CREATING -> DNE; STARTING -> STOPPED; the others -> FAILED),
erases `pending_mdsmap.mds_state_seq[id]` and requests a proposal; an up id with no
`last_beacon` entry gets `last_beacon[id] = now` and no transition; every other id's
pending state and sequence number are unchanged, as is the rest of the pending map and
the committed map; and a proposal is requested only when some id changed. -/
theorem tick_failure_detector (now grace : Nat) (mon : MDSMonitor) (hnow : grace < now)
    (htable : ∀ id ∈ mon.mdsmap.mds_state.map Prod.fst, mon.mdsmap.is_up id = true →
      ∀ t, IMap.find id mon.last_beacon = some t → t < now - grace →
      mon.mdsmap.get_state id ∈ [STATE_STANDBY, STATE_CREATING, STATE_STARTING,
        STATE_REPLAY, STATE_RESOLVE, STATE_REJOIN, STATE_ACTIVE, STATE_STOPPING]) :
    ∃ mon1 proposed, tick true true now grace mon = some (mon1, proposed) ∧
      mon1.mdsmap = mon.mdsmap ∧
      (∀ id ∈ mon.mdsmap.mds_state.map Prod.fst, mon.mdsmap.is_up id = true →
        ∀ t, IMap.find id mon.last_beacon = some t → t < now - grace →
        IMap.find id mon1.pending_mdsmap.mds_state = some
          (if mon.mdsmap.get_state id = STATE_STANDBY then
            (if mon.mdsmap.has_created id = true then STATE_STOPPED else STATE_DNE)
          else if mon.mdsmap.get_state id = STATE_CREATING then STATE_DNE
          else if mon.mdsmap.get_state id = STATE_STARTING then STATE_STOPPED
          else STATE_FAILED) ∧
        IMap.find id mon1.pending_mdsmap.mds_state_seq = none ∧ proposed = true) ∧
      (∀ id ∈ mon.mdsmap.mds_state.map Prod.fst, mon.mdsmap.is_up id = true →
        IMap.find id mon.last_beacon = none →
        IMap.find id mon1.last_beacon = some now ∧
        IMap.find id mon1.pending_mdsmap.mds_state =
          IMap.find id mon.pending_mdsmap.mds_state) ∧
      (∀ id, ¬ (id ∈ mon.mdsmap.mds_state.map Prod.fst ∧ mon.mdsmap.is_up id = true ∧
          ∃ t, IMap.find id mon.last_beacon = some t ∧ t < now - grace) →
        IMap.find id mon1.pending_mdsmap.mds_state =
          IMap.find id mon.pending_mdsmap.mds_state ∧
        IMap.find id mon1.pending_mdsmap.mds_state_seq =
          IMap.find id mon.pending_mdsmap.mds_state_seq) ∧
      (proposed = true ↔ ∃ id ∈ mon.mdsmap.mds_state.map Prod.fst,
        mon.mdsmap.is_up id = true ∧
        ∃ t, IMap.find id mon.last_beacon = some t ∧ t < now - grace) ∧
      mon1.pending_mdsmap = { mon.pending_mdsmap with
        mds_state := mon1.pending_mdsmap.mds_state,
        mds_state_seq := mon1.pending_mdsmap.mds_state_seq } := by
  obtain ⟨hnd, hmem⟩ := MDSMap.up_set_spec mon.mdsmap
  obtain ⟨p1, lb1, c1, e, k1, k2, k3, k4, k5, k6⟩ :=
    tick_loop_spec now (now - grace) mon.mdsmap (mon.mdsmap.get_up_mds_set [])
      mon.pending_mdsmap mon.last_beacon false hnd
      (fun p hp t h1 h2 =>
        ⟨_, tick_state_table mon.mdsmap p
          (htable p ((hmem p).1 hp).1 ((hmem p).1 hp).2 t h1 h2)⟩)
  have hgt : now > grace := hnow
  refine ⟨{ mon with pending_mdsmap := p1, last_beacon := lb1 }, c1, ?_, rfl, ?_, ?_, ?_, ?_,
    k6⟩
  · unfold tick
    simp only [Bool.not_true, Bool.false_eq_true, if_false, hgt, if_true, e]
  · intro id hid hup t h1 h2
    have hin := (hmem id).2 ⟨hid, hup⟩
    obtain ⟨a1, a2⟩ := k1 id hin t h1 h2
    refine ⟨?_, a2, ?_⟩
    · rw [a1]
      exact tick_state_table mon.mdsmap id (htable id hid hup t h1 h2)
    · rw [k5]
      exact Or.inr ⟨id, hin, t, h1, h2⟩
  · intro id hid hup h1
    have hin := (hmem id).2 ⟨hid, hup⟩
    refine ⟨k3 id hin h1, (k2 id (Or.inr ?_)).1⟩
    intro t ht
    rw [h1] at ht
    simp at ht
  · intro id hno
    apply k2 id
    by_cases hin : id ∈ mon.mdsmap.get_up_mds_set []
    · right
      intro t h1 h2
      exact hno ⟨((hmem id).1 hin).1, ((hmem id).1 hin).2, t, h1, h2⟩
    · exact Or.inl hin
  · rw [k5]
    constructor
    · rintro (h | ⟨id, hin, t, h1, h2⟩)
      · simp at h
      · exact ⟨id, ((hmem id).1 hin).1, ((hmem id).1 hin).2, t, h1, h2⟩
    · rintro ⟨id, hid, hup, t, h1, h2⟩
      exact Or.inr ⟨id, (hmem id).2 ⟨hid, hup⟩, t, h1, h2⟩

/-- The failure detector, an instance: at time 100 with a grace of 10, the active id 0
last beaconed at time 0, the active id 2 at time 95 and the starting id 3 never: id 0
fails, id 3 gets the beacon time 100, and a proposal is requested. -/
theorem tick_failure_detector_witness :
    (10 : Nat) < 100 ∧
    (tick true true 100 10 mon12).map
      (fun r => (r.1.pending_mdsmap.mds_state, r.1.pending_mdsmap.mds_state_seq,
        r.1.last_beacon, r.2)) =
      some ([(0, STATE_FAILED), (2, STATE_ACTIVE), (3, STATE_STARTING)],
        [(2, 5), (3, 5)], [(0, 0), (2, 95), (3, 100)], true) ∧
    ∃ mon1 proposed, tick true true 100 10 mon12 = some (mon1, proposed) ∧
      IMap.find 0 mon1.pending_mdsmap.mds_state = some STATE_FAILED := by
  have ht : ∀ id ∈ mon12.mdsmap.mds_state.map Prod.fst, mon12.mdsmap.is_up id = true →
      ∀ t, IMap.find id mon12.last_beacon = some t → t < 100 - 10 →
      mon12.mdsmap.get_state id ∈ [STATE_STANDBY, STATE_CREATING, STATE_STARTING,
        STATE_REPLAY, STATE_RESOLVE, STATE_REJOIN, STATE_ACTIVE, STATE_STOPPING] := by
    intro id hid _ _ _ _
    have h3 : id = 0 ∨ id = 2 ∨ id = 3 := by
      simpa [mon12, map12] using hid
    rcases h3 with rfl | rfl | rfl <;> decide
  obtain ⟨mon1, proposed, e, _, k, _⟩ := tick_failure_detector 100 10 mon12 (by decide) ht
  refine ⟨by decide, by decide, mon1, proposed, e, ?_⟩
  exact (k 0 (by decide) (by decide) 0 (by decide) (by decide)).1

/-- C11 fails on the code: on the map with the active id 0 and the reconnecting id 1, both
up and both with a last beacon at time 0, the tick at time 100 with a grace of 10 does not
write FAILED for id 0 and requests no proposal: the `switch` of `tick` has no case for
RECONNECT, and the tick stops at `assert(0)` in its `default` branch for id 1. -/
theorem tick_stops_on_reconnect :
    mon11.mdsmap.get_up_mds_set [] = [0, 1, 2, 3] ∧
    mon11.mdsmap.get_state 0 = STATE_ACTIVE ∧ IMap.find 0 mon11.last_beacon = some 0 ∧
    mon11.mdsmap.get_state 1 = STATE_RECONNECT ∧ IMap.find 1 mon11.last_beacon = some 0 ∧
    (0 : Nat) < 100 - 10 ∧ tick true true 100 10 mon11 = none := by
  decide

end MDSMonitor

namespace buffer

/-- C14 (as amended): for every two distinct lists `a` and `b`, after `a.claim_append(b)`
the view sequence of `a` is the old view sequence of `a` followed by that of `b` (the
views themselves, in any heap the bytes of `a` are the old bytes of `a` followed by those
of `b`), `a.length()` is the sum of the two old lengths modulo 2^32, so the sum itself
when that is below 2^32, and `b` has no views and length 0; the append arenas stay. -/
theorem claim_append_transfers (a b : list) :
    (a.claim_append b).1._buffers = a._buffers ++ b._buffers ∧
    (a.claim_append b).1.length = u32 (a.length + b.length) ∧
    (a.length + b.length < 4294967296 →
      (a.claim_append b).1.length = a.length + b.length) ∧
    (a.claim_append b).2._buffers = [] ∧ (a.claim_append b).2.length = 0 ∧
    (∀ h : Heap, (a.claim_append b).1.content h = a.content h ++ b.content h) ∧
    (a.claim_append b).1.append_buffer = a.append_buffer ∧
    (a.claim_append b).2.append_buffer = b.append_buffer := by
  refine ⟨rfl, rfl, ?_, rfl, rfl, ?_, rfl, rfl⟩
  · intro hlt
    show u32 (a.length + b.length) = a.length + b.length
    exact u32_of_lt hlt
  · intro h
    simp [list.claim_append, list.content]

/-- C14, an instance: the list of six bytes claims the views of a list of three bytes. -/
theorem claim_append_transfers_witness :
    list6.length + small_list.length < 4294967296 ∧
    (list6.claim_append small_list).1.length = list6.length + small_list.length :=
  ⟨by decide, (claim_append_transfers list6 small_list).2.2.1 (by decide)⟩

/-- C14 as stated fails: two valid lists of 2^31 bytes each; after `claim_append` the
length of the first is 0, not the sum 2^32 of the two old lengths, while it holds both
views. -/
theorem claim_append_wraps :
    list.valid heap_half half_list ∧ half_list.length = 2147483648 ∧
    (half_list.claim_append half_list).1.length = 0 ∧
    (half_list.claim_append half_list).1._buffers = [half_view, half_view] ∧
    half_list.length + half_list.length = 4294967296 := by
  decide

namespace list

theorem at_loop_spec {h : Heap} : ∀ (bs : List ptr) (n : Nat), (∀ p ∈ bs, p.valid h) →
    n < sum_length bs → n < 4294967296 →
    at_loop h bs n = (bs.flatMap (ptr.bytes h))[n]?
  | [], n, _, hlt, _ => by simp at hlt
  | p :: ps, n, hv, hlt, hn => by
    have hvp := hv p (by simp)
    have hbl := ptr.bytes_length hvp
    simp only [sum_length_cons] at hlt
    simp only [at_loop, ptr.length, List.flatMap_cons]
    by_cases hge : n ≥ p._len
    · rw [if_pos hge, usub_of_le hge hn]
      rw [List.getElem?_append_right (by omega), hbl]
      exact at_loop_spec ps (n - p._len) (fun q hq => hv q (by simp [hq])) (by omega) (by omega)
    · rw [if_neg hge]
      have hlt2 : n < p._len := by omega
      rw [List.getElem?_append_left (by omega)]
      have hlen := ptr.valid_len_lt hvp
      unfold ptr.valid at hvp
      unfold ptr.at_ ptr.bytes
      cases hr : p._raw with
      | none => simp [hr] at hvp
      | some r =>
        simp only [hr] at hvp ⊢
        cases hh : h[r]? with
        | none => simp [hh] at hvp
        | some rw =>
          simp only [hh] at hvp ⊢
          rw [if_pos hlt2, u32_of_lt (by omega)]
          simp [raw.read, hlt2]

theorem at_spec (h : Heap) (l : list) (n : Nat) (hl : l.valid h) (hn : n < l.length) :
    l.at_ h n = (l.content h)[n]? ∧ (l.at_ h n).isSome = true := by
  have hlen : l._len = u32 (sum_length l._buffers) := hl.1
  have hle := u32_sum_le (sum_length l._buffers)
  unfold list.length at hn
  have h1 : l.at_ h n = (l.content h)[n]? := by
    unfold at_ content
    rw [if_pos hn]
    exact at_loop_spec l._buffers n hl.2 (by omega) (by omega)
  refine ⟨h1, ?_⟩
  rw [h1]
  have : n < (l.content h).length := by
    unfold content
    rw [views_bytes_length hl.2]
    omega
  simp [this]

end list

/-- C20 (as amended): for every list that is valid (each of its views references a raw
and lies inside it, the cached length is right) and every `off`, `n` with
`off + n <= length()`, `copy(off, n, dst)` returns having written exactly `n` bytes, and
for every `i < n` the byte `dst[i]` is `list[off + i]`, the value of `operator[]`, which
is the byte at position `off + i` of the concatenation of the views in order.  The walk does not run past
the last view (the model returns `none` there), and `copy` has no access to the list or
the heap other than reading. -/
theorem copy_agrees_with_index (h : Heap) (l : list) (off n : Nat) (hl : l.valid h)
    (hol : off + n ≤ l.length) :
    ∃ d, l.copy h off n = some d ∧ d.length = n ∧
      ∀ i, i < n → d[i]? = l.at_ h (off + i) ∧ l.at_ h (off + i) = (l.content h)[off + i]? ∧
        (l.at_ h (off + i)).isSome = true := by
  have hlen : l._len = u32 (list.sum_length l._buffers) := hl.1
  have hle := list.u32_sum_le (list.sum_length l._buffers)
  have hcl : (l.content h).length = list.sum_length l._buffers := by
    unfold list.content
    exact list.views_bytes_length hl.2
  have hol2 : off + n ≤ l._len := hol
  refine ⟨_, list.copy_spec h l off n hl hol, ?_, ?_⟩
  · simp only [List.length_take, List.length_drop]
    omega
  · intro i hi
    obtain ⟨a1, a2⟩ := list.at_spec h l (off + i) hl (by unfold list.length; omega)
    refine ⟨?_, a1, a2⟩
    rw [a1, List.getElem?_take_of_lt hi, List.getElem?_drop]

/-- C20, an instance: the four bytes from position 1 of the list of six bytes in two
views. -/
theorem copy_agrees_with_index_witness :
    list.valid heap6 list6 ∧ 1 + 4 ≤ list6.length ∧
    list6.copy heap6 1 4 = some [11, 12, 13, 14] ∧
    ∃ d, list6.copy heap6 1 4 = some d ∧ d.length = 4 ∧
      ∀ i, i < 4 → d[i]? = list6.at_ heap6 (1 + i) ∧
        list6.at_ heap6 (1 + i) = (list6.content heap6)[1 + i]? ∧
        (list6.at_ heap6 (1 + i)).isSome = true :=
  ⟨by decide, by decide, by decide,
    copy_agrees_with_index heap6 list6 1 4 (by decide) (by decide)⟩

end buffer

namespace buffer

theorem c_str_view (h : Heap) (l : list) (h1 : Heap) (l1 : list) (a : Nat × Nat)
    (e : l.c_str h = some (h1, l1, some a)) :
    ∃ len, l1._buffers = [⟨some a.1, a.2, len⟩] := by
  unfold list.c_str at e
  split at e
  · rename_i bp hb
    split at e
    · simp at e
    · rename_i r hr
      simp only [Option.some.injEq, Prod.mk.injEq] at e
      obtain ⟨_, e2, e3⟩ := e
      refine ⟨bp._len, ?_⟩
      rw [← e2, hb, ← e3]
      simp only [List.cons.injEq, and_true]
      cases bp
      simp only at hr
      simp [hr]
  · simp at e
  · simp only at e
    split at e
    · simp at e
    · rename_i newbuf hn
      split at e
      · simp at e
      · split at e
        · simp at e
        · simp only [Option.some.injEq, Prod.mk.injEq] at e
          obtain ⟨_, e2, e3⟩ := e
          unfold ptr.of_raw at hn
          split at hn
          · simp at hn
          · rename_i rw hrw
            simp only [Option.some.injEq] at hn
            refine ⟨newbuf._len, ?_⟩
            rw [← e2, ← e3, ← hn]
            simp [list.clear, list.push_back]

theorem c_str_again (h1 : Heap) (l1 : list) (r o len : Nat)
    (hb : l1._buffers = [⟨some r, o, len⟩]) :
    l1.c_str h1 = some (h1, l1, some (r, o)) := by
  unfold list.c_str
  rw [hb]

/-- C15 (as amended): for every valid list with at least one view and fewer than 2^32
bytes, `c_str()` returns the address of a buffer and leaves the list with exactly one
view, which holds the same bytes and the same total length as the list held before; a
second `c_str()` returns the same address as the first and leaves the list and the heap
unchanged. -/
theorem c_str_idempotent (h : Heap) (l : list) (hl : l.valid h)
    (hex : list.sum_length l._buffers < 4294967296) (hne : l._buffers ≠ []) :
    ∃ h1 l1 a, l.c_str h = some (h1, l1, some a) ∧ l1._buffers.length = 1 ∧
      l1.content h1 = l.content h ∧ l1.length = l.length ∧
      l1.c_str h1 = some (h1, l1, some a) := by
  obtain ⟨h1, l1, r, o, rw, c1, _, _, _, _, c6, c7, c8⟩ := c_str_spec h l hl hex hne
  obtain ⟨len, hb⟩ := c_str_view h l h1 l1 (r, o) c1
  exact ⟨h1, l1, (r, o), c1, c8, c6, c7, c_str_again h1 l1 r o len hb⟩

/-- C15, an instance: the list of six bytes in two views. -/
theorem c_str_idempotent_witness :
    list.valid heap6 list6 ∧ list.sum_length list6._buffers < 4294967296 ∧
    list6._buffers ≠ [] ∧
    ∃ h1 l1 a, list6.c_str heap6 = some (h1, l1, some a) ∧ l1._buffers.length = 1 ∧
      l1.content h1 = list6.content heap6 ∧ l1.length = list6.length ∧
      l1.c_str h1 = some (h1, l1, some a) :=
  ⟨by decide, by decide, by decide,
    c_str_idempotent heap6 list6 (by decide) (by decide) (by decide)⟩

/-- C15 as stated fails: on the empty list `c_str()` returns 0 and the list has no view
afterwards; and on the valid list of two views of 2^31 bytes, whose `length()` is 0,
`c_str()` leaves one view of no bytes. -/
theorem c_str_empty_has_no_view :
    (list.empty.c_str []).map (fun r => (r.2.1._buffers, r.2.2)) = some ([], none) ∧
    list.valid heap_half wrapped_list ∧
    list.sum_length wrapped_list._buffers = 4294967296 ∧
    (wrapped_list.c_str heap_half).map (fun r => (r.2.1._buffers, r.2.2)) =
      some ([⟨some 1, 0, 0⟩], some (1, 0)) := by
  decide

end buffer

namespace buffer

namespace list

theorem append_fit_heap {h : Heap} {l : list} {r : Nat} {rw : raw} {k : Nat}
    (data : List Byte) (n fuel : Nat) (hab : l.append_buffer = ⟨some r, 0, k⟩)
    (hr : h[r]? = some rw) (hk : k + n ≤ rw.len) (hrw : rw.len < 4294967296)
    (hd : data.length = n) (hn : 0 < n) :
    ∃ h1 l1, append (fuel + 1) h l data n = some (h1, l1) ∧
      h1 = h.set r (rw.write k data) ∧ l1.append_buffer = ⟨some r, 0, k + n⟩ := by
  have hmin : min (rw.len - k) n = n := by omega
  have hfill := append_fill_spec (h := h) (l := l) data n hab hr (by omega) hrw hd hn (by omega)
  rw [hmin] at hfill
  have htake : data.take n = data := List.take_of_length_le (by omega)
  rw [htake] at hfill
  refine ⟨h.set r (rw.write k data),
    { _buffers := l._buffers ++ [⟨some r, k, n⟩], _len := u32 (l._len + n),
      append_buffer := ⟨some r, 0, k + n⟩ }, ?_, rfl, rfl⟩
  simp only [append, hfill]
  have : ¬ n = 0 := by omega
  simp [this]

theorem append_grow_fit_heap {h : Heap} {l : list} (data : List Byte) (n fuel : Nat)
    (hd : data.length = n) (hn : 0 < n) (hle : n ≤ 4294963200) :
    ∃ h1 l1, (match append_grow h l n with
        | none => none
        | some (h2, l2) => append (fuel + 1) h2 l2 data n) = some (h1, l1) ∧
      h1.length = h.length + 1 ∧ l1.append_buffer._raw = some h.length ∧
      (h1[h.length]?).map raw.len = some (4096 * ((n - 1) / 4096 + 1)) := by
  obtain ⟨alen, g1, g2, g3, g4⟩ := append_grow_spec h l n hn hle
  obtain ⟨h1, l1, e1, e2, e3⟩ := @append_fit_heap (h ++ [{ data := fun _ => 0, len := alen }])
    { l with append_buffer := ⟨some h.length, 0, 0⟩ } h.length
    { data := fun _ => 0, len := alen } 0 data n fuel rfl
    (by simp) (by simp only; omega) g2 hd hn
  refine ⟨h1, l1, by rw [g4]; exact e1, ?_, by rw [e3], ?_⟩
  · rw [e2]
    simp
  · rw [e2, ← g3]
    simp [raw.write]

theorem append_heap_spec (h : Heap) (l : list) (data : List Byte) (n fuel : Nat)
    (ha : l.arena_ok h) (hd : data.length = n) (hn : n ≤ 4294963200) (hf : 2 ≤ fuel) :
    ∃ h1 l1, append fuel h l data n = some (h1, l1) ∧
      (n ≤ l.append_buffer.unused_tail_length h → h1.length = h.length) ∧
      (l.append_buffer.unused_tail_length h < n →
        h1.length = h.length + 1 ∧ l1.append_buffer._raw = some h.length ∧
        (h1[h.length]?).map raw.len =
          some (4096 * ((n - l.append_buffer.unused_tail_length h - 1) / 4096 + 1))) := by
  obtain ⟨f, rfl⟩ : ∃ f, fuel = f + 2 := ⟨fuel - 2, by omega⟩
  by_cases hn0 : n = 0
  · subst hn0
    exact ⟨h, l, by simp [append], fun _ => rfl, fun h0 => absurd h0 (by omega)⟩
  have hnpos : 0 < n := by omega
  have hgrow : l.append_buffer.unused_tail_length h = 0 →
      ∃ h1 l1, append (f + 2) h l data n = some (h1, l1) ∧
        h1.length = h.length + 1 ∧ l1.append_buffer._raw = some h.length ∧
        (h1[h.length]?).map raw.len = some (4096 * ((n - 1) / 4096 + 1)) := by
    intro hgap
    obtain ⟨h1, l1, e1, a1⟩ := @append_grow_fit_heap h l data n f hd hnpos hn
    refine ⟨h1, l1, ?_, a1⟩
    rw [append]
    simp only [hn0, if_false, append_fill_none data n hgap]
    exact e1
  have hzero : l.append_buffer.unused_tail_length h = 0 →
      ∃ h1 l1, append (f + 2) h l data n = some (h1, l1) ∧
      (n ≤ l.append_buffer.unused_tail_length h → h1.length = h.length) ∧
      (l.append_buffer.unused_tail_length h < n →
        h1.length = h.length + 1 ∧ l1.append_buffer._raw = some h.length ∧
        (h1[h.length]?).map raw.len =
          some (4096 * ((n - l.append_buffer.unused_tail_length h - 1) / 4096 + 1))) := by
    intro hgap
    obtain ⟨h1, l1, e1, a1⟩ := hgrow hgap
    rw [hgap]
    exact ⟨h1, l1, e1, fun h0 => absurd h0 (by omega), fun _ => a1⟩
  rcases arena_cases ha with hnone | ⟨r, rw, k, hab, hr, hk, hrw⟩
  · exact hzero (by unfold ptr.unused_tail_length; simp [hnone])
  · have hgap : l.append_buffer.unused_tail_length h = rw.len - k := by
      unfold ptr.unused_tail_length
      simp only [hab, hr, Nat.zero_add]
      rw [u32_of_lt (by omega), usub_of_le (by omega) hrw]
    by_cases hfit : k + n ≤ rw.len
    · obtain ⟨h1, l1, e1, e2, _⟩ := append_fit_heap data n (f + 1) hab hr hfit hrw hd hnpos
      refine ⟨h1, l1, e1, fun _ => by rw [e2]; simp, fun h0 => ?_⟩
      rw [hgap] at h0
      omega
    · by_cases hfull : k = rw.len
      · exact hzero (by rw [hgap]; omega)
      · have hmin : min (rw.len - k) n = rw.len - k := by omega
        have hfill := append_fill_spec (h := h) (l := l) data n hab hr (by omega) hrw hd hnpos
          (by omega)
        rw [hmin] at hfill
        obtain ⟨h1, l1, e1, a1, a2, a3⟩ := @append_grow_fit_heap
          (h.set r (rw.write k (data.take (rw.len - k))))
          { _buffers := l._buffers ++ [⟨some r, k, rw.len - k⟩],
            _len := u32 (l._len + (rw.len - k)),
            append_buffer := ⟨some r, 0, k + (rw.len - k)⟩ }
          (data.drop (rw.len - k)) (n - (rw.len - k)) f
          (by simp only [List.length_drop]; omega) (by omega) (by omega)
        simp only [List.length_set] at a1 a2 a3
        refine ⟨h1, l1, ?_, fun h0 => ?_, fun _ => ⟨a1, a2, ?_⟩⟩
        · rw [append]
          simp only [hn0, if_false, hfill]
          have : ¬ n - (rw.len - k) = 0 := by omega
          simp only [this, if_false]
          exact e1
        · rw [hgap] at h0
          omega
        · rw [hgap, a3]

end list

/-- C16 (as amended): for every list with its append arena in order and every call
`append(bytes, n)` with `n <= 2^32 - 4096`, with `gap` the room left in the arena of the
list before the call: the call allocates a new arena exactly when `n > gap`, and the size
of the arena allocated is `ceil((n - gap) / 4096) * 4096`, the bytes that did not fit the
old arena rounded up to pages; it is `ceil(n / 4096) * 4096` when no room was left. -/
theorem arena_sizing (h : Heap) (l : list) (data : List Byte) (n fuel : Nat)
    (ha : l.arena_ok h) (hd : data.length = n) (hn : n ≤ 4294963200) (hf : 2 ≤ fuel) :
    ∃ h1 l1, list.append fuel h l data n = some (h1, l1) ∧
      (n ≤ l.append_buffer.unused_tail_length h → h1.length = h.length) ∧
      (l.append_buffer.unused_tail_length h < n →
        h1.length = h.length + 1 ∧ l1.append_buffer._raw = some h.length ∧
        (h1[h.length]?).map raw.len =
          some ((n - l.append_buffer.unused_tail_length h + 4095) / 4096 * 4096) ∧
        (l.append_buffer.unused_tail_length h = 0 →
          (h1[h.length]?).map raw.len = some ((n + 4095) / 4096 * 4096))) := by
  obtain ⟨h1, l1, e, k1, k2⟩ := list.append_heap_spec h l data n fuel ha hd hn hf
  refine ⟨h1, l1, e, k1, fun hlt => ?_⟩
  obtain ⟨a1, a2, a3⟩ := k2 hlt
  have e3 : 4096 * ((n - l.append_buffer.unused_tail_length h - 1) / 4096 + 1) =
      (n - l.append_buffer.unused_tail_length h + 4095) / 4096 * 4096 := by omega
  refine ⟨a1, a2, by rw [a3, e3], fun h0 => ?_⟩
  rw [a3, e3, h0]
  rfl

/-- C16, an instance: three bytes appended to the list of six bytes, which has no arena:
an arena of one page is allocated. -/
theorem arena_sizing_witness :
    list.arena_ok heap6 list6 ∧ list6.append_buffer.unused_tail_length heap6 < 3 ∧
    ∃ h1 l1, list.append 2 heap6 list6 [1, 2, 3] 3 = some (h1, l1) ∧
      (h1[heap6.length]?).map raw.len = some 4096 := by
  obtain ⟨h1, l1, e, _, k⟩ := arena_sizing heap6 list6 [1, 2, 3] 3 2 (by decide) (by decide)
    (by decide) (by decide)
  exact ⟨by decide, by decide, h1, l1, e, (k (by decide)).2.2.1⟩

/-- C16 as stated fails: the arena of the list has one byte left, and `append` of 4097
bytes puts one byte there and allocates an arena of 4096 bytes for the other 4096, not
`ceil(4097 / 4096) * 4096 = 8192`. -/
theorem arena_sized_by_remainder :
    list.valid heap_page list_page ∧ list.arena_ok heap_page list_page ∧
    list_page.append_buffer.unused_tail_length heap_page = 1 ∧
    (4097 + 4095) / 4096 * 4096 = 8192 ∧
    ∃ h1 l1, list.append 2 heap_page list_page (List.replicate 4097 7) 4097 = some (h1, l1) ∧
      h1.length = 2 ∧ (h1[1]?).map raw.len = some 4096 := by
  obtain ⟨h1, l1, e, _, k⟩ := list.append_heap_spec heap_page list_page
    (List.replicate 4097 7) 4097 2 (by decide) (List.length_replicate 4097 7) (by decide)
    (by decide)
  obtain ⟨a1, _, a3⟩ := k (by decide)
  exact ⟨by decide, by decide, by decide, by decide, h1, l1, e, a1, a3⟩

end buffer

namespace buffer

theorem ser_count (lt : Value → Value → Bool) (s : Shape) (v : Value) (hc : s.container)
    (hv : has_shape lt s v) :
    ∃ rest, ser s v = u32_bytes (u32 v.count) ++ rest := by
  cases s with
  | prim size => exact hc.elim
  | list e =>
    cases v with
    | seq xs => exact ⟨_, rfl⟩
    | prim t => simp [has_shape] at hv
    | map m => simp [has_shape] at hv
  | deque e =>
    cases v with
    | seq xs => exact ⟨_, rfl⟩
    | prim t => simp [has_shape] at hv
    | map m => simp [has_shape] at hv
  | vector e =>
    cases v with
    | seq xs => exact ⟨_, rfl⟩
    | prim t => simp [has_shape] at hv
    | map m => simp [has_shape] at hv
  | set e =>
    cases v with
    | seq xs => exact ⟨_, rfl⟩
    | prim t => simp [has_shape] at hv
    | map m => simp [has_shape] at hv
  | map sk sv =>
    cases v with
    | map m => exact ⟨_, rfl⟩
    | prim t => simp [has_shape] at hv
    | seq xs => simp [has_shape] at hv

/-- C17 (as amended): for every `std::list`, `deque`, `vector`, `set`, `map` or `hash_map`
value `c` with fewer than 2^32 elements and every valid buffer list `bl` such that the
bytes of `bl` and the encoding of `c` are fewer than 2^32 together: `_encode(c, bl)`
returns, the bytes of `bl` before the call are still its first bytes, and the four bytes
at the old `bl.length()`, read across the views by `copy`, are the host-order 32-bit
representation of the element count of `c`, also for a non-empty `std::list`, whose
count is patched in after the elements.  The overload for `hash_map` is the one for
`map`, on the entries in iteration order. -/
theorem encode_count_first (lt : Value → Value → Bool) (fuel : Nat) (hf : 2 ≤ fuel)
    (s : Shape) (hc : s.container) (hok : s.ok) (v : Value) (hv : has_shape lt s v)
    (hn : v.count < 4294967296) (h : Heap) (bl : list) (hl : bl.valid h)
    (ha : bl.arena_ok h)
    (hb : list.sum_length bl._buffers + (ser s v).length < 4294967296) :
    ∃ h1 bl1, _encode fuel s v h bl = some (h1, bl1) ∧
      bl1.copy h1 bl.length 4 = some (u32_bytes v.count) ∧
      ((bl1.content h1).drop bl.length).take 4 = u32_bytes v.count ∧
      (bl1.content h1).take bl.length = bl.content h ∧
      (∀ sk sv m, s = .map sk sv → v = .map m →
        _encode_hash_map fuel sk sv m h bl = some (h1, bl1)) := by
  obtain ⟨h1, bl1, e1, a1⟩ := encode_spec lt fuel hf s hok v hv h bl hl ha hb
  obtain ⟨rest, hser⟩ := ser_count lt s v hc hv
  rw [u32_of_lt hn] at hser
  have hcon := list.appended_content hl ha a1
  have hsum := appended_sum a1
  have hlen := valid_length_eq hl (by omega)
  have hlen1 := valid_length_eq a1.1 (by omega)
  have hpre : (bl.content h).length = bl.length := by
    rw [hlen]
    unfold list.content
    exact list.views_bytes_length hl.2
  have hsl : (ser s v).length = 4 + rest.length := by
    rw [hser]
    simp [u32_bytes_length]
  have hdrop : ((bl1.content h1).drop bl.length).take 4 = u32_bytes v.count := by
    rw [hcon, hser, ← hpre, List.drop_left]
    rw [List.take_left' (u32_bytes_length _)]
  refine ⟨h1, bl1, e1, ?_, hdrop, ?_, ?_⟩
  · rw [list.copy_spec h1 bl1 bl.length 4 a1.1 (by rw [hlen1, hsum, hlen]; omega), hdrop]
  · rw [hcon, ← hpre, List.take_left]
  · intro sk sv m hs hm
    subst hs hm
    rw [← e1]
    unfold _encode_hash_map
    simp only [_encode]

/-- C17, an instance: a `std::list` of two elements after the six bytes of `list6`; the
count 2 is patched in after the elements. -/
theorem encode_count_first_witness :
    shape_list2.container ∧ shape_list2.ok ∧ has_shape lt_none shape_list2 value_list2 ∧
    list.valid heap6 list6 ∧ list.arena_ok heap6 list6 ∧
    ∃ h1 bl1, _encode 2 shape_list2 value_list2 heap6 list6 = some (h1, bl1) ∧
      bl1.copy h1 list6.length 4 = some [2, 0, 0, 0] :=
  have hcn : shape_list2.container := by simp [shape_list2, Shape.container]
  have hok : shape_list2.ok := by simp [shape_list2, Shape.ok]
  have hsh : has_shape lt_none shape_list2 value_list2 := by
    simp [shape_list2, value_list2, has_shape]
  have hb : list.sum_length list6._buffers + (ser shape_list2 value_list2).length
      < 4294967296 := by
    simp [shape_list2, value_list2, ser, u32_bytes, list6, list.sum_length, ptr.length]
  have key := encode_count_first lt_none 2 (by decide) shape_list2 hcn hok value_list2 hsh
    (by decide) heap6 list6 (by decide) (by decide) hb
  ⟨hcn, hok, hsh, by decide, by decide,
    key.elim (fun h1 k => k.elim (fun bl1 k2 => ⟨h1, bl1, k2.1, k2.2.1⟩))⟩

/-- C17 as stated fails: on the valid list of two views of 2^31 bytes, whose `length()`
is 0, the encoding of a `std::list` with one element appends the bytes 0 0 0 0 5: the
count 1 is patched in at position 0, over the first bytes of the old content. -/
theorem encode_count_patched_elsewhere :
    list.valid heap_half wrapped_list ∧ list.arena_ok heap_half wrapped_list ∧
    wrapped_list._buffers.length = 2 ∧ wrapped_list.length = 0 ∧
    heap_half.map (fun rw => rw.read 0 4) = [[0, 0, 0, 0]] ∧
    (_encode 2 shape_list1 value_list1 heap_half wrapped_list).map (fun r =>
      ((r.2._buffers.drop 2).flatMap (ptr.bytes r.1), r.1.map (fun rw => rw.read 0 4))) =
      some ([0, 0, 0, 0, 5], [[1, 0, 0, 0], [0, 0, 0, 0]]) ∧
    u32_bytes value_list1.count = [1, 0, 0, 0] := by
  decide

end buffer

namespace MDSMonitor

theorem boot_assert_assigned (i : Int) (t : MDSState) (f : Int) (s : MDSState)
    (h : boot_assert i t = some (Boot.assigned f s)) :
    s = STATE_CREATING ∨ s = STATE_STARTING ∨ s = STATE_REPLAY := by
  unfold boot_assert at h
  split_ifs at h with hc
  simp only [Option.some.injEq, Boot.assigned.injEq] at h
  obtain ⟨_, rfl⟩ := h
  exact hc

theorem boot_assign_state (fuel : Nat) (g_conf : md_config_t) (mon : MDSMonitor)
    (m : MMDSBeacon) (f : Int) (s : MDSState)
    (h : boot_assign fuel g_conf mon m = some (Boot.assigned f s)) :
    s = STATE_CREATING ∨ s = STATE_STARTING ∨ s = STATE_REPLAY := by
  unfold boot_assign at h
  dsimp only at h
  split_ifs at h <;>
    first
    | exact boot_assert_assigned _ _ _ _ h
    | (simp only [Option.some.injEq] at h
       exact absurd h (by simp))
    | (cases hp : pick_unused mon.pending_mdsmap fuel 0 with
       | none =>
         rw [hp] at h
         simp at h
       | some r =>
         obtain ⟨i, t⟩ := r
         rw [hp] at h
         exact boot_assert_assigned _ _ _ _ h)

/-- What an accepted beacon went through: `handle_beacon` returns `true` exactly through
`record`, for the sender's id and state or for those of the boot assignment, on a monitor
that differs from the one it was called on in the instances, incarnations and beacon
times only. -/
theorem handle_beacon_accept (fuel : Nat) (g_conf : md_config_t) (now : Nat)
    (mon : MDSMonitor) (m : MMDSBeacon) (f : Int) (mon1 : MDSMonitor)
    (h : handle_beacon fuel g_conf now mon m = some (true, f, mon1)) :
    ∃ (s : MDSState) (M : MDSMonitor), record m.seq f s M = (true, f, mon1) ∧
      M.mdsmap = mon.mdsmap ∧
      M.pending_mdsmap.mds_state = mon.pending_mdsmap.mds_state ∧
      M.pending_mdsmap.mds_state_seq = mon.pending_mdsmap.mds_state_seq ∧
      M.pending_mdsmap.mds_created = mon.pending_mdsmap.mds_created ∧
      M.pending_mdsmap.target_num = mon.pending_mdsmap.target_num ∧
      (if m.state = STATE_BOOT then
          boot_assign fuel g_conf mon m = some (Boot.assigned f s)
        else f = m.mds_inst.name.num ∧ s = m.state) := by
  unfold handle_beacon at h
  simp only [MMDSBeacon.get_mds_inst, MMDSBeacon.get_state, MMDSBeacon.get_seq] at h
  by_cases ha : m.state = mon.mdsmap.get_state m.mds_inst.name.num
  · rw [if_pos ha] at h
    simp at h
  · rw [if_neg ha] at h
    by_cases hb : m.state = STATE_BOOT
    · rw [if_pos hb] at h
      simp only [if_pos hb]
      cases hba : boot_assign fuel g_conf mon m with
      | none =>
        rw [hba] at h
        simp at h
      | some b =>
        rw [hba] at h
        cases b with
        | already_pending f1 s1 p =>
          simp at h
        | assigned f1 s1 =>
          simp only at h
          split_ifs at h with hi
          simp only [Option.some.injEq] at h
          have hf : f1 = f := by
            have := congrArg (fun r => r.2.1) h
            exact this
          subst hf
          exact ⟨s1, _, h, rfl, rfl, rfl, rfl, rfl, rfl⟩
    · rw [if_neg hb] at h
      simp only [if_neg hb]
      simp only [Option.some.injEq] at h
      have hf : m.mds_inst.name.num = f := by
        have := congrArg (fun r => r.2.1) h
        exact this
      subst hf
      exact ⟨m.state, mon, h, rfl, rfl, rfl, rfl, rfl, rfl, rfl⟩

/-- The members `record` writes for the id `f`, by the state `s` it was called with. -/
theorem record_fields (seq : Nat) (f : Int) (s : MDSState) (M : MDSMonitor) :
    (record seq f s M).2.2.pending_mdsmap.mds_created =
      (if s = STATE_ACTIVE ∧ M.mdsmap.get_state f = STATE_CREATING then
        ISet.insert f M.pending_mdsmap.mds_created
      else M.pending_mdsmap.mds_created) ∧
    ∃ s2, s2 = (if (s = STATE_STARTING ∨ s = STATE_CREATING ∨
          M.mdsmap.get_state f = STATE_STARTING ∨
          M.mdsmap.get_state f = STATE_CREATING) ∧
          (M.pending_mdsmap.is_degraded = true ∨ M.pending_mdsmap.is_full = true)
        then STATE_STANDBY else s) ∧
      (record seq f s M).2.2.pending_mdsmap.mds_state =
        IMap.set f s2 M.pending_mdsmap.mds_state ∧
      (record seq f s M).2.2.pending_mdsmap.mds_state_seq =
        (if s2 ≠ STATE_DNE ∧ s2 ≠ STATE_STOPPED ∧ s2 ≠ STATE_FAILED then
          IMap.set f seq M.pending_mdsmap.mds_state_seq
        else IMap.erase f M.pending_mdsmap.mds_state_seq) := by
  have hd : ∀ c : ISet, ({ M.pending_mdsmap with mds_created := c } : MDSMap).is_degraded
      = M.pending_mdsmap.is_degraded := fun _ => rfl
  have hfu : ∀ c : ISet, ({ M.pending_mdsmap with mds_created := c } : MDSMap).is_full
      = M.pending_mdsmap.is_full := fun _ => rfl
  have hup : ∀ p : MDSMap, p.is_up f = true ↔
      (p.get_state f ≠ STATE_DNE ∧ p.get_state f ≠ STATE_STOPPED ∧
        p.get_state f ≠ STATE_FAILED) := by
    intro p
    simp [MDSMap.is_up, MDSMap.is_dne, MDSMap.is_stopped, MDSMap.is_failed, and_assoc]
  have hget : ∀ (p : MDSMap) (x : MDSState),
      ({ p with mds_state := IMap.set f x p.mds_state } : MDSMap).get_state f = x := by
    intro p x
    unfold MDSMap.get_state
    simp only [IMap.find_set_same]
  refine ⟨?_, _, rfl, ?_, ?_⟩
  · unfold record
    dsimp only
    split_ifs <;> simp_all [MDSMap.is_creating]
  · unfold record
    dsimp only
    split_ifs <;> simp_all [MDSMap.is_starting, MDSMap.is_creating]
  · unfold record
    dsimp only
    simp only [hup, hget, hd, hfu, MDSMap.is_starting, MDSMap.is_creating,
      decide_eq_true_eq]
    split_ifs <;> simp_all

end MDSMonitor

namespace MDSMonitor

theorem accept_gate (mon M : MDSMonitor)
    (e2 : M.pending_mdsmap.mds_state = mon.pending_mdsmap.mds_state)
    (e5 : M.pending_mdsmap.target_num = mon.pending_mdsmap.target_num) :
    M.pending_mdsmap.is_degraded = mon.pending_mdsmap.is_degraded ∧
    M.pending_mdsmap.is_full = mon.pending_mdsmap.is_full := by
  unfold MDSMap.is_degraded MDSMap.is_full MDSMap.get_num_mds
  rw [e2, e5]
  exact ⟨rfl, rfl⟩

/-- C23 (as amended): when `handle_beacon` accepts a beacon for the id `from`, it inserts
`from` into `pending_mdsmap.mds_created` if and only if the state announced by the beacon
is ACTIVE and the committed state of `from` is CREATING (a BOOT beacon never inserts).
The test comes before the standby gate: when it inserts, the state it then records in
`pending_mdsmap.mds_state[from]` is ACTIVE if the pending map is neither degraded nor
full, and STANDBY if it is.  Whenever the recorded state is ACTIVE and the committed state
was CREATING, `from` was inserted. -/
theorem mds_created_rule (fuel : Nat) (g_conf : md_config_t) (now : Nat) (mon : MDSMonitor)
    (m : MMDSBeacon) (f : Int) (mon1 : MDSMonitor)
    (h : handle_beacon fuel g_conf now mon m = some (true, f, mon1)) :
    mon1.pending_mdsmap.mds_created =
      (if m.state = STATE_ACTIVE ∧ mon.mdsmap.get_state f = STATE_CREATING then
        ISet.insert f mon.pending_mdsmap.mds_created
      else mon.pending_mdsmap.mds_created) ∧
    (m.state = STATE_ACTIVE ∧ mon.mdsmap.get_state f = STATE_CREATING →
      IMap.find f mon1.pending_mdsmap.mds_state =
        some (if mon.pending_mdsmap.is_degraded = true ∨ mon.pending_mdsmap.is_full = true
          then STATE_STANDBY else STATE_ACTIVE)) ∧
    (IMap.find f mon1.pending_mdsmap.mds_state = some STATE_ACTIVE ∧
        mon.mdsmap.get_state f = STATE_CREATING →
      mon1.pending_mdsmap.mds_created = ISet.insert f mon.pending_mdsmap.mds_created) := by
  obtain ⟨s, M, hr, e1, e2, e3, e4, e5, hs⟩ := handle_beacon_accept fuel g_conf now mon m f
    mon1 h
  have hm1 : (record m.seq f s M).2.2 = mon1 := by rw [hr]
  obtain ⟨c1, s2, hs2, c2, c3⟩ := record_fields m.seq f s M
  obtain ⟨g1, g2⟩ := accept_gate mon M e2 e5
  rw [hm1] at c1 c2
  rw [e1, e4] at c1
  rw [e1, g1, g2] at hs2
  have hfind : IMap.find f mon1.pending_mdsmap.mds_state = some s2 := by
    rw [c2]
    exact IMap.find_set_same _ _ _
  have hsa : s = STATE_ACTIVE ↔ m.state = STATE_ACTIVE := by
    by_cases hb : m.state = STATE_BOOT
    · rw [if_pos hb] at hs
      have := boot_assign_state fuel g_conf mon m f s hs
      rw [hb]
      constructor
      · intro hx
        rw [hx] at this
        simp at this
      · intro hx
        simp at hx
    · rw [if_neg hb] at hs
      rw [hs.2]
  refine ⟨?_, ?_, ?_⟩
  · rw [c1]
    simp only [hsa]
  · intro hc
    have hsact : s = STATE_ACTIVE := hsa.mpr hc.1
    rw [hfind, hs2, hsact, hc.2]
    simp
  · intro hc
    rw [hfind] at hc
    have h2 : s2 = STATE_ACTIVE := by
      have := hc.1
      simpa using this
    have hsact : s = STATE_ACTIVE := by
      rw [hs2] at h2
      split_ifs at h2 with hg
      exact h2
    rw [c1, if_pos ⟨hsact, hc.2⟩]

/-- C23, an instance: server 0, creating in the committed map of `mon7`, announces
ACTIVE; the pending map is neither degraded nor full, id 0 is inserted and recorded as
ACTIVE. -/
theorem mds_created_rule_witness :
    handle_beacon 1 ⟨false⟩ 9 mon7 beacon7 =
      some (true, 0, (record beacon7.seq 0 STATE_ACTIVE mon7).2.2) ∧
    (record beacon7.seq 0 STATE_ACTIVE mon7).2.2.pending_mdsmap.mds_created = [0] ∧
    IMap.find 0 (record beacon7.seq 0 STATE_ACTIVE mon7).2.2.pending_mdsmap.mds_state =
      some STATE_ACTIVE :=
  have h : handle_beacon 1 ⟨false⟩ 9 mon7 beacon7 =
      some (true, 0, (record beacon7.seq 0 STATE_ACTIVE mon7).2.2) := rfl
  have k := mds_created_rule 1 ⟨false⟩ 9 mon7 beacon7 0 _ h
  ⟨h, k.1, k.2.1 ⟨rfl, rfl⟩⟩

/-- C23 as stated fails: in `mon23` the committed state of id 0 is CREATING and the
pending map is full (one active server wanted, id 1 is active).  Server 0 announces
ACTIVE: `handle_beacon` inserts 0 into `mds_created`, and the state it records for id 0
is STANDBY. -/
theorem created_but_standby :
    mon23.mdsmap.get_state 0 = STATE_CREATING ∧ mon23.pending_mdsmap.is_full = true ∧
    mon23.pending_mdsmap.mds_created = [1] ∧ beacon23.state = STATE_ACTIVE ∧
    (handle_beacon 1 ⟨false⟩ 9 mon23 beacon23).map
      (fun r => (r.1, r.2.1, r.2.2.pending_mdsmap.mds_created,
        IMap.find 0 r.2.2.pending_mdsmap.mds_state)) =
      some (true, 0, [0, 1], some STATE_STANDBY) := by
  decide

/-- C24: whenever `handle_beacon` accepts a beacon (returns `true`) for the id `from`,
with `s` the final state (the sender's state, or for a BOOT beacon the state of the boot
assignment, after the standby gate): afterwards `pending_mdsmap.mds_state[from]` is `s`,
`pending_mdsmap.mds_state_seq` holds `from` if and only if `s` is an up state (none of
DNE, STOPPED, FAILED), and then maps it to the beacon's `seq`, and the `mds_state` and
`mds_state_seq` entries of every other id are as before. -/
theorem transition_recording (fuel : Nat) (g_conf : md_config_t) (now : Nat)
    (mon : MDSMonitor) (m : MMDSBeacon) (f : Int) (mon1 : MDSMonitor)
    (h : handle_beacon fuel g_conf now mon m = some (true, f, mon1)) :
    ∃ st s : MDSState,
      (if m.state = STATE_BOOT then boot_assign fuel g_conf mon m = some (Boot.assigned f st)
        else f = m.mds_inst.name.num ∧ st = m.state) ∧
      s = (if (st = STATE_STARTING ∨ st = STATE_CREATING ∨
            mon.mdsmap.get_state f = STATE_STARTING ∨
            mon.mdsmap.get_state f = STATE_CREATING) ∧
            (mon.pending_mdsmap.is_degraded = true ∨ mon.pending_mdsmap.is_full = true)
          then STATE_STANDBY else st) ∧
      IMap.find f mon1.pending_mdsmap.mds_state = some s ∧
      mon1.pending_mdsmap.get_state f = s ∧
      IMap.find f mon1.pending_mdsmap.mds_state_seq =
        (if s ≠ STATE_DNE ∧ s ≠ STATE_STOPPED ∧ s ≠ STATE_FAILED then some m.seq else none) ∧
      (mon1.pending_mdsmap.is_up f = true ↔
        s ≠ STATE_DNE ∧ s ≠ STATE_STOPPED ∧ s ≠ STATE_FAILED) ∧
      ∀ k, k ≠ f →
        IMap.find k mon1.pending_mdsmap.mds_state = IMap.find k mon.pending_mdsmap.mds_state ∧
        IMap.find k mon1.pending_mdsmap.mds_state_seq =
          IMap.find k mon.pending_mdsmap.mds_state_seq := by
  obtain ⟨st, M, hr, e1, e2, e3, e4, e5, hs⟩ := handle_beacon_accept fuel g_conf now mon m f
    mon1 h
  have hm1 : (record m.seq f st M).2.2 = mon1 := by rw [hr]
  obtain ⟨_, s2, hs2, c2, c3⟩ := record_fields m.seq f st M
  obtain ⟨g1, g2⟩ := accept_gate mon M e2 e5
  rw [hm1] at c2 c3
  rw [e2] at c2
  rw [e3] at c3
  rw [e1, g1, g2] at hs2
  have hfind : IMap.find f mon1.pending_mdsmap.mds_state = some s2 := by
    rw [c2]
    exact IMap.find_set_same _ _ _
  have hget : mon1.pending_mdsmap.get_state f = s2 := by
    unfold MDSMap.get_state
    rw [hfind]
  refine ⟨st, s2, hs, hs2, hfind, hget, ?_, ?_, ?_⟩
  · rw [c3]
    by_cases hu : s2 ≠ STATE_DNE ∧ s2 ≠ STATE_STOPPED ∧ s2 ≠ STATE_FAILED
    · rw [if_pos hu, if_pos hu]
      exact IMap.find_set_same _ _ _
    · rw [if_neg hu, if_neg hu]
      exact IMap.find_erase_same _ _
  · simp [MDSMap.is_up, MDSMap.is_dne, MDSMap.is_stopped, MDSMap.is_failed, hget, and_assoc]
  · intro k hk
    refine ⟨?_, ?_⟩
    · rw [c2]
      exact IMap.find_set_other _ _ _ hk _
    · rw [c3]
      split_ifs
      · exact IMap.find_set_other _ _ _ hk _
      · exact IMap.find_erase_other _ _ hk _

/-- C24, an instance: the active server 0 of `mon12` announces STOPPED; the state is
recorded, the sequence number of id 0 is erased, and the ids 2 and 3 keep their states and
their sequence numbers. -/
theorem transition_recording_witness :
    (handle_beacon 1 ⟨false⟩ 9 mon12 beacon24).map
      (fun r => (r.1, r.2.1, r.2.2.pending_mdsmap.mds_state,
        r.2.2.pending_mdsmap.mds_state_seq)) =
      some (true, 0, [(0, STATE_STOPPED), (2, STATE_ACTIVE), (3, STATE_STARTING)],
        [(2, 5), (3, 5)]) ∧
    ∃ st s : MDSState,
      (if beacon24.state = STATE_BOOT then
          boot_assign 1 ⟨false⟩ mon12 beacon24 = some (Boot.assigned 0 st)
        else (0 : Int) = beacon24.mds_inst.name.num ∧ st = beacon24.state) ∧
      s = (if (st = STATE_STARTING ∨ st = STATE_CREATING ∨
            mon12.mdsmap.get_state 0 = STATE_STARTING ∨
            mon12.mdsmap.get_state 0 = STATE_CREATING) ∧
            (mon12.pending_mdsmap.is_degraded = true ∨ mon12.pending_mdsmap.is_full = true)
          then STATE_STANDBY else st) ∧
      IMap.find 0 (record beacon24.seq 0 STATE_STOPPED mon12).2.2.pending_mdsmap.mds_state
        = some s ∧
      (record beacon24.seq 0 STATE_STOPPED mon12).2.2.pending_mdsmap.get_state 0 = s ∧
      IMap.find 0
          (record beacon24.seq 0 STATE_STOPPED mon12).2.2.pending_mdsmap.mds_state_seq =
        (if s ≠ STATE_DNE ∧ s ≠ STATE_STOPPED ∧ s ≠ STATE_FAILED then some beacon24.seq
          else none) ∧
      ((record beacon24.seq 0 STATE_STOPPED mon12).2.2.pending_mdsmap.is_up 0 = true ↔
        s ≠ STATE_DNE ∧ s ≠ STATE_STOPPED ∧ s ≠ STATE_FAILED) ∧
      ∀ k, k ≠ 0 →
        IMap.find k
            (record beacon24.seq 0 STATE_STOPPED mon12).2.2.pending_mdsmap.mds_state =
          IMap.find k mon12.pending_mdsmap.mds_state ∧
        IMap.find k
            (record beacon24.seq 0 STATE_STOPPED mon12).2.2.pending_mdsmap.mds_state_seq =
          IMap.find k mon12.pending_mdsmap.mds_state_seq :=
  ⟨rfl, transition_recording 1 ⟨false⟩ 9 mon12 beacon24 0 _ rfl⟩

end MDSMonitor

namespace MDSMonitor

theorem index_seq_le (m : IMap Nat) (k : Int) (seq : Nat)
    (h : ∀ cur, IMap.find k m = some cur → cur ≤ seq) : ¬ (IMap.index m k 0).1 > seq := by
  unfold IMap.index
  cases hf : IMap.find k m with
  | none => simp
  | some v =>
    have := h v hf
    simp only
    omega

/-- The decision of `preprocess_beacon` on the leader for a beacon that is not a BOOT
beacon: the value it returns, by the entries of the committed map. -/
theorem preprocess_nonboot (now : Nat) (mon : MDSMonitor) (m : MMDSBeacon)
    (hnb : m.state ≠ STATE_BOOT) :
    (preprocess_beacon true now mon m).2.1.pending_mdsmap = mon.pending_mdsmap ∧
    (preprocess_beacon true now mon m).2.1.mdsmap.mds_state = mon.mdsmap.mds_state ∧
    (preprocess_beacon true now mon m).1 =
      (if (IMap.index mon.mdsmap.mds_state_seq m.mds_inst.name.num 0).1 > m.seq then true
       else
        match IMap.find m.mds_inst.name.num mon.mdsmap.mds_state with
        | none => true
        | some s => if s ≠ m.state ∧ mon.mdsmap.epoch = m.last_epoch_seen then false
            else true) := by
  unfold preprocess_beacon
  simp only [MMDSBeacon.get_state, MMDSBeacon.get_mds_inst, MMDSBeacon.get_seq,
    MMDSBeacon.get_last_epoch_seen, MDSMap.get_epoch, hnb, false_and, if_false,
    Bool.not_true, Bool.false_eq_true, ne_eq]
  by_cases hs : (IMap.index mon.mdsmap.mds_state_seq m.mds_inst.name.num 0).1 > m.seq
  · simp only [hs, if_true]
    exact ⟨trivial, trivial, trivial⟩
  · simp only [hs, if_false]
    cases hf : IMap.find m.mds_inst.name.num mon.mdsmap.mds_state with
    | none =>
      have hc := (IMap.count_eq_zero_iff m.mds_inst.name.num mon.mdsmap.mds_state).mpr hf
      split_ifs <;> simp_all
    | some s =>
      have hc : ¬ IMap.count m.mds_inst.name.num mon.mdsmap.mds_state = 0 := by
        rw [IMap.count_eq_zero_iff, hf]
        simp
      have hi := IMap.index_of_find mon.mdsmap.mds_state m.mds_inst.name.num STATE_DNE s hf
      split_ifs <;> simp_all

/-- C25: on the leader, for a beacon that is not a BOOT beacon and not stale (no recorded
`mds_state_seq[from]` above its `seq`), `preprocess_beacon` returns `false` (needs update)
if and only if `from` has an entry in the committed `mds_state`, the state of the beacon
differs from that entry, and the `last_epoch_seen` of the beacon is the committed epoch; a
beacon that is not a BOOT beacon from an id with no entry in the committed `mds_state`
is dropped: the handler returns `true` and leaves the pending map and the committed states
as they are; and a BOOT beacon whose address has no rank in the committed map always
returns `false`, with nothing written and nothing sent. -/
theorem preprocess_decision (now : Nat) (mon : MDSMonitor) (m : MMDSBeacon) :
    (m.state ≠ STATE_BOOT →
      (∀ cur, IMap.find m.mds_inst.name.num mon.mdsmap.mds_state_seq = some cur →
        cur ≤ m.seq) →
      ((preprocess_beacon true now mon m).1 = false ↔
        ∃ s, IMap.find m.mds_inst.name.num mon.mdsmap.mds_state = some s ∧ m.state ≠ s ∧
          m.last_epoch_seen = mon.mdsmap.epoch)) ∧
    (m.state ≠ STATE_BOOT →
      IMap.find m.mds_inst.name.num mon.mdsmap.mds_state = none →
      (preprocess_beacon true now mon m).1 = true ∧
      (preprocess_beacon true now mon m).2.1.pending_mdsmap = mon.pending_mdsmap ∧
      (preprocess_beacon true now mon m).2.1.mdsmap.mds_state = mon.mdsmap.mds_state) ∧
    (m.state = STATE_BOOT → mon.mdsmap.get_addr_rank m.mds_inst.addr < 0 →
      preprocess_beacon true now mon m = (false, mon, [])) := by
  refine ⟨?_, ?_, ?_⟩
  · intro hnb hfresh
    obtain ⟨_, _, hv⟩ := preprocess_nonboot now mon m hnb
    rw [hv, if_neg (index_seq_le _ _ _ hfresh)]
    cases hf : IMap.find m.mds_inst.name.num mon.mdsmap.mds_state with
    | none => simp
    | some s =>
      simp only [Option.some.injEq, exists_eq_left']
      constructor
      · intro hx
        split_ifs at hx with hc
        exact ⟨fun e => hc.1 e.symm, hc.2.symm⟩
      · intro hx
        rw [if_pos ⟨fun e => hx.1 e.symm, hx.2.symm⟩]
  · intro hnb hf
    obtain ⟨h1, h2, hv⟩ := preprocess_nonboot now mon m hnb
    refine ⟨?_, h1, h2⟩
    rw [hv, hf]
    simp
  · intro hb hr
    unfold preprocess_beacon
    simp [MMDSBeacon.get_state, MMDSBeacon.get_mds_inst, hb, hr]

/-- C25, an instance: on `mon23`, the beacon of server 0 that announces ACTIVE with the
committed epoch needs an update, the beacon of the unknown id 5 is dropped, and the BOOT
beacon from the unknown address 9 needs an update. -/
theorem preprocess_decision_witness :
    ((preprocess_beacon true 9 mon23 beacon23).1 = false ↔
      ∃ s, IMap.find beacon23.mds_inst.name.num mon23.mdsmap.mds_state = some s ∧
        beacon23.state ≠ s ∧ beacon23.last_epoch_seen = mon23.mdsmap.epoch) ∧
    (preprocess_beacon true 9 mon23 beacon23).1 = false ∧
    ((preprocess_beacon true 9 mon23 beacon25).1 = true ∧
      (preprocess_beacon true 9 mon23 beacon25).2.1.pending_mdsmap = mon23.pending_mdsmap ∧
      (preprocess_beacon true 9 mon23 beacon25).2.1.mdsmap.mds_state =
        mon23.mdsmap.mds_state) ∧
    preprocess_beacon true 9 mon23 beacon25_boot = (false, mon23, []) :=
  ⟨(preprocess_decision 9 mon23 beacon23).1 (by decide) (by decide), by decide,
    (preprocess_decision 9 mon23 beacon25).2.1 (by decide) (by decide),
    (preprocess_decision 9 mon23 beacon25_boot).2.2 (by decide) (by decide)⟩

/-- C28 fails on the code: `handle_beacon` accepts the beacon by which the resolving
server 0 announces RECONNECT and records that state, so a committed map as `map28` comes
about; id 0 is up there and its last beacon, at time 0, is older than the cutoff of the
tick at time 100 with a grace of 10.  The `switch` of `tick` has no case for RECONNECT:
the tick ends at `assert(0)` in the `default` branch.  The `switch` of `do_stop` does
list the state, and writes FAILED for it. -/
theorem tick_aborts_on_reconnect :
    (handle_beacon 1 ⟨false⟩ 9 mon28_resolve beacon28).map
      (fun r => (r.1, r.2.2.pending_mdsmap.mds_state)) =
      some (true, [(0, STATE_RECONNECT)]) ∧
    mon28.mdsmap.get_up_mds_set [] = [0] ∧
    mon28.mdsmap.get_state 0 = STATE_RECONNECT ∧
    IMap.find 0 mon28.last_beacon = some 0 ∧ (0 : Nat) < 100 - 10 ∧
    tick_state mon28.mdsmap 0 = none ∧
    tick true true 100 10 mon28 = none ∧
    stop_state STATE_RECONNECT = some STATE_FAILED ∧
    (do_stop true true mon28).1.pending_mdsmap.mds_state = [(0, STATE_FAILED)] := by
  decide

end MDSMonitor

namespace buffer

namespace list

/-- The second loop of `splice` adds no view: what it leaves from `curbuf` on is not longer
than what it found, and each view it leaves is on the raw of a view it found. -/
theorem splice_loop_shape : ∀ (rest : List ptr) (off len clen : Nat) (c : Option list)
    (r : List ptr × Nat × Option list), splice_loop rest off len clen c = some r →
    r.1.length ≤ rest.length ∧ ∀ p ∈ r.1, ∃ b ∈ rest, p._raw = b._raw
  | rest, off, 0, clen, c, r, h => by
    simp only [splice_loop, Option.some.injEq] at h
    subst h
    exact ⟨Nat.le_refl _, fun p hp => ⟨p, hp, rfl⟩⟩
  | [], off, len + 1, clen, c, r, h => by simp [splice_loop] at h
  | b :: bs, off, len + 1, clen, c, r, h => by
    simp only [splice_loop] at h
    split_ifs at h with hp
    · cases hc : claim_sub c b off (len + 1) with
      | none =>
        rw [hc] at h
        simp at h
      | some c1 =>
        rw [hc] at h
        simp only [Option.some.injEq] at h
        subst h
        refine ⟨by simp, ?_⟩
        intro p hp1
        simp only [List.mem_cons] at hp1
        rcases hp1 with hp1 | hp1
        · exact ⟨b, by simp, by rw [hp1]; rfl⟩
        · exact ⟨p, by simp [hp1], rfl⟩
    · cases hc : claim_sub c b off (usub b.length off) with
      | none =>
        rw [hc] at h
        simp at h
      | some c1 =>
        rw [hc] at h
        simp only at h
        obtain ⟨k1, k2⟩ := splice_loop_shape bs 0 _ _ c1 r h
        refine ⟨by simp only [List.length_cons]; omega, ?_⟩
        intro p hp1
        obtain ⟨b1, hb1, e⟩ := k2 p hp1
        exact ⟨b1, by simp [hb1], e⟩

/-- The method `splice` on a valid list, within `off + len <= length()` and with
`len > 0`: it returns, for any `claim_by`.  The views before `curbuf` stay, at most one view
is inserted, the head of the view at `curbuf`, and what follows is what the second loop
leaves; all views are valid, those handed to `*claim_by` included. -/
theorem splice_safe (h : Heap) (l : list) (off len : Nat) (c : Option list)
    (hl : l.valid h) (hlen : 0 < len) (hol : off + len ≤ l.length) :
    ∃ (pre rest ins rest1 : List ptr) (clen1 : Nat) (cb : List ptr),
      l._buffers = pre ++ rest ∧
      l.splice off len c =
        some ({ l with _buffers := pre ++ ins ++ rest1, _len := clen1 },
          c.map (fun x => cb.foldl push_back x)) ∧
      (∀ p ∈ pre ++ ins ++ rest1, p.valid h) ∧ (∀ p ∈ cb, p.valid h) ∧
      (ins = [] ∨ ∃ b bs o, rest = b :: bs ∧ 0 < o ∧ o < b._len ∧
        ins = [{ _raw := b._raw, _off := b._off, _len := o }]) ∧
      rest1.length ≤ rest.length ∧ (∀ p ∈ rest1, ∃ b ∈ rest, p._raw = b._raw) := by
  obtain ⟨hlo, hv⟩ := hl
  have hlo' := hlo
  unfold len_ok at hlo'
  unfold length at hol
  have hS := u32_sum_le (sum_length l._buffers)
  obtain ⟨pre, rest, o, hsk, hbs, hsum, hhead⟩ :=
    skip_spec (h := h) l._buffers off hv (by omega) (by omega)
  have hvpre : ∀ p ∈ pre, p.valid h := fun p hp => hv p (by rw [hbs]; simp [hp])
  have hvrest : ∀ p ∈ rest, p.valid h := fun p hp => hv p (by rw [hbs]; simp [hp])
  have hSplit : sum_length l._buffers = sum_length pre + sum_length rest := by
    rw [hbs]; simp
  -- the head that is kept
  have hfront : ∃ (ins : List ptr) (clen : Nat),
      (if o ≠ 0 then
        match rest with
        | [] => none
        | b :: _ =>
          match b.sub 0 o with
          | none => none
          | some v => some ([v], u32 (l._len + o))
      else some ([], l._len)) = some (ins, clen) ∧ (∀ p ∈ ins, p.valid h) ∧
      (ins = [] ∨ ∃ b bs o, rest = b :: bs ∧ 0 < o ∧ o < b._len ∧
        ins = [{ _raw := b._raw, _off := b._off, _len := o }]) := by
    by_cases ho : o = 0
    · subst ho
      exact ⟨[], l._len, by simp, by simp, Or.inl rfl⟩
    · obtain ⟨b, rest1, hr, hob⟩ := hhead ho
      subst hr
      have hvb := hvrest b (by simp)
      obtain ⟨v, h1, h2, h3, h4, h5, _⟩ := ptr.sub_spec hvb 0 o (by omega)
      refine ⟨[v], u32 (l._len + o), by simp [ho, h1], by simpa using h2,
        Or.inr ⟨b, rest1, o, rfl, by omega, hob, ?_⟩⟩
      cases v with
      | mk a1 a2 a3 =>
        simp only at h3 h4 h5
        simp [h3, h4, h5]
  obtain ⟨ins, clen, hfr, hvins, hins⟩ := hfront
  obtain ⟨rest1, clen1, cb, hsp, hvr1, hvcb, _, _⟩ :=
    splice_loop_spec (h := h) rest o len clen c hvrest (by omega) (by omega)
      (by omega) (by
        intro b bs hr
        by_cases ho : o = 0
        · omega
        · obtain ⟨b1, rest2, hr2, hob⟩ := hhead ho
          rw [hr] at hr2
          simp only [List.cons.injEq] at hr2
          rw [hr2.1]; omega)
  obtain ⟨k1, k2⟩ := splice_loop_shape rest o len clen c _ hsp
  refine ⟨pre, rest, ins, rest1, clen1, cb, hbs, ?_, ?_, hvcb, hins, k1, k2⟩
  · unfold splice
    have : off < l.length ∧ len > 0 := by unfold length; omega
    simp only [this, and_self, if_true, hsk]
    erw [hfr]
    simp only [hsp]
  · intro p hp
    simp only [List.mem_append] at hp
    rcases hp with (hp | hp) | hp
    · exact hvpre p hp
    · exact hvins p hp
    · exact hvr1 p hp

/-- The loop `while (off > 0)` on views whose lengths are `unsigned` values: within the
sum of the lengths it stops at a view, with what is left of `off` inside that view. -/
theorem skip_sized : ∀ (bs : List ptr) (off : Nat), (∀ p ∈ bs, p._len < 4294967296) →
    off ≤ sum_length bs → off < 4294967296 →
    ∃ pre rest o, skip bs off = some (pre, rest, o) ∧ bs = pre ++ rest ∧
      sum_length pre + o = off ∧ (o ≠ 0 → ∃ b rest1, rest = b :: rest1 ∧ o < b._len)
  | bs, 0, _, _, _ => ⟨[], bs, 0, by simp [skip], by simp, by simp, by simp⟩
  | [], off + 1, _, hle, _ => by simp at hle
  | b :: bs, off + 1, hv, hle, hlt => by
    have hb := hv b (by simp)
    simp only [skip, ptr.length]
    by_cases hge : off + 1 ≥ b._len
    · simp only [hge, if_true]
      rw [usub_of_le hge hlt]
      simp only [sum_length_cons] at hle
      obtain ⟨pre, rest, o, h1, h2, h3, h4⟩ :=
        skip_sized bs (off + 1 - b._len) (fun p hp => hv p (by simp [hp])) (by omega) (by omega)
      refine ⟨b :: pre, rest, o, by simp [h1], by simp [h2], ?_, h4⟩
      simp only [sum_length_cons]
      clear h4
      omega
    · simp only [hge, if_false]
      exact ⟨[], b :: bs, off + 1, rfl, by simp, by simp, fun _ => ⟨b, bs, rfl, by omega⟩⟩

/-- The second loop of `splice` without `claim_by` reads no raw: on views whose lengths are
`unsigned` values, within the sum of the lengths, it returns. -/
theorem splice_loop_none : ∀ (rest : List ptr) (off len clen : Nat),
    (∀ p ∈ rest, p._len < 4294967296) → off + len ≤ sum_length rest →
    off + len < 4294967296 → (∀ b bs, rest = b :: bs → off ≤ b._len) →
    ∃ rest1 clen1, splice_loop rest off len clen none = some (rest1, clen1, none)
  | rest, off, 0, clen, _, _, _, _ => ⟨rest, clen, by simp [splice_loop]⟩
  | [], off, len + 1, clen, _, hle, _, _ => by simp at hle
  | b :: bs, off, len + 1, clen, hv, hle, hlt, hoff => by
    have hb := hv b (by simp)
    have hob := hoff b bs rfl
    simp only [splice_loop, ptr.length, claim_sub]
    rw [u32_of_lt hlt]
    by_cases hp : off + (len + 1) < b._len
    · simp only [hp, if_true]
      exact ⟨_, _, rfl⟩
    · simp only [hp, if_false]
      rw [usub_of_le hob hb, usub_of_le (by omega) (by omega)]
      simp only [sum_length_cons] at hle
      exact splice_loop_none bs 0 (len + 1 - (b._len - off)) _
        (fun p hp1 => hv p (by simp [hp1])) (by omega) (by omega) (fun _ _ _ => Nat.zero_le _)

/-- The method `splice` without `claim_by` on a list whose cached length is right and
whose views are valid or default-constructed, within `off + len <= length()` and with
`len > 0`: it returns.  The views before `curbuf` stay, at most one view is inserted, the
head of the view at `curbuf`, and what follows is what the second loop leaves. -/
theorem splice_none_safe (h : Heap) (l : list) (off len : Nat) (hlo : l.len_ok)
    (hv : ∀ p ∈ l._buffers, p.valid h ∨ p = ptr.null) (hlen : 0 < len)
    (hol : off + len ≤ l.length) :
    ∃ (pre rest ins rest1 : List ptr) (clen1 : Nat),
      l._buffers = pre ++ rest ∧
      l.splice off len none =
        some ({ l with _buffers := pre ++ ins ++ rest1, _len := clen1 }, none) ∧
      (ins = [] ∨ ∃ b bs o, rest = b :: bs ∧ 0 < o ∧ o < b._len ∧
        ins = [{ _raw := b._raw, _off := b._off, _len := o }]) ∧
      rest1.length ≤ rest.length ∧ (∀ p ∈ rest1, ∃ b ∈ rest, p._raw = b._raw) := by
  have hsz : ∀ p ∈ l._buffers, p._len < 4294967296 := by
    intro p hp
    rcases hv p hp with hp1 | hp1
    · have := ptr.valid_len_lt hp1
      omega
    · rw [hp1]; decide
  have hlo1 := hlo
  unfold len_ok at hlo1
  unfold length at hol
  have hS := u32_sum_le (sum_length l._buffers)
  obtain ⟨pre, rest, o, hsk, hbs, hsum, hhead⟩ :=
    skip_sized l._buffers off hsz (by omega) (by omega)
  have hSplit : sum_length l._buffers = sum_length pre + sum_length rest := by
    rw [hbs]; simp
  have hfront : ∃ (ins : List ptr) (clen : Nat),
      (if o ≠ 0 then
        match rest with
        | [] => none
        | b :: _ =>
          match b.sub 0 o with
          | none => none
          | some v => some ([v], u32 (l._len + o))
      else some ([], l._len)) = some (ins, clen) ∧
      (ins = [] ∨ ∃ b bs o, rest = b :: bs ∧ 0 < o ∧ o < b._len ∧
        ins = [{ _raw := b._raw, _off := b._off, _len := o }]) := by
    by_cases ho : o = 0
    · subst ho
      exact ⟨[], l._len, by simp, Or.inl rfl⟩
    · obtain ⟨b, rest1, hr, hob⟩ := hhead ho
      subst hr
      have hvb : b.valid h := by
        rcases hv b (by rw [hbs]; simp) with hb | hb
        · exact hb
        · rw [hb] at hob
          exact absurd hob (by simp [ptr.null])
      obtain ⟨v, h1, _, h3, h4, h5, _⟩ := ptr.sub_spec hvb 0 o (by omega)
      refine ⟨[v], u32 (l._len + o), by simp [ho, h1],
        Or.inr ⟨b, rest1, o, rfl, by omega, hob, ?_⟩⟩
      cases v with
      | mk a1 a2 a3 =>
        simp only at h3 h4 h5
        simp [h3, h4, h5]
  obtain ⟨ins, clen, hfr, hins⟩ := hfront
  obtain ⟨rest1, clen1, hsp⟩ :=
    splice_loop_none rest o len clen (fun p hp => hsz p (by rw [hbs]; simp [hp])) (by omega)
      (by omega) (by
        intro b bs hr
        by_cases ho : o = 0
        · omega
        · obtain ⟨b1, rest2, hr2, hob⟩ := hhead ho
          rw [hr] at hr2
          simp only [List.cons.injEq] at hr2
          rw [hr2.1]; omega)
  obtain ⟨k1, k2⟩ := splice_loop_shape rest o len clen none _ hsp
  refine ⟨pre, rest, ins, rest1, clen1, hbs, ?_, hins, k1, k2⟩
  unfold splice
  have : off < l.length ∧ len > 0 := by unfold length; omega
  simp only [this, and_self, if_true, hsk]
  erw [hfr]
  simp only [hsp]

end list

/-- C27 (as amended): for every list whose cached length is right and whose views each
reference a raw and lie inside it (views of length 0 allowed; when `claim_by` is null, the
views may also be default-constructed views without a raw), and every `off`, `len` with
`off < length()`, `len > 0` and `off + len <= length()`, `splice(off, len, claim_by)`
returns, with `claim_by` null or a list other than the list itself: both assertions
hold, the cursor is never moved past the last view (the model returns `none` there) and
the loops end.  The views before the cursor stay, at most one view is inserted, the head
`[0, off)` of the view the cursor stands on, on the same raw and at the same offset, and
what follows is not longer than before and lies on raws of the old views; so the list has
at most one view more.  With `off >= length()` or `len == 0` the call stops at an
assertion. -/
theorem splice_is_safe (h : Heap) (l : list) (off len : Nat) (claim_by : Option list)
    (hlo : l.len_ok)
    (hv : ∀ p ∈ l._buffers, p.valid h ∨ (claim_by = none ∧ p = ptr.null)) :
    (off < l.length → len > 0 → off + len ≤ l.length →
      ∃ (l1 : list) (c1 : Option list) (pre rest ins rest1 : List ptr),
        l.splice off len claim_by = some (l1, c1) ∧
        l._buffers = pre ++ rest ∧ l1._buffers = pre ++ ins ++ rest1 ∧
        (ins = [] ∨ ∃ b bs o, rest = b :: bs ∧ 0 < o ∧ o < b._len ∧
          ins = [{ _raw := b._raw, _off := b._off, _len := o }]) ∧
        rest1.length ≤ rest.length ∧ (∀ p ∈ rest1, ∃ b ∈ rest, p._raw = b._raw) ∧
        l1._buffers.length ≤ l._buffers.length + 1 ∧
        (c1.isSome = claim_by.isSome)) ∧
    (off ≥ l.length ∨ len = 0 → l.splice off len claim_by = none) := by
  refine ⟨?_, ?_⟩
  · intro _ hlen hol
    have hshape : ∃ (pre rest ins rest1 : List ptr) (clen1 : Nat) (c1 : Option list),
        l._buffers = pre ++ rest ∧
        l.splice off len claim_by =
          some ({ l with _buffers := pre ++ ins ++ rest1, _len := clen1 }, c1) ∧
        (ins = [] ∨ ∃ b bs o, rest = b :: bs ∧ 0 < o ∧ o < b._len ∧
          ins = [{ _raw := b._raw, _off := b._off, _len := o }]) ∧
        rest1.length ≤ rest.length ∧ (∀ p ∈ rest1, ∃ b ∈ rest, p._raw = b._raw) ∧
        c1.isSome = claim_by.isSome := by
      cases claim_by with
      | none =>
        obtain ⟨pre, rest, ins, rest1, clen1, e1, e2, e5, e6, e7⟩ :=
          list.splice_none_safe h l off len hlo
            (fun p hp => (hv p hp).imp id (fun k => k.2)) hlen hol
        exact ⟨pre, rest, ins, rest1, clen1, none, e1, e2, e5, e6, e7, rfl⟩
      | some c =>
        have hl : l.valid h :=
          ⟨hlo, fun p hp => (hv p hp).elim id (fun k => absurd k.1 (by simp))⟩
        obtain ⟨pre, rest, ins, rest1, clen1, cb, e1, e2, _, _, e5, e6, e7⟩ :=
          list.splice_safe h l off len (some c) hl hlen hol
        exact ⟨pre, rest, ins, rest1, clen1, _, e1, e2, e5, e6, e7, rfl⟩
    obtain ⟨pre, rest, ins, rest1, clen1, c1, e1, e2, e5, e6, e7, e8⟩ := hshape
    refine ⟨_, _, pre, rest, ins, rest1, e2, e1, rfl, e5, e6, e7, ?_, e8⟩
    have hi : ins.length ≤ 1 := by
      rcases e5 with e | ⟨b, bs, o, _, _, _, e⟩ <;> simp [e]
    simp only [List.length_append, e1]
    omega
  · intro hx
    unfold list.splice
    have : ¬ (off < l.length ∧ len > 0) := by omega
    rw [if_neg this]

/-- C27, two instances.  One byte from position 4 of `list6_gap`, whose middle view has no
bytes: the second view of three bytes is split, its head is the one view inserted.  And
four bytes from position 2 of `encoded_null`, whose middle view has no raw, without
`claim_by`: the first view is split, and the view without a raw goes with the range. -/
theorem splice_is_safe_witness :
    list.valid heap6 list6_gap ∧ 4 < list6_gap.length ∧ 1 > 0 ∧ 4 + 1 ≤ list6_gap.length ∧
    (list6_gap.splice 4 1 none).map (fun r => r.1._buffers) =
      some [{ _raw := some 0, _off := 0, _len := 3 }, { _raw := some 0, _off := 3, _len := 0 },
        { _raw := some 0, _off := 3, _len := 1 }, { _raw := some 0, _off := 5, _len := 1 }] ∧
    (∃ (l1 : list) (c1 : Option list) (pre rest ins rest1 : List ptr),
      list6_gap.splice 4 1 none = some (l1, c1) ∧
      list6_gap._buffers = pre ++ rest ∧ l1._buffers = pre ++ ins ++ rest1 ∧
      (ins = [] ∨ ∃ b bs o, rest = b :: bs ∧ 0 < o ∧ o < b._len ∧
        ins = [{ _raw := b._raw, _off := b._off, _len := o }]) ∧
      rest1.length ≤ rest.length ∧ (∀ p ∈ rest1, ∃ b ∈ rest, p._raw = b._raw) ∧
      l1._buffers.length ≤ list6_gap._buffers.length + 1 ∧
      (c1.isSome = (none : Option list).isSome)) ∧
    encoded_null.2._buffers =
      [{ _raw := some 0, _off := 0, _len := 4 }, ptr.null, { _raw := some 0, _off := 4, _len := 4 }] ∧
    2 < encoded_null.2.length ∧ 2 + 4 ≤ encoded_null.2.length ∧
    ∃ (l1 : list) (c1 : Option list) (pre rest ins rest1 : List ptr),
      encoded_null.2.splice 2 4 none = some (l1, c1) ∧
      encoded_null.2._buffers = pre ++ rest ∧ l1._buffers = pre ++ ins ++ rest1 ∧
      (ins = [] ∨ ∃ b bs o, rest = b :: bs ∧ 0 < o ∧ o < b._len ∧
        ins = [{ _raw := b._raw, _off := b._off, _len := o }]) ∧
      rest1.length ≤ rest.length ∧ (∀ p ∈ rest1, ∃ b ∈ rest, p._raw = b._raw) ∧
      l1._buffers.length ≤ encoded_null.2._buffers.length + 1 ∧
      (c1.isSome = (none : Option list).isSome) :=
  ⟨by decide, by decide, by decide, by decide, by decide,
    (splice_is_safe heap6 list6_gap 4 1 none (by decide) (by decide)).1 (by decide)
      (by decide) (by decide),
    by decide, by decide, by decide,
    (splice_is_safe encoded_null.1 encoded_null.2 2 4 none (by decide) (by decide)).1
      (by decide) (by decide) (by decide)⟩

end buffer

namespace buffer

namespace list

theorem append_grow_eq (h : Heap) (l : list) (len : Nat) :
    append_grow h l len =
      some (h ++ [⟨fun _ => 0, u32 (BUFFER_PAGE_SIZE * u32 (usub len 1 / BUFFER_PAGE_SIZE + 1))⟩],
        { l with append_buffer := ⟨some h.length, 0, 0⟩ }) := by
  unfold append_grow create_page_aligned create ptr.of_raw
  simp [ptr.set_length]

/-- Whenever `append(data, n)` returns, for any `n`, the list it leaves is the list with
`data` appended, in the sense of `Appended`. -/
theorem append_appended : ∀ (fuel : Nat) (h : Heap) (l : list) (data : List Byte) (n : Nat)
    (h1 : Heap) (l1 : list), l.valid h → l.arena_ok h → data.length = n → n < 4294967296 →
    append fuel h l data n = some (h1, l1) → Appended h l data h1 l1
  | 0, _, _, _, _, _, _, _, _, _, _, hr => by simp [append] at hr
  | fuel + 1, h, l, data, n, h1, l1, hl, ha, hd, hn, hr => by
    rw [append] at hr
    by_cases hn0 : n = 0
    · subst hn0
      have : data = [] := List.length_eq_zero.mp hd
      subst this
      simp only [if_true, Option.some.injEq, Prod.mk.injEq] at hr
      obtain ⟨rfl, rfl⟩ := hr
      exact appended_refl hl ha
    rw [if_neg hn0] at hr
    have hnpos : 0 < n := by omega
    -- a new arena, then the rest of the loop
    have hgrow : ∀ (h0 : Heap) (l0 : list) (d0 : List Byte) (n0 : Nat), l0.valid h0 →
        l0.arena_ok h0 → d0.length = n0 → n0 < 4294967296 →
        (match append_grow h0 l0 n0 with
          | none => none
          | some (h2, l2) => append fuel h2 l2 d0 n0) = some (h1, l1) →
        Appended h0 l0 d0 h1 l1 := by
      intro h0 l0 d0 n0 hl0 ha0 hd0 hn0 hr0
      rw [append_grow_eq] at hr0
      simp only at hr0
      have a1 := appended_grow
        (u32 (BUFFER_PAGE_SIZE * u32 (usub n0 1 / BUFFER_PAGE_SIZE + 1))) hl0 ha0
        (u32_sum_le _).2
      have a2 := append_appended fuel _ _ d0 n0 h1 l1 a1.1 a1.2.1 hd0 hn0 hr0
      have := appended_trans a1 a2
      simpa using this
    have hnofill : l.append_buffer.unused_tail_length h = 0 → Appended h l data h1 l1 := by
      intro hgap
      rw [append_fill_none data n hgap] at hr
      simp only [hn0, if_false] at hr
      exact hgrow h l data n hl ha hd hn hr
    rcases arena_cases ha with hnone | ⟨r, rw, k, hab, hrr, hk, hrw⟩
    · exact hnofill (by unfold ptr.unused_tail_length; simp [hnone])
    · by_cases hfull : k = rw.len
      · exact hnofill (by
          unfold ptr.unused_tail_length
          simp only [hab, hrr, Nat.zero_add]
          rw [u32_of_lt (by omega), usub_of_le (by omega) hrw]
          omega)
      · have hfill := append_fill_spec (h := h) (l := l) data n hab hrr (by omega) hrw hd
          hnpos hn
        rw [hfill] at hr
        simp only at hr
        have a1 := @appended_fill h l r rw k (min (rw.len - k) n)
          (data.take (min (rw.len - k) n)) hl ha hab hrr (by omega) hrw
          (by simp only [List.length_take]; omega)
        by_cases hrest : n - min (rw.len - k) n = 0
        · rw [if_pos hrest] at hr
          simp only [Option.some.injEq, Prod.mk.injEq] at hr
          obtain ⟨rfl, rfl⟩ := hr
          have ht : data.take (min (rw.len - k) n) = data :=
            List.take_of_length_le (by omega)
          exact (show ∀ d H L, d = data → Appended h l d H L → Appended h l data H L from
            fun d H L e a => e ▸ a) _ _ _ ht a1
        · rw [if_neg hrest] at hr
          have a2 := hgrow _ _ (data.drop (min (rw.len - k) n)) (n - min (rw.len - k) n)
            a1.1 a1.2.1 (by simp only [List.length_drop]; omega) (by omega) hr
          have := appended_trans a1 a2
          rwa [List.take_append_drop] at this

end list

end buffer

namespace buffer

theorem ptr.append_valid {h : Heap} {p : ptr} (src : List Byte) (n : Nat) (hv : p.valid h)
    (hn : n ≤ p.unused_tail_length h) (hs : src.length = n) :
    ∃ h1 p1, p.append h src n = some (h1, p1) ∧ p1.valid h1 ∧ p1._raw = p._raw ∧
      p1._off = p._off ∧ p1._len = p._len + n := by
  unfold ptr.valid at hv
  unfold ptr.append
  unfold ptr.unused_tail_length at hn ⊢
  cases hr : p._raw with
  | none => simp [hr] at hv
  | some r =>
    simp only [hr] at hv hn ⊢
    obtain ⟨rw, hrw⟩ : ∃ rw, h[r]? = some rw := by
      cases hx : h[r]? with
      | none => simp [hx] at hv
      | some rw => exact ⟨rw, rfl⟩
    simp only [hrw] at hv hn ⊢
    have hrl : r < h.length := (List.getElem?_eq_some_iff.mp hrw).1
    rw [u32_of_lt (by omega), usub_of_le (by omega) hv.2] at hn ⊢
    have h1 : p._off + p._len + n ≤ rw.len ∧ src.length = n := ⟨by omega, hs⟩
    rw [if_pos hn, if_pos h1, u32_of_lt (by omega)]
    refine ⟨_, _, rfl, ?_, rfl, rfl, rfl⟩
    unfold ptr.valid
    simp only [List.getElem?_set, hrl, if_true, raw.write]
    omega

/-- The view bounds invariant of C21 for windows whose sums do not wrap: a view built from
a raw, a sub-window `ptr(parent, o, l)` with `o + l <= parent.length` (which records
`raw = parent.raw`, `offset = parent.offset + o`),
a view after `ptr::append` with `n <= unused_tail_length`, and every view held by a list
after `append(bytes, n)`, after `substr_of(other, off, len)` with
`off + len <= other.length()` and after `splice(off, len, claim_by)` with `len > 0` and
`off + len <= length()`, the sums taken in the integers, satisfies
`offset + length <= raw.len`, provided the views it was built from do; the views handed
to `*claim_by` do as well. -/
theorem view_bounds_invariant (h : Heap) :
    (∀ (r : Nat) (rw : raw), h[r]? = some rw → rw.len < 4294967296 →
      ∃ v, ptr.of_raw h r = some v ∧ v.valid h) ∧
    (∀ (p : ptr) (o l : Nat), p.valid h → o + l ≤ p.length →
      ∃ v, p.sub o l = some v ∧ v.valid h ∧ v._raw = p._raw ∧ v._off = p._off + o ∧
        v._len = l) ∧
    (∀ (p : ptr) (src : List Byte) (n : Nat), p.valid h → n ≤ p.unused_tail_length h →
      src.length = n → ∃ h1 p1, p.append h src n = some (h1, p1) ∧ p1.valid h1) ∧
    (∀ (fuel : Nat) (l : list) (data : List Byte) (n : Nat) (h1 : Heap) (l1 : list),
      l.valid h → l.arena_ok h → data.length = n → n < 4294967296 →
      l.append fuel h data n = some (h1, l1) → ∀ v ∈ l1._buffers, v.valid h1) ∧
    (∀ (l other : list) (off len : Nat), other.valid h → off + len ≤ other.length →
      ∃ l1, l.substr_of other off len = some l1 ∧ ∀ v ∈ l1._buffers, v.valid h) ∧
    (∀ (l : list) (off len : Nat) (claim_by : Option list), l.valid h →
      (∀ c ∈ claim_by, ∀ v ∈ c._buffers, v.valid h) → len > 0 → off + len ≤ l.length →
      ∃ l1 c1, l.splice off len claim_by = some (l1, c1) ∧
        (∀ v ∈ l1._buffers, v.valid h) ∧ ∀ c ∈ c1, ∀ v ∈ c._buffers, v.valid h) := by
  refine ⟨?_, ?_, ?_, ?_, ?_, ?_⟩
  · intro r rw hr hlt
    refine ⟨_, by unfold ptr.of_raw; rw [hr], ?_⟩
    unfold ptr.valid
    simp only [hr]
    omega
  · intro p o l hv hol
    obtain ⟨v, e1, e2, e3, e4, e5, _⟩ := ptr.sub_spec hv o l hol
    exact ⟨v, e1, e2, e4, e5, e3⟩
  · intro p src n hv hn hs
    obtain ⟨h1, p1, e1, e2, _⟩ := ptr.append_valid src n hv hn hs
    exact ⟨h1, p1, e1, e2⟩
  · intro fuel l data n h1 l1 hl ha hd hn hr
    exact (list.append_appended fuel h l data n h1 l1 hl ha hd hn hr).1.2
  · intro l other off len ho hol
    obtain ⟨l1, e1, _, _, e4, _⟩ := list.substr_of_spec h l other off len ho hol
    exact ⟨l1, e1, fun v hv => (e4 v hv).1⟩
  · intro l off len claim_by hl hc hlen hol
    obtain ⟨pre, rest, ins, rest1, clen1, cb, _, e2, e3, e4, _⟩ :=
      list.splice_safe h l off len claim_by hl hlen hol
    refine ⟨_, _, e2, e3, ?_⟩
    intro c hc1 v hv
    cases claim_by with
    | none => simp at hc1
    | some c0 =>
      simp only [Option.map_some', Option.mem_def, Option.some.injEq] at hc1
      subst hc1
      rw [list.foldl_push_back_buffers] at hv
      simp only [List.mem_append] at hv
      rcases hv with hv | hv
      · exact hc c0 rfl v hv
      · exact e4 v hv

/-- The view bounds invariant, an instance on `heap6` and `list6`: the window `[1, 3)` of
the first view, the substring `[2, 5)` and the splice of `[2, 5)`. -/
theorem view_bounds_invariant_witness :
    (∃ v, ptr.sub { _raw := some 0, _off := 0, _len := 3 } 1 2 = some v ∧ v.valid heap6 ∧
      v._raw = some 0 ∧ v._off = 0 + 1 ∧ v._len = 2) ∧
    (∃ l1, list.empty.substr_of list6 2 3 = some l1 ∧ ∀ v ∈ l1._buffers, v.valid heap6) ∧
    (∃ l1 c1, list6.splice 2 3 (some list.empty) = some (l1, c1) ∧
      (∀ v ∈ l1._buffers, v.valid heap6) ∧ ∀ c ∈ c1, ∀ v ∈ c._buffers, v.valid heap6) :=
  ⟨(view_bounds_invariant heap6).2.1 { _raw := some 0, _off := 0, _len := 3 } 1 2
      (by decide) (by decide),
    (view_bounds_invariant heap6).2.2.2.2.1 list.empty list6 2 3 (by decide) (by decide),
    (view_bounds_invariant heap6).2.2.2.2.2 list6 2 3 (some list.empty) (by decide)
      (by simp [list.empty]) (by decide) (by decide)⟩

/-- C21 fails on the code: on the valid list `list6`, six bytes in a raw of six bytes,
`substr_of(list6, 1, 4294967295)` passes `assert(off + len <= other.length())`,
`1 + 4294967295` being 0 in an `unsigned`, and `assert(o+l <= p._len)` of the view
constructor in the same way; the list it leaves holds one view at offset 1 of length
4294967295, which does not satisfy `offset + length <= raw.len`. -/
theorem substr_of_window_wraps :
    list.valid heap6 list6 ∧
    (list.empty.substr_of list6 1 4294967295).map (fun l1 => l1._buffers) =
      some [{ _raw := some 0, _off := 1, _len := 4294967295 }] ∧
    (heap6[0]?).map raw.len = some 6 ∧ ¬ (1 + 4294967295 ≤ 6) ∧
    ¬ ptr.valid heap6 { _raw := some 0, _off := 1, _len := 4294967295 } := by
  decide

end buffer

namespace buffer

/-- The C string at a position where the bytes of `s` and a NUL lie: it is `s` up to its
first NUL byte. -/
theorem cstr_at_prefix (rw : raw) : ∀ (s : List Byte) (start n : Nat),
    rw.read start (s.length + 1) = s ++ [0] → s.length < n →
    cstr_at rw n start = some (s.takeWhile (fun b => decide (b ≠ 0)))
  | [], start, n + 1, hr, _ => by
    have : rw.data start = 0 := by
      simpa [raw.read, List.range_succ] using hr
    simp [cstr_at, this]
  | [], _, 0, _, hn => by simp at hn
  | b :: s, _, 0, _, hn => by simp at hn
  | b :: s, start, n + 1, hr, hn => by
    have hsplit : rw.read start (1 + (s.length + 1)) =
        rw.read start 1 ++ rw.read (start + 1) (s.length + 1) := raw.read_append rw start 1 _
    have hr' : rw.read start (1 + (s.length + 1)) = b :: (s ++ [0]) := by
      have e : 1 + (s.length + 1) = (b :: s).length + 1 := by
        simp only [List.length_cons]; omega
      rw [e, hr]
      rfl
    rw [hsplit] at hr'
    have h1 : rw.read start 1 = [rw.data start] := by simp [raw.read, List.range_succ]
    rw [h1] at hr'
    simp only [List.singleton_append, List.cons.injEq] at hr'
    by_cases hb : b = 0
    · simp [cstr_at, hr'.1, hb]
    · have ih := cstr_at_prefix rw s (start + 1) n hr'.2
        (by simp only [List.length_cons] at hn; omega)
      simp [cstr_at, hr'.1, hb, ih]

/-- The string decoder refuses a cursor that, after the four bytes of the length, is no
position an `int` holds. -/
theorem decode_string_int (h : Heap) (bl : list) (off : Nat)
    (r : List Byte × Nat × Heap × list) (hd : _decode_string h bl off = some r) :
    u32 (off + 4) < 2147483648 := by
  unfold _decode_string _decoderaw at hd
  cases hc : bl.copy h off 4 with
  | none => simp [hc] at hd
  | some t =>
    simp only [hc] at hd
    cases hs : bl.c_str h with
    | none => simp [hs] at hd
    | some x =>
      obtain ⟨h1, bl1, p⟩ := x
      simp only [hs] at hd
      cases p with
      | none => simp at hd
      | some q =>
        obtain ⟨r0, o⟩ := q
        simp only at hd
        cases hrw : h1[r0]? with
        | none => simp [hrw] at hd
        | some rw =>
          simp only [hrw] at hd
          by_contra hlt
          rw [if_neg hlt] at hd
          simp at hd

/-- C26 (as amended): for every `std::string` `s` of length `L`, of any content, embedded
NUL bytes included, every value `t` of a fixed size and every valid buffer list `bl`, fewer
than 2^31 bytes in all: `_encode(s, bl)` returns and appends exactly `4 + L + 1` bytes, the
32-bit length `L`, the `L` bytes of `s` and one NUL; and after `_encoderaw(t, bl)`,
`_decode` at the cursor where the encoding of `s` starts returns, with the string `s` up
to its first NUL and the cursor advanced by exactly `4 + L + 1`, and `_decoderaw` at that
cursor reads `t`. -/
theorem string_decode_advance (fuel : Nat) (hf : 2 ≤ fuel) (s t : List Byte) (h : Heap)
    (bl : list) (hl : bl.valid h) (ha : bl.arena_ok h)
    (hb : list.sum_length bl._buffers + s.length + t.length + 5 < 2147483648) :
    ∃ h1 bl1 h2 bl2 h3 bl3,
      _encode_string fuel s h bl = some (h1, bl1) ∧
      bl1.content h1 = bl.content h ++ (u32_bytes s.length ++ (s ++ [0])) ∧
      bl1.length = bl.length + (4 + s.length + 1) ∧
      _encoderaw fuel t h1 bl1 = some (h2, bl2) ∧
      _decode_string h2 bl2 bl.length =
        some (s.takeWhile (fun b => decide (b ≠ 0)), bl.length + (4 + s.length + 1),
          h3, bl3) ∧
      _decoderaw t.length h3 bl3 (bl.length + (4 + s.length + 1)) =
        some (t, bl.length + (4 + s.length + 1) + t.length) := by
  obtain ⟨h1, bl1, e1, a1⟩ := encode_string_spec fuel hf s h bl hl ha (by omega)
  have hlenS : u32 s.length = s.length := u32_of_lt (by omega)
  rw [hlenS] at a1
  obtain ⟨h2, bl2, e2, a2⟩ := encoderaw_spec fuel t h1 bl1 a1.1 a1.2.1 (by omega) hf
  have hcon1 := list.appended_content hl ha a1
  have hcon2 := list.appended_content a1.1 a1.2.1 a2
  have hsum1 := appended_sum a1
  have hsum2 := appended_sum a2
  simp only [List.length_append, u32_bytes_length, List.length_singleton] at hsum1
  have hlen := valid_length_eq hl (by omega)
  have hlen1 := valid_length_eq a1.1 (by omega)
  have hlen2 := valid_length_eq a2.1 (by omega)
  have hpre : (bl.content h).length = bl.length := by
    rw [hlen]
    unfold list.content
    exact list.views_bytes_length hl.2
  have hc2 : bl2.content h2 = bl.content h ++ u32_bytes s.length ++ (s ++ [0] ++ t) := by
    rw [hcon2, hcon1]; simp
  have hdec := decoderaw_spec a2.1 (by omega) (bl.content h) (u32_bytes s.length)
    (s ++ [0] ++ t) hc2
  rw [u32_bytes_length, hpre] at hdec
  obtain ⟨h3, bl3, r, o, rw, c1, c2, c3, c4, c5, c6, c7, _⟩ := c_str_spec h2 bl2 a2.1
    (by omega) (by
      intro hnil
      rw [hnil] at hsum2
      simp only [list.sum_length_nil] at hsum2
      omega)
  have hcl2 : (bl2.content h2).length = bl.length + (4 + (s.length + 1)) + t.length := by
    rw [hc2]
    simp only [List.length_append, u32_bytes_length, List.length_singleton, hpre]
    omega
  have hread : rw.read (o + (bl.length + 4)) (s.length + 1) = s ++ [0] := by
    have := congrArg (fun x => (x.drop (bl.length + 4)).take (s.length + 1)) c4
    simp only [raw.read_drop] at this
    have hc' : bl2.content h2 = (bl.content h ++ u32_bytes s.length) ++ ((s ++ [0]) ++ t) := by
      rw [hc2]
    rw [raw.read_take _ _ _ _ (by omega), hc'] at this
    rw [this]
    have e : bl.length + 4 = (bl.content h ++ u32_bytes s.length).length := by
      simp [hpre, u32_bytes_length]
    rw [e, List.drop_left, List.take_append_of_le_length (by simp),
      List.take_of_length_le (by simp)]
  have hscan := cstr_at_prefix rw s (o + (bl.length + 4)) (rw.len - (o + (bl.length + 4)))
    hread (by omega)
  have hlt : bl.length + 4 < 2147483648 := by omega
  have hu1 : u32 (s.length + 1) = s.length + 1 := u32_of_lt (by omega)
  have hu2 : u32 (bl.length + 4 + (s.length + 1)) = bl.length + 4 + (s.length + 1) :=
    u32_of_lt (by omega)
  have hsum3 : list.sum_length bl3._buffers = (bl2.content h2).length := by
    rw [← c6]
    unfold list.content
    exact (list.views_bytes_length c5.2).symm
  have hc3 : bl3.content h3 = (bl.content h ++ (u32_bytes s.length ++ (s ++ [0]))) ++ t ++ [] := by
    rw [c6, hc2]; simp
  have hdec2 := decoderaw_spec c5 (by omega)
    (bl.content h ++ (u32_bytes s.length ++ (s ++ [0]))) t [] hc3
  have hplen : (bl.content h ++ (u32_bytes s.length ++ (s ++ [0]))).length =
      bl.length + (4 + s.length + 1) := by
    simp only [List.length_append, u32_bytes_length, List.length_singleton, hpre]
    omega
  rw [hplen] at hdec2
  refine ⟨h1, bl1, h2, bl2, h3, bl3, e1, hcon1, ?_, e2, ?_, hdec2⟩
  · rw [hlen1, hsum1, hlen]
    omega
  · unfold _decode_string
    simp only [hdec, c1, c2]
    rw [if_pos hlt, hscan]
    simp only [u32_of_bytes_u32_bytes, hlenS, hu1, hu2]
    have : bl.length + 4 + (s.length + 1) = bl.length + (4 + s.length + 1) := by omega
    rw [this]

/-- C26, an instance: the string `a\\0b` and the bytes `9 9` after the six bytes of
`list6`; the decoder returns `a` and leaves the cursor at 14, where `9 9` is read. -/
theorem string_decode_advance_witness :
    list.valid heap6 list6 ∧ list.arena_ok heap6 list6 ∧
    string_nul.takeWhile (fun b => decide (b ≠ 0)) = [97] ∧
    list6.length + (4 + string_nul.length + 1) = 14 ∧
    ∃ h1 bl1 h2 bl2 h3 bl3,
      _encode_string 2 string_nul heap6 list6 = some (h1, bl1) ∧
      bl1.content h1 = list6.content heap6 ++ (u32_bytes string_nul.length ++
        (string_nul ++ [0])) ∧
      bl1.length = list6.length + (4 + string_nul.length + 1) ∧
      _encoderaw 2 [9, 9] h1 bl1 = some (h2, bl2) ∧
      _decode_string h2 bl2 list6.length =
        some (string_nul.takeWhile (fun b => decide (b ≠ 0)),
          list6.length + (4 + string_nul.length + 1), h3, bl3) ∧
      _decoderaw ([9, 9] : List Byte).length h3 bl3
          (list6.length + (4 + string_nul.length + 1)) =
        some ([9, 9], list6.length + (4 + string_nul.length + 1) + ([9, 9] : List Byte).length) :=
  ⟨by decide, by decide, by decide, by decide,
    string_decode_advance 2 (by decide) string_nul [9, 9] heap6 list6 (by decide)
      (by decide) (by decide)⟩

/-- C26 as stated fails: `half_list` is a valid list of 2^31 bytes.  `_encode` of the
string `a` returns, but the cursor where the encoding starts, 2^31, and the cursor after
the four bytes of the length are no values of the `int` the decoder counts in: `_decode`
does not return with the cursor advanced by 6. -/
theorem string_cursor_overflows :
    list.valid heap_half half_list ∧ list.arena_ok heap_half half_list ∧
    half_list.length = 2147483648 ∧
    (_encode_string 2 [97] heap_half half_list).isSome = true ∧
    (match _encode_string 2 [97] heap_half half_list with
      | none => none
      | some (h1, bl1) => _decode_string h1 bl1 half_list.length) = none := by
  refine ⟨by decide, by decide, by decide, by decide, ?_⟩
  cases he : _encode_string 2 [97] heap_half half_list with
  | none => rfl
  | some x =>
    obtain ⟨h1, bl1⟩ := x
    simp only
    cases hd : _decode_string h1 bl1 half_list.length with
    | none => rfl
    | some r =>
      have := decode_string_int h1 bl1 half_list.length r hd
      exact absurd this (by decide)

end buffer

namespace buffer

/-- C29 fails on the code, whatever the sign of `char` and however long the loop may run.
The lists `list_12` and `list_11` hold the bytes 1, 2 and 1, 1: `operator>` compares
position 0, steps its counter twice and returns `false` at `l.length() == 2`, although
1, 2 is the greater; `operator>=(list_11, list_12)` returns `true` in the same way,
`operator<` and `operator<=` are the two calls with the sides exchanged.  On the list
`list_1` of the one byte 1 and itself, the counter steps from 0 to 2, no length test
holds and `l[2]` fails `assert(n < _len)`: `operator>` and `operator>=` do not return. -/
theorem ordering_skips_odd_positions (char_is_signed : Bool) (fuel : Nat) :
    list.valid heap29 list_12 ∧ list.valid heap29 list_11 ∧ list.valid heap29 list_1 ∧
    list_12.content heap29 = [1, 2] ∧ list_11.content heap29 = [1, 1] ∧
    list_1.content heap29 = [1] ∧
    operator_gt char_is_signed (fuel + 2) heap29 list_12 list_11 = some false ∧
    operator_lt char_is_signed (fuel + 2) heap29 list_11 list_12 = some false ∧
    operator_ge char_is_signed (fuel + 2) heap29 list_11 list_12 = some true ∧
    operator_le char_is_signed (fuel + 2) heap29 list_12 list_11 = some true ∧
    list_1.at_ heap29 2 = none ∧
    operator_gt char_is_signed (fuel + 2) heap29 list_1 list_1 = none ∧
    operator_ge char_is_signed (fuel + 2) heap29 list_1 list_1 = none := by
  refine ⟨by decide, by decide, by decide, by decide, by decide, by decide, ?_, ?_, ?_, ?_,
    by decide, ?_, ?_⟩ <;> cases char_is_signed <;> rfl

end buffer

namespace buffer

/-- C22 fails on the code.  After `ptr a(4)` the raw has the count 1 and one object on it.
In `a = a` the count goes to 2, `release()` takes it back to 1 and sets `a._raw` to 0, and
`_raw = p._raw` then reads that 0 through the reference `p`, which is `a`: the object is
on no raw, the count of the raw is still 1 with no object on it, and the raw is not
deleted, not even when `a` is destroyed.  With two objects on one raw, `a = b` leaves the
count at 2, the number of objects on the raw. -/
theorem self_assignment_leaks :
    (Store.run ⟨[], []⟩ [.create 4]) = some ⟨[⟨4, 1, 0⟩], [some ⟨some 0, 0, 4⟩]⟩ ∧
    (Store.run ⟨[], []⟩ [.create 4, .assign 0 0]) =
      some ⟨[⟨4, 1, 0⟩], [some ⟨none, 0, 4⟩]⟩ ∧
    refs [some ⟨none, 0, 4⟩] 0 = 0 ∧
    ¬ Store.counted_ok ⟨[⟨4, 1, 0⟩], [some ⟨none, 0, 4⟩]⟩ ∧
    (Store.run ⟨[], []⟩ [.create 4, .assign 0 0, .destroy 0]) =
      some ⟨[⟨4, 1, 0⟩], [none]⟩ ∧
    (Store.run ⟨[], []⟩ [.create 4, .destroy 0]) = some ⟨[⟨4, 0, 1⟩], [none]⟩ ∧
    (Store.run ⟨[], []⟩ [.create 4, .copy 0, .assign 0 1]) =
      some ⟨[⟨4, 2, 0⟩], [some ⟨some 0, 0, 4⟩, some ⟨some 0, 0, 4⟩]⟩ := by
  refine ⟨by decide, by decide, by decide, ?_, by decide, by decide, by decide⟩
  intro hc
  have := (hc.1 0 ⟨4, 1, 0⟩ rfl).1
  revert this
  decide

end buffer

namespace buffer

theorem refs_append (vs : List (Option ptr)) (v : Option ptr) (r : Nat) :
    refs (vs ++ [v]) r = refs vs r + refs [v] r := by
  unfold refs
  rw [List.countP_append]

theorem refs_set : ∀ (vs : List (Option ptr)) (a : Nat) (v w : Option ptr) (r : Nat),
    vs[a]? = some v → refs (vs.set a w) r + refs [v] r = refs vs r + refs [w] r
  | [], a, v, w, r, h => by simp at h
  | x :: vs, 0, v, w, r, h => by
    simp only [List.getElem?_cons_zero, Option.some.injEq] at h
    subst h
    simp only [List.set_cons_zero, refs, List.countP_cons, List.countP_nil]
    omega
  | x :: vs, a + 1, v, w, r, h => by
    simp only [List.getElem?_cons_succ] at h
    have := refs_set vs a v w r h
    simp only [List.set_cons_succ, refs, List.countP_cons, List.countP_nil] at this ⊢
    omega

theorem refs_one_none (r : Nat) : refs [none] r = 0 := by
  simp [refs]

theorem refs_one_some (p : ptr) (r : Nat) :
    refs [some p] r = if p._raw = some r then 1 else 0 := by
  simp [refs, List.countP_cons]

theorem refs_ge (vs : List (Option ptr)) (a : Nat) (v : Option ptr) (r : Nat)
    (h : vs[a]? = some v) : refs [v] r ≤ refs vs r := by
  have := refs_set vs a v none r h
  rw [refs_one_none] at this
  omega

namespace Store

theorem inc_spec (s : Store) (r0 : Nat) (s1 : Store) (h : s.inc r0 = some s1) :
    s1.views = s.views ∧ s1.raws.length = s.raws.length ∧
    ∃ rw0, s.raws[r0]? = some rw0 ∧ rw0.deleted = 0 ∧
      ∀ r, s1.raws[r]? =
        if r = r0 then some { rw0 with nref := rw0.nref + 1 } else s.raws[r]? := by
  unfold inc at h
  cases hr : s.raws[r0]? with
  | none => simp [hr] at h
  | some rw0 =>
    simp only [hr] at h
    split_ifs at h with hc
    simp only [Option.some.injEq] at h
    subst h
    have hlt : r0 < s.raws.length := (List.getElem?_eq_some_iff.mp hr).1
    refine ⟨rfl, by simp, rw0, rfl, by omega, ?_⟩
    intro r
    simp only [List.getElem?_set]
    by_cases e : r = r0
    · subst e
      simp [hlt]
    · have e2 : ¬ r0 = r := fun x => e x.symm
      simp [e, e2]

theorem release_spec (s : Store) (a : Nat) (s1 : Store) (h : s.release a = some s1) :
    ∃ p, s.views[a]? = some (some p) ∧
      s1.views = s.views.set a (some { p with _raw := none }) ∧
      s1.raws.length = s.raws.length ∧
      (p._raw = none → s1.raws = s.raws) ∧
      ∀ r0, p._raw = some r0 → ∃ rw0, s.raws[r0]? = some rw0 ∧ rw0.deleted = 0 ∧
        ∀ r, s1.raws[r]? =
          if r = r0 then
            some (if rw0.nref - 1 = 0 then
                { rw0 with nref := rw0.nref - 1, deleted := rw0.deleted + 1 }
              else { rw0 with nref := rw0.nref - 1 })
          else s.raws[r]? := by
  unfold release at h
  cases hv : s.views[a]? with
  | none => simp [hv] at h
  | some v =>
    cases v with
    | none => simp [hv] at h
    | some p =>
      simp only [hv] at h
      refine ⟨p, rfl, ?_⟩
      cases hp : p._raw with
      | none =>
        simp only [hp, Option.some.injEq] at h
        subst h
        refine ⟨?_, rfl, fun _ => rfl, fun r0 hr0 => by simp at hr0⟩
        have : ({ p with _raw := none } : ptr) = p := by
          cases p
          simp only at hp
          simp [hp]
        rw [this]
        have hlt : a < s.views.length := (List.getElem?_eq_some_iff.mp hv).1
        apply List.ext_getElem? 
        intro i
        simp only [List.getElem?_set]
        by_cases e : a = i
        · subst e
          simp [hlt, hv]
        · simp [e]
      | some r0 =>
        simp only [hp] at h
        cases hr : s.raws[r0]? with
        | none => simp [hr] at h
        | some rw0 =>
          simp only [hr] at h
          split_ifs at h with hc
          all_goals
            simp only [Option.some.injEq] at h
            subst h
            have hlt : r0 < s.raws.length := (List.getElem?_eq_some_iff.mp hr).1
            refine ⟨rfl, by simp, fun hx => by simp at hx, ?_⟩
            intro r1 hr1
            simp only [Option.some.injEq] at hr1
            subst hr1
            refine ⟨rw0, hr, by omega, ?_⟩
            intro r
            simp only [List.getElem?_set]
            by_cases e : r = r0
            · subst e
              simp [hlt, *]
            · have e2 : ¬ r0 = r := fun x => e x.symm
              simp [e, e2]

end Store

end buffer

namespace buffer

namespace Store

theorem create_ok (s : Store) (l : Nat) (hs : s.counted_ok) : (s.create l).counted_ok := by
  obtain ⟨h1, h2⟩ := hs
  unfold create
  refine ⟨?_, ?_⟩
  · intro r rw hr
    simp only at hr ⊢
    rw [refs_append, refs_one_some]
    simp only [Option.some.injEq]
    by_cases hlt : r < s.raws.length
    · rw [List.getElem?_append_left hlt] at hr
      obtain ⟨k1, k2⟩ := h1 r rw hr
      have : ¬ s.raws.length = r := by omega
      simp only [this, if_false, Nat.add_zero]
      exact ⟨k1, k2⟩
    · rw [List.getElem?_append_right (by omega)] at hr
      have he : r = s.raws.length := by
        by_contra hne
        have : r - s.raws.length ≠ 0 := by omega
        obtain ⟨k, hk⟩ := Nat.exists_eq_succ_of_ne_zero this
        rw [hk] at hr
        simp at hr
      subst he
      simp only [Nat.sub_self, List.getElem?_cons_zero, Option.some.injEq] at hr
      subst hr
      have := h2 s.raws.length (Nat.le_refl _)
      simp [this]
  · intro r hr
    simp only [List.length_append, List.length_singleton] at hr
    simp only
    rw [refs_append, refs_one_some, h2 r (by omega)]
    simp only [Option.some.injEq]
    have : ¬ s.raws.length = r := by omega
    simp [this]

/-- A new object on the raw `r0`, whose count was incremented. -/
theorem counted_ok_add (s s1 : Store) (q : ptr) (r0 : Nat) (hs : s.counted_ok)
    (hq : q._raw = some r0) (hi : s.inc r0 = some s1) :
    counted_ok { s1 with views := s1.views ++ [some q] } := by
  obtain ⟨h1, h2⟩ := hs
  obtain ⟨e1, e2, rw0, e3, e4, e5⟩ := inc_spec s r0 s1 hi
  have hlt : r0 < s.raws.length := (List.getElem?_eq_some_iff.mp e3).1
  refine ⟨?_, ?_⟩
  · intro r rw hr
    simp only at hr ⊢
    rw [e1, refs_append, refs_one_some, hq]
    simp only [Option.some.injEq]
    rw [e5] at hr
    by_cases e : r = r0
    · subst e
      simp only [if_true, Option.some.injEq] at hr
      subst hr
      obtain ⟨k1, k2⟩ := h1 r rw0 e3
      simp only [if_true]
      refine ⟨by omega, ?_⟩
      rw [e4]
      simp
    · have e2 : ¬ r0 = r := fun x => e x.symm
      simp only [e, if_false] at hr
      simp only [e2, if_false, Nat.add_zero]
      exact h1 r rw hr
  · intro r hr
    simp only at hr ⊢
    rw [e2] at hr
    rw [e1, refs_append, refs_one_some, hq, h2 r hr]
    simp only [Option.some.injEq]
    have : ¬ r0 = r := by omega
    simp [this]

theorem copy_ok (s : Store) (b : Nat) (s1 : Store) (hs : s.counted_ok)
    (h : s.copy b = some s1) : s1.counted_ok := by
  unfold copy at h
  cases hv : s.views[b]? with
  | none => simp [hv] at h
  | some v =>
    cases v with
    | none => simp [hv] at h
    | some p =>
      simp only [hv] at h
      cases hp : p._raw with
      | none =>
        simp only [hp, Option.some.injEq] at h
        subst h
        obtain ⟨h1, h2⟩ := hs
        have hz : ∀ r, refs (s.views ++ [some p]) r = refs s.views r := by
          intro r
          rw [refs_append, refs_one_some, hp]
          simp
        exact ⟨fun r rw hr => by simp only [hz]; exact h1 r rw hr,
          fun r hr => by simp only [hz]; exact h2 r hr⟩
      | some r0 =>
        simp only [hp] at h
        cases hi : s.inc r0 with
        | none => simp [hi] at h
        | some s2 =>
          simp only [hi, Option.some.injEq] at h
          subst h
          exact counted_ok_add s s2 p r0 hs hp hi

theorem sub_ok (s : Store) (b o l : Nat) (s1 : Store) (hs : s.counted_ok)
    (h : s.sub b o l = some s1) : s1.counted_ok := by
  unfold sub at h
  cases hv : s.views[b]? with
  | none => simp [hv] at h
  | some v =>
    cases v with
    | none => simp [hv] at h
    | some p =>
      simp only [hv] at h
      split_ifs at h with hc
      cases hp : p._raw with
      | none => simp [hp] at h
      | some r0 =>
        simp only [hp] at h
        cases hi : s.inc r0 with
        | none => simp [hi] at h
        | some s2 =>
          simp only [hi, Option.some.injEq] at h
          subst h
          exact counted_ok_add s s2 _ r0 hs rfl hi

end Store

end buffer

namespace buffer

namespace Store

/-- The object `a`, on the raw of `p`, is released and its place is taken by `w`, whose
raw, `x`, was counted once more beforehand: the counts are right afterwards. -/
theorem counted_ok_replace (s1 s2 : Store) (a : Nat) (p : ptr) (w : Option ptr)
    (x : Option Nat)
    (h1 : ∀ r rw, s1.raws[r]? = some rw →
      rw.nref = (refs s1.views r : Int) + (if x = some r then 1 else 0) ∧
      rw.deleted = (if rw.nref = 0 then 1 else 0))
    (h2 : ∀ r, s1.raws.length ≤ r → refs s1.views r = 0 ∧ x ≠ some r)
    (ha : s1.views[a]? = some (some p))
    (hw : ∀ r, refs [w] r = if x = some r then 1 else 0)
    (hrel : s1.release a = some s2) :
    counted_ok { s2 with views := s2.views.set a w } := by
  obtain ⟨p1, e1, e2, e3, e4, e5⟩ := release_spec s1 a s2 hrel
  rw [ha] at e1
  simp only [Option.some.injEq] at e1
  subst e1
  have hset : s2.views.set a w = s1.views.set a w := by
    rw [e2, List.set_set]
  have hrefs : ∀ r, refs (s1.views.set a w) r + refs [some p] r =
      refs s1.views r + refs [w] r := fun r => refs_set s1.views a (some p) w r ha
  have hge : ∀ r, refs [some p] r ≤ refs s1.views r := fun r => refs_ge s1.views a _ r ha
  refine ⟨?_, ?_⟩
  · intro r rw hr
    simp only at hr ⊢
    rw [hset]
    have hr1 := hrefs r
    have hg1 := hge r
    rw [hw r] at hr1
    rw [refs_one_some] at hr1 hg1
    cases hp : p._raw with
    | none =>
      rw [e4 hp] at hr
      obtain ⟨k1, k2⟩ := h1 r rw hr
      simp only [hp, reduceCtorEq, if_false, Nat.add_zero] at hr1
      rw [hr1]
      refine ⟨?_, ?_⟩
      · rw [k1]
        split_ifs <;> simp
      · have hiff : rw.nref = 0 ↔
            refs s1.views r + (if x = some r then 1 else 0) = 0 := by
          rw [k1]
          split_ifs <;> constructor <;> intro hh <;> first | omega | exact hh.elim
        rw [k2]
        simp only [hiff]
    | some r0 =>
      obtain ⟨rw0, f1, f2, f3⟩ := e5 r0 hp
      rw [f3] at hr
      simp only [hp, Option.some.injEq] at hr1 hg1
      by_cases e : r = r0
      · subst e
        simp only [if_true, Option.some.injEq] at hr hr1 hg1
        obtain ⟨k1, k2⟩ := h1 r rw0 f1
        have hn : rw0.nref - 1 = (refs (s1.views.set a w) r : Int) := by
          rw [k1]
          split_ifs at hr1 ⊢ <;> omega
        by_cases hz : rw0.nref - 1 = 0
        · rw [if_pos hz] at hr
          subst hr
          simp only
          have : refs (s1.views.set a w) r = 0 := by omega
          rw [this]
          simp only [if_true]
          omega
        · rw [if_neg hz] at hr
          subst hr
          simp only
          have : ¬ refs (s1.views.set a w) r = 0 := by omega
          rw [if_neg this]
          exact ⟨hn, f2⟩
      · have e2 : ¬ r0 = r := fun x => e x.symm
        simp only [e, e2, if_false, Nat.add_zero] at hr hr1
        obtain ⟨k1, k2⟩ := h1 r rw hr
        rw [hr1]
        refine ⟨?_, ?_⟩
        · rw [k1]
          split_ifs <;> simp
        · have hiff : rw.nref = 0 ↔
              refs s1.views r + (if x = some r then 1 else 0) = 0 := by
            rw [k1]
            split_ifs <;> constructor <;> intro hh <;> first | omega | exact hh.elim
          rw [k2]
          simp only [hiff]
  · intro r hr
    simp only at hr ⊢
    rw [hset]
    rw [e3] at hr
    obtain ⟨k1, k2⟩ := h2 r hr
    have hr1 := hrefs r
    rw [hw r, k1, if_neg k2] at hr1
    omega

theorem destroy_ok (s : Store) (a : Nat) (s1 : Store) (hs : s.counted_ok)
    (h : s.destroy a = some s1) : s1.counted_ok := by
  unfold destroy at h
  cases hrel : s.release a with
  | none => simp [hrel] at h
  | some s2 =>
    simp only [hrel, Option.some.injEq] at h
    subst h
    obtain ⟨p, e1, _⟩ := release_spec s a s2 hrel
    refine counted_ok_replace s s2 a p none none ?_ ?_ e1 ?_ hrel
    · intro r rw hr
      obtain ⟨k1, k2⟩ := hs.1 r rw hr
      refine ⟨by simp [k1], ?_⟩
      rw [k2, k1]
      split_ifs <;> simp_all
    · intro r hr
      exact ⟨hs.2 r hr, by simp⟩
    · intro r
      simp [refs_one_none]

/-- An assignment `a = b` between two objects keeps the counts right. -/
theorem assign_ok (s : Store) (a b : Nat) (s1 : Store) (hab : a ≠ b) (hs : s.counted_ok)
    (h : s.assign a b = some s1) : s1.counted_ok := by
  unfold assign at h
  cases hva : s.views[a]? with
  | none => simp [hva] at h
  | some va =>
    cases va with
    | none => simp [hva] at h
    | some pa =>
      cases hvb : s.views[b]? with
      | none => simp [hva, hvb] at h
      | some vb =>
        cases vb with
        | none => simp [hva, hvb] at h
        | some pb =>
          simp only [hva, hvb] at h
          -- the state after the increment
          have hinc : ∀ s2 : Store, (match pb._raw with
                | none => some s
                | some r => s.inc r) = some s2 →
              s2.views = s.views ∧
              (∀ r rw, s2.raws[r]? = some rw →
                rw.nref = (refs s2.views r : Int) + (if pb._raw = some r then 1 else 0) ∧
                rw.deleted = (if rw.nref = 0 then 1 else 0)) ∧
              (∀ r, s2.raws.length ≤ r → refs s2.views r = 0 ∧ pb._raw ≠ some r) := by
            intro s2 hi
            cases hp : pb._raw with
            | none =>
              simp only [hp, Option.some.injEq] at hi
              subst hi
              refine ⟨rfl, ?_, fun r hr => ⟨hs.2 r hr, by simp⟩⟩
              intro r rw hr
              obtain ⟨k1, k2⟩ := hs.1 r rw hr
              refine ⟨by simp [k1], ?_⟩
              rw [k2, k1]
              split_ifs <;> simp_all
            | some r0 =>
              simp only [hp] at hi
              obtain ⟨e1, e2, rw0, e3, e4, e5⟩ := inc_spec s r0 s2 hi
              have hlt : r0 < s.raws.length := (List.getElem?_eq_some_iff.mp e3).1
              refine ⟨e1, ?_, ?_⟩
              · intro r rw hr
                rw [e5] at hr
                rw [e1]
                simp only [Option.some.injEq]
                by_cases e : r = r0
                · subst e
                  simp only [if_true, Option.some.injEq] at hr
                  subst hr
                  obtain ⟨k1, k2⟩ := hs.1 r rw0 e3
                  simp only [if_true]
                  refine ⟨by omega, ?_⟩
                  rw [e4]
                  have : ¬ rw0.nref + 1 = 0 := by omega
                  rw [if_neg this]
                · have e2 : ¬ r0 = r := fun x => e x.symm
                  simp only [e, if_false] at hr
                  simp only [e2, if_false]
                  obtain ⟨k1, k2⟩ := hs.1 r rw hr
                  refine ⟨by simp [k1], ?_⟩
                  rw [k2, k1]
                  split_ifs <;> simp_all
              · intro r hr
                rw [e2] at hr
                rw [e1]
                refine ⟨hs.2 r hr, ?_⟩
                simp only [ne_eq, Option.some.injEq]
                omega
          cases hi : (match pb._raw with
                | none => some s
                | some r => s.inc r) with
          | none => simp [hi] at h
          | some s2 =>
            simp only [hi] at h
            obtain ⟨i1, i2, i3⟩ := hinc s2 hi
            cases hrel : s2.release a with
            | none => simp [hrel] at h
            | some s3 =>
              simp only [hrel] at h
              obtain ⟨p1, f1, f2, _⟩ := release_spec s2 a s3 hrel
              have hb3 : s3.views[b]? = some (some pb) := by
                rw [f2, List.getElem?_set, if_neg hab, i1, hvb]
              simp only [hb3, Option.some.injEq] at h
              subst h
              have ha2 : s2.views[a]? = some (some pa) := by rw [i1, hva]
              refine counted_ok_replace s2 s3 a pa (some pb) pb._raw i2 i3 ha2 ?_ hrel
              intro r
              rw [refs_one_some]

theorem step_ok (s : Store) (op : Op) (s1 : Store) (hop : ∀ a, op ≠ Op.assign a a)
    (hs : s.counted_ok) (h : s.step op = some s1) : s1.counted_ok := by
  cases op with
  | create l =>
    simp only [step, Option.some.injEq] at h
    subst h
    exact create_ok s l hs
  | copy b => exact copy_ok s b s1 hs h
  | sub b o l => exact sub_ok s b o l s1 hs h
  | assign a b =>
    have hab : a ≠ b := by
      intro e
      subst e
      exact hop a rfl
    exact assign_ok s a b s1 hab hs h
  | destroy a => exact destroy_ok s a s1 hs h

/-- Every sequence of constructions from a fresh raw, copies, sub-windows, assignments
between two objects and destructions that runs keeps the counts right: the count of each
raw is the number of live objects on it, and the raw was deleted, once, exactly if that
number has come to 0. -/
theorem run_ok : ∀ (ops : List Op) (s s1 : Store), (∀ a, Op.assign a a ∉ ops) →
    s.counted_ok → s.run ops = some s1 → s1.counted_ok
  | [], s, s1, _, hs, h => by
    simp only [run, Option.some.injEq] at h
    subst h
    exact hs
  | op :: ops, s, s1, hop, hs, h => by
    simp only [run] at h
    cases hst : s.step op with
    | none => simp [hst] at h
    | some s2 =>
      simp only [hst] at h
      have h2 := step_ok s op s2 (fun a e => hop a (by simp [e])) hs hst
      exact run_ok ops s2 s1 (fun a e => hop a (by simp [e])) h2 h

end Store

end buffer

namespace MDSMonitor

/-- The loop `for (from=0; ; ++from)` finds no id when every id from its counter up to the
largest `int` is neither DNE nor STOPPED: it comes to `++from` on that `int`. -/
theorem pick_unused_none (p : MDSMap) : ∀ (fuel : Nat) (a : Int), a ≤ 2147483647 →
    (∀ j, a ≤ j → j ≤ 2147483647 → p.is_dne j = false ∧ p.is_stopped j = false) →
    pick_unused p fuel a = none
  | 0, _, _, _ => rfl
  | fuel + 1, a, ha, h => by
    unfold pick_unused
    have hn := h a (le_refl _) ha
    simp only [hn.1, hn.2, if_false, Bool.false_eq_true]
    by_cases he : a = 2147483647
    · rw [if_pos he]
    · rw [if_neg he]
      exact pick_unused_none p fuel (a + 1) (by omega) (fun j hj1 hj2 => h j (by omega) hj2)

theorem full_map_state (n : Nat) (j : Int) (h0 : 0 ≤ j) (hj : j < (n : Int)) :
    (full_map n).get_state j = STATE_ACTIVE := by
  obtain ⟨k, rfl⟩ := Int.eq_ofNat_of_zero_le h0
  have hnd : (List.map Prod.fst
      (List.map (fun k : Nat => ((k : Int), STATE_ACTIVE)) (List.range n))).Nodup := by
    rw [List.map_map]
    refine List.Nodup.map ?_ (List.nodup_range n)
    intro a b hab
    simpa using hab
  have hmem : ((k : Int), STATE_ACTIVE) ∈
      List.map (fun k : Nat => ((k : Int), STATE_ACTIVE)) (List.range n) := by
    simp only [List.mem_map, List.mem_range, Prod.mk.injEq, and_true]
    exact ⟨k, by omega, rfl⟩
  have := IMap.find_of_mem_nodup (k : Int) STATE_ACTIVE _ hnd hmem
  unfold MDSMap.get_state full_map
  simp only [this]

/-- C31 (as amended): for every pending map with fewer than 2^31 `mds_state` entries, the
loop `for (from=0; ; ++from)` of `handle_beacon` ends: there is an id `i`, at most the
number of entries, at which the loop stops in its turn number `i + 1`, so after at most
(number of entries + 1) turns, and with any larger allowance of turns; `i` is the least
non-negative id that is DNE or STOPPED in the pending map, and the state derived is
CREATING if `i` is DNE and STARTING if it is STOPPED.  When `handle_beacon` comes to the
loop (a BOOT beacon with no usable named id, its address not pending, no FAILED id), the
boot assignment is that id with that state. -/
theorem boot_id_search_terminates (p : MDSMap) (hlen : p.mds_state.length < 2147483648) :
    ∃ (i : Int) (s : MDSState), 0 ≤ i ∧ i ≤ (p.mds_state.length : Int) ∧
      (∀ fuel : Nat, i < (fuel : Int) → pick_unused p fuel 0 = some (i, s)) ∧
      pick_unused p (p.mds_state.length + 1) 0 = some (i, s) ∧
      (∀ fuel : Nat, (fuel : Int) ≤ i → pick_unused p fuel 0 = none) ∧
      (∀ j, 0 ≤ j → j < i → p.get_state j ≠ STATE_DNE ∧ p.get_state j ≠ STATE_STOPPED) ∧
      ((p.get_state i = STATE_DNE ∧ s = STATE_CREATING) ∨
        (p.get_state i = STATE_STOPPED ∧ s = STATE_STARTING)) ∧
      ∀ (fuel : Nat) (g_conf : md_config_t) (mon : MDSMonitor) (m : MMDSBeacon),
        mon.pending_mdsmap = p → i < (fuel : Int) →
        (m.mds_inst.name.num < 0 ∨ (g_conf.mon_allow_mds_bully = false ∧
          (mon.mdsmap.have_inst m.mds_inst.name.num = false ∨
            mon.mdsmap.get_inst m.mds_inst.name.num ≠ some m.mds_inst))) →
        mon.pending_mdsmap.get_addr_rank m.mds_inst.addr < 0 →
        (∀ e ∈ mon.pending_mdsmap.mds_state, e.2 ≠ STATE_FAILED) →
        boot_assign fuel g_conf mon m = some (Boot.assigned i s) := by
  have hex : ∃ n : Nat, p.is_dne (n : Int) = true ∨ p.is_stopped (n : Int) = true := by
    obtain ⟨n, _, hn⟩ := exists_unused p
    exact ⟨n, Or.inl hn⟩
  have hfree := Nat.find_spec hex
  have hle : Nat.find hex ≤ p.mds_state.length := by
    obtain ⟨n, hn1, hn2⟩ := exists_unused p
    exact le_trans (Nat.find_min' hex (Or.inl hn2)) hn1
  have hmin : ∀ j : Int, 0 ≤ j → j < (Nat.find hex : Int) →
      p.is_dne j = false ∧ p.is_stopped j = false := by
    intro j hj1 hj2
    have hj : j = ((j.toNat : Nat) : Int) := by omega
    have := Nat.find_min hex (show j.toNat < Nat.find hex by omega)
    rw [← hj] at this
    simp only [not_or, Bool.not_eq_true] at this
    exact this
  have hp : ∀ fuel : Nat, (Nat.find hex : Int) < (fuel : Int) →
      pick_unused p fuel 0 = some ((Nat.find hex : Int),
        if p.is_dne (Nat.find hex : Int) = true then STATE_CREATING else STATE_STARTING) :=
    fun fuel hf => pick_unused_least p fuel 0 (Nat.find hex : Int) (by omega) hfree hmin
      (by omega) (by omega)
  -- too few turns: the loop is still running
  have hshort : ∀ (fuel : Nat) (a : Int), 0 ≤ a → a + (fuel : Int) ≤ (Nat.find hex : Int) →
      pick_unused p fuel a = none := by
    intro fuel
    induction fuel with
    | zero => intro a _ _; rfl
    | succ k ih =>
      intro a ha hk
      unfold pick_unused
      have hn := hmin a ha (by push_cast at hk; omega)
      have hne : a ≠ 2147483647 := by push_cast at hk; omega
      simp only [hn.1, hn.2, hne, if_false, Bool.false_eq_true]
      exact ih (a + 1) (by omega) (by push_cast at hk ⊢; omega)
  have hstate : (p.get_state (Nat.find hex : Int) = STATE_DNE ∧
      (if p.is_dne (Nat.find hex : Int) = true then STATE_CREATING else STATE_STARTING) =
        STATE_CREATING) ∨
      (p.get_state (Nat.find hex : Int) = STATE_STOPPED ∧
        (if p.is_dne (Nat.find hex : Int) = true then STATE_CREATING else STATE_STARTING) =
          STATE_STARTING) := by
    by_cases hd : p.is_dne (Nat.find hex : Int) = true
    · left
      simp only [hd, if_true, and_true]
      simpa [MDSMap.is_dne] using hd
    · right
      have hs : p.is_stopped (Nat.find hex : Int) = true := by
        rcases hfree with h | h
        · exact absurd h hd
        · exact h
      simp only [hd, if_false, and_true]
      simpa [MDSMap.is_stopped] using hs
  refine ⟨_, _, by omega, by omega, hp, hp _ (by push_cast; omega),
    fun fuel hf => hshort fuel 0 (le_refl _) (by omega), ?_, hstate, ?_⟩
  · intro j hj1 hj2
    have := hmin j hj1 hj2
    simpa [MDSMap.is_dne, MDSMap.is_stopped] using this
  · intro fuel g_conf mon m hpm hf hanon haddr hno
    have hb := boot_assign_unnamed fuel g_conf mon m hanon haddr
    rw [MDSMap.failed_set_nil _ hno] at hb
    rw [hpm] at hb
    simp only [hp fuel hf] at hb
    rw [hb]
    apply boot_assert_ok
    rcases hstate with h | h
    · exact Or.inl h.2
    · exact Or.inr (Or.inl h.2)

/-- C31, an instance: on the map `map8`, with the stopped id 0 and the entry of the id 1
that does not exist, the loop stops in its first turn at id 0, with the state STARTING. -/
theorem boot_id_search_terminates_witness :
    map8.mds_state.length = 2 ∧ pick_unused map8 1 0 = some (0, STATE_STARTING) ∧
    ∃ (i : Int) (s : MDSState), 0 ≤ i ∧ i ≤ (map8.mds_state.length : Int) ∧
      (∀ fuel : Nat, i < (fuel : Int) → pick_unused map8 fuel 0 = some (i, s)) ∧
      pick_unused map8 (map8.mds_state.length + 1) 0 = some (i, s) ∧
      (∀ fuel : Nat, (fuel : Int) ≤ i → pick_unused map8 fuel 0 = none) ∧
      (∀ j, 0 ≤ j → j < i → map8.get_state j ≠ STATE_DNE ∧
        map8.get_state j ≠ STATE_STOPPED) ∧
      ((map8.get_state i = STATE_DNE ∧ s = STATE_CREATING) ∨
        (map8.get_state i = STATE_STOPPED ∧ s = STATE_STARTING)) ∧
      ∀ (fuel : Nat) (g_conf : md_config_t) (mon : MDSMonitor) (m : MMDSBeacon),
        mon.pending_mdsmap = map8 → i < (fuel : Int) →
        (m.mds_inst.name.num < 0 ∨ (g_conf.mon_allow_mds_bully = false ∧
          (mon.mdsmap.have_inst m.mds_inst.name.num = false ∨
            mon.mdsmap.get_inst m.mds_inst.name.num ≠ some m.mds_inst))) →
        mon.pending_mdsmap.get_addr_rank m.mds_inst.addr < 0 →
        (∀ e ∈ mon.pending_mdsmap.mds_state, e.2 ≠ STATE_FAILED) →
        boot_assign fuel g_conf mon m = some (Boot.assigned i s) :=
  ⟨by decide, by decide, boot_id_search_terminates map8 (by decide)⟩

/-- C31 as stated fails: the map `full_map 2147483648` has finitely many entries, one for
each id from 0 to the largest `int`, all ACTIVE.  The loop finds no id that is DNE or
STOPPED and comes to `++from` on the largest `int`: it does not end with an id, however
many turns it is given. -/
theorem boot_id_search_overflows :
    (full_map 2147483648).mds_state.length = 2147483648 ∧
    (∀ j : Int, 0 ≤ j → j ≤ 2147483647 →
      (full_map 2147483648).get_state j = STATE_ACTIVE) ∧
    ∀ fuel : Nat, pick_unused (full_map 2147483648) fuel 0 = none := by
  have hs : ∀ j : Int, 0 ≤ j → j ≤ 2147483647 →
      (full_map 2147483648).get_state j = STATE_ACTIVE :=
    fun j h0 hj => full_map_state 2147483648 j h0 (by push_cast; omega)
  refine ⟨by simp only [full_map, List.length_map, List.length_range], hs, fun fuel => ?_⟩
  refine pick_unused_none _ fuel 0 (by omega) (fun j h0 hj => ?_)
  simp [MDSMap.is_dne, MDSMap.is_stopped, hs j h0 hj]

end MDSMonitor

namespace buffer

/-- C3 as stated fails.  The list `encoded_null`, which `_encode` of a default-constructed
`bufferptr` followed by `_encoderaw` of four bytes builds, holds eight bytes in the views
`0~4` and `4~4` of one raw with the view without a raw between them:
`substr_of(other, 2, 4)` comes to that view and stops at `assert(_raw)` of the view
constructor.  And with `other` the list itself, `clear()` empties the list that is walked:
`substr_of(*this, 2, 3)` on `list6` stops at `assert(curbuf != _buffers.end())`. -/
theorem substr_of_stops_on_null_view :
    encoded_null.2._buffers =
      [{ _raw := some 0, _off := 0, _len := 4 }, ptr.null, { _raw := some 0, _off := 4, _len := 4 }] ∧
    encoded_null.2.length = 8 ∧ 2 + 4 ≤ encoded_null.2.length ∧
    encoded_null.2.content encoded_null.1 = [0, 0, 0, 0, 1, 2, 3, 4] ∧
    list.empty.substr_of encoded_null.2 2 4 = none ∧
    list.valid heap6 list6 ∧ 2 + 3 ≤ list6.length ∧ list6.substr_of_self 2 3 = none := by
  decide

/-- C20 as stated fails.  On the list `encoded_null` of eight bytes, whose second view is
a view without a raw, `list[4]` steps over that view and returns the byte 1, but
`copy(4, 4, dst)` stands on it after the skip, takes `howmuch == 0` bytes from it and stops
at `assert(_raw)` of `copy_out`. -/
theorem copy_stops_on_null_view :
    encoded_null.2._buffers =
      [{ _raw := some 0, _off := 0, _len := 4 }, ptr.null, { _raw := some 0, _off := 4, _len := 4 }] ∧
    encoded_null.2.length = 8 ∧ 4 + 4 ≤ encoded_null.2.length ∧
    encoded_null.2.at_ encoded_null.1 4 = some 1 ∧
    encoded_null.2.copy encoded_null.1 4 4 = none ∧
    ptr.null.copy_out encoded_null.1 0 0 = none := by
  decide

/-- C27 as stated fails.  On the list `encoded_null` of eight bytes, whose second view is
a view without a raw, `splice(2, 4, claim_by)` with a list to claim into comes to that
view, and `claim_by->append(*curbuf, 0, 0)` stops at `assert(_raw)` of the view
constructor; without `claim_by` the same call returns.  And with `claim_by` the list
itself, `splice(2, 3, this)` on `list6` returns with four views where there were two: the
head that is kept and the two views claimed, pushed behind the rest. -/
theorem splice_claim_stops_on_null_view :
    encoded_null.2._buffers =
      [{ _raw := some 0, _off := 0, _len := 4 }, ptr.null, { _raw := some 0, _off := 4, _len := 4 }] ∧
    2 < encoded_null.2.length ∧ 4 > 0 ∧ 2 + 4 ≤ encoded_null.2.length ∧
    encoded_null.2.splice 2 4 (some list.empty) = none ∧
    (encoded_null.2.splice 2 4 none).map (fun r => r.1._buffers) =
      some [{ _raw := some 0, _off := 0, _len := 2 }, { _raw := some 0, _off := 6, _len := 2 }] ∧
    list.valid heap6 list6 ∧ 2 < list6.length ∧ 2 + 3 ≤ list6.length ∧
    (list6.splice_self 2 2 3).map (fun l1 => l1._buffers) =
      some [{ _raw := some 0, _off := 0, _len := 2 }, { _raw := some 0, _off := 5, _len := 1 },
        { _raw := some 0, _off := 2, _len := 1 }, { _raw := some 0, _off := 3, _len := 2 }] ∧
    ∀ fuel, ((list6.splice_self (fuel + 2) 2 3).map (fun l1 => l1._buffers.length)) = some 4 := by
  refine ⟨by decide, by decide, by decide, by decide, by decide, by decide, by decide,
    by decide, by decide, by decide, fun fuel => rfl⟩

/-- The window that wraps, from the wire: the eight bytes of `list_wire` are the length
4294967293 and four bytes.  `_decode(s, bl, off)` at the cursor 0 reads the length, and
`substr_of(bl, 4, 4294967293)` passes its assertion and those of the view constructor,
`4 + 4294967293` being 1 in an `unsigned`: `s` holds a view at offset 4 of length
4294967293 in the raw of eight bytes. -/
theorem decode_bufferlist_window_wraps :
    list.valid heap_wire list_wire ∧
    list_wire.content heap_wire = [253, 255, 255, 255, 7, 7, 7, 7] ∧
    (_decode_bufferlist heap_wire list.empty list_wire 0).map
      (fun r => (r.1._buffers, r.2)) =
      some ([{ _raw := some 0, _off := 4, _len := 4294967293 }], 1) ∧
    ¬ ptr.valid heap_wire { _raw := some 0, _off := 4, _len := 4294967293 } := by
  decide

end buffer
